import Mathlib

/-!
# Energy-transaction ledger: B+-style index and transaction processor

A shallow embedding of `b+_energy_transaction.c`.

* Nodes live in an arena (`Heap`): a node pointer is an index into the arena,
  `NULL` is `none`, and `malloc` appends a fresh node at the end.
* The three arrays of a node (`keys`, `records`, `children`) are lists of the
  allocated capacity (`2t-1`, `2t-1`, `2t`); a read or a write outside the
  capacity, and a dereference of `NULL` or of a pointer outside the arena,
  make the operation fail (`none`).
* A `void*` record slot is a `Slot`: never written (`garbage`), `NULL`, or a
  pointer to a record.
* Recursion through pointers (`insertNonFull`, `search`, the leaf-chain walk)
  carries a fuel argument; the entry points supply the arena size as fuel.
* Keys, ids and counters (`int`) are `Int`, node counts and indices are `Nat`;
  the index only compares keys. `createPairKey` works on 32-bit patterns.
* Each tree has its own arena: no node pointer of one tree is ever stored in
  another. Sellers, buyers and pairs live in object arenas of the ledger, so
  the record pointers held by leaves and by internal nodes alias one object.
* `float` is a parameter (`FloatOps`); `F32` interprets it as IEEE-754
  binary32 for the worked examples.
-/

namespace BPlus

/-- Contents of a `void*` record slot. -/
inductive Slot (ρ : Type) where
  | garbage : Slot ρ
  | null : Slot ρ
  | ptr (r : ρ) : Slot ρ
deriving DecidableEq, Repr

/-- The C `struct Node`. -/
structure Node (ρ : Type) where
  keys : List Int
  t : Nat
  children : List (Option Nat)
  n : Nat
  leaf : Bool
  next : Option Nat
  records : List (Slot ρ)
deriving DecidableEq, Repr

/-- The arena of nodes; a node pointer is an index into it. -/
abbrev Heap (ρ : Type) := List (Node ρ)

/-- The C `struct BTree` (the `type` tag character is not modelled), together
with the arena holding its nodes. -/
structure BTree (ρ : Type) where
  root : Nat
  t : Nat
  heap : Heap ρ
deriving DecidableEq, Repr

variable {ρ : Type}

/-- Array write `a[i] = v`; fails outside the allocated capacity. -/
def writeAt {α : Type} (a : List α) (i : Nat) (v : α) : Option (List α) :=
  if i < a.length then some (a.set i v) else none

/-- Store through a node pointer: `*p = nd`; fails on a pointer outside the arena. -/
def store (h : Heap ρ) (p : Nat) (nd : Node ρ) : Option (Heap ρ) :=
  if p < h.length then some (h.set p nd) else none

/-- The node `createNode(t, leaf)` returns: arrays of capacity `2t-1`, `2t`,
`2t-1` with no slot written yet, `n = 0`, `next = NULL`. -/
def freshNode (t : Nat) (leaf : Bool) : Node ρ :=
  { keys := List.replicate (2 * t - 1) 0
    t := t
    children := List.replicate (2 * t) none
    n := 0
    leaf := leaf
    next := none
    records := List.replicate (2 * t - 1) Slot.garbage }

/-- `createNode`: allocates at the end of the arena and returns the new pointer. -/
def createNode (h : Heap ρ) (t : Nat) (leaf : Bool) : Nat × Heap ρ :=
  (h.length, h ++ [freshNode t leaf])

/-- `createBTree`: a tree whose root is a fresh empty leaf. -/
def createBTree (t : Nat) : BTree ρ :=
  { root := 0, t := t, heap := [freshNode t true] }

/-- First loop of `splitChild`: `for (j = 0; j < t-1; j++)` copying
`child->keys[j+t]` (and, for a leaf, `child->records[j+t]`) into the new node.
`cnt` is the number of iterations left, `j` the loop variable. -/
def copyUpper (child : Node ρ) (t : Nat) : Nat → Nat → Node ρ → Option (Node ρ)
  | 0, _, nw => some nw
  | cnt + 1, j, nw => do
    let k ← child.keys[j + t]?
    let ks ← writeAt nw.keys j k
    let nw1 := { nw with keys := ks }
    if child.leaf then
      let r ← child.records[j + t]?
      let rs ← writeAt nw1.records j r
      copyUpper child t cnt (j + 1) { nw1 with records := rs }
    else
      copyUpper child t cnt (j + 1) nw1

/-- Second loop of `splitChild`: `for (j = 0; j < t; j++)
newChild->children[j] = child->children[j+t]`. -/
def copyChildren (child : Node ρ) (t : Nat) : Nat → Nat → Node ρ → Option (Node ρ)
  | 0, _, nw => some nw
  | cnt + 1, j, nw => do
    let c ← child.children[j + t]?
    let cs ← writeAt nw.children j c
    copyChildren child t cnt (j + 1) { nw with children := cs }

/-- Third loop of `splitChild`: `for (j = parent->n; j >= i+1; j--)
parent->children[j+1] = parent->children[j]`. The argument `j1` is `j + 1`. -/
def shiftChildren (i : Nat) : Nat → Node ρ → Option (Node ρ)
  | 0, par => some par
  | j + 1, par =>
    if i + 1 ≤ j then do
      let c ← par.children[j]?
      let cs ← writeAt par.children (j + 1) c
      shiftChildren i j { par with children := cs }
    else some par

/-- Fourth loop of `splitChild`: `for (j = parent->n - 1; j >= i; j--)` moving
`keys[j]` and `records[j]` one slot to the right. The argument `j1` is `j + 1`. -/
def shiftKeys (i : Nat) : Nat → Node ρ → Option (Node ρ)
  | 0, par => some par
  | j + 1, par =>
    if i ≤ j then do
      let k ← par.keys[j]?
      let ks ← writeAt par.keys (j + 1) k
      let r ← par.records[j]?
      let rs ← writeAt par.records (j + 1) r
      shiftKeys i j { par with keys := ks, records := rs }
    else some par

/-- `splitChild`, first part: `newChild = createNode(t, child->leaf)`,
`newChild->n = t-1` and the two copy loops. Returns the new pointer. -/
def splitAlloc (h : Heap ρ) (child : Nat) : Option (Nat × Heap ρ) :=
  match h[child]? with
  | none => none
  | some c0 =>
    let t := c0.t
    let a := createNode h t c0.leaf
    match a.2[a.1]? with
    | none => none
    | some n0 =>
      match copyUpper c0 t (t - 1) 0 { n0 with n := t - 1 } with
      | none => none
      | some n2 =>
        match (if c0.leaf then some n2 else copyChildren c0 t t 0 n2) with
        | none => none
        | some n3 => (store a.2 a.1 n3).map (fun h2 => (a.1, h2))

/-- `splitChild`, second part: `child->n = t`. -/
def splitTrunc (h : Heap ρ) (child t : Nat) : Option (Heap ρ) :=
  match h[child]? with
  | none => none
  | some c1 => store h child { c1 with n := t }

/-- `splitChild`, third part: the parent's children and keys are shifted right
and the new child is placed in slot `i + 1`. -/
def splitShift (h : Heap ρ) (parent i nw : Nat) : Option (Heap ρ) :=
  match h[parent]? with
  | none => none
  | some p0 =>
    match shiftChildren i (p0.n + 1) p0 with
    | none => none
    | some p1 =>
      match writeAt p1.children (i + 1) (some nw) with
      | none => none
      | some cs =>
        match shiftKeys i p1.n { p1 with children := cs } with
        | none => none
        | some p3 => store h parent p3

/-- `splitChild`, fourth part: `parent->keys[i] = child->keys[t-1]`, the
promoted record (the median's record for a leaf, `NULL` otherwise), `parent->n++`. -/
def splitPromote (h : Heap ρ) (parent i child t : Nat) : Option (Heap ρ) :=
  match h[child]?, h[parent]? with
  | some c2, some p4 =>
    match c2.keys[t - 1]? with
    | none => none
    | some km =>
      match writeAt p4.keys i km with
      | none => none
      | some ks =>
        match (if c2.leaf then c2.records[t - 1]? else some Slot.null) with
        | none => none
        | some rm =>
          match writeAt p4.records i rm with
          | none => none
          | some rs => store h parent { p4 with keys := ks, records := rs, n := p4.n + 1 }
  | _, _ => none

/-- `splitChild`, last part: `if (child->leaf) { newChild->next = child->next;
child->next = newChild; }`. -/
def splitLink (h : Heap ρ) (child nw : Nat) : Option (Heap ρ) :=
  match h[child]? with
  | none => none
  | some c3 =>
    if c3.leaf then
      match h[nw]? with
      | none => none
      | some n4 =>
        match store h nw { n4 with next := c3.next } with
        | none => none
        | some h6 =>
          match h6[child]? with
          | none => none
          | some c4 => store h6 child { c4 with next := some nw }
    else some h

/-- `splitChild(parent, i, child)` on the arena; every statement reads the
current arena, so aliased arguments behave as in C. -/
def splitChild (h : Heap ρ) (parent i child : Nat) : Option (Heap ρ) :=
  match h[child]? with
  | none => none
  | some c0 =>
    match splitAlloc h child with
    | none => none
    | some (nw, h2) =>
      match splitTrunc h2 child c0.t with
      | none => none
      | some h3 =>
        match splitShift h3 parent i nw with
        | none => none
        | some h4 =>
          match splitPromote h4 parent i child c0.t with
          | none => none
          | some h5 => splitLink h5 child nw

/-- Leaf loop of `insertNonFull`: `while (i >= 0 && key < keys[i])` shifting
keys and records right. The argument is `i + 1`; the result is the final
`i + 1` and the node. -/
def leafShift (key : Int) : Nat → Node ρ → Option (Nat × Node ρ)
  | 0, nd => some (0, nd)
  | j + 1, nd => do
    let k ← nd.keys[j]?
    if key < k then
      let ks ← writeAt nd.keys (j + 1) k
      let r ← nd.records[j]?
      let rs ← writeAt nd.records (j + 1) r
      leafShift key j { nd with keys := ks, records := rs }
    else some (j + 1, nd)

/-- Internal loop of `insertNonFull`: `while (i >= 0 && key < keys[i]) i--;
i++`. The argument is `i + 1`; the result is the child index. -/
def findChild (key : Int) (nd : Node ρ) : Nat → Option Nat
  | 0 => some 0
  | j + 1 => do
    let k ← nd.keys[j]?
    if key < k then findChild key nd j else some (j + 1)

/-- Dereference of a child slot: `node->children[i]` used as a node pointer. -/
def childPtr (nd : Node ρ) (i : Nat) : Option Nat := do
  let c ← nd.children[i]?
  c

/-- `insertNonFull(node, key, record)`. -/
def insertNonFull : Nat → Heap ρ → Nat → Int → Slot ρ → Option (Heap ρ)
  | 0, _, _, _, _ => none
  | fuel + 1, h, node, key, record => do
    let nd ← h[node]?
    if nd.leaf then
      let (j, nd1) ← leafShift key nd.n nd
      let ks ← writeAt nd1.keys j key
      let rs ← writeAt nd1.records j record
      store h node { nd1 with keys := ks, records := rs, n := nd1.n + 1 }
    else
      let i ← findChild key nd nd.n
      let c ← childPtr nd i
      let cn ← h[c]?
      if cn.n = 2 * nd.t - 1 then
        let h1 ← splitChild h node i c
        let nd1 ← h1[node]?
        let k ← nd1.keys[i]?
        let i1 := if key > k then i + 1 else i
        let c1 ← childPtr nd1 i1
        insertNonFull fuel h1 c1 key record
      else
        insertNonFull fuel h c key record

/-- `insert(tree, key, record)`; the recursion is given the arena size as fuel. -/
def insert (tree : BTree ρ) (key : Int) (record : Slot ρ) : Option (BTree ρ) := do
  let r := tree.root
  let rn ← tree.heap[r]?
  if rn.n = 2 * tree.t - 1 then
    let (s, h1) := createNode tree.heap tree.t false
    let sn ← h1[s]?
    let cs ← writeAt sn.children 0 (some r)
    let h2 ← store h1 s { sn with children := cs }
    let h3 ← splitChild h2 s 0 r
    let h4 ← insertNonFull h3.length h3 s key record
    some { tree with root := s, heap := h4 }
  else
    let h1 ← insertNonFull tree.heap.length tree.heap r key record
    some { tree with heap := h1 }

/-- Loop of `search`: `while (i < node->n && key > node->keys[i]) i++`.
`cnt` bounds the remaining iterations (`n - i`). -/
def searchPos (key : Int) (nd : Node ρ) : Nat → Nat → Option Nat
  | 0, i => some i
  | cnt + 1, i => do
    let k ← nd.keys[i]?
    if key > k then searchPos key nd cnt (i + 1) else some i

/-- The test `i < node->n && node->keys[i] == key` of `search` (the key is
read only when `i < n`). -/
def searchHit (key : Int) (nd : Node ρ) (i : Nat) : Option Bool :=
  if i < nd.n then (nd.keys[i]?).map (fun k => decide (k = key)) else some false

/-- `search(node, key)`. -/
def search : Nat → Heap ρ → Nat → Int → Option (Slot ρ)
  | 0, _, _, _ => none
  | fuel + 1, h, node, key => do
    let nd ← h[node]?
    let i ← searchPos key nd nd.n 0
    let hit ← searchHit key nd i
    if hit then nd.records[i]?
    else if nd.leaf then some Slot.null
    else do
      let c ← childPtr nd i
      search fuel h c key

/-- `search(tree->root, key)` as the typed wrappers (`searchSeller`, ...) call it. -/
def searchTree (tree : BTree ρ) (key : Int) : Option (Slot ρ) :=
  search tree.heap.length tree.heap tree.root key

/-- `while (!current->leaf) current = current->children[0];` -/
def leftmost : Nat → Heap ρ → Nat → Option Nat
  | 0, _, _ => none
  | fuel + 1, h, cur => do
    let nd ← h[cur]?
    if nd.leaf then some cur
    else do
      let c ← childPtr nd 0
      leftmost fuel h c

/-- `for (i = 0; i < current->n; i++)` reading `keys[i]` and `records[i]`;
`cnt` is the number of iterations left. -/
def leafEntries (nd : Node ρ) : Nat → Nat → Option (List (Int × Slot ρ))
  | 0, _ => some []
  | cnt + 1, i => do
    let k ← nd.keys[i]?
    let r ← nd.records[i]?
    let rest ← leafEntries nd cnt (i + 1)
    some ((k, r) :: rest)

/-- `while (current != NULL) { ...; current = current->next; }` -/
def walk : Nat → Heap ρ → Option Nat → Option (List (Int × Slot ρ))
  | _, _, none => some []
  | 0, _, some _ => none
  | fuel + 1, h, some cur => do
    let nd ← h[cur]?
    let es ← leafEntries nd nd.n 0
    let rest ← walk fuel h nd.next
    some (es ++ rest)

/-- The full scan used by every report: leftmost leaf, then the leaf chain. -/
def scan (tree : BTree ρ) : Option (List (Int × Slot ρ)) := do
  let first ← leftmost tree.heap.length tree.heap tree.root
  walk tree.heap.length tree.heap (some first)

/-- A sequence of `insert` calls. -/
def insertAll (tree : BTree ρ) : List (Int × ρ) → Option (BTree ρ)
  | [] => some tree
  | (k, r) :: rest => do
    let t1 ← insert tree k (Slot.ptr r)
    insertAll t1 rest

/-! ## Entities and the transaction processor -/

/-- The operations on C `float` that the processor uses. The processor only
moves float values around, adds and multiplies them and compares them with
the constants `0` and `300`; the interpretation is a parameter. -/
class FloatOps (F : Type) where
  /-- The constant `0.0`. -/
  zero : F
  /-- Float addition `x + y`. -/
  add : F → F → F
  /-- Float multiplication `x * y`. -/
  mul : F → F → F
  /-- The test `x == 0`. -/
  isZero : F → Bool
  /-- The test `x < 300`. -/
  below300 : F → Bool
  /-- The test `x >= 300`. -/
  atLeast300 : F → Bool

/-- The C `struct Transaction`. -/
structure Transaction (F : Type) where
  transaction_id : Int
  buyer_id : Int
  seller_id : Int
  energy_kwh : F
  price_per_kwh : F
  total_price : F
  timestamp : Int
deriving DecidableEq, Repr

/-- The C `struct RegularBuyerNode`; the `next` link is the tail of the list
that holds the node. -/
structure RegularBuyerNode where
  buyer_id : Int
  transaction_count : Int
deriving DecidableEq, Repr

/-- The C `struct Seller`; `transaction_subtree` owns its tree. -/
structure Seller (F : Type) where
  seller_id : Int
  rate_below_300 : F
  rate_above_300 : F
  regular_buyers : List RegularBuyerNode
  total_revenue : F
  transaction_subtree : BTree (Transaction F)
deriving DecidableEq, Repr

/-- The C `struct Buyer`. -/
structure Buyer (F : Type) where
  buyer_id : Int
  total_energy_purchased : F
  transaction_subtree : BTree (Transaction F)
deriving DecidableEq, Repr

/-- The C `struct SellerBuyerPair`. -/
structure SellerBuyerPair where
  seller_id : Int
  buyer_id : Int
  number_of_transactions : Int
deriving DecidableEq, Repr

/-- The state `processTransaction` works on: the three top-level trees and the
objects their record slots point to (a `Seller*` is an index into `sellers`,
and likewise for buyers and pairs). -/
structure Ledger (F : Type) where
  sellers : List (Seller F)
  buyers : List (Buyer F)
  pairs : List SellerBuyerPair
  sellerTree : BTree Nat
  buyerTree : BTree Nat
  pairTree : BTree Nat
deriving DecidableEq, Repr

section Processor

variable {F : Type} [FloatOps F]

/-- `createTransaction`. -/
def createTransaction (id buyer_id seller_id : Int) (energy_kwh price_per_kwh : F)
    (timestamp : Int) : Transaction F :=
  { transaction_id := id
    buyer_id := buyer_id
    seller_id := seller_id
    energy_kwh := energy_kwh
    price_per_kwh := price_per_kwh
    total_price := FloatOps.mul energy_kwh price_per_kwh
    timestamp := timestamp }

/-- `createSeller`. -/
def createSeller (seller_id : Int) (rate_below_300 rate_above_300 : F) : Seller F :=
  { seller_id := seller_id
    rate_below_300 := rate_below_300
    rate_above_300 := rate_above_300
    regular_buyers := []
    total_revenue := FloatOps.zero
    transaction_subtree := createBTree 2 }

/-- `createBuyer`. -/
def createBuyer (buyer_id : Int) : Buyer F :=
  { buyer_id := buyer_id
    total_energy_purchased := FloatOps.zero
    transaction_subtree := createBTree 2 }

/-- `createRegularBuyerNode`. -/
def createRegularBuyerNode (buyer_id : Int) : RegularBuyerNode :=
  { buyer_id := buyer_id, transaction_count := 1 }

/-- `createSellerBuyerPair`. -/
def createSellerBuyerPair (seller_id buyer_id : Int) : SellerBuyerPair :=
  { seller_id := seller_id, buyer_id := buyer_id, number_of_transactions := 1 }

/-- The bit pattern of a 32-bit `int`. -/
def toU32 (x : Int) : Nat := (x % 4294967296).toNat

/-- The `int` with a given 32-bit pattern (two's complement). -/
def toI32 (u : Nat) : Int := if u < 2147483648 then (u : Int) else (u : Int) - 4294967296

/-- `createPairKey`: `(seller_id << 16) | (buyer_id & 0xFFFF)` on 32-bit ints,
the shift taken modulo `2^32`. -/
def createPairKey (seller_id buyer_id : Int) : Int :=
  toI32 (((toU32 seller_id <<< 16) % 4294967296) ||| (toU32 buyer_id &&& 0xFFFF))

/-- `insertTransaction`. -/
def insertTransaction (tree : BTree (Transaction F)) (tx : Transaction F) :
    Option (BTree (Transaction F)) :=
  insert tree tx.transaction_id (Slot.ptr tx)

/-- `addRegularBuyer`: the list walk; a hit increments the count in place, a
miss links a new node after the last one (or as the head of an empty list). -/
def addRegularBuyer (buyer_id : Int) : List RegularBuyerNode → List RegularBuyerNode
  | [] => [createRegularBuyerNode buyer_id]
  | current :: rest =>
    if current.buyer_id = buyer_id then
      { current with transaction_count := current.transaction_count + 1 } :: rest
    else current :: addRegularBuyer buyer_id rest

/-- `cleanupRegularBuyers`: the list walk unlinking every node whose count is
below 5. -/
def cleanupRegularBuyers : List RegularBuyerNode → List RegularBuyerNode
  | [] => []
  | current :: rest =>
    if current.transaction_count < 5 then cleanupRegularBuyers rest
    else current :: cleanupRegularBuyers rest

/-- Use of a `void*` search result as an object pointer after the `NULL`
test: a never-written slot is not a usable pointer. -/
def Slot.deref {α : Type} : Slot α → Option (Option α)
  | Slot.garbage => none
  | Slot.null => some none
  | Slot.ptr r => some (some r)

/-- First step of `processTransaction`: find or create the seller. Returns the
`Seller*`. -/
def findOrCreateSeller (L : Ledger F) (seller_id : Int) : Option (Nat × Ledger F) :=
  match (searchTree L.sellerTree seller_id).bind Slot.deref with
  | none => none
  | some (some p) => some (p, L)
  | some none =>
    let seller : Seller F := createSeller seller_id FloatOps.zero FloatOps.zero
    match insert L.sellerTree seller.seller_id (Slot.ptr L.sellers.length) with
    | none => none
    | some st => some (L.sellers.length, { L with sellers := L.sellers ++ [seller], sellerTree := st })

/-- The rate update of `processTransaction`. -/
def updateRates (tx : Transaction F) (seller : Seller F) : Seller F :=
  if FloatOps.below300 tx.energy_kwh && FloatOps.isZero seller.rate_below_300 then
    { seller with rate_below_300 := tx.price_per_kwh }
  else if FloatOps.atLeast300 tx.energy_kwh && FloatOps.isZero seller.rate_above_300 then
    { seller with rate_above_300 := tx.price_per_kwh }
  else seller

/-- Seller part of `processTransaction`: rates, revenue, the seller's own
transaction subtree. -/
def sellerStep (L : Ledger F) (sp : Nat) (tx : Transaction F) : Option (Ledger F) :=
  match L.sellers[sp]? with
  | none => none
  | some s0 =>
    let s1 := updateRates tx s0
    let s2 := { s1 with total_revenue := FloatOps.add s1.total_revenue tx.total_price }
    match insertTransaction s2.transaction_subtree tx with
    | none => none
    | some st => some { L with sellers := L.sellers.set sp { s2 with transaction_subtree := st } }

/-- Find or create the buyer. Returns the `Buyer*`. -/
def findOrCreateBuyer (L : Ledger F) (buyer_id : Int) : Option (Nat × Ledger F) :=
  match (searchTree L.buyerTree buyer_id).bind Slot.deref with
  | none => none
  | some (some p) => some (p, L)
  | some none =>
    let buyer : Buyer F := createBuyer buyer_id
    match insert L.buyerTree buyer.buyer_id (Slot.ptr L.buyers.length) with
    | none => none
    | some bt => some (L.buyers.length, { L with buyers := L.buyers ++ [buyer], buyerTree := bt })

/-- Buyer part of `processTransaction`: energy total and the buyer's own
transaction subtree. -/
def buyerStep (L : Ledger F) (bp : Nat) (tx : Transaction F) : Option (Ledger F) :=
  match L.buyers[bp]? with
  | none => none
  | some b0 =>
    let b1 := { b0 with total_energy_purchased := FloatOps.add b0.total_energy_purchased tx.energy_kwh }
    match insertTransaction b1.transaction_subtree tx with
    | none => none
    | some bt => some { L with buyers := L.buyers.set bp { b1 with transaction_subtree := bt } }

/-- Regular-buyer part of `processTransaction`: `addRegularBuyer(seller,
tx->buyer_id); cleanupRegularBuyers(seller);`. -/
def regularStep (L : Ledger F) (sp : Nat) (tx : Transaction F) : Option (Ledger F) :=
  match L.sellers[sp]? with
  | none => none
  | some s0 =>
    let s1 := { s0 with regular_buyers := addRegularBuyer tx.buyer_id s0.regular_buyers }
    let s2 := { s1 with regular_buyers := cleanupRegularBuyers s1.regular_buyers }
    some { L with sellers := L.sellers.set sp s2 }

/-- Pair part of `processTransaction`: increment the pair found by
`searchSellerBuyerPair`, or create and insert a new one. -/
def pairStep (L : Ledger F) (tx : Transaction F) : Option (Ledger F) :=
  match (searchTree L.pairTree (createPairKey tx.seller_id tx.buyer_id)).bind Slot.deref with
  | none => none
  | some (some p) =>
    match L.pairs[p]? with
    | none => none
    | some pr =>
      let pr1 := { pr with number_of_transactions := pr.number_of_transactions + 1 }
      some { L with pairs := L.pairs.set p pr1 }
  | some none =>
    let pr := createSellerBuyerPair tx.seller_id tx.buyer_id
    match insert L.pairTree (createPairKey pr.seller_id pr.buyer_id) (Slot.ptr L.pairs.length) with
    | none => none
    | some pt => some { L with pairs := L.pairs ++ [pr], pairTree := pt }

/-- `processTransaction(tx, sellerTree, buyerTree, pairTree)`. -/
def processTransaction (L : Ledger F) (tx : Transaction F) : Option (Ledger F) :=
  match findOrCreateSeller L tx.seller_id with
  | none => none
  | some (sp, L1) =>
    match sellerStep L1 sp tx with
    | none => none
    | some L2 =>
      match findOrCreateBuyer L2 tx.buyer_id with
      | none => none
      | some (bp, L3) =>
        match buyerStep L3 bp tx with
        | none => none
        | some L4 =>
          match regularStep L4 sp tx with
          | none => none
          | some L5 => pairStep L5 tx

/-- The empty state of `main`: `createBTree(ORDER/2, ...)` with `ORDER = 6`. -/
def emptyLedger : Ledger F :=
  { sellers := [], buyers := [], pairs := []
    sellerTree := createBTree 3, buyerTree := createBTree 3, pairTree := createBTree 3 }

/-- A sequence of `processTransaction` calls. -/
def processAll (L : Ledger F) : List (Transaction F) → Option (Ledger F)
  | [] => some L
  | tx :: rest =>
    match processTransaction L tx with
    | none => none
    | some L1 => processAll L1 rest

/-- `searchSeller` followed by the read of the object it points to. -/
def searchSeller (L : Ledger F) (seller_id : Int) : Option (Option (Seller F)) :=
  match (searchTree L.sellerTree seller_id).bind Slot.deref with
  | none => none
  | some none => some none
  | some (some p) => (L.sellers[p]?).map some

/-- `searchBuyer` followed by the read of the object it points to. -/
def searchBuyer (L : Ledger F) (buyer_id : Int) : Option (Option (Buyer F)) :=
  match (searchTree L.buyerTree buyer_id).bind Slot.deref with
  | none => none
  | some none => some none
  | some (some p) => (L.buyers[p]?).map some

/-- `searchSellerBuyerPair` followed by the read of the object it points to. -/
def searchSellerBuyerPair (L : Ledger F) (seller_id buyer_id : Int) :
    Option (Option SellerBuyerPair) :=
  match (searchTree L.pairTree (createPairKey seller_id buyer_id)).bind Slot.deref with
  | none => none
  | some none => some none
  | some (some p) => (L.pairs[p]?).map some

/-- The full scan of a top-level tree with every record pointer followed into
its object arena (`displayAllSellers`, `displayAllBuyers`, ...). -/
def scanObjects {α : Type} (tree : BTree Nat) (objs : List α) : Option (List α) :=
  match scan tree with
  | none => none
  | some es => es.mapM (fun e => (Slot.deref e.2).bind (fun o => o.bind (fun p => objs[p]?)))

end Processor

/-! ## The C `float` as IEEE-754 binary32, round to nearest even -/

/-- A binary32 value. `fin neg m e` stands for `(-1)^neg * m * 2^e`; the
values produced by `F32.round` have `m < 2^24`, `-149 ≤ e ≤ 104`, and
`2^23 ≤ m` unless `e = -149` (subnormals and zero). -/
inductive F32 where
  | nan : F32
  | inf (neg : Bool) : F32
  | fin (neg : Bool) (m : Nat) (e : Int) : F32
deriving DecidableEq, Repr

namespace F32

/-- Round `a / b` to the nearest integer, ties to even (`b > 0`). -/
def roundHalfEven (a b : Nat) : Nat :=
  let q := a / b
  let r := a % b
  if 2 * r < b then q
  else if b < 2 * r then q + 1
  else if q % 2 = 0 then q else q + 1

/-- The fraction `num / den * 2^(-e)` as a pair numerator, denominator. -/
def scaled (num den : Nat) (e : Int) : Nat × Nat :=
  if 0 ≤ e then (num, den * 2 ^ e.toNat) else (num * 2 ^ (-e).toNat, den)

/-- The number of binary digits of `n`, by repeated halving; the first
argument bounds the number of steps. -/
def bitLength : Nat → Nat → Nat
  | 0, _ => 0
  | steps + 1, n => if n = 0 then 0 else bitLength steps (n / 2) + 1

/-- The binary32 value nearest to `(-1)^neg * num / den` (`den > 0`). -/
def round (neg : Bool) (num den : Nat) : F32 :=
  if num = 0 then fin neg 0 (-149)
  else
    let e1 : Int := (bitLength num num : Int) - (bitLength den den : Int) - 23
    let s1 := scaled num den e1
    let e2 : Int := if s1.1 < s1.2 * 8388608 then e1 - 1 else e1
    let e3 : Int := if e2 < -149 then -149 else e2
    let s3 := scaled num den e3
    let m := roundHalfEven s3.1 s3.2
    let m4 : Nat := if m = 16777216 then 8388608 else m
    let e4 : Int := if m = 16777216 then e3 + 1 else e3
    if 104 < e4 then inf neg else fin neg m4 e4

/-- The integer `m * 2^(e - e0)` for `e0 ≤ e`, signed. -/
def aligned (neg : Bool) (m : Nat) (e e0 : Int) : Int :=
  let v : Int := (m * 2 ^ (e - e0).toNat : Nat)
  if neg then -v else v

/-- Float addition. -/
def add : F32 → F32 → F32
  | nan, _ => nan
  | _, nan => nan
  | inf a, inf b => if a = b then inf a else nan
  | inf a, fin _ _ _ => inf a
  | fin _ _ _, inf b => inf b
  | fin s1 m1 e1, fin s2 m2 e2 =>
    let e0 := if e1 ≤ e2 then e1 else e2
    let s : Int := aligned s1 m1 e1 e0 + aligned s2 m2 e2 e0
    if s = 0 then fin (if m1 = 0 ∧ m2 = 0 then s1 && s2 else false) 0 (-149)
    else
      let sc := scaled s.natAbs 1 (-e0)
      round (decide (s < 0)) sc.1 sc.2

/-- Float multiplication. -/
def mul : F32 → F32 → F32
  | nan, _ => nan
  | _, nan => nan
  | inf a, inf b => inf (xor a b)
  | inf a, fin s m _ => if m = 0 then nan else inf (xor a s)
  | fin s m _, inf b => if m = 0 then nan else inf (xor s b)
  | fin s1 m1 e1, fin s2 m2 e2 =>
    let sc := scaled (m1 * m2) 1 (-(e1 + e2))
    round (xor s1 s2) sc.1 sc.2

/-- The comparison `x < k` with an integer constant `k > 0` (exactly
representable, as `300` is). -/
def ltConst (k : Nat) : F32 → Bool
  | nan => false
  | inf neg => neg
  | fin neg m e =>
    if neg then true
    else
      let sc := scaled m 1 (-e)
      decide (sc.1 < k * sc.2)

/-- The comparison `x >= k` with an integer constant `k > 0`. -/
def geConst (k : Nat) : F32 → Bool
  | nan => false
  | inf neg => !neg
  | fin neg m e =>
    if neg then false
    else
      let sc := scaled m 1 (-e)
      decide (k * sc.2 ≤ sc.1)

/-- The comparison `x == 0`; both zeros compare equal to `0`. -/
def isZero : F32 → Bool
  | fin _ m _ => decide (m = 0)
  | _ => false

/-- The float denoted by a non-negative decimal constant `num / den`. -/
def ofRatio (num den : Nat) : F32 := round false num den

end F32

instance : FloatOps F32 where
  zero := F32.fin false 0 (-149)
  add := F32.add
  mul := F32.mul
  isZero := F32.isZero
  below300 := F32.ltConst 300
  atLeast300 := F32.geConst 300

/-! ## Views of a node and of the arena used in the statements -/

/-- The list `l` with `v` put in before position `i`. -/
def insAt {α : Type} (l : List α) (i : Nat) (v : α) : List α :=
  l.take i ++ v :: l.drop i

/-- The keys a node holds: `keys[0..n-1]`. -/
def Node.ks (nd : Node ρ) : List Int := nd.keys.take nd.n

/-- The record slots a node holds: `records[0..n-1]`. -/
def Node.rs (nd : Node ρ) : List (Slot ρ) := nd.records.take nd.n

/-- The child slots of a node: `children[0..n]`. -/
def Node.cs (nd : Node ρ) : List (Option Nat) := nd.children.take (nd.n + 1)

/-- The entries a scan reads from a node: `(keys[i], records[i])` for `i < n`. -/
def Node.ents (nd : Node ρ) : List (Int × Slot ρ) := nd.ks.zip nd.rs

/-- What `splitChild(parent, i, child)` does to the arena `h`, given the nodes
`P` and `C` at `parent` and `child` before the call: `P1`, `C1` are the nodes
there afterwards, `N1` the new sibling (allocated at `h.length`), `km` the
promoted key and `rm` the promoted record slot. -/
structure SplitOut (h : Heap ρ) (p i c : Nat) (P C : Node ρ) (h1 : Heap ρ)
    (P1 C1 N1 : Node ρ) (km : Int) (rm : Slot ρ) : Prop where
  len : h1.length = h.length + 1
  atP : h1[p]? = some P1
  atC : h1[c]? = some C1
  atN : h1[h.length]? = some N1
  frame : ∀ q, q ≠ p → q ≠ c → q ≠ h.length → h1[q]? = h[q]?
  med : C.keys[C.t - 1]? = some km
  rec_leaf : C.leaf = true → C.records[C.t - 1]? = some rm
  rec_int : C.leaf = false → rm = Slot.null
  C_eq : C1 = { C with n := C.t, next := if C.leaf then some h.length else C.next }
  N_t : N1.t = C.t
  N_leaf : N1.leaf = C.leaf
  N_n : N1.n = C.t - 1
  N_next : N1.next = if C.leaf then C.next else none
  N_klen : N1.keys.length = 2 * C.t - 1
  N_rlen : N1.records.length = 2 * C.t - 1
  N_clen : N1.children.length = 2 * C.t
  N_keys : N1.keys.take (C.t - 1) = (C.keys.drop C.t).take (C.t - 1)
  N_recs : C.leaf = true → N1.records.take (C.t - 1) = (C.records.drop C.t).take (C.t - 1)
  N_recs_int : C.leaf = false → N1.records = List.replicate (2 * C.t - 1) Slot.garbage
  N_chld : C.leaf = false → N1.children.take C.t = (C.children.drop C.t).take C.t
  P_t : P1.t = P.t
  P_leaf : P1.leaf = P.leaf
  P_next : P1.next = P.next
  P_n : P1.n = P.n + 1
  P_klen : P1.keys.length = P.keys.length
  P_rlen : P1.records.length = P.records.length
  P_clen : P1.children.length = P.children.length
  P_ks : P1.ks = insAt P.ks i km
  P_rs : P1.rs = insAt P.rs i rm
  P_cs : P1.cs = insAt P.cs (i + 1) (some h.length)

/-! ## The invariant of a tree built by inserts -/

/-- Proof-only bookkeeping attached to an arena: the height of each node above
the leaves, the key interval `(lo, hi]` each node is responsible for (`none`
is an unbounded end), and the leaves in leaf-chain order. -/
structure Ghost where
  lvl : Nat → Nat
  lo : Nat → Option Int
  hi : Nat → Option Int
  chain : List Nat

/-- `x` lies in the interval `(lo, hi]`. -/
def inRange (lo hi : Option Int) (x : Int) : Prop :=
  (∀ a, lo = some a → a < x) ∧ (∀ b, hi = some b → x ≤ b)

/-- Lower end of the interval of child slot `i` of a node with keys `ks`. -/
def slotLo (lo : Option Int) (ks : List Int) (i : Nat) : Option Int :=
  if i = 0 then lo else ks[i - 1]?

/-- Upper end of the interval of child slot `i` of a node with keys `ks`. -/
def slotHi (hi : Option Int) (ks : List Int) (i : Nat) : Option Int :=
  if i < ks.length then ks[i]? else hi

/-- Shape of a single node of a tree of minimum degree `t`. -/
structure NodeOK (t : Nat) (nd : Node ρ) : Prop where
  t_eq : nd.t = t
  klen : nd.keys.length = 2 * t - 1
  rlen : nd.records.length = 2 * t - 1
  clen : nd.children.length = 2 * t
  n_le : nd.n ≤ 2 * t - 1
  sorted : nd.ks.Pairwise (fun a b => a < b)

/-- `l` is the leaf chain that starts at pointer `start`: consecutive `next`
links, ending in `NULL`, each leaf's interval ending where the next begins. -/
def IsChain (h : Heap ρ) (G : Ghost) : Option Nat → List Nat → Prop
  | start, [] => start = none
  | start, p :: rest =>
    start = some p ∧ ∃ nd, h[p]? = some nd ∧ nd.leaf = true ∧ IsChain h G nd.next rest ∧
      ∀ q, rest.head? = some q → G.hi p = G.lo q

/-- The entries of the node at `p` (none for a dangling pointer). -/
def entsAt (h : Heap ρ) (p : Nat) : List (Int × Slot ρ) :=
  match h[p]? with
  | some nd => nd.ents
  | none => []

/-- The entries of the leaves `l`, in order. -/
def chainEnts (h : Heap ρ) : List Nat → List (Int × Slot ρ)
  | [] => []
  | p :: rest => entsAt h p ++ chainEnts h rest

/-- The chain `l` with `nw` linked in after `c`. -/
def insertAfter (c nw : Nat) : List Nat → List Nat
  | [] => []
  | x :: xs => if x = c then x :: nw :: xs else x :: insertAfter c nw xs

/-- The invariant of the arena `h` of a tree with root `root` and minimum
degree `t` into which the entries `ins` have been inserted. -/
structure Inv (h : Heap ρ) (root t : Nat) (G : Ghost) (ins : List (Int × Slot ρ)) : Prop where
  t_ge : 2 ≤ t
  root_lt : root < h.length
  node_ok : ∀ (p : Nat) (nd : Node ρ), h[p]? = some nd → NodeOK t nd
  min_keys : ∀ (p : Nat) (nd : Node ρ), h[p]? = some nd → p ≠ root → t - 1 ≤ nd.n
  leaf_lvl : ∀ (p : Nat) (nd : Node ρ), h[p]? = some nd → nd.leaf = true → G.lvl p = 0
  child_lvl : ∀ (p : Nat) (nd : Node ρ), h[p]? = some nd → nd.leaf = false →
    ∀ x ∈ nd.cs, ∃ c, x = some c ∧ c < h.length ∧ G.lvl c + 1 = G.lvl p
  lvl_le : ∀ p : Nat, p < h.length → G.lvl p ≤ G.lvl root
  lvl_root : G.lvl root < h.length
  key_range : ∀ (p : Nat) (nd : Node ρ), h[p]? = some nd → ∀ k ∈ nd.ks, inRange (G.lo p) (G.hi p) k
  nonempty : ∀ p : Nat, p < h.length → ∃ x, inRange (G.lo p) (G.hi p) x
  root_lo : G.lo root = none
  root_hi : G.hi root = none
  child_range : ∀ (p : Nat) (nd : Node ρ), h[p]? = some nd → nd.leaf = false → ∀ (i c : Nat), nd.cs[i]? = some (some c) →
    (∃ x, inRange (slotLo (G.lo p) nd.ks i) (slotHi (G.hi p) nd.ks i) x) →
    G.lo c = slotLo (G.lo p) nd.ks i ∧ G.hi c = slotHi (G.hi p) nd.ks i
  uniq : ∀ (p q : Nat) (x : Int), p < h.length → q < h.length → G.lvl p = G.lvl q →
    inRange (G.lo p) (G.hi p) x → inRange (G.lo q) (G.hi q) x → p = q
  head_leaf : ∃ nd, h[0]? = some nd ∧ nd.leaf = true
  head_lo : G.lo 0 = none
  chain_ok : IsChain h G (some 0) G.chain
  chain_nodup : G.chain.Nodup
  chain_mem : ∀ (p : Nat) (nd : Node ρ), h[p]? = some nd → nd.leaf = true → p ∈ G.chain
  chain_len : G.chain.length ≤ h.length
  keys_ins : ∀ (p : Nat) (nd : Node ρ), h[p]? = some nd → ∀ k ∈ nd.ks, k ∈ ins.map Prod.fst
  content : (chainEnts h G.chain).Perm ins

/-- The bookkeeping after `splitChild` has split the node `c` at the key `km`
into `c` and the new node `nw`. -/
def Ghost.split (G : Ghost) (nw c : Nat) (km : Int) (leaf : Bool) : Ghost :=
  { lvl := fun q => if q = nw then G.lvl c else G.lvl q
    lo := fun q => if q = nw then some km else G.lo q
    hi := fun q => if q = nw then G.hi c else if q = c then some km else G.hi q
    chain := if leaf then insertAfter c nw G.chain else G.chain }

/-- The bookkeeping of the tree `createBTree` returns: one leaf, responsible
for every key. -/
def Ghost.init : Ghost :=
  { lvl := fun _ => 0, lo := fun _ => none, hi := fun _ => none, chain := [0] }

/-- The bookkeeping after `insert` has put a fresh root `s` above the old root `r`. -/
def Ghost.newRoot (G : Ghost) (s r : Nat) : Ghost :=
  { lvl := fun q => if q = s then G.lvl r + 1 else G.lvl q
    lo := fun q => if q = s then none else G.lo q
    hi := fun q => if q = s then none else G.hi q
    chain := G.chain }

/-- The node `q` can be reached from `root` through child slots `0..n` of
internal nodes. -/
inductive Reach (h : Heap ρ) (root : Nat) : Nat → Prop
  | root : Reach h root root
  | child (p : Nat) (nd : Node ρ) (i c : Nat) : Reach h root p → h[p]? = some nd →
      nd.leaf = false → i ≤ nd.n → nd.children[i]? = some (some c) → Reach h root c

/-! ## Concrete inputs used by the examples -/

/-- The node at the root of a tree. -/
def rootNode (tree : BTree ρ) : Option (Node ρ) := tree.heap[tree.root]?

/-- The keys `1..9`, each with a record named after it. -/
def keys1to9 : List (Int × Nat) :=
  [(1, 1), (2, 2), (3, 3), (4, 4), (5, 5), (6, 6), (7, 7), (8, 8), (9, 9)]

/-- The keys of the spec's example, each with a record named after it. -/
def specKeys : List (Int × Nat) :=
  [(10, 10), (20, 20), (5, 5), (6, 6), (12, 12), (30, 30), (7, 7), (17, 17)]

/-- A transaction of 100 kWh at 0.10 per kWh. -/
def plainTx (id buyer_id seller_id : Int) : Transaction F32 :=
  createTransaction id buyer_id seller_id (F32.ofRatio 100 1) (F32.ofRatio 10 100) 0

/-- Seller 1 trades five times with buyer 7, then four times with buyer 8. -/
def regularTxs : List (Transaction F32) :=
  [plainTx 1 7 1, plainTx 2 7 1, plainTx 3 7 1, plainTx 4 7 1, plainTx 5 7 1,
   plainTx 6 8 1, plainTx 7 8 1, plainTx 8 8 1, plainTx 9 8 1]

/-- The two transactions of the spec's rate example. -/
def rateTxs : List (Transaction F32) :=
  [createTransaction 1 1 1 (F32.ofRatio 100 1) (F32.ofRatio 10 100) 0,
   createTransaction 2 1 1 (F32.ofRatio 350 1) (F32.ofRatio 20 100) 0]

/-- Nineteen different (seller, buyer) pairs over sellers `1..5` and buyers
`1..4`, in ascending pair-key order, then the pair (3, 1) a second time. -/
def pairTxs : List (Transaction F32) :=
  [plainTx 1 1 1, plainTx 2 2 1, plainTx 3 3 1, plainTx 4 4 1,
   plainTx 5 1 2, plainTx 6 2 2, plainTx 7 3 2, plainTx 8 4 2,
   plainTx 9 1 3, plainTx 10 2 3, plainTx 11 3 3, plainTx 12 4 3,
   plainTx 13 1 4, plainTx 14 2 4, plainTx 15 3 4, plainTx 16 4 4,
   plainTx 17 1 5, plainTx 18 2 5, plainTx 19 3 5,
   plainTx 20 1 3]

/-- Sellers `1..19` in ascending order, each trading once with buyer 1, then
seller 9 a second time. -/
def sellerTxs : List (Transaction F32) :=
  [plainTx 1 1 1, plainTx 2 1 2, plainTx 3 1 3, plainTx 4 1 4, plainTx 5 1 5,
   plainTx 6 1 6, plainTx 7 1 7, plainTx 8 1 8, plainTx 9 1 9, plainTx 10 1 10,
   plainTx 11 1 11, plainTx 12 1 12, plainTx 13 1 13, plainTx 14 1 14, plainTx 15 1 15,
   plainTx 16 1 16, plainTx 17 1 17, plainTx 18 1 18, plainTx 19 1 19,
   plainTx 20 1 9]

/-- Buyers `1..19` in ascending order, each trading once with seller 1, then
buyer 9 a second time. -/
def buyerTxs : List (Transaction F32) :=
  [plainTx 1 1 1, plainTx 2 2 1, plainTx 3 3 1, plainTx 4 4 1, plainTx 5 5 1,
   plainTx 6 6 1, plainTx 7 7 1, plainTx 8 8 1, plainTx 9 9 1, plainTx 10 10 1,
   plainTx 11 11 1, plainTx 12 12 1, plainTx 13 13 1, plainTx 14 14 1, plainTx 15 15 1,
   plainTx 16 16 1, plainTx 17 17 1, plainTx 18 18 1, plainTx 19 19 1,
   plainTx 20 9 1]

/-- The state after processing `txs` from the empty state (the empty state
again if processing fails). -/
def ledgerAfter (txs : List (Transaction F32)) : Ledger F32 :=
  (processAll emptyLedger txs).getD emptyLedger

/-- A third transaction for seller 1, below 300 kWh, at a price of 0.50. -/
def laterTx : Transaction F32 :=
  createTransaction 3 1 1 (F32.ofRatio 100 1) (F32.ofRatio 50 100) 0

/-- The seller object of seller 1 after the two transactions of `rateTxs`. -/
def rateSeller : Seller F32 :=
  ((ledgerAfter rateTxs).sellers[0]?).getD (createSeller 0 FloatOps.zero FloatOps.zero)

/-- The state after `laterTx` has been processed in the state `rateTxs` leads to. -/
def ledgerThen : Ledger F32 :=
  (processTransaction (ledgerAfter rateTxs) laterTx).getD (ledgerAfter rateTxs)

/-! ## Relations between ledger states -/

section RatesDefs
variable {F : Type} [FloatOps F]

/-- A rate that is non-zero in `s` has the same value in `s1`. -/
def RatesKept (s s1 : Seller F) : Prop :=
  (FloatOps.isZero s.rate_below_300 = false → s1.rate_below_300 = s.rate_below_300) ∧
  (FloatOps.isZero s.rate_above_300 = false → s1.rate_above_300 = s.rate_above_300)

/-- Every seller object of `L` is still there in `L1`, with its non-zero rates. -/
def SellersKept (L L1 : Ledger F) : Prop :=
  ∀ (p : Nat) (s : Seller F), L.sellers[p]? = some s →
    ∃ s1, L1.sellers[p]? = some s1 ∧ RatesKept s s1

end RatesDefs
/-! ## Further measures and predicates used in the statements -/

/-- A node as `createNode(t, _)` allocates it: arrays of capacity `2t-1`,
`2t-1` and `2t`, holding at most `2t-1` keys. No condition on the keys. -/
structure NodeShape (t : Nat) (nd : Node ρ) : Prop where
  t_eq : nd.t = t
  klen : nd.keys.length = 2 * t - 1
  rlen : nd.records.length = 2 * t - 1
  clen : nd.children.length = 2 * t
  n_le : nd.n ≤ 2 * t - 1

/-- The number of nodes on the `children[0]` path from `cur` down to a leaf. -/
def height : Nat → Heap ρ → Nat → Option Nat
  | 0, _, _ => none
  | fuel + 1, h, cur => do
    let nd ← h[cur]?
    if nd.leaf then some 1
    else do
      let c ← childPtr nd 0
      let k ← height fuel h c
      some (k + 1)

/-- The height of a tree: the nodes on the `children[0]` path from its root. -/
def treeHeight (tree : BTree ρ) : Option Nat :=
  height tree.heap.length tree.heap tree.root

/-- The node `q` can be reached from `root` in `d` steps through child slots
`0..n` of internal nodes. -/
inductive ReachAt (h : Heap ρ) (root : Nat) : Nat → Nat → Prop
  | root : ReachAt h root 0 root
  | child (d p : Nat) (nd : Node ρ) (i c : Nat) : ReachAt h root d p → h[p]? = some nd →
      nd.leaf = false → i ≤ nd.n → nd.children[i]? = some (some c) → ReachAt h root (d + 1) c

/-- The part of the tree invariant that does not depend on the keys: every
node has the shape `createNode` gave it, every child slot `0..n` of an
internal node points to a node one level further down, and leaves are at
level `0`. -/
structure Shape (h : Heap ρ) (root t : Nat) (lvl : Nat → Nat) : Prop where
  t_ge : 2 ≤ t
  root_lt : root < h.length
  node_ok : ∀ (p : Nat) (nd : Node ρ), h[p]? = some nd → NodeShape t nd
  leaf_lvl : ∀ (p : Nat) (nd : Node ρ), h[p]? = some nd → nd.leaf = true → lvl p = 0
  child_lvl : ∀ (p : Nat) (nd : Node ρ), h[p]? = some nd → nd.leaf = false →
    ∀ x ∈ nd.cs, ∃ c, x = some c ∧ c < h.length ∧ lvl c + 1 = lvl p
  lvl_root : lvl root < h.length

/-- The levels after `splitChild` has split the node `c` into `c` and the new
node `nw`. -/
def lvlSplit (lvl : Nat → Nat) (nw c : Nat) : Nat → Nat :=
  fun q => if q = nw then lvl c else lvl q

/-- The levels after `insert` has put a fresh root `s` above the old root `r`. -/
def lvlNewRoot (lvl : Nat → Nat) (s r : Nat) : Nat → Nat :=
  fun q => if q = s then lvl r + 1 else lvl q

/-- The keys stored anywhere in the subtree rooted at `cur`: `keys[0..n-1]`
of the node and, for an internal node, of the subtrees of `children[0..n]`. -/
def subtreeKeys : Nat → Heap ρ → Nat → Option (List Int)
  | 0, _, _ => none
  | fuel + 1, h, cur => do
    let nd ← h[cur]?
    if nd.leaf then some nd.ks
    else do
      let subs ← (List.range (nd.n + 1)).mapM
        (fun i => (childPtr nd i).bind (subtreeKeys fuel h))
      some (nd.ks ++ subs.flatten)

/-! ## The insertion sort of the sorted reports -/

/-- Inner loop of the insertion sort of a report:
`while (j >= 0 && buf[j]->k > key->k) { buf[j+1] = buf[j]; j--; }`, with `gt y x`
for the comparison `y->k > x->k`. The argument is `j + 1`; the result is the
final `j + 1` and the buffer. -/
def sortShift {α : Type} (gt : α → α → Bool) (x : α) : Nat → List α → Option (Nat × List α)
  | 0, buf => some (0, buf)
  | j + 1, buf => do
    let y ← buf[j]?
    if gt y x then
      let b1 ← writeAt buf (j + 1) y
      sortShift gt x j b1
    else some (j + 1, buf)

/-- Outer loop of the insertion sort: `for (i = 1; i < count; i++) { key =
buf[i]; j = i - 1; ...; buf[j+1] = key; }`; `cnt` is the number of iterations
left. -/
def sortFrom {α : Type} (gt : α → α → Bool) : Nat → Nat → List α → Option (List α)
  | 0, _, buf => some buf
  | cnt + 1, i, buf => do
    let x ← buf[i]?
    let (j1, b1) ← sortShift gt x i buf
    let b2 ← writeAt b1 j1 x
    sortFrom gt cnt (i + 1) b2

/-- The insertion sort of `displayTransactionsByEnergyRange`,
`displayBuyersByEnergyBought` and `displayPairsByTransactionCount` on a
collected buffer of `count = buf.length` elements. -/
def insertionSort {α : Type} (gt : α → α → Bool) (buf : List α) : Option (List α) :=
  sortFrom gt (buf.length - 1) 1 buf

/-- The comparison of `displayPairsByTransactionCount`, for any integer sort
key read through the buffer's elements: `y->k > x->k`. -/
def gtBy {α : Type} (key : α → Int) (y x : α) : Bool := decide (key y > key x)
/-! ## Predicates on ledger states used in the later statements -/

section LedgerDefs
variable {F : Type} [FloatOps F]

/-- No seller of the state has a regular-buyer entry with a count below 5. -/
def RegularOK (L : Ledger F) : Prop :=
  ∀ s ∈ L.sellers, ∀ e ∈ s.regular_buyers, 5 ≤ e.transaction_count

/-- The run of `txs` from `L` succeeds, and the `Seller*` that
`processTransaction` works on (found by `searchSeller`, or created) is `p` for
exactly the transactions whose seller id is `id`. -/
def resolves (id : Int) (p : Nat) : Ledger F → List (Transaction F) → Bool
  | _, [] => true
  | L, tx :: rest =>
    match findOrCreateSeller L tx.seller_id, processTransaction L tx with
    | some (sp, _), some L1 =>
      (decide (sp = p) == decide (tx.seller_id = id)) && resolves id p L1 rest
    | _, _ => false

/-- The price of the first transaction of `txs` whose energy is in the tier
`tier` and whose price does not compare equal to zero. -/
def firstPrice (tier : F → Bool) (txs : List (Transaction F)) : Option F :=
  (txs.find? (fun tx => tier tx.energy_kwh && !FloatOps.isZero tx.price_per_kwh)).map
    (fun tx => tx.price_per_kwh)

/-- The rate `r` is the price `firstPrice` picks, and compares equal to zero
when there is no such price. -/
def FixedBy (tier : F → Bool) (txs : List (Transaction F)) (r : F) : Prop :=
  match firstPrice tier txs with
  | some pr => r = pr
  | none => FloatOps.isZero r = true

/-- The rate a seller object ends with when the rate update of
`processTransaction` for the tier `tier` is run over `txs`, starting from `r`. -/
def setOnce (tier : F → Bool) (r : F) (txs : List (Transaction F)) : F :=
  txs.foldl (fun r tx => if tier tx.energy_kwh && FloatOps.isZero r then tx.price_per_kwh else r) r

/-- The two rates of the seller object at `p`; those of a fresh seller when
the object is not there yet. -/
def ratesAt (L : Ledger F) (p : Nat) : F × F :=
  match L.sellers[p]? with
  | some s => (s.rate_below_300, s.rate_above_300)
  | none => (FloatOps.zero, FloatOps.zero)

/-- The transactions of `txs` whose seller id is `id`. -/
def ofSeller (id : Int) (txs : List (Transaction F)) : List (Transaction F) :=
  txs.filter (fun tx => decide (tx.seller_id = id))

end LedgerDefs
/-! ## Further concrete inputs -/

/-- A full leaf of minimum degree 2 holding the keys 10, 20, 30. -/
def fullLeaf : Node Nat :=
  { keys := [10, 20, 30], t := 2, children := [none, none, none, none], n := 3, leaf := true,
    next := none, records := [Slot.ptr 1, Slot.ptr 2, Slot.ptr 3] }

/-- A fresh internal node of minimum degree 2 whose child slot 0 is the node at
pointer 0. -/
def emptyParent : Node Nat :=
  { keys := [0, 0, 0], t := 2, children := [some 0, none, none, none], n := 0, leaf := false,
    next := none, records := [Slot.garbage, Slot.garbage, Slot.garbage] }

/-- An arena holding `fullLeaf` at pointer 0 and `emptyParent` at pointer 1. -/
def splitHeap : Heap Nat := [fullLeaf, emptyParent]

/-- Two transactions of seller 1 below 300 kWh: the first at price 0, the
second at price 0.50. -/
def zeroPriceTxs : List (Transaction F32) :=
  [createTransaction 1 1 1 (F32.ofRatio 100 1) (F32.ofRatio 0 1) 0,
   createTransaction 2 1 1 (F32.ofRatio 100 1) (F32.ofRatio 50 100) 0]

/-- The state after the first transaction of `regularTxs`. -/
def firstStep : Ledger F32 :=
  (processTransaction emptyLedger (plainTx 1 7 1)).getD emptyLedger
/-! ## Concrete inputs for the duplicate and collision examples -/

/-- Seller 1 trades with buyer 5 and then with buyer 65541; both buyers give
the same pair key. -/
def collideTxs : List (Transaction F32) := [plainTx 1 5 1, plainTx 2 65541 1]

/-- No seller of the state has a regular-buyer entry at all. -/
def RegularEmpty {F : Type} (L : Ledger F) : Prop :=
  ∀ s ∈ L.sellers, s.regular_buyers = []

/-- The state after the first transaction of `regularTxs` has been processed a
second time. -/
def replayOnce : Ledger F32 :=
  (processTransaction firstStep (plainTx 1 7 1)).getD firstStep

/-- The state after it has been processed a third time. -/
def replayTwice : Ledger F32 :=
  (processTransaction replayOnce (plainTx 1 7 1)).getD replayOnce

/-- The seller object of `firstStep`. -/
def firstSeller : Seller F32 :=
  (firstStep.sellers[0]?).getD (createSeller 0 FloatOps.zero FloatOps.zero)

/-- The buyer object of `firstStep`. -/
def firstBuyer : Buyer F32 := (firstStep.buyers[0]?).getD (createBuyer 0)

/-- The pair object of `firstStep`. -/
def firstPair : SellerBuyerPair := (firstStep.pairs[0]?).getD (createSellerBuyerPair 0 0)

/-! ## The time-range report -/

section RangeReport
variable {F : Type} [FloatOps F]

/-- What `displayTransactionsInTimeRange` has produced so far: the rows
printed, in print order, and its three running totals. -/
structure RangeAcc (F : Type) where
  rows : List (Transaction F)
  count : Int
  total_energy : F
  total_revenue : F

/-- The body of the inner loop of `displayTransactionsInTimeRange` for one
transaction: a row and the totals when `start_time <= timestamp <= end_time`. -/
def rangeStep (start_time end_time : Int) (acc : RangeAcc F) (tx : Transaction F) : RangeAcc F :=
  if tx.timestamp ≥ start_time ∧ tx.timestamp ≤ end_time then
    { rows := acc.rows ++ [tx]
      count := acc.count + 1
      total_energy := FloatOps.add acc.total_energy tx.energy_kwh
      total_revenue := FloatOps.add acc.total_revenue tx.total_price }
  else acc

/-- Inner loop of `displayTransactionsInTimeRange`: `for (i = 0; i <
current->n; i++)` over the records of one leaf; a record slot that holds no
transaction pointer cannot be read through. -/
def rangeLeaf (start_time end_time : Int) (nd : Node (Transaction F)) :
    Nat → Nat → RangeAcc F → Option (RangeAcc F)
  | 0, _, acc => some acc
  | cnt + 1, i, acc =>
    match nd.records[i]? with
    | some (Slot.ptr tx) => rangeLeaf start_time end_time nd cnt (i + 1)
        (rangeStep start_time end_time acc tx)
    | _ => none

/-- Outer loop of `displayTransactionsInTimeRange`: `while (current != NULL)`
along the `next` links. -/
def rangeWalk (start_time end_time : Int) :
    Nat → Heap (Transaction F) → Option Nat → RangeAcc F → Option (RangeAcc F)
  | _, _, none, acc => some acc
  | 0, _, some _, _ => none
  | fuel + 1, h, some cur, acc =>
    match h[cur]? with
    | none => none
    | some nd =>
      match rangeLeaf start_time end_time nd nd.n 0 acc with
      | none => none
      | some acc1 => rangeWalk start_time end_time fuel h nd.next acc1

/-- `displayTransactionsInTimeRange(tree, start_time, end_time)`: the rows it
prints and the totals of its last line. -/
def displayTransactionsInTimeRange (tree : BTree (Transaction F)) (start_time end_time : Int) :
    Option (RangeAcc F) :=
  match leftmost tree.heap.length tree.heap tree.root with
  | none => none
  | some first =>
    rangeWalk start_time end_time tree.heap.length tree.heap (some first)
      { rows := [], count := 0, total_energy := FloatOps.zero, total_revenue := FloatOps.zero }

/-- The transactions the record slots of scanned entries point to. -/
def scannedTxs (es : List (Int × Slot (Transaction F))) : List (Transaction F) :=
  es.filterMap (fun e => match e.2 with
    | Slot.ptr tx => some tx
    | _ => none)

/-- The test `start_time <= timestamp <= end_time`. -/
def inTimeRange (start_time end_time : Int) (tx : Transaction F) : Bool :=
  decide (start_time ≤ tx.timestamp ∧ tx.timestamp ≤ end_time)

/-- A sequence of `insertTransaction` calls. -/
def txEntries (txs : List (Transaction F)) : List (Int × Transaction F) :=
  txs.map (fun tx => (tx.transaction_id, tx))

end RangeReport

/-! ## The calls made during an insert -/

/-- A call made while `insert` runs, with the key counts at the time of the
call: `insertNonFull(node, ..)` with `node->n` and `node->t`, or
`splitChild(parent, i, child)` with `parent->n`, `child->n` and `child->t`. -/
inductive Call where
  | nonFull (n t : Nat) : Call
  | split (parent_n child_n t : Nat) : Call
deriving DecidableEq, Repr

/-- `insertNonFull` together with the list of the calls it makes, itself
included, in call order. -/
def insertNonFullCalls : Nat → Heap ρ → Nat → Int → Slot ρ → Option (Heap ρ × List Call)
  | 0, _, _, _, _ => none
  | fuel + 1, h, node, key, record => do
    let nd ← h[node]?
    if nd.leaf then
      let (j, nd1) ← leafShift key nd.n nd
      let ks ← writeAt nd1.keys j key
      let rs ← writeAt nd1.records j record
      let h1 ← store h node { nd1 with keys := ks, records := rs, n := nd1.n + 1 }
      some (h1, [Call.nonFull nd.n nd.t])
    else
      let i ← findChild key nd nd.n
      let c ← childPtr nd i
      let cn ← h[c]?
      if cn.n = 2 * nd.t - 1 then
        let h1 ← splitChild h node i c
        let nd1 ← h1[node]?
        let k ← nd1.keys[i]?
        let i1 := if key > k then i + 1 else i
        let c1 ← childPtr nd1 i1
        let (h2, calls) ← insertNonFullCalls fuel h1 c1 key record
        some (h2, Call.nonFull nd.n nd.t :: Call.split nd.n cn.n cn.t :: calls)
      else
        let (h2, calls) ← insertNonFullCalls fuel h c key record
        some (h2, Call.nonFull nd.n nd.t :: calls)

/-- `insert` together with the list of the `splitChild` and `insertNonFull`
calls made while it runs. -/
def insertCalls (tree : BTree ρ) (key : Int) (record : Slot ρ) :
    Option (BTree ρ × List Call) := do
  let r := tree.root
  let rn ← tree.heap[r]?
  if rn.n = 2 * tree.t - 1 then
    let (s, h1) := createNode tree.heap tree.t false
    let sn ← h1[s]?
    let cs ← writeAt sn.children 0 (some r)
    let h2 ← store h1 s { sn with children := cs }
    let h3 ← splitChild h2 s 0 r
    let (h4, calls) ← insertNonFullCalls h3.length h3 s key record
    some ({ tree with root := s, heap := h4 }, Call.split sn.n rn.n rn.t :: calls)
  else
    let (h1, calls) ← insertNonFullCalls tree.heap.length tree.heap r key record
    some ({ tree with heap := h1 }, calls)

/-- The condition of a call in a tree of minimum degree `t`: `insertNonFull`
gets a node with fewer than `2t-1` keys; `splitChild` gets a child with
exactly `2t-1` keys and a parent with fewer. -/
def Call.ok (t : Nat) : Call → Prop
  | Call.nonFull n t1 => t1 = t ∧ n < 2 * t - 1
  | Call.split pn cn t1 => t1 = t ∧ cn = 2 * t - 1 ∧ pn < 2 * t - 1


/-! ## The descent of an insert whose key is already in the tree -/

/-- The key facts of the tree invariant, for the nodes at level `L` and
below only: strictly ascending keys inside the node's interval, a non-empty
interval, and child slots with a non-empty interval pointing to the node
that is responsible for it. -/
structure KeysBelow (h : Heap ρ) (G : Ghost) (L : Nat) : Prop where
  sorted : ∀ (p : Nat) (nd : Node ρ), h[p]? = some nd → G.lvl p ≤ L →
    nd.ks.Pairwise (fun a b => a < b)
  key_range : ∀ (p : Nat) (nd : Node ρ), h[p]? = some nd → G.lvl p ≤ L →
    ∀ k ∈ nd.ks, inRange (G.lo p) (G.hi p) k
  nonempty : ∀ p : Nat, p < h.length → G.lvl p ≤ L → ∃ x, inRange (G.lo p) (G.hi p) x
  child_range : ∀ (p : Nat) (nd : Node ρ), h[p]? = some nd → nd.leaf = false → G.lvl p ≤ L →
    ∀ (i c : Nat), nd.cs[i]? = some (some c) →
    (∃ x, inRange (slotLo (G.lo p) nd.ks i) (slotHi (G.hi p) nd.ks i) x) →
    G.lo c = slotLo (G.lo p) nd.ks i ∧ G.hi c = slotHi (G.hi p) nd.ks i

/-- The leaf-chain part of the tree invariant: the chain starts at node `0`,
holds every leaf once, and its entries are the entries `ins`. -/
structure ChainOK (h : Heap ρ) (G : Ghost) (ins : List (Int × Slot ρ)) : Prop where
  chain_ok : IsChain h G (some 0) G.chain
  chain_nodup : G.chain.Nodup
  chain_mem : ∀ (p : Nat) (nd : Node ρ), h[p]? = some nd → nd.leaf = true → p ∈ G.chain
  chain_len : G.chain.length ≤ h.length
  content : (chainEnts h G.chain).Perm ins

/-- The `children[0]` path: an internal node whose interval is unbounded below
has such a node in child slot `0`, and the only such leaf is node `0`. -/
structure Spine (h : Heap ρ) (G : Ghost) : Prop where
  down : ∀ (p : Nat) (nd : Node ρ), h[p]? = some nd → nd.leaf = false → G.lo p = none →
    ∃ c, nd.children[0]? = some (some c) ∧ G.lo c = none
  leaf : ∀ (p : Nat) (nd : Node ρ), h[p]? = some nd → nd.leaf = true → G.lo p = none → p = 0

/-- `x` lies in the interval `[lo, hi]`. -/
def inClosed (lo hi : Option Int) (x : Int) : Prop :=
  (∀ a, lo = some a → a ≤ x) ∧ (∀ b, hi = some b → x ≤ b)

/-- `x` lies in the interval `[lo, hi)`. -/
def inLeft (lo hi : Option Int) (x : Int) : Prop :=
  (∀ a, lo = some a → a ≤ x) ∧ (∀ b, hi = some b → x < b)

/-- Where `insertNonFull` stands when it visits the node `p` with a key that
may already be in the tree: the key is in `[lo, hi]` of the node, and when it
is the upper end of an internal node, the child slot `n` of that node points
to a node `x` with the key in `[lo, hi)` of `x`. -/
def Descends (h : Heap ρ) (G : Ghost) (p : Nat) (P : Node ρ) (key : Int) : Prop :=
  inClosed (G.lo p) (G.hi p) key ∧
  (P.leaf = false → G.hi p = some key →
    ∃ x, P.children[P.n]? = some (some x) ∧ x < h.length ∧ inLeft (G.lo x) (G.hi x) key)

/-- What the descent leaves behind: a leaf chain from node `0` whose entries
are `ins` in non-decreasing key order, and the `children[0]` path to node `0`. -/
structure Landed (h : Heap ρ) (root t : Nat) (G : Ghost) (ins : List (Int × Slot ρ)) : Prop where
  shape : Shape h root t G.lvl
  spine : Spine h G
  root_lo : G.lo root = none
  chain_ok : IsChain h G (some 0) G.chain
  chain_len : G.chain.length ≤ h.length
  content : (chainEnts h G.chain).Perm ins
  ascending : ((chainEnts h G.chain).map Prod.fst).Pairwise (fun a b => a ≤ b)

/-- The part of the tree invariant that holds for inserts of any keys: the
shape, the leaf chain with the entries `ins`, and the `children[0]` path from
the root to the head of the chain. -/
structure Linked (h : Heap ρ) (root t : Nat) (G : Ghost) (ins : List (Int × Slot ρ)) : Prop where
  shape : Shape h root t G.lvl
  chain : ChainOK h G ins
  spine : Spine h G
  root_lo : G.lo root = none

/-! ## A tree built with repeated keys -/

/-- Twenty inserts at `t = 2` in which the keys 1, 2, 3, 5 and 7 repeat; the
record of each entry is its position in the sequence. -/
def repeatKeys : List (Int × Nat) :=
  [(4, 1), (5, 2), (3, 3), (5, 4), (2, 5), (0, 6), (7, 7), (2, 8), (2, 9), (7, 10),
   (2, 11), (5, 12), (1, 13), (2, 14), (1, 15), (5, 16), (5, 17), (3, 18), (5, 19), (6, 20)]

/-- The tree after the inserts `repeatKeys` into `createBTree(2)`. -/
def repeatTree : BTree Nat :=
  (insertAll (createBTree 2) repeatKeys).getD (createBTree 2)

/-- The tree `repeatTree` after one more insert of the key `0`, which it
already holds. -/
def repeatTreeAgain : BTree Nat :=
  (insert repeatTree 0 (Slot.ptr 21)).getD repeatTree

/-- Ten distinct keys whose tree at `t = 2` has a full internal node with the
median key 4 below the root. -/
def medianKeys : List (Int × Nat) :=
  [(2, 2), (4, 4), (6, 6), (10, 10), (9, 9), (7, 7), (5, 5), (1, 1), (8, 8), (3, 3)]

/-! ## What the nodes hold -/

/-- Every key a node holds in `keys[0..n-1]` was inserted, and every slot
`records[i]`, `i < n`, that holds a record holds a record inserted with the
key `keys[i]`. -/
structure Stored (h : Heap ρ) (ins : List (Int × Slot ρ)) : Prop where
  keys_ins : ∀ (p : Nat) (nd : Node ρ), h[p]? = some nd → ∀ k ∈ nd.ks, k ∈ ins.map Prod.fst
  recs_ins : ∀ (p : Nat) (nd : Node ρ), h[p]? = some nd → ∀ e ∈ nd.ents,
    ∀ r, e.2 = Slot.ptr r → e ∈ ins

/-- The keys `9..3` in descending order, each with a record named after it. -/
def keys9to3 : List (Int × Nat) :=
  [(9, 9), (8, 8), (7, 7), (6, 6), (5, 5), (4, 4), (3, 3)]

/-! ## Predicates for the replay of a transaction -/

section ReplayDefs
variable {F : Type} [FloatOps F]

/-- The transaction subtree of every seller and of every buyer of the state
is a tree as inserts build it. -/
def SubtreesOK (L : Ledger F) : Prop :=
  (∀ s ∈ L.sellers, ∃ lvl, Shape s.transaction_subtree.heap s.transaction_subtree.root
    s.transaction_subtree.t lvl) ∧
  (∀ b ∈ L.buyers, ∃ lvl, Shape b.transaction_subtree.heap b.transaction_subtree.root
    b.transaction_subtree.t lvl)

/-- The seller `processTransaction` works on in the state `L`, and its
revenue before the update: the object `searchSeller` finds, or the object
created at the end of the arena with revenue `0.0` when the search returns
`NULL`. -/
def SellerBefore (L : Ledger F) (seller_id : Int) (sp : Nat) (r : F) : Prop :=
  (∃ s, searchTree L.sellerTree seller_id = some (Slot.ptr sp) ∧ L.sellers[sp]? = some s ∧
    s.total_revenue = r) ∨
  (searchTree L.sellerTree seller_id = some Slot.null ∧ sp = L.sellers.length ∧
    r = FloatOps.zero)

/-- The buyer `processTransaction` works on in the state `L`, and its energy
total before the update: the object `searchBuyer` finds, or the object created
with total `0.0` when the search returns `NULL`. -/
def BuyerBefore (L : Ledger F) (buyer_id : Int) (bp : Nat) (e : F) : Prop :=
  (∃ b, searchTree L.buyerTree buyer_id = some (Slot.ptr bp) ∧ L.buyers[bp]? = some b ∧
    b.total_energy_purchased = e) ∨
  (searchTree L.buyerTree buyer_id = some Slot.null ∧ bp = L.buyers.length ∧
    e = FloatOps.zero)

/-- The pair `processTransaction` works on in the state `L`, and its count
before the update: that of the object `searchSellerBuyerPair` finds, or `0`
for the pair created (with count 1) when the search returns `NULL`. -/
def PairBefore (L : Ledger F) (key : Int) (pp : Nat) (c : Int) : Prop :=
  (∃ pr, searchTree L.pairTree key = some (Slot.ptr pp) ∧ L.pairs[pp]? = some pr ∧
    pr.number_of_transactions = c) ∨
  (searchTree L.pairTree key = some Slot.null ∧ pp = L.pairs.length ∧ c = 0)

end ReplayDefs

/-! ## The loops -/

theorem writeAt_of_lt {α : Type} {a : List α} {i : Nat} (v : α) (h : i < a.length) :
    writeAt a i v = some (a.set i v) := by
  simp [writeAt, h]

theorem store_of_lt {h : Heap ρ} {p : Nat} (nd : Node ρ) (hp : p < h.length) :
    store h p nd = some (h.set p nd) := by
  simp [store, hp]

/-- Effect of the key-shifting loop of `splitChild`. -/
theorem shiftKeys_spec (i : Nat) : ∀ (j1 : Nat) (par : Node ρ), i ≤ j1 →
    j1 < par.keys.length → j1 < par.records.length →
    ∃ K R, shiftKeys i j1 par = some { par with keys := K, records := R } ∧
      K.length = par.keys.length ∧ R.length = par.records.length ∧
      (∀ x, K[x]? = if i < x ∧ x ≤ j1 then par.keys[x - 1]? else par.keys[x]?) ∧
      (∀ x, R[x]? = if i < x ∧ x ≤ j1 then par.records[x - 1]? else par.records[x]?) := by
  intro j1
  induction j1 with
  | zero =>
    intro par hi _ _
    refine ⟨par.keys, par.records, by simp [shiftKeys], rfl, rfl, ?_, ?_⟩ <;>
    · intro x
      rw [if_neg (by omega)]
  | succ j ih =>
    intro par hi hk hr
    by_cases hij : i ≤ j
    · have hk' : j < par.keys.length := by omega
      have hr' : j < par.records.length := by omega
      obtain ⟨K, R, hs, hKl, hRl, hK, hR⟩ := ih
        { par with keys := par.keys.set (j + 1) par.keys[j],
                   records := par.records.set (j + 1) par.records[j] } hij
        (by simp; omega) (by simp; omega)
      refine ⟨K, R, ?_, by simpa using hKl, by simpa using hRl, ?_, ?_⟩
      · simp [shiftKeys, hij, List.getElem?_eq_getElem hk', List.getElem?_eq_getElem hr',
          writeAt_of_lt _ hk, writeAt_of_lt _ hr]
        simpa using hs
      · intro x
        rw [hK x]
        simp only [List.getElem?_set]
        by_cases h1 : i < x ∧ x ≤ j
        · have h2 : i < x ∧ x ≤ j + 1 := by omega
          have h3 : ¬ (j + 1 = x - 1) := by omega
          simp [h1, h2, h3]
        · by_cases h4 : x = j + 1
          · subst h4
            have h2 : i < j + 1 ∧ j + 1 ≤ j + 1 := by omega
            simp [h1, h2, hk, List.getElem?_eq_getElem hk']
          · have h2 : ¬ (i < x ∧ x ≤ j + 1) := by omega
            have h3 : ¬ (j + 1 = x) := by omega
            simp [h1, h2, h3]
      · intro x
        rw [hR x]
        simp only [List.getElem?_set]
        by_cases h1 : i < x ∧ x ≤ j
        · have h2 : i < x ∧ x ≤ j + 1 := by omega
          have h3 : ¬ (j + 1 = x - 1) := by omega
          simp [h1, h2, h3]
        · by_cases h4 : x = j + 1
          · subst h4
            have h2 : i < j + 1 ∧ j + 1 ≤ j + 1 := by omega
            simp [h1, h2, hr, List.getElem?_eq_getElem hr']
          · have h2 : ¬ (i < x ∧ x ≤ j + 1) := by omega
            have h3 : ¬ (j + 1 = x) := by omega
            simp [h1, h2, h3]
    · have hij' : i = j + 1 := by omega
      refine ⟨par.keys, par.records, by simp [shiftKeys, hij], rfl, rfl, ?_, ?_⟩ <;>
      · intro x
        rw [if_neg (by omega)]


/-- Effect of the child-shifting loop of `splitChild`. -/
theorem shiftChildren_spec (i : Nat) : ∀ (j1 : Nat) (par : Node ρ), i + 1 ≤ j1 →
    j1 < par.children.length →
    ∃ C, shiftChildren i j1 par = some { par with children := C } ∧
      C.length = par.children.length ∧
      (∀ x, C[x]? = if i + 1 < x ∧ x ≤ j1 then par.children[x - 1]? else par.children[x]?) := by
  intro j1
  induction j1 with
  | zero => intro par hi _; omega
  | succ j ih =>
    intro par hi hc
    by_cases hij : i + 1 ≤ j
    · have hc' : j < par.children.length := by omega
      obtain ⟨C, hs, hCl, hC⟩ := ih
        { par with children := par.children.set (j + 1) par.children[j] } hij (by simp; omega)
      refine ⟨C, ?_, by simpa using hCl, ?_⟩
      · simp [shiftChildren, hij, List.getElem?_eq_getElem hc', writeAt_of_lt _ hc]
        simpa using hs
      · intro x
        rw [hC x]
        simp only [List.getElem?_set]
        by_cases h1 : i + 1 < x ∧ x ≤ j
        · have h2 : i + 1 < x ∧ x ≤ j + 1 := by omega
          have h3 : ¬ (j + 1 = x - 1) := by omega
          simp [h1, h2, h3]
        · by_cases h4 : x = j + 1
          · subst h4
            have h2 : i + 1 < j + 1 ∧ j + 1 ≤ j + 1 := by omega
            simp [h1, h2, hc, List.getElem?_eq_getElem hc']
          · have h2 : ¬ (i + 1 < x ∧ x ≤ j + 1) := by omega
            have h3 : ¬ (j + 1 = x) := by omega
            simp [h1, h2, h3]
    · refine ⟨par.children, by simp [shiftChildren, hij], rfl, ?_⟩
      intro x
      rw [if_neg (by omega)]

/-- Effect of the first copy loop of `splitChild`. -/
theorem copyUpper_spec (child : Node ρ) (t : Nat) : ∀ (cnt j : Nat) (nw : Node ρ),
    j + cnt ≤ nw.keys.length → j + cnt ≤ nw.records.length →
    j + t + cnt ≤ child.keys.length → j + t + cnt ≤ child.records.length →
    ∃ K R, copyUpper child t cnt j nw = some { nw with keys := K, records := R } ∧
      K.length = nw.keys.length ∧ R.length = nw.records.length ∧
      (∀ x, K[x]? = if j ≤ x ∧ x < j + cnt then child.keys[x + t]? else nw.keys[x]?) ∧
      (child.leaf = true →
        ∀ x, R[x]? = if j ≤ x ∧ x < j + cnt then child.records[x + t]? else nw.records[x]?) ∧
      (child.leaf = false → R = nw.records) := by
  intro cnt
  induction cnt with
  | zero =>
    intro j nw _ _ _ _
    refine ⟨nw.keys, nw.records, by simp [copyUpper], rfl, rfl, ?_, ?_, fun _ => rfl⟩
    · intro x; rw [if_neg (by omega)]
    · intro _ x; rw [if_neg (by omega)]
  | succ cnt ih =>
    intro j nw hk hr hck hcr
    have hk1 : j < nw.keys.length := by omega
    have hr1 : j < nw.records.length := by omega
    have hck1 : j + t < child.keys.length := by omega
    have hcr1 : j + t < child.records.length := by omega
    cases hl : child.leaf with
    | true =>
      obtain ⟨K, R, hs, hKl, hRl, hK, hR, _⟩ := ih (j + 1)
        { nw with keys := nw.keys.set j child.keys[j + t],
                  records := nw.records.set j child.records[j + t] }
        (by simp; omega) (by simp; omega) (by omega) (by omega)
      refine ⟨K, R, ?_, by simpa using hKl, by simpa using hRl, ?_, ?_, fun h => by simp at h⟩
      · simp [copyUpper, hl, List.getElem?_eq_getElem hck1, List.getElem?_eq_getElem hcr1,
          writeAt_of_lt _ hk1, writeAt_of_lt _ hr1]
        simpa using hs
      · intro x
        rw [hK x]
        simp only [List.getElem?_set]
        by_cases h1 : j + 1 ≤ x ∧ x < j + 1 + cnt
        · have h2 : j ≤ x ∧ x < j + (cnt + 1) := by omega
          simp [h1, h2]
        · by_cases h4 : x = j
          · subst h4
            have h2 : x ≤ x ∧ x < x + (cnt + 1) := by omega
            simp [h1, h2, hk1, List.getElem?_eq_getElem hck1]
          · have h2 : ¬ (j ≤ x ∧ x < j + (cnt + 1)) := by omega
            have h3 : ¬ (j = x) := by omega
            simp [h1, h2, h3]
      · intro _ x
        rw [hR hl x]
        simp only [List.getElem?_set]
        by_cases h1 : j + 1 ≤ x ∧ x < j + 1 + cnt
        · have h2 : j ≤ x ∧ x < j + (cnt + 1) := by omega
          simp [h1, h2]
        · by_cases h4 : x = j
          · subst h4
            have h2 : x ≤ x ∧ x < x + (cnt + 1) := by omega
            simp [h1, h2, hr1, List.getElem?_eq_getElem hcr1]
          · have h2 : ¬ (j ≤ x ∧ x < j + (cnt + 1)) := by omega
            have h3 : ¬ (j = x) := by omega
            simp [h1, h2, h3]
    | false =>
      obtain ⟨K, R, hs, hKl, hRl, hK, _, hR⟩ := ih (j + 1)
        { nw with keys := nw.keys.set j child.keys[j + t] }
        (by simp; omega) (by simp; omega) (by omega) (by omega)
      refine ⟨K, R, ?_, by simpa using hKl, by simpa using hRl, ?_, fun h => by simp at h,
        fun _ => by simpa using hR hl⟩
      · simp [copyUpper, hl, List.getElem?_eq_getElem hck1, writeAt_of_lt _ hk1]
        simpa using hs
      · intro x
        rw [hK x]
        simp only [List.getElem?_set]
        by_cases h1 : j + 1 ≤ x ∧ x < j + 1 + cnt
        · have h2 : j ≤ x ∧ x < j + (cnt + 1) := by omega
          simp [h1, h2]
        · by_cases h4 : x = j
          · subst h4
            have h2 : x ≤ x ∧ x < x + (cnt + 1) := by omega
            simp [h1, h2, hk1, List.getElem?_eq_getElem hck1]
          · have h2 : ¬ (j ≤ x ∧ x < j + (cnt + 1)) := by omega
            have h3 : ¬ (j = x) := by omega
            simp [h1, h2, h3]

/-- Effect of the second copy loop of `splitChild`. -/
theorem copyChildren_spec (child : Node ρ) (t : Nat) : ∀ (cnt j : Nat) (nw : Node ρ),
    j + cnt ≤ nw.children.length → j + t + cnt ≤ child.children.length →
    ∃ C, copyChildren child t cnt j nw = some { nw with children := C } ∧
      C.length = nw.children.length ∧
      (∀ x, C[x]? = if j ≤ x ∧ x < j + cnt then child.children[x + t]? else nw.children[x]?) := by
  intro cnt
  induction cnt with
  | zero =>
    intro j nw _ _
    refine ⟨nw.children, by simp [copyChildren], rfl, ?_⟩
    intro x; rw [if_neg (by omega)]
  | succ cnt ih =>
    intro j nw hc hcc
    have hc1 : j < nw.children.length := by omega
    have hcc1 : j + t < child.children.length := by omega
    obtain ⟨C, hs, hCl, hC⟩ := ih (j + 1)
      { nw with children := nw.children.set j child.children[j + t] }
      (by simp; omega) (by omega)
    refine ⟨C, ?_, by simpa using hCl, ?_⟩
    · simp [copyChildren, List.getElem?_eq_getElem hcc1, writeAt_of_lt _ hc1]
      simpa using hs
    · intro x
      rw [hC x]
      simp only [List.getElem?_set]
      by_cases h1 : j + 1 ≤ x ∧ x < j + 1 + cnt
      · have h2 : j ≤ x ∧ x < j + (cnt + 1) := by omega
        simp [h1, h2]
      · by_cases h4 : x = j
        · subst h4
          have h2 : x ≤ x ∧ x < x + (cnt + 1) := by omega
          simp [h1, h2, hc1, List.getElem?_eq_getElem hcc1]
        · have h2 : ¬ (j ≤ x ∧ x < j + (cnt + 1)) := by omega
          have h3 : ¬ (j = x) := by omega
          simp [h1, h2, h3]


/-- Effect of the leaf loop of `insertNonFull`. -/
theorem leafShift_spec (key : Int) : ∀ (j1 : Nat) (nd : Node ρ),
    j1 < nd.keys.length → j1 < nd.records.length →
    ∃ pos K R, leafShift key j1 nd = some (pos, { nd with keys := K, records := R }) ∧
      pos ≤ j1 ∧ K.length = nd.keys.length ∧ R.length = nd.records.length ∧
      (∀ x, K[x]? = if pos < x ∧ x ≤ j1 then nd.keys[x - 1]? else nd.keys[x]?) ∧
      (∀ x, R[x]? = if pos < x ∧ x ≤ j1 then nd.records[x - 1]? else nd.records[x]?) ∧
      (∀ x k, pos ≤ x → x < j1 → nd.keys[x]? = some k → key < k) ∧
      (∀ k, 0 < pos → nd.keys[pos - 1]? = some k → ¬ key < k) := by
  intro j1
  induction j1 with
  | zero =>
    intro nd _ _
    refine ⟨0, nd.keys, nd.records, by simp [leafShift], le_refl _, rfl, rfl, ?_, ?_, ?_, ?_⟩
    · intro x; rw [if_neg (by omega)]
    · intro x; rw [if_neg (by omega)]
    · intro x k _ h; omega
    · intro k h; omega
  | succ j ih =>
    intro nd hk hr
    have hk' : j < nd.keys.length := by omega
    have hr' : j < nd.records.length := by omega
    by_cases hlt : key < nd.keys[j]
    · obtain ⟨pos, K, R, hs, hpos, hKl, hRl, hK, hR, hgt, hle⟩ := ih
        { nd with keys := nd.keys.set (j + 1) nd.keys[j],
                  records := nd.records.set (j + 1) nd.records[j] }
        (by simp; omega) (by simp; omega)
      have hset : ∀ x, x ≤ j → (nd.keys.set (j + 1) nd.keys[j])[x]? = nd.keys[x]? := by
        intro x hx
        have : ¬ (j + 1 = x) := by omega
        simp [List.getElem?_set, this]
      refine ⟨pos, K, R, ?_, by omega, by simpa using hKl, by simpa using hRl, ?_, ?_, ?_, ?_⟩
      · simp [leafShift, hlt, List.getElem?_eq_getElem hk', List.getElem?_eq_getElem hr',
          writeAt_of_lt _ hk, writeAt_of_lt _ hr]
        simpa using hs
      · intro x
        rw [hK x]
        simp only [List.getElem?_set]
        by_cases h1 : pos < x ∧ x ≤ j
        · have h2 : pos < x ∧ x ≤ j + 1 := by omega
          have h3 : ¬ (j + 1 = x - 1) := by omega
          simp [h1, h2, h3]
        · by_cases h4 : x = j + 1
          · subst h4
            have h2 : pos < j + 1 ∧ j + 1 ≤ j + 1 := by omega
            simp [h1, h2, hk, List.getElem?_eq_getElem hk']
          · have h2 : ¬ (pos < x ∧ x ≤ j + 1) := by omega
            have h3 : ¬ (j + 1 = x) := by omega
            simp [h1, h2, h3]
      · intro x
        rw [hR x]
        simp only [List.getElem?_set]
        by_cases h1 : pos < x ∧ x ≤ j
        · have h2 : pos < x ∧ x ≤ j + 1 := by omega
          have h3 : ¬ (j + 1 = x - 1) := by omega
          simp [h1, h2, h3]
        · by_cases h4 : x = j + 1
          · subst h4
            have h2 : pos < j + 1 ∧ j + 1 ≤ j + 1 := by omega
            simp [h1, h2, hr, List.getElem?_eq_getElem hr']
          · have h2 : ¬ (pos < x ∧ x ≤ j + 1) := by omega
            have h3 : ¬ (j + 1 = x) := by omega
            simp [h1, h2, h3]
      · intro x k hx hxj hxk
        by_cases h4 : x = j
        · subst h4
          rw [List.getElem?_eq_getElem hk'] at hxk
          cases hxk
          exact hlt
        · exact hgt x k hx (by omega) (by rw [← hxk]; exact hset x (by omega))
      · intro k hp hk1
        exact hle k hp (by rw [← hk1]; exact hset _ (by omega))
    · refine ⟨j + 1, nd.keys, nd.records, ?_, le_refl _, rfl, rfl, ?_, ?_, ?_, ?_⟩
      · simp [leafShift, hlt, List.getElem?_eq_getElem hk']
      · intro x; rw [if_neg (by omega)]
      · intro x; rw [if_neg (by omega)]
      · intro x k h1 h2; omega
      · intro k _ hk1
        simp [List.getElem?_eq_getElem hk'] at hk1
        subst hk1
        exact hlt

/-- Effect of the internal loop of `insertNonFull`. -/
theorem findChild_spec (key : Int) (nd : Node ρ) : ∀ (j1 : Nat), j1 ≤ nd.keys.length →
    ∃ i, findChild key nd j1 = some i ∧ i ≤ j1 ∧
      (∀ x k, i ≤ x → x < j1 → nd.keys[x]? = some k → key < k) ∧
      (∀ k, 0 < i → nd.keys[i - 1]? = some k → ¬ key < k) := by
  intro j1
  induction j1 with
  | zero =>
    intro _
    exact ⟨0, by simp [findChild], le_refl _, fun x k _ h => by omega, fun k h => by omega⟩
  | succ j ih =>
    intro hk
    have hk' : j < nd.keys.length := by omega
    by_cases hlt : key < nd.keys[j]
    · obtain ⟨i, hs, hi, hgt, hle⟩ := ih (by omega)
      refine ⟨i, ?_, by omega, ?_, hle⟩
      · simp [findChild, hlt, List.getElem?_eq_getElem hk']
        exact hs
      · intro x k hx hxj hxk
        by_cases h4 : x = j
        · subst h4
          rw [List.getElem?_eq_getElem hk'] at hxk
          cases hxk
          exact hlt
        · exact hgt x k hx (by omega) hxk
    · refine ⟨j + 1, ?_, le_refl _, fun x k h1 h2 => by omega, ?_⟩
      · simp [findChild, hlt, List.getElem?_eq_getElem hk']
      · intro k _ hk1
        simp [List.getElem?_eq_getElem hk'] at hk1
        subst hk1
        exact hlt

/-- Effect of the scanning loop of `search`. -/
theorem searchPos_spec (key : Int) (nd : Node ρ) : ∀ (cnt i : Nat), i + cnt ≤ nd.keys.length →
    ∃ i1, searchPos key nd cnt i = some i1 ∧ i ≤ i1 ∧ i1 ≤ i + cnt ∧
      (∀ x k, i ≤ x → x < i1 → nd.keys[x]? = some k → k < key) ∧
      (∀ k, i1 < i + cnt → nd.keys[i1]? = some k → ¬ k < key) := by
  intro cnt
  induction cnt with
  | zero =>
    intro i _
    exact ⟨i, by simp [searchPos], le_refl _, le_refl _, fun x k h1 h2 => by omega,
      fun k h => by omega⟩
  | succ cnt ih =>
    intro i hk
    have hk' : i < nd.keys.length := by omega
    by_cases hgt : key > nd.keys[i]
    · obtain ⟨i1, hs, h1, h2, hlt, hge⟩ := ih (i + 1) (by omega)
      refine ⟨i1, ?_, by omega, by omega, ?_, ?_⟩
      · simp [searchPos, hgt, List.getElem?_eq_getElem hk']
        exact hs
      · intro x k hx hx1 hxk
        by_cases h4 : x = i
        · subst h4
          rw [List.getElem?_eq_getElem hk'] at hxk
          cases hxk
          exact hgt
        · exact hlt x k (by omega) hx1 hxk
      · intro k hlt1 hk1
        exact hge k (by omega) hk1
    · refine ⟨i, ?_, le_refl _, by omega, fun x k h1 h2 => by omega, ?_⟩
      · simp [searchPos, hgt, List.getElem?_eq_getElem hk']
      · intro k _ hk1
        simp [List.getElem?_eq_getElem hk'] at hk1
        subst hk1
        exact hgt

/-- The entry loop of the scan reads the first `n` keys and records. -/
theorem leafEntries_spec (nd : Node ρ) : ∀ (cnt i : Nat), i + cnt ≤ nd.keys.length →
    i + cnt ≤ nd.records.length →
    leafEntries nd cnt i = some (((nd.keys.drop i).take cnt).zip ((nd.records.drop i).take cnt)) := by
  intro cnt
  induction cnt with
  | zero => intro i _ _; simp [leafEntries]
  | succ cnt ih =>
    intro i hk hr
    have hk' : i < nd.keys.length := by omega
    have hr' : i < nd.records.length := by omega
    simp only [leafEntries, List.getElem?_eq_getElem hk', List.getElem?_eq_getElem hr',
      ih (i + 1) (by omega) (by omega)]
    rw [List.drop_eq_getElem_cons hk', List.drop_eq_getElem_cons hr']
    rfl

/-! ## List facts -/


theorem length_insAt {α : Type} (l : List α) (i : Nat) (v : α) :
    (insAt l i v).length = l.length + 1 := by
  simp only [insAt, List.length_append, List.length_cons, List.length_take, List.length_drop]
  omega

theorem getElem?_insAt {α : Type} (l : List α) (i : Nat) (v : α) (hi : i ≤ l.length) (x : Nat) :
    (insAt l i v)[x]? = if x < i then l[x]? else if x = i then some v else l[x - 1]? := by
  unfold insAt
  rw [List.getElem?_append]
  have hl : (List.take i l).length = i := by simp [hi]
  rw [hl]
  by_cases h1 : x < i
  · simp [h1, List.getElem?_take]
  · by_cases h2 : x = i
    · subst h2; simp
    · rw [if_neg h1, if_neg h1, if_neg h2]
      obtain ⟨d, rfl⟩ : ∃ d, x = i + (d + 1) := ⟨x - i - 1, by omega⟩
      have e1 : i + (d + 1) - i = d + 1 := by omega
      have e2 : i + (d + 1) - 1 = i + d := by omega
      rw [e1, e2]
      simp

/-- A right shift of `l[i..n-1]` followed by a write at `i`, seen on the first
`n + 1` slots. -/
theorem take_shift_write {α : Type} (l K : List α) (i n : Nat) (v : α) (hi : i ≤ n)
    (hn : n < l.length) (hKl : K.length = l.length)
    (hK : ∀ x, K[x]? = if i < x ∧ x ≤ n then l[x - 1]? else l[x]?) :
    (K.set i v).take (n + 1) = insAt (l.take n) i v := by
  apply List.ext_getElem?
  intro x
  rw [getElem?_insAt _ _ _ (by simp; omega), List.getElem?_take, List.getElem?_set, hK x]
  by_cases h1 : x < i
  · have h2 : ¬ (i = x) := by omega
    have h3 : x < n + 1 := by omega
    have h4 : ¬ (i < x ∧ x ≤ n) := by omega
    have h5 : x < n := by omega
    simp [h1, h2, h3, h4, h5, List.getElem?_take]
  · by_cases h2 : x = i
    · subst h2
      have h3 : x < n + 1 := by omega
      have h4 : x < K.length := by omega
      simp [h3, h4]
    · have h3 : ¬ (i = x) := by omega
      by_cases h6 : x < n + 1
      · have h4 : i < x ∧ x ≤ n := by omega
        have h5 : x - 1 < n := by omega
        simp [h1, h2, h3, h4, h5, h6, List.getElem?_take]
      · have h5 : ¬ (x - 1 < n) := by omega
        simp [h1, h2, h6, h5, List.getElem?_take]

/-- The slots written by a copy loop from offset `t`, seen as a prefix. -/
theorem take_copy {α : Type} (src K dst : List α) (t cnt : Nat)
    (hK : ∀ x, K[x]? = if 0 ≤ x ∧ x < 0 + cnt then src[x + t]? else dst[x]?) :
    K.take cnt = (src.drop t).take cnt := by
  apply List.ext_getElem?
  intro x
  rw [List.getElem?_take, List.getElem?_take, hK x, List.getElem?_drop]
  by_cases h1 : x < cnt
  · have h2 : 0 ≤ x ∧ x < 0 + cnt := by omega
    simp [h1, h2, Nat.add_comm]
  · simp [h1]

theorem eq_some_getD {α : Type} {o : Option α} (d : α) (h : o.isSome = true) :
    o = some (o.getD d) := by
  cases o with
  | none => cases h
  | some a => rfl

theorem getElem?_exists {α : Type} {l : List α} {i : Nat} (h : i < l.length) :
    ∃ x, l[i]? = some x :=
  ⟨l[i], List.getElem?_eq_getElem h⟩

/-! ## `splitChild` -/

theorem splitAlloc_spec (h : Heap ρ) (c : Nat) (C : Node ρ) (hc : h[c]? = some C)
    (ht : 1 ≤ C.t) (hCk : C.keys.length = 2 * C.t - 1) (hCr : C.records.length = 2 * C.t - 1)
    (hCc : C.children.length = 2 * C.t) :
    ∃ N3 : Node ρ, splitAlloc h c = some (h.length, h ++ [N3]) ∧
      N3.t = C.t ∧ N3.leaf = C.leaf ∧ N3.n = C.t - 1 ∧ N3.next = none ∧
      N3.keys.length = 2 * C.t - 1 ∧ N3.records.length = 2 * C.t - 1 ∧
      N3.children.length = 2 * C.t ∧
      N3.keys.take (C.t - 1) = (C.keys.drop C.t).take (C.t - 1) ∧
      (C.leaf = true → N3.records.take (C.t - 1) = (C.records.drop C.t).take (C.t - 1)) ∧
      (C.leaf = false → N3.records = List.replicate (2 * C.t - 1) Slot.garbage) ∧
      (C.leaf = false → N3.children.take C.t = (C.children.drop C.t).take C.t) := by
  obtain ⟨N0, hN0⟩ : ∃ N0 : Node ρ, N0 = freshNode C.t C.leaf := ⟨_, rfl⟩
  have hN0k : N0.keys.length = 2 * C.t - 1 := by simp [hN0, freshNode]
  have hN0r : N0.records.length = 2 * C.t - 1 := by simp [hN0, freshNode]
  have hN0c : N0.children.length = 2 * C.t := by simp [hN0, freshNode]
  obtain ⟨K, R, hcu, hKl, hRl, hK, hRleaf, hRint⟩ := copyUpper_spec C C.t (C.t - 1) 0
    { N0 with n := C.t - 1 }
    (by simp [hN0k]; omega) (by simp [hN0r]; omega) (by omega) (by omega)
  dsimp only at hcu hKl hRl hK hRleaf hRint
  have hfresh : (h ++ [N0])[h.length]? = some N0 := by simp
  have hstore : ∀ nd : Node ρ, store (h ++ [N0]) h.length nd = some (h ++ [nd]) := by
    intro nd
    simp [store]
  have hKt := take_copy C.keys K _ C.t (C.t - 1) hK
  rcases Bool.eq_false_or_eq_true C.leaf with hl | hl
  · refine ⟨{ N0 with n := C.t - 1, keys := K, records := R }, ?_, by simp [hN0, freshNode],
      by simp [hN0, freshNode, hl], rfl, by simp [hN0, freshNode], by rw [← hN0k]; exact hKl,
      by rw [← hN0r]; exact hRl, hN0c, hKt, ?_, by simp [hl], by simp [hl]⟩
    · simp only [splitAlloc, hc, createNode]
      rw [← hN0]
      simp only [hfresh, hcu, hl, if_true, hstore]
      rfl
    · intro _
      exact take_copy C.records R _ C.t (C.t - 1) (hRleaf hl)
  · obtain ⟨Ch, hcc, hChl, hCh⟩ := copyChildren_spec C C.t C.t 0
      { N0 with n := C.t - 1, keys := K, records := R }
      (by simp [hN0c]; omega) (by omega)
    dsimp only at hcc hChl hCh
    refine ⟨{ N0 with n := C.t - 1, keys := K, records := R, children := Ch }, ?_,
      by simp [hN0, freshNode],
      by simp [hN0, freshNode, hl], rfl, by simp [hN0, freshNode], by rw [← hN0k]; exact hKl,
      by rw [← hN0r]; exact hRl, by rw [← hN0c]; exact hChl, hKt, by simp [hl], ?_, ?_⟩
    · simp only [splitAlloc, hc, createNode]
      rw [← hN0]
      simp only [hfresh, hcu, hl, hcc, hstore]
      rfl
    · intro _
      rw [hRint hl]
      simp [hN0, freshNode]
    · intro _
      exact take_copy C.children Ch _ C.t C.t hCh
theorem splitTrunc_spec (h : Heap ρ) (c t : Nat) (C : Node ρ) (hc : h[c]? = some C) :
    splitTrunc h c t = some (h.set c { C with n := t }) := by
  have hcl : c < h.length := (List.getElem?_eq_some_iff.1 hc).1
  simp [splitTrunc, hc, store, hcl]

theorem splitShift_spec (h : Heap ρ) (p i nw : Nat) (P : Node ρ) (hp : h[p]? = some P)
    (hPc : P.n + 1 < P.children.length) (hPk : P.n < P.keys.length)
    (hPr : P.n < P.records.length) (hi : i ≤ P.n) :
    ∃ K R Ch, splitShift h p i nw =
        some (h.set p { P with keys := K, records := R, children := Ch }) ∧
      K.length = P.keys.length ∧ R.length = P.records.length ∧ Ch.length = P.children.length ∧
      (∀ v, (K.set i v).take (P.n + 1) = insAt (P.keys.take P.n) i v) ∧
      (∀ v, (R.set i v).take (P.n + 1) = insAt (P.records.take P.n) i v) ∧
      Ch.take (P.n + 2) = insAt (P.children.take (P.n + 1)) (i + 1) (some nw) := by
  have hpl : p < h.length := (List.getElem?_eq_some_iff.1 hp).1
  obtain ⟨Ch0, hsc, hCh0l, hCh0⟩ := shiftChildren_spec i (P.n + 1) P (by omega) hPc
  obtain ⟨K, R, hsk, hKl, hRl, hK, hR⟩ := shiftKeys_spec i P.n
    { P with children := Ch0.set (i + 1) (some nw) } hi hPk hPr
  refine ⟨K, R, Ch0.set (i + 1) (some nw), ?_, hKl, hRl, by simpa using hCh0l, ?_, ?_, ?_⟩
  · have hw : writeAt Ch0 (i + 1) (some nw) = some (Ch0.set (i + 1) (some nw)) :=
      writeAt_of_lt _ (by omega)
    simp only [splitShift, hp, hsc, hw, hsk, store, hpl, if_true]
  · intro v
    exact take_shift_write P.keys K i P.n v hi hPk hKl hK
  · intro v
    exact take_shift_write P.records R i P.n v hi hPr hRl hR
  · exact take_shift_write P.children Ch0 (i + 1) (P.n + 1) (some nw) (by omega) hPc hCh0l hCh0

theorem splitPromote_spec (h : Heap ρ) (p i c t : Nat) (P C : Node ρ) (km : Int) (rm : Slot ρ)
    (hp : h[p]? = some P) (hc : h[c]? = some C)
    (hkm : C.keys[t - 1]? = some km)
    (hrm : (if C.leaf then C.records[t - 1]? else some Slot.null) = some rm)
    (hPk : i < P.keys.length) (hPr : i < P.records.length) :
    splitPromote h p i c t = some (h.set p
      { P with keys := P.keys.set i km, records := P.records.set i rm, n := P.n + 1 }) := by
  have hpl : p < h.length := (List.getElem?_eq_some_iff.1 hp).1
  simp only [splitPromote, hp, hc, hkm, hrm, writeAt_of_lt _ hPk, writeAt_of_lt _ hPr, store,
    hpl, if_true]

theorem splitLink_leaf (h : Heap ρ) (c nw : Nat) (C N : Node ρ)
    (hc : h[c]? = some C) (hn : h[nw]? = some N) (hne : nw ≠ c) (hl : C.leaf = true) :
    splitLink h c nw = some ((h.set nw { N with next := C.next }).set c
      { C with next := some nw }) := by
  have hcl : c < h.length := (List.getElem?_eq_some_iff.1 hc).1
  have hnl : nw < h.length := (List.getElem?_eq_some_iff.1 hn).1
  have hc2 : (h.set nw { N with next := C.next })[c]? = some C := by
    rw [List.getElem?_set, if_neg hne, hc]
  simp only [splitLink, hc, hl, if_true, hn, store, hnl, hc2, List.length_set, hcl]

theorem splitLink_internal (h : Heap ρ) (c nw : Nat) (C : Node ρ)
    (hc : h[c]? = some C) (hl : C.leaf = false) :
    splitLink h c nw = some h := by
  simp [splitLink, hc, hl]

theorem splitChild_spec (h : Heap ρ) (p i c : Nat) (P C : Node ρ)
    (hp : h[p]? = some P) (hc : h[c]? = some C) (hpc : p ≠ c)
    (ht : 1 ≤ C.t) (hCk : C.keys.length = 2 * C.t - 1) (hCr : C.records.length = 2 * C.t - 1)
    (hCc : C.children.length = 2 * C.t)
    (hPc : P.n + 1 < P.children.length) (hPk : P.n < P.keys.length)
    (hPr : P.n < P.records.length) (hi : i ≤ P.n) :
    ∃ h1 P1 C1 N1 km rm, splitChild h p i c = some h1 ∧ SplitOut h p i c P C h1 P1 C1 N1 km rm := by
  have hpl : p < h.length := (List.getElem?_eq_some_iff.1 hp).1
  have hcl : c < h.length := (List.getElem?_eq_some_iff.1 hc).1
  obtain ⟨N3, hA, hN3t, hN3leaf, hN3n, hN3next, hN3k, hN3r, hN3c, hN3keys, hN3recs, hN3ri, hN3ch⟩ :=
    splitAlloc_spec h c C hc ht hCk hCr hCc
  -- arena after the allocation
  have h2c : (h ++ [N3])[c]? = some C := by rw [List.getElem?_append_left hcl]; exact hc
  have hB := splitTrunc_spec (h ++ [N3]) c C.t C h2c
  have h3p : ((h ++ [N3]).set c { C with n := C.t })[p]? = some P := by
    rw [List.getElem?_set, if_neg (Ne.symm hpc), List.getElem?_append_left hpl]; exact hp
  obtain ⟨K, R, Ch, hS, hKl, hRl, hChl, hKt, hRt, hCht⟩ :=
    splitShift_spec _ p i h.length P h3p hPc hPk hPr hi
  obtain ⟨P3, hP3⟩ : ∃ P3 : Node ρ, P3 = { P with keys := K, records := R, children := Ch } :=
    ⟨_, rfl⟩
  rw [← hP3] at hS
  obtain ⟨h3, hh3⟩ : ∃ h3 : Heap ρ, h3 = (h ++ [N3]).set c { C with n := C.t } := ⟨_, rfl⟩
  rw [← hh3] at hS h3p hB
  have h3len : h3.length = h.length + 1 := by simp [hh3]
  have h4p : (h3.set p P3)[p]? = some P3 := by
    rw [List.getElem?_set, if_pos rfl, if_pos (by omega)]
  have h4c : (h3.set p P3)[c]? = some { C with n := C.t } := by
    rw [List.getElem?_set, if_neg hpc, hh3, List.getElem?_set, if_pos rfl,
      if_pos (by simp; omega)]
  have hkm : ∃ km, C.keys[C.t - 1]? = some km := getElem?_exists (by omega)
  obtain ⟨km, hkm⟩ := hkm
  have hrm : ∃ rm, (if C.leaf then C.records[C.t - 1]? else some Slot.null) = some rm := by
    rcases Bool.eq_false_or_eq_true C.leaf with hl | hl
    · obtain ⟨r, hr⟩ := getElem?_exists (l := C.records) (i := C.t - 1) (by omega)
      exact ⟨r, by simp [hl, hr]⟩
    · exact ⟨Slot.null, by simp [hl]⟩
  obtain ⟨rm, hrm⟩ := hrm
  have hD := splitPromote_spec (h3.set p P3) p i c C.t P3 { C with n := C.t } km rm h4p h4c
    hkm hrm (by rw [hP3]; simp only; omega) (by rw [hP3]; simp only; omega)
  rw [List.set_set] at hD
  obtain ⟨P5, hP5⟩ : ∃ P5 : Node ρ,
      P5 = { P3 with keys := P3.keys.set i km, records := P3.records.set i rm, n := P3.n + 1 } :=
    ⟨_, rfl⟩
  rw [← hP5] at hD
  have h5c : (h3.set p P5)[c]? = some { C with n := C.t } := by
    rw [List.getElem?_set, if_neg hpc, hh3, List.getElem?_set, if_pos rfl,
      if_pos (by simp; omega)]
  have h5n : (h3.set p P5)[h.length]? = some N3 := by
    rw [List.getElem?_set, if_neg (by omega), hh3, List.getElem?_set, if_neg (by omega)]
    simp
  have h5p : (h3.set p P5)[p]? = some P5 := by
    rw [List.getElem?_set, if_pos rfl, if_pos (by omega)]
  have h5f : ∀ q, q ≠ p → q ≠ c → q ≠ h.length → (h3.set p P5)[q]? = h[q]? := by
    intro q h1 h2 h3'
    rw [List.getElem?_set, if_neg (Ne.symm h1), hh3, List.getElem?_set, if_neg (Ne.symm h2)]
    by_cases hq : q < h.length
    · exact List.getElem?_append_left hq
    · rw [List.getElem?_eq_none (by simp; omega), List.getElem?_eq_none (by omega)]
  have hstart : splitChild h p i c = splitLink (h3.set p P5) c h.length := by
    simp only [splitChild, hc, hA, hB, hS, hD]
  -- facts on the parent
  have hP5ks : P5.ks = insAt P.ks i km := by
    simp only [Node.ks, hP5, hP3]; exact hKt km
  have hP5rs : P5.rs = insAt P.rs i rm := by
    simp only [Node.rs, hP5, hP3]; exact hRt rm
  have hP5cs : P5.cs = insAt P.cs (i + 1) (some h.length) := by
    simp only [Node.cs, hP5, hP3]; exact hCht
  rcases Bool.eq_false_or_eq_true C.leaf with hl | hl
  · -- leaf: the chain is re-linked
    have hE := splitLink_leaf (h3.set p P5) c h.length { C with n := C.t } N3 h5c h5n
      (by omega) hl
    refine ⟨_, P5, { C with n := C.t, next := some h.length }, { N3 with next := C.next },
      km, rm, hstart.trans hE, ?_⟩
    refine
      { len := by simp [h3len]
        atP := ?_
        atC := ?_
        atN := ?_
        frame := ?_
        med := hkm
        rec_leaf := fun _ => by simpa [hl] using hrm
        rec_int := fun h' => by simp [hl] at h'
        C_eq := by simp [hl]
        N_t := hN3t
        N_leaf := hN3leaf
        N_n := hN3n
        N_next := by simp [hl]
        N_klen := hN3k
        N_rlen := hN3r
        N_clen := hN3c
        N_keys := hN3keys
        N_recs := hN3recs
        N_recs_int := hN3ri
        N_chld := hN3ch
        P_t := by simp [hP5, hP3]
        P_leaf := by simp [hP5, hP3]
        P_next := by simp [hP5, hP3]
        P_n := by simp [hP5, hP3]
        P_klen := by simp [hP5, hP3, hKl]
        P_rlen := by simp [hP5, hP3, hRl]
        P_clen := by simp [hP5, hP3, hChl]
        P_ks := hP5ks
        P_rs := hP5rs
        P_cs := hP5cs }
    · rw [List.getElem?_set, if_neg (Ne.symm hpc), List.getElem?_set, if_neg (by omega)]
      exact h5p
    · rw [List.getElem?_set, if_pos rfl, if_pos (by simp; omega)]
    · rw [List.getElem?_set, if_neg (by omega), List.getElem?_set, if_pos rfl,
        if_pos (by simp; omega)]
    · intro q h1 h2 h3'
      rw [List.getElem?_set, if_neg (Ne.symm h2), List.getElem?_set, if_neg (Ne.symm h3')]
      exact h5f q h1 h2 h3'
  · have hE := splitLink_internal (h3.set p P5) c h.length { C with n := C.t } h5c hl
    refine ⟨_, P5, { C with n := C.t }, N3, km, rm, hstart.trans hE, ?_⟩
    exact
      { len := by simp [h3len]
        atP := h5p
        atC := h5c
        atN := h5n
        frame := h5f
        med := hkm
        rec_leaf := fun h' => by simp [hl] at h'
        rec_int := fun _ => by simpa [hl] using hrm.symm
        C_eq := by simp [hl]
        N_t := hN3t
        N_leaf := hN3leaf
        N_n := hN3n
        N_next := by simp [hl, hN3next]
        N_klen := hN3k
        N_rlen := hN3r
        N_clen := hN3c
        N_keys := hN3keys
        N_recs := hN3recs
        N_recs_int := hN3ri
        N_chld := hN3ch
        P_t := by simp [hP5, hP3]
        P_leaf := by simp [hP5, hP3]
        P_next := by simp [hP5, hP3]
        P_n := by simp [hP5, hP3]
        P_klen := by simp [hP5, hP3, hKl]
        P_rlen := by simp [hP5, hP3, hRl]
        P_clen := by simp [hP5, hP3, hChl]
        P_ks := hP5ks
        P_rs := hP5rs
        P_cs := hP5cs }

/-! ## Intervals, slots and the halves of a split node -/

theorem mem_insAt {α : Type} {l : List α} {i : Nat} {v x : α} :
    x ∈ insAt l i v ↔ x = v ∨ x ∈ l := by
  have h : x ∈ l ↔ x ∈ l.take i ∨ x ∈ l.drop i := by
    conv_lhs => rw [← List.take_append_drop i l]
    exact List.mem_append
  simp only [insAt, List.mem_append, List.mem_cons, h]
  tauto

theorem sorted_get {l : List Int} (hs : l.Pairwise (fun a b => a < b)) {i j : Nat} {a b : Int}
    (ha : l[i]? = some a) (hb : l[j]? = some b) (hij : i < j) : a < b := by
  obtain ⟨hi, rfl⟩ := List.getElem?_eq_some_iff.1 ha
  obtain ⟨hj, rfl⟩ := List.getElem?_eq_some_iff.1 hb
  exact List.pairwise_iff_getElem.1 hs i j hi hj hij

theorem sorted_get_le {l : List Int} (hs : l.Pairwise (fun a b => a < b)) {i j : Nat} {a b : Int}
    (ha : l[i]? = some a) (hb : l[j]? = some b) (hij : i ≤ j) : a ≤ b := by
  rcases Nat.lt_or_eq_of_le hij with h | h
  · exact le_of_lt (sorted_get hs ha hb h)
  · subst h
    rw [ha] at hb
    cases hb
    exact le_refl _

theorem pairwise_insAt {l : List Int} (hs : l.Pairwise (fun a b => a < b)) (i : Nat) (v : Int)
    (h1 : ∀ a ∈ l.take i, a < v) (h2 : ∀ b ∈ l.drop i, v < b) :
    (insAt l i v).Pairwise (fun a b => a < b) := by
  unfold insAt
  rw [List.pairwise_append]
  refine ⟨hs.sublist (List.take_sublist _ _), ?_, ?_⟩
  · rw [List.pairwise_cons]
    exact ⟨h2, hs.sublist (List.drop_sublist _ _)⟩
  · intro a ha b hb
    rcases List.mem_cons.1 hb with rfl | hb
    · exact h1 a ha
    · exact lt_trans (h1 a ha) (h2 b hb)

theorem slot_lower {ks : List Int} (hs : ks.Pairwise (fun a b => a < b)) {lo hi1 : Option Int}
    {i j : Nat} {x a : Int} (hx : inRange (slotLo lo ks i) hi1 x) (hi : i ≤ ks.length)
    (hj : j < i) (ha : ks[j]? = some a) : a < x := by
  have hi0 : i ≠ 0 := by omega
  obtain ⟨b, hb⟩ := getElem?_exists (l := ks) (i := i - 1) (by omega)
  have h1 := hx.1 b (by simp only [slotLo, if_neg hi0]; exact hb)
  exact lt_of_le_of_lt (sorted_get_le hs ha hb (by omega)) h1

theorem slot_upper {ks : List Int} (hs : ks.Pairwise (fun a b => a < b)) {lo1 hi : Option Int}
    {i j : Nat} {x b : Int} (hx : inRange lo1 (slotHi hi ks i) x)
    (hj : i ≤ j) (hb : ks[j]? = some b) : x ≤ b := by
  have hjl : j < ks.length := (List.getElem?_eq_some_iff.1 hb).1
  have hil : i < ks.length := by omega
  obtain ⟨c, hc⟩ := getElem?_exists hil
  have h1 := hx.2 c (by simp only [slotHi, if_pos hil]; exact hc)
  exact le_trans h1 (sorted_get_le hs hc hb hj)

/-- A point of a child slot's interval lies in the node's own interval. -/
theorem slot_sub_range {ks : List Int} {lo hi : Option Int} {i : Nat} {x : Int}
    (hk : ∀ k ∈ ks, inRange lo hi k) (hi' : i ≤ ks.length)
    (hx : inRange (slotLo lo ks i) (slotHi hi ks i) x) : inRange lo hi x := by
  constructor
  · intro a ha
    by_cases hi0 : i = 0
    · exact hx.1 a (by simp only [slotLo, if_pos hi0]; exact ha)
    · obtain ⟨b, hb⟩ := getElem?_exists (l := ks) (i := i - 1) (by omega)
      have h1 := hx.1 b (by simp only [slotLo, if_neg hi0]; exact hb)
      exact lt_trans ((hk _ (List.getElem?_mem hb)).1 a ha) h1
  · intro b hb
    by_cases hil : i < ks.length
    · obtain ⟨c, hc⟩ := getElem?_exists hil
      have h1 := hx.2 c (by simp only [slotHi, if_pos hil]; exact hc)
      exact le_trans h1 ((hk _ (List.getElem?_mem hc)).2 b hb)
    · exact hx.2 b (by simp only [slotHi, if_neg hil]; exact hb)

/-- Two different child slots of a node have no point in common. -/
theorem slot_disjoint {ks : List Int} (hs : ks.Pairwise (fun a b => a < b)) {lo hi : Option Int}
    {i j : Nat} {x : Int} (hj : j ≤ ks.length)
    (hxi : inRange (slotLo lo ks i) (slotHi hi ks i) x)
    (hxj : inRange (slotLo lo ks j) (slotHi hi ks j) x) (hij : i < j) : False := by
  obtain ⟨b, hb⟩ := getElem?_exists (l := ks) (i := j - 1) (by omega)
  have h1 := slot_lower hs hxj hj (by omega : j - 1 < j) hb
  have h2 := slot_upper hs hxi (by omega : i ≤ j - 1) hb
  omega

theorem NodeOK.ks_length {t : Nat} {nd : Node ρ} (h : NodeOK t nd) : nd.ks.length = nd.n := by
  simp only [Node.ks, List.length_take, h.klen]
  have := h.n_le
  omega

theorem NodeOK.rs_length {t : Nat} {nd : Node ρ} (h : NodeOK t nd) : nd.rs.length = nd.n := by
  simp only [Node.rs, List.length_take, h.rlen]
  have := h.n_le
  omega

theorem NodeOK.cs_length {t : Nat} {nd : Node ρ} (h : NodeOK t nd) (ht : 1 ≤ t) :
    nd.cs.length = nd.n + 1 := by
  simp only [Node.cs, List.length_take, h.clen]
  have := h.n_le
  omega

theorem SplitOut.cases {h : Heap ρ} {p i c : Nat} {P C : Node ρ} {h1 : Heap ρ}
    {P1 C1 N1 : Node ρ} {km : Int} {rm : Slot ρ}
    (hS : SplitOut h p i c P C h1 P1 C1 N1 km rm) (q : Nat) (nd : Node ρ)
    (hq : h1[q]? = some nd) :
    (q = p ∧ nd = P1) ∨ (q = c ∧ nd = C1) ∨ (q = h.length ∧ nd = N1) ∨
      (q ≠ p ∧ q ≠ c ∧ q ≠ h.length ∧ h[q]? = some nd) := by
  by_cases h1' : q = p
  · left; subst h1'; rw [hS.atP] at hq; exact ⟨rfl, (Option.some.inj hq).symm⟩
  · by_cases h2 : q = c
    · right; left; subst h2; rw [hS.atC] at hq; exact ⟨rfl, (Option.some.inj hq).symm⟩
    · by_cases h3 : q = h.length
      · right; right; left; subst h3; rw [hS.atN] at hq; exact ⟨rfl, (Option.some.inj hq).symm⟩
      · right; right; right
        exact ⟨h1', h2, h3, by rw [← hS.frame q h1' h2 h3]; exact hq⟩

/-- The halves of a split full node, as views. -/
theorem SplitOut.views {h : Heap ρ} {p i c : Nat} {P C : Node ρ} {h1 : Heap ρ}
    {P1 C1 N1 : Node ρ} {km : Int} {rm : Slot ρ} {t : Nat}
    (hS : SplitOut h p i c P C h1 P1 C1 N1 km rm) (hC : NodeOK t C) (ht : 2 ≤ t)
    (hn : C.n = 2 * t - 1) :
    C1.ks = C.ks.take t ∧ C1.rs = C.rs.take t ∧ C1.cs = C.cs.take (t + 1) ∧
    N1.ks = C.ks.drop t ∧ (C.leaf = true → N1.rs = C.rs.drop t) ∧
    (C.leaf = false → N1.cs = C.cs.drop t) ∧ C.ks[t - 1]? = some km := by
  have hCt := hC.t_eq
  have e1 : min t (2 * t - 1) = t := by omega
  have e2 : min (t + 1) (2 * t - 1 + 1) = t + 1 := by omega
  refine ⟨?_, ?_, ?_, ?_, ?_, ?_, ?_⟩
  · simp only [Node.ks, hS.C_eq, hCt, hn, List.take_take, e1]
  · simp only [Node.rs, hS.C_eq, hCt, hn, List.take_take, e1]
  · simp only [Node.cs, hS.C_eq, hCt, hn, List.take_take, e2]
  · have := hS.N_keys
    rw [hCt] at this
    simp only [Node.ks, hS.N_n, hCt, hn, this]
    have a : List.take (t - 1) (List.drop t C.keys) = List.drop t C.keys :=
      List.take_of_length_le (by simp [hC.klen]; omega)
    have b : List.take (2 * t - 1) C.keys = C.keys := List.take_of_length_le (by rw [hC.klen])
    rw [a, b]
  · intro hl
    have := hS.N_recs hl
    rw [hCt] at this
    simp only [Node.rs, hS.N_n, hCt, hn, this]
    have a : List.take (t - 1) (List.drop t C.records) = List.drop t C.records :=
      List.take_of_length_le (by simp [hC.rlen]; omega)
    have b : List.take (2 * t - 1) C.records = C.records :=
      List.take_of_length_le (by rw [hC.rlen])
    rw [a, b]
  · intro hl
    have := hS.N_chld hl
    rw [hCt] at this
    have e3 : t - 1 + 1 = t := by omega
    simp only [Node.cs, hS.N_n, hCt, hn, this, e3]
    have a : List.take t (List.drop t C.children) = List.drop t C.children :=
      List.take_of_length_le (by simp [hC.clen]; omega)
    have b : List.take (2 * t - 1 + 1) C.children = C.children :=
      List.take_of_length_le (by rw [hC.clen]; omega)
    rw [a, b]
  · have := hS.med
    rw [hCt] at this
    simp only [Node.ks, hn]
    rw [List.take_of_length_le (by rw [hC.klen])]
    exact this

theorem slotLo_insAt_le {lo : Option Int} {ks : List Int} {i j : Nat} (v : Int)
    (hi : i ≤ ks.length) (hj : j ≤ i) : slotLo lo (insAt ks i v) j = slotLo lo ks j := by
  unfold slotLo
  by_cases h0 : j = 0
  · rw [if_pos h0, if_pos h0]
  · rw [if_neg h0, if_neg h0, getElem?_insAt _ _ _ hi, if_pos (by omega)]

theorem slotLo_insAt_succ {lo : Option Int} {ks : List Int} {i : Nat} (v : Int)
    (hi : i ≤ ks.length) : slotLo lo (insAt ks i v) (i + 1) = some v := by
  unfold slotLo
  rw [if_neg (by omega), getElem?_insAt _ _ _ hi, if_neg (by omega), if_pos (by omega)]

theorem slotLo_insAt_gt {lo : Option Int} {ks : List Int} {i j : Nat} (v : Int)
    (hi : i ≤ ks.length) (hj : i + 1 < j) :
    slotLo lo (insAt ks i v) j = slotLo lo ks (j - 1) := by
  unfold slotLo
  rw [if_neg (by omega), if_neg (by omega), getElem?_insAt _ _ _ hi, if_neg (by omega),
    if_neg (by omega)]

theorem slotHi_insAt_lt {hi : Option Int} {ks : List Int} {i j : Nat} (v : Int)
    (hi' : i ≤ ks.length) (hj : j < i) : slotHi hi (insAt ks i v) j = slotHi hi ks j := by
  unfold slotHi
  rw [length_insAt, if_pos (by omega), if_pos (by omega), getElem?_insAt _ _ _ hi',
    if_pos hj]

theorem slotHi_insAt_self {hi : Option Int} {ks : List Int} {i : Nat} (v : Int)
    (hi' : i ≤ ks.length) : slotHi hi (insAt ks i v) i = some v := by
  unfold slotHi
  rw [length_insAt, if_pos (by omega), getElem?_insAt _ _ _ hi', if_neg (by omega),
    if_pos rfl]

theorem slotHi_insAt_gt {hi : Option Int} {ks : List Int} {i j : Nat} (v : Int)
    (hi' : i ≤ ks.length) (hj : i < j) :
    slotHi hi (insAt ks i v) j = slotHi hi ks (j - 1) := by
  unfold slotHi
  rw [length_insAt]
  by_cases h : j < ks.length + 1
  · rw [if_pos h, if_pos (by omega), getElem?_insAt _ _ _ hi', if_neg (by omega),
      if_neg (by omega)]
  · rw [if_neg h, if_neg (by omega)]

theorem slotLo_take {lo : Option Int} {ks : List Int} {t j : Nat} (hj : j ≤ t) :
    slotLo lo (ks.take t) j = slotLo lo ks j := by
  unfold slotLo
  by_cases h0 : j = 0
  · rw [if_pos h0, if_pos h0]
  · rw [if_neg h0, if_neg h0, List.getElem?_take, if_pos (by omega)]

theorem slotHi_take_lt (hi : Option Int) {hi1 : Option Int} {ks : List Int} {t j : Nat}
    (ht : t < ks.length)
    (hj : j < t) : slotHi hi1 (ks.take t) j = slotHi hi ks j := by
  unfold slotHi
  rw [List.length_take, if_pos (by omega), if_pos (by omega), List.getElem?_take, if_pos hj]

theorem slotHi_take_self {hi1 : Option Int} {ks : List Int} {t : Nat} (ht : t ≤ ks.length) :
    slotHi hi1 (ks.take t) t = hi1 := by
  unfold slotHi
  rw [List.length_take, if_neg (by omega)]

theorem slotLo_drop (lo : Option Int) {ks : List Int} {t j : Nat} {km : Int} (ht : 0 < t)
    (hkm : ks[t - 1]? = some km) : slotLo (some km) (ks.drop t) j = slotLo lo ks (t + j) := by
  unfold slotLo
  by_cases h0 : j = 0
  · subst h0
    rw [if_pos rfl, if_neg (by omega)]
    exact hkm.symm
  · rw [if_neg h0, if_neg (by omega), List.getElem?_drop]
    congr 1
    omega

theorem slotHi_drop {hi : Option Int} {ks : List Int} {t j : Nat} :
    slotHi hi (ks.drop t) j = slotHi hi ks (t + j) := by
  unfold slotHi
  rw [List.length_drop, List.getElem?_drop]
  by_cases h : j < ks.length - t
  · rw [if_pos h, if_pos (by omega)]
  · rw [if_neg h, if_neg (by omega)]

theorem ents_split (ks : List Int) (rs : List (Slot ρ)) (t : Nat) (hl : ks.length = rs.length) :
    (ks.take t).zip (rs.take t) ++ (ks.drop t).zip (rs.drop t) = ks.zip rs := by
  rw [← List.zip_append (by simp [hl]), List.take_append_drop, List.take_append_drop]

/-! ## The leaf chain -/

theorem head?_insertAfter (c nw : Nat) (l : List Nat) :
    (insertAfter c nw l).head? = l.head? := by
  cases l with
  | nil => rfl
  | cons x xs =>
    simp only [insertAfter]
    split <;> rfl

theorem mem_insertAfter {c nw q : Nat} {l : List Nat} :
    q ∈ insertAfter c nw l ↔ q ∈ l ∨ (q = nw ∧ c ∈ l) := by
  induction l with
  | nil => simp [insertAfter]
  | cons x xs ih =>
    simp only [insertAfter]
    by_cases hx : x = c
    · subst hx
      simp only [if_true, List.mem_cons, true_or, and_true]
      tauto
    · simp only [if_neg hx, List.mem_cons, ih]
      have : ¬ c = x := fun h => hx h.symm
      tauto

theorem nodup_insertAfter {c nw : Nat} {l : List Nat} (hl : l.Nodup) (hn : nw ∉ l) :
    (insertAfter c nw l).Nodup := by
  induction l with
  | nil => simp [insertAfter]
  | cons x xs ih =>
    rw [List.nodup_cons] at hl
    simp only [List.mem_cons, not_or] at hn
    simp only [insertAfter]
    by_cases hx : x = c
    · simp only [if_pos hx, List.nodup_cons, List.mem_cons, not_or]
      exact ⟨⟨fun h => hn.1 h.symm, hl.1⟩, hn.2, hl.2⟩
    · simp only [if_neg hx, List.nodup_cons, mem_insertAfter, not_or]
      exact ⟨⟨hl.1, fun h => hn.1 h.1.symm⟩, ih hl.2 hn.2⟩

theorem length_insertAfter_le (c nw : Nat) (l : List Nat) :
    (insertAfter c nw l).length ≤ l.length + 1 := by
  induction l with
  | nil => simp [insertAfter]
  | cons x xs ih =>
    simp only [insertAfter]
    split
    · simp
    · simp only [List.length_cons]; omega

theorem insertAfter_of_not_mem {c nw : Nat} {l : List Nat} (hc : c ∉ l) :
    insertAfter c nw l = l := by
  induction l with
  | nil => rfl
  | cons x xs ih =>
    simp only [List.mem_cons, not_or] at hc
    have hx : ¬ x = c := fun h => hc.1 h.symm
    simp only [insertAfter, if_neg hx, ih hc.2]

theorem IsChain.node {h : Heap ρ} {G : Ghost} : ∀ {l : List Nat} {s : Option Nat},
    IsChain h G s l → ∀ q ∈ l, ∃ nd, h[q]? = some nd ∧ nd.leaf = true := by
  intro l
  induction l with
  | nil => intro s _ q hq; cases hq
  | cons x xs ih =>
    intro s hc q hq
    obtain ⟨_, nd, hnd, hleaf, hrest, _⟩ := hc
    rcases List.mem_cons.1 hq with rfl | hq
    · exact ⟨nd, hnd, hleaf⟩
    · exact ih hrest q hq

/-- A chain is unaffected by changes that keep the `leaf` flag and the `next`
link of its nodes and the intervals attached to them. -/
theorem IsChain.frame {h h1 : Heap ρ} {G G1 : Ghost} : ∀ {l : List Nat} {s : Option Nat},
    IsChain h G s l →
    (∀ q ∈ l, ∀ nd, h[q]? = some nd →
      ∃ nd1, h1[q]? = some nd1 ∧ nd1.leaf = nd.leaf ∧ nd1.next = nd.next) →
    (∀ q ∈ l, G1.lo q = G.lo q ∧ G1.hi q = G.hi q) →
    IsChain h1 G1 s l := by
  intro l
  induction l with
  | nil => intro s hc _ _; exact hc
  | cons x xs ih =>
    intro s hc hf hg
    obtain ⟨hs, nd, hnd, hleaf, hrest, hlink⟩ := hc
    obtain ⟨nd1, hnd1, hl1, hn1⟩ := hf x (List.mem_cons_self _ _) nd hnd
    refine ⟨hs, nd1, hnd1, by rw [hl1]; exact hleaf, ?_, ?_⟩
    · rw [hn1]
      exact ih hrest (fun q hq => hf q (List.mem_cons_of_mem _ hq))
        (fun q hq => hg q (List.mem_cons_of_mem _ hq))
    · intro q hq
      have hqm : q ∈ xs := List.mem_of_mem_head? hq
      rw [(hg x (List.mem_cons_self _ _)).2, (hg q (List.mem_cons_of_mem _ hqm)).1]
      exact hlink q hq

/-- Linking a new leaf in after `c` keeps the chain a chain. -/
theorem IsChain.insertAfter {h h1 : Heap ρ} {G G1 : Ghost} {c nw : Nat} {C C1 N1 : Node ρ}
    (hC : h[c]? = some C) (hC1 : h1[c]? = some C1) (hN1 : h1[nw]? = some N1)
    (hC1l : C1.leaf = true) (hC1n : C1.next = some nw)
    (hN1l : N1.leaf = true) (hN1n : N1.next = C.next)
    (hg1 : G1.hi c = G1.lo nw) (hg2 : G1.hi nw = G.hi c) :
    ∀ {l : List Nat} {s : Option Nat}, IsChain h G s l → l.Nodup → nw ∉ l →
    (∀ q ∈ l, q ≠ c → ∀ nd, h[q]? = some nd →
      ∃ nd1, h1[q]? = some nd1 ∧ nd1.leaf = nd.leaf ∧ nd1.next = nd.next) →
    (∀ q ∈ l, G1.lo q = G.lo q) → (∀ q ∈ l, q ≠ c → G1.hi q = G.hi q) →
    IsChain h1 G1 s (BPlus.insertAfter c nw l) := by
  intro l
  induction l with
  | nil => intro s hc _ _ _ _ _; exact hc
  | cons x xs ih =>
    intro s hc hnd hnw hf hlo hhi
    obtain ⟨hs, nd, hnd', hleaf, hrest, hlink⟩ := hc
    rw [List.nodup_cons] at hnd
    simp only [List.mem_cons, not_or] at hnw
    simp only [BPlus.insertAfter]
    by_cases hx : x = c
    · subst hx
      rw [hC] at hnd'
      cases hnd'
      rw [if_pos rfl]
      have hxs : ∀ q ∈ xs, q ≠ x := fun q hq hqx => hnd.1 (hqx ▸ hq)
      refine ⟨hs, C1, hC1, hC1l, ?_, ?_⟩
      · rw [hC1n]
        refine ⟨rfl, N1, hN1, hN1l, ?_, ?_⟩
        · rw [hN1n]
          exact IsChain.frame hrest
            (fun q hq => hf q (List.mem_cons_of_mem _ hq) (hxs q hq))
            (fun q hq => ⟨hlo q (List.mem_cons_of_mem _ hq),
              hhi q (List.mem_cons_of_mem _ hq) (hxs q hq)⟩)
        · intro q hq
          have hqm : q ∈ xs := List.mem_of_mem_head? hq
          rw [hg2, hlo q (List.mem_cons_of_mem _ hqm)]
          exact hlink q hq
      · intro q hq
        simp only [List.head?_cons, Option.some.injEq] at hq
        subst hq
        exact hg1
    · rw [if_neg hx]
      obtain ⟨nd1, hnd1, hl1, hn1⟩ := hf x (List.mem_cons_self _ _) hx nd hnd'
      refine ⟨hs, nd1, hnd1, by rw [hl1]; exact hleaf, ?_, ?_⟩
      · rw [hn1]
        exact ih hrest hnd.2 hnw.2 (fun q hq => hf q (List.mem_cons_of_mem _ hq))
          (fun q hq => hlo q (List.mem_cons_of_mem _ hq))
          (fun q hq => hhi q (List.mem_cons_of_mem _ hq))
      · intro q hq
        rw [head?_insertAfter] at hq
        have hqm : q ∈ xs := List.mem_of_mem_head? hq
        rw [hhi x (List.mem_cons_self _ _) hx, hlo q (List.mem_cons_of_mem _ hqm)]
        exact hlink q hq

theorem chainEnts_frame {h h1 : Heap ρ} : ∀ {l : List Nat},
    (∀ q ∈ l, entsAt h1 q = entsAt h q) → chainEnts h1 l = chainEnts h l := by
  intro l
  induction l with
  | nil => intro _; rfl
  | cons x xs ih =>
    intro hf
    simp only [chainEnts, hf x (List.mem_cons_self _ _),
      ih (fun q hq => hf q (List.mem_cons_of_mem _ hq))]

theorem chainEnts_insertAfter {h h1 : Heap ρ} {c nw : Nat}
    (hsplit : entsAt h1 c ++ entsAt h1 nw = entsAt h c) : ∀ {l : List Nat}, l.Nodup →
    (∀ q ∈ l, q ≠ c → entsAt h1 q = entsAt h q) →
    chainEnts h1 (insertAfter c nw l) = chainEnts h l := by
  intro l
  induction l with
  | nil => intro _ _; rfl
  | cons x xs ih =>
    intro hnd hf
    rw [List.nodup_cons] at hnd
    simp only [insertAfter]
    by_cases hx : x = c
    · subst hx
      have hxs : ∀ q ∈ xs, q ≠ x := fun q hq hqx => hnd.1 (hqx ▸ hq)
      rw [if_pos rfl]
      simp only [chainEnts]
      rw [← List.append_assoc, hsplit,
        chainEnts_frame (fun q hq => hf q (List.mem_cons_of_mem _ hq) (hxs q hq))]
    · rw [if_neg hx]
      simp only [chainEnts, hf x (List.mem_cons_self _ _) hx,
        ih hnd.2 (fun q hq => hf q (List.mem_cons_of_mem _ hq))]

/-! ## `splitChild` keeps the invariant -/

theorem Ghost.split_lvl_new (G : Ghost) (nw c : Nat) (km : Int) (leaf : Bool) :
    (G.split nw c km leaf).lvl nw = G.lvl c := by simp [Ghost.split]

theorem Ghost.split_lvl_old (G : Ghost) {nw c : Nat} (km : Int) (leaf : Bool) {q : Nat}
    (hq : q ≠ nw) : (G.split nw c km leaf).lvl q = G.lvl q := by simp [Ghost.split, hq]

theorem Ghost.split_lo_new (G : Ghost) (nw c : Nat) (km : Int) (leaf : Bool) :
    (G.split nw c km leaf).lo nw = some km := by simp [Ghost.split]

theorem Ghost.split_lo_old (G : Ghost) {nw c : Nat} (km : Int) (leaf : Bool) {q : Nat}
    (hq : q ≠ nw) : (G.split nw c km leaf).lo q = G.lo q := by simp [Ghost.split, hq]

theorem Ghost.split_hi_new (G : Ghost) (nw c : Nat) (km : Int) (leaf : Bool) :
    (G.split nw c km leaf).hi nw = G.hi c := by simp [Ghost.split]

theorem Ghost.split_hi_child (G : Ghost) {nw c : Nat} (km : Int) (leaf : Bool) (hc : c ≠ nw) :
    (G.split nw c km leaf).hi c = some km := by simp [Ghost.split, hc]

theorem Ghost.split_hi_old (G : Ghost) {nw c : Nat} (km : Int) (leaf : Bool) {q : Nat}
    (hq : q ≠ nw) (hqc : q ≠ c) : (G.split nw c km leaf).hi q = G.hi q := by
  simp [Ghost.split, hq, hqc]

/-- Facts about a full child about to be split, drawn from the invariant. -/
theorem Inv.split_facts {h : Heap ρ} {root t : Nat} {G : Ghost} {ins : List (Int × Slot ρ)}
    (hI : Inv h root t G ins) {p i c : Nat} {P C : Node ρ}
    (hp : h[p]? = some P) (hc : h[c]? = some C) (hPl : P.leaf = false)
    (hic : P.cs[i]? = some (some c)) (hCn : C.n = 2 * t - 1)
    (hx : ∃ x, inRange (slotLo (G.lo p) P.ks i) (slotHi (G.hi p) P.ks i) x)
    {km : Int} (hkm : C.ks[t - 1]? = some km) :
    i ≤ P.n ∧ G.lvl c + 1 = G.lvl p ∧ p ≠ c ∧
    G.lo c = slotLo (G.lo p) P.ks i ∧ G.hi c = slotHi (G.hi p) P.ks i ∧
    inRange (G.lo c) (G.hi c) km ∧ (∀ b, G.hi c = some b → km < b) ∧
    (∀ a ∈ P.ks.take i, a < km) ∧ (∀ b ∈ P.ks.drop i, km < b) ∧
    inRange (G.lo p) (G.hi p) km := by
  have ht := hI.t_ge
  have okP := hI.node_ok p P hp
  have okC := hI.node_ok c C hc
  have hil : i < P.cs.length := (List.getElem?_eq_some_iff.1 hic).1
  have hi : i ≤ P.n := by rw [okP.cs_length (by omega)] at hil; omega
  obtain ⟨c', hc', _, hlvl⟩ := hI.child_lvl p P hp hPl _ (List.getElem?_mem hic)
  cases hc'
  have hpc : p ≠ c := by intro e; subst e; omega
  obtain ⟨hlo, hhi⟩ := hI.child_range p P hp hPl i c hic hx
  have hkr : inRange (G.lo c) (G.hi c) km := hI.key_range c C hc km (List.getElem?_mem hkm)
  have hCl : C.ks.length = 2 * t - 1 := by rw [okC.ks_length, hCn]
  obtain ⟨kl, hlast⟩ := getElem?_exists (l := C.ks) (i := 2 * t - 2) (by omega)
  have hlt : ∀ b, G.hi c = some b → km < b := by
    intro b hb
    have h1 := sorted_get okC.sorted hkm hlast (by omega)
    have h2 := (hI.key_range c C hc _ (List.getElem?_mem hlast)).2 b hb
    omega
  have hkr' : inRange (slotLo (G.lo p) P.ks i) (slotHi (G.hi p) P.ks i) km := by
    rw [← hlo, ← hhi]; exact hkr
  have hPks : P.ks.length = P.n := okP.ks_length
  refine ⟨hi, hlvl, hpc, hlo, hhi, hkr, hlt, ?_, ?_, ?_⟩
  · intro a ha
    obtain ⟨j, hj⟩ := List.mem_iff_getElem?.1 ha
    rw [List.getElem?_take] at hj
    by_cases hji : j < i
    · rw [if_pos hji] at hj
      exact slot_lower okP.sorted hkr' (by omega) hji hj
    · rw [if_neg hji] at hj; cases hj
  · intro b hb
    obtain ⟨j, hj⟩ := List.mem_iff_getElem?.1 hb
    rw [List.getElem?_drop] at hj
    have hjl : i + j < P.ks.length := (List.getElem?_eq_some_iff.1 hj).1
    have hil' : i < P.ks.length := by omega
    obtain ⟨ci, hci⟩ := getElem?_exists hil'
    have h1 := hlt _ (by rw [hhi]; simp only [slotHi, if_pos hil']; exact hci)
    have h2 := sorted_get_le okP.sorted hci hj (by omega)
    omega
  · exact slot_sub_range (hI.key_range p P hp) (by omega) hkr'

theorem Inv.split {h : Heap ρ} {root t : Nat} {G : Ghost} {ins : List (Int × Slot ρ)}
    (hI : Inv h root t G ins) {p i c : Nat} {P C : Node ρ}
    (hp : h[p]? = some P) (hc : h[c]? = some C) (hPl : P.leaf = false)
    (hic : P.cs[i]? = some (some c)) (hCn : C.n = 2 * t - 1)
    (hx : ∃ x, inRange (slotLo (G.lo p) P.ks i) (slotHi (G.hi p) P.ks i) x)
    (hPn : P.n < 2 * t - 1)
    {h1 : Heap ρ} {P1 C1 N1 : Node ρ} {km : Int} {rm : Slot ρ}
    (hS : SplitOut h p i c P C h1 P1 C1 N1 km rm) :
    Inv h1 root t (G.split h.length c km C.leaf) ins := by
  have ht := hI.t_ge
  have okP := hI.node_ok p P hp
  have okC := hI.node_ok c C hc
  have hpl : p < h.length := (List.getElem?_eq_some_iff.1 hp).1
  have hcl : c < h.length := (List.getElem?_eq_some_iff.1 hc).1
  have hpn : p ≠ h.length := by omega
  have hcn : c ≠ h.length := by omega
  obtain ⟨vC1k, vC1r, vC1c, vN1k, vN1r, vN1c, hkm⟩ := hS.views okC ht hCn
  obtain ⟨hi, hlvl, hpc, hlo, hhi, hkr, hklt, hktake, hkdrop, hkp⟩ :=
    hI.split_facts hp hc hPl hic hCn hx hkm
  have hCl : C.ks.length = 2 * t - 1 := by rw [okC.ks_length, hCn]
  have hPks : P.ks.length = P.n := okP.ks_length
  have hPcs : P.cs.length = P.n + 1 := okP.cs_length (by omega)
  -- the three changed nodes are well formed
  have okP1 : NodeOK t P1 :=
    { t_eq := by rw [hS.P_t]; exact okP.t_eq
      klen := by rw [hS.P_klen]; exact okP.klen
      rlen := by rw [hS.P_rlen]; exact okP.rlen
      clen := by rw [hS.P_clen]; exact okP.clen
      n_le := by rw [hS.P_n]; omega
      sorted := by rw [hS.P_ks]; exact pairwise_insAt okP.sorted i km hktake hkdrop }
  have okC1 : NodeOK t C1 :=
    { t_eq := by rw [hS.C_eq]; exact okC.t_eq
      klen := by rw [hS.C_eq]; exact okC.klen
      rlen := by rw [hS.C_eq]; exact okC.rlen
      clen := by rw [hS.C_eq]; exact okC.clen
      n_le := by rw [hS.C_eq]; simp only [okC.t_eq]; omega
      sorted := by rw [vC1k]; exact okC.sorted.sublist (List.take_sublist _ _) }
  have okN1 : NodeOK t N1 :=
    { t_eq := by rw [hS.N_t]; exact okC.t_eq
      klen := by rw [hS.N_klen, okC.t_eq]
      rlen := by rw [hS.N_rlen, okC.t_eq]
      clen := by rw [hS.N_clen, okC.t_eq]
      n_le := by rw [hS.N_n, okC.t_eq]; omega
      sorted := by rw [vN1k]; exact okC.sorted.sublist (List.drop_sublist _ _) }
  have hC1n : C1.n = t := by rw [hS.C_eq]; exact okC.t_eq
  have hN1n : N1.n = t - 1 := by rw [hS.N_n, okC.t_eq]
  have hC1leaf : C1.leaf = C.leaf := by rw [hS.C_eq]
  -- keys of the halves against the promoted key
  have hC1le : ∀ k ∈ C1.ks, k ≤ km := by
    intro k hk
    rw [vC1k] at hk
    obtain ⟨j, hj⟩ := List.mem_iff_getElem?.1 hk
    rw [List.getElem?_take] at hj
    by_cases hjt : j < t
    · rw [if_pos hjt] at hj
      exact sorted_get_le okC.sorted hj hkm (by omega)
    · rw [if_neg hjt] at hj; cases hj
  have hN1gt : ∀ k ∈ N1.ks, km < k := by
    intro k hk
    rw [vN1k] at hk
    obtain ⟨j, hj⟩ := List.mem_iff_getElem?.1 hk
    rw [List.getElem?_drop] at hj
    exact sorted_get okC.sorted hkm hj (by omega)
  have hC1sub : ∀ k ∈ C1.ks, k ∈ C.ks := fun k hk => by
    rw [vC1k] at hk; exact List.mem_of_mem_take hk
  have hN1sub : ∀ k ∈ N1.ks, k ∈ C.ks := fun k hk => by
    rw [vN1k] at hk; exact List.mem_of_mem_drop hk
  have hroot_c : root ≠ c := by
    intro e
    have := hI.lvl_le p hpl
    rw [e] at this
    omega
  have hroot_n : root ≠ h.length := by have := hI.root_lt; omega
  have hlen := hS.len
  -- bookkeeping lookups
  have gLvN := Ghost.split_lvl_new G h.length c km C.leaf
  have gLvO : ∀ q, q ≠ h.length → (G.split h.length c km C.leaf).lvl q = G.lvl q :=
    fun q hq => Ghost.split_lvl_old G km C.leaf hq
  have gLoN := Ghost.split_lo_new G h.length c km C.leaf
  have gLoO : ∀ q, q ≠ h.length → (G.split h.length c km C.leaf).lo q = G.lo q :=
    fun q hq => Ghost.split_lo_old G km C.leaf hq
  have gHiN := Ghost.split_hi_new G h.length c km C.leaf
  have gHiC := Ghost.split_hi_child G km C.leaf hcn
  have gHiO : ∀ q, q ≠ h.length → q ≠ c → (G.split h.length c km C.leaf).hi q = G.hi q :=
    fun q hq hqc => Ghost.split_hi_old G km C.leaf hq hqc
  have hchild_lt : ∀ (q : Nat) (nd : Node ρ), h[q]? = some nd → nd.leaf = false →
      ∀ (j c' : Nat), nd.cs[j]? = some (some c') →
      c' < h.length ∧ G.lvl c' + 1 = G.lvl q := by
    intro q nd hq hl j c' hj
    obtain ⟨c'', hc'', h1', h2⟩ := hI.child_lvl q nd hq hl _ (List.getElem?_mem hj)
    cases hc''
    exact ⟨h1', h2⟩
  have f_node_ok : ∀ (q : Nat) (nd : Node ρ), h1[q]? = some nd → NodeOK t nd := by
    intro q nd hq
    rcases hS.cases q nd hq with ⟨_, rfl⟩ | ⟨_, rfl⟩ | ⟨_, rfl⟩ | ⟨_, _, _, hq'⟩
    · exact okP1
    · exact okC1
    · exact okN1
    · exact hI.node_ok q nd hq'
  have f_min_keys : ∀ (q : Nat) (nd : Node ρ), h1[q]? = some nd → q ≠ root → t - 1 ≤ nd.n := by
    intro q nd hq hr
    rcases hS.cases q nd hq with ⟨rfl, rfl⟩ | ⟨_, rfl⟩ | ⟨_, rfl⟩ | ⟨_, _, _, hq'⟩
    · have := hI.min_keys q P hp hr
      rw [hS.P_n]; omega
    · omega
    · omega
    · exact hI.min_keys q nd hq' hr
  have f_leaf_lvl : ∀ (q : Nat) (nd : Node ρ), h1[q]? = some nd → nd.leaf = true →
      (G.split h.length c km C.leaf).lvl q = 0 := by
    intro q nd hq hl
    rcases hS.cases q nd hq with ⟨rfl, rfl⟩ | ⟨rfl, rfl⟩ | ⟨rfl, rfl⟩ | ⟨_, _, h3, hq'⟩
    · rw [hS.P_leaf, hPl] at hl; cases hl
    · rw [gLvO q hcn]
      exact hI.leaf_lvl q C hc (by rw [← hC1leaf]; exact hl)
    · rw [gLvN]
      exact hI.leaf_lvl c C hc (by rw [← hS.N_leaf]; exact hl)
    · rw [gLvO q h3]
      exact hI.leaf_lvl q nd hq' hl
  have f_child_lvl : ∀ (q : Nat) (nd : Node ρ), h1[q]? = some nd → nd.leaf = false →
      ∀ x ∈ nd.cs, ∃ c', x = some c' ∧ c' < h1.length ∧
        (G.split h.length c km C.leaf).lvl c' + 1 = (G.split h.length c km C.leaf).lvl q := by
    intro q nd hq hl x hx'
    rcases hS.cases q nd hq with ⟨rfl, rfl⟩ | ⟨rfl, rfl⟩ | ⟨rfl, rfl⟩ | ⟨_, _, h3, hq'⟩
    · rw [hS.P_cs, mem_insAt] at hx'
      rcases hx' with rfl | hx'
      · exact ⟨h.length, rfl, by omega, by rw [gLvN, gLvO q hpn]; exact hlvl⟩
      · obtain ⟨c', rfl, h1', h2⟩ := hI.child_lvl q P hp hPl x hx'
        exact ⟨c', rfl, by omega, by rw [gLvO c' (by omega), gLvO q hpn]; exact h2⟩
    · rw [vC1c] at hx'
      obtain ⟨c', rfl, h1', h2⟩ := hI.child_lvl q C hc (by rw [← hC1leaf]; exact hl) x
        (List.mem_of_mem_take hx')
      exact ⟨c', rfl, by omega, by rw [gLvO c' (by omega), gLvO q hcn]; exact h2⟩
    · have hCl' : C.leaf = false := by rw [← hS.N_leaf]; exact hl
      rw [vN1c hCl'] at hx'
      obtain ⟨c', rfl, h1', h2⟩ := hI.child_lvl c C hc hCl' x (List.mem_of_mem_drop hx')
      exact ⟨c', rfl, by omega, by rw [gLvO c' (by omega), gLvN]; exact h2⟩
    · obtain ⟨c', rfl, h1', h2⟩ := hI.child_lvl q nd hq' hl x hx'
      exact ⟨c', rfl, by omega, by rw [gLvO c' (by omega), gLvO q h3]; exact h2⟩
  have f_lvl_le : ∀ q : Nat, q < h1.length →
      (G.split h.length c km C.leaf).lvl q ≤ (G.split h.length c km C.leaf).lvl root := by
    intro q hq
    rw [gLvO root hroot_n]
    by_cases hqn : q = h.length
    · subst hqn; rw [gLvN]; exact hI.lvl_le c hcl
    · rw [gLvO q hqn]; exact hI.lvl_le q (by omega)
  have f_key_range : ∀ (q : Nat) (nd : Node ρ), h1[q]? = some nd → ∀ k ∈ nd.ks,
      inRange ((G.split h.length c km C.leaf).lo q) ((G.split h.length c km C.leaf).hi q) k := by
    intro q nd hq k hk
    rcases hS.cases q nd hq with ⟨rfl, rfl⟩ | ⟨rfl, rfl⟩ | ⟨rfl, rfl⟩ | ⟨_, h2, h3, hq'⟩
    · rw [gLoO q hpn, gHiO q hpn hpc]
      rw [hS.P_ks, mem_insAt] at hk
      rcases hk with rfl | hk
      · exact hkp
      · exact hI.key_range q P hp k hk
    · rw [gLoO q hcn, gHiC]
      refine ⟨(hI.key_range q C hc k (hC1sub k hk)).1, ?_⟩
      intro b hb
      cases hb
      exact hC1le k hk
    · rw [gLoN, gHiN]
      refine ⟨?_, (hI.key_range c C hc k (hN1sub k hk)).2⟩
      intro a ha
      cases ha
      exact hN1gt k hk
    · rw [gLoO q h3, gHiO q h3 h2]
      exact hI.key_range q nd hq' k hk
  have f_nonempty : ∀ q : Nat, q < h1.length → ∃ x,
      inRange ((G.split h.length c km C.leaf).lo q) ((G.split h.length c km C.leaf).hi q) x := by
    intro q hq
    by_cases hqn : q = h.length
    · subst hqn
      obtain ⟨kt, hkt⟩ := getElem?_exists (l := C.ks) (i := t) (by omega)
      have hm : kt ∈ N1.ks := by
        rw [vN1k]
        apply List.getElem?_mem (n := 0)
        rw [List.getElem?_drop]
        exact hkt
      exact ⟨_, f_key_range _ N1 hS.atN _ hm⟩
    · by_cases hqc : q = c
      · subst hqc
        refine ⟨km, ?_⟩
        rw [gLoO q hcn, gHiC]
        exact ⟨hkr.1, fun b hb => by cases hb; exact le_refl _⟩
      · rw [gLoO q hqn, gHiO q hqn hqc]
        exact hI.nonempty q (by omega)
  have f_child_range : ∀ (q : Nat) (nd : Node ρ), h1[q]? = some nd → nd.leaf = false →
      ∀ (j c' : Nat), nd.cs[j]? = some (some c') →
      (∃ x, inRange (slotLo ((G.split h.length c km C.leaf).lo q) nd.ks j) (slotHi ((G.split h.length c km C.leaf).hi q) nd.ks j) x) →
      (G.split h.length c km C.leaf).lo c' = slotLo ((G.split h.length c km C.leaf).lo q) nd.ks j ∧ (G.split h.length c km C.leaf).hi c' = slotHi ((G.split h.length c km C.leaf).hi q) nd.ks j := by
    intro q nd hq hl j c' hj hx'
    rcases hS.cases q nd hq with ⟨rfl, rfl⟩ | ⟨rfl, rfl⟩ | ⟨rfl, rfl⟩ | ⟨h1', h2, h3, hq'⟩
    · rw [gLoO q hpn, gHiO q hpn hpc] at hx' ⊢
      rw [hS.P_ks] at hx' ⊢
      rw [hS.P_cs, getElem?_insAt _ _ _ (by omega)] at hj
      have hiks : i ≤ P.ks.length := by omega
      have k2 : inRange (slotLo (G.lo q) P.ks i) (slotHi (G.hi q) P.ks i) km := by
        rw [← hlo, ← hhi]; exact hkr
      have hold : ∀ j0 : Nat, j0 ≠ i → P.cs[j0]? = some (some c') →
          (∃ x, inRange (slotLo (G.lo q) P.ks j0) (slotHi (G.hi q) P.ks j0) x) →
          (G.split h.length c km C.leaf).lo c' = slotLo (G.lo q) P.ks j0 ∧ (G.split h.length c km C.leaf).hi c' = slotHi (G.hi q) P.ks j0 := by
        intro j0 hne hj0 hx0
        obtain ⟨e1, e2⟩ := hI.child_range q P hp hPl j0 c' hj0 hx0
        have hc'lt := (hchild_lt q P hp hPl j0 c' hj0).1
        have hj0l : j0 < P.cs.length := (List.getElem?_eq_some_iff.1 hj0).1
        have hc'c : c' ≠ c := by
          intro e
          subst e
          have k1 : inRange (slotLo (G.lo q) P.ks j0) (slotHi (G.hi q) P.ks j0) km := by
            rw [← e1, ← e2]; exact hkr
          rcases Nat.lt_or_gt_of_ne hne with hlt | hgt
          · exact slot_disjoint okP.sorted hiks k1 k2 hlt
          · exact slot_disjoint okP.sorted (by omega : j0 ≤ P.ks.length) k2 k1 hgt
        rw [gLoO c' (by omega), gHiO c' (by omega) hc'c]
        exact ⟨e1, e2⟩
      by_cases c1 : j < i + 1
      · rw [if_pos c1] at hj
        by_cases c2 : j = i
        · subst c2
          rw [hic] at hj
          cases hj
          rw [slotLo_insAt_le km hiks (le_refl _), slotHi_insAt_self km hiks, gLoO c hcn, gHiC]
          exact ⟨hlo, rfl⟩
        · have c3 : j < i := by omega
          rw [slotLo_insAt_le km hiks (by omega), slotHi_insAt_lt km hiks c3] at hx' ⊢
          exact hold j c2 hj hx'
      · rw [if_neg c1] at hj
        by_cases c2 : j = i + 1
        · subst c2
          rw [if_pos rfl] at hj
          cases hj
          rw [slotLo_insAt_succ km hiks, slotHi_insAt_gt km hiks (by omega), gLoN, gHiN]
          rw [Nat.add_sub_cancel]
          exact ⟨rfl, hhi⟩
        · rw [if_neg c2] at hj
          rw [slotLo_insAt_gt km hiks (by omega), slotHi_insAt_gt km hiks (by omega)] at hx' ⊢
          exact hold (j - 1) (by omega) hj hx'
    · have hCl' : C.leaf = false := by rw [← hC1leaf]; exact hl
      rw [gLoO q hcn, gHiC] at hx' ⊢
      rw [vC1k] at hx' ⊢
      rw [vC1c, List.getElem?_take] at hj
      by_cases c1 : j < t + 1
      · rw [if_pos c1] at hj
        by_cases c2 : j < t
        · rw [slotLo_take (by omega), slotHi_take_lt (G.hi q) (by omega) c2] at hx' ⊢
          obtain ⟨e1, e2⟩ := hI.child_range q C hc hCl' j c' hj hx'
          obtain ⟨hc'lt, hc'lv⟩ := hchild_lt q C hc hCl' j c' hj
          rw [gLoO c' (by omega), gHiO c' (by omega) (by intro e; subst e; omega)]
          exact ⟨e1, e2⟩
        · have hjt : j = t := by omega
          exfalso
          obtain ⟨x, hx1, hx2⟩ := hx'
          rw [hjt, slotHi_take_self (by omega)] at hx2
          have h4 := hx2 km rfl
          have h5 := hx1 km (by
            rw [hjt]
            simp only [slotLo, if_neg (by omega : ¬ t = 0), List.getElem?_take,
              if_pos (by omega : t - 1 < t)]
            exact hkm)
          omega
      · rw [if_neg c1] at hj; cases hj
    · have hCl' : C.leaf = false := by rw [← hS.N_leaf]; exact hl
      rw [gLoN, gHiN] at hx' ⊢
      rw [vN1k] at hx' ⊢
      rw [vN1c hCl', List.getElem?_drop] at hj
      rw [slotLo_drop (G.lo c) (by omega) hkm, slotHi_drop] at hx' ⊢
      obtain ⟨e1, e2⟩ := hI.child_range c C hc hCl' (t + j) c' hj hx'
      obtain ⟨hc'lt, hc'lv⟩ := hchild_lt c C hc hCl' (t + j) c' hj
      rw [gLoO c' (by omega), gHiO c' (by omega) (by intro e; subst e; omega)]
      exact ⟨e1, e2⟩
    · rw [gLoO q h3, gHiO q h3 h2] at hx' ⊢
      obtain ⟨e1, e2⟩ := hI.child_range q nd hq' hl j c' hj hx'
      obtain ⟨hc'lt, hc'lv⟩ := hchild_lt q nd hq' hl j c' hj
      have hql : q < h.length := (List.getElem?_eq_some_iff.1 hq').1
      have hc'c : c' ≠ c := by
        intro e
        subst e
        have okq := hI.node_ok q nd hq'
        have hjl : j < nd.cs.length := (List.getElem?_eq_some_iff.1 hj).1
        rw [okq.cs_length (by omega)] at hjl
        have k1 : inRange (slotLo (G.lo q) nd.ks j) (slotHi (G.hi q) nd.ks j) km := by
          rw [← e1, ← e2]; exact hkr
        have k2 := slot_sub_range (hI.key_range q nd hq') (by rw [okq.ks_length]; omega) k1
        exact h1' (hI.uniq q p km hql hpl (by omega) k2 hkp)
      rw [gLoO c' (by omega), gHiO c' (by omega) hc'c]
      exact ⟨e1, e2⟩
  have f_uniq : ∀ (a b : Nat) (x : Int), a < h1.length → b < h1.length →
      (G.split h.length c km C.leaf).lvl a = (G.split h.length c km C.leaf).lvl b → inRange ((G.split h.length c km C.leaf).lo a) ((G.split h.length c km C.leaf).hi a) x → inRange ((G.split h.length c km C.leaf).lo b) ((G.split h.length c km C.leaf).hi b) x →
      a = b := by
    have old : ∀ (a : Nat) (x : Int), a < h1.length → inRange ((G.split h.length c km C.leaf).lo a) ((G.split h.length c km C.leaf).hi a) x →
        ∃ a0, a0 < h.length ∧ G.lvl a0 = (G.split h.length c km C.leaf).lvl a ∧ inRange (G.lo a0) (G.hi a0) x ∧
          (a ≠ h.length → a0 = a) ∧ (a = h.length → a0 = c ∧ km < x) ∧ (a = c → x ≤ km) := by
      intro a x ha hx
      by_cases han : a = h.length
      · subst han
        rw [gLoN, gHiN] at hx
        exact ⟨c, hcl, by rw [gLvN], ⟨fun y hy => lt_trans (hkr.1 y hy) (hx.1 km rfl), hx.2⟩,
          fun h => absurd rfl h, fun _ => ⟨rfl, hx.1 km rfl⟩, fun h => absurd h.symm hcn⟩
      · by_cases hac : a = c
        · subst hac
          rw [gLoO a han, gHiC] at hx
          exact ⟨a, hcl, by rw [gLvO a han],
            ⟨hx.1, fun b hb => le_trans (hx.2 km rfl) (le_of_lt (hklt b hb))⟩,
            fun _ => rfl, fun h => absurd h han, fun _ => hx.2 km rfl⟩
        · rw [gLoO a han, gHiO a han hac] at hx
          exact ⟨a, by omega, by rw [gLvO a han], hx, fun _ => rfl, fun h => absurd h han,
            fun h => absurd h hac⟩
    intro a b x ha hb hlv hxa hxb
    obtain ⟨a0, ha0, hla, hra, ea1, ea2, ea3⟩ := old a x ha hxa
    obtain ⟨b0, hb0, hlb, hrb, eb1, eb2, eb3⟩ := old b x hb hxb
    have e := hI.uniq a0 b0 x ha0 hb0 (by rw [hla, hlb, hlv]) hra hrb
    by_cases han : a = h.length
    · by_cases hbn : b = h.length
      · rw [han, hbn]
      · exfalso
        obtain ⟨e1, e2⟩ := ea2 han
        have hbc : b = c := by rw [← eb1 hbn, ← e, e1]
        have := eb3 hbc
        omega
    · by_cases hbn : b = h.length
      · exfalso
        obtain ⟨e1, e2⟩ := eb2 hbn
        have hac : a = c := by rw [← ea1 han, e, e1]
        have := ea3 hac
        omega
      · rw [← ea1 han, ← eb1 hbn, e]
  have hnew_chain : h.length ∉ G.chain := by
    intro hm
    obtain ⟨nd, hnd, _⟩ := hI.chain_ok.node _ hm
    have := (List.getElem?_eq_some_iff.1 hnd).1
    omega
  have hchain_lt : ∀ q ∈ G.chain, q ≠ h.length := by
    intro q hq e
    rw [e] at hq
    exact hnew_chain hq
  have hchain_p : ∀ q ∈ G.chain, q ≠ p := by
    intro q hq e
    obtain ⟨nd, hnd, hleaf⟩ := hI.chain_ok.node q hq
    rw [e, hp] at hnd
    cases hnd
    rw [hPl] at hleaf
    cases hleaf
  have hchain_frame : ∀ q ∈ G.chain, q ≠ c → h1[q]? = h[q]? :=
    fun q hq hqc => hS.frame q (hchain_p q hq) hqc (hchain_lt q hq)
  have f_head_leaf : ∃ nd, h1[0]? = some nd ∧ nd.leaf = true := by
    obtain ⟨nd0, h0, hl0⟩ := hI.head_leaf
    by_cases e0 : c = 0
    · refine ⟨C1, by rw [← e0]; exact hS.atC, ?_⟩
      rw [hC1leaf]
      rw [e0, h0] at hc
      cases hc
      exact hl0
    · have e1 : 0 ≠ p := by
        intro e
        rw [← e, h0] at hp
        cases hp
        rw [hPl] at hl0
        cases hl0
      exact ⟨nd0, by rw [hS.frame 0 e1 (Ne.symm e0) (by omega)]; exact h0, hl0⟩
  have f_head_lo : (G.split h.length c km C.leaf).lo 0 = none := by
    rw [gLoO 0 (by omega)]; exact hI.head_lo
  have f_chain : IsChain h1 (G.split h.length c km C.leaf) (some 0) (G.split h.length c km C.leaf).chain ∧ (G.split h.length c km C.leaf).chain.Nodup ∧
      (∀ (q : Nat) (nd : Node ρ), h1[q]? = some nd → nd.leaf = true → q ∈ (G.split h.length c km C.leaf).chain) ∧
      (G.split h.length c km C.leaf).chain.length ≤ h1.length ∧ chainEnts h1 (G.split h.length c km C.leaf).chain = chainEnts h G.chain := by
    rcases Bool.eq_false_or_eq_true C.leaf with hl | hl
    · have hch : (G.split h.length c km C.leaf).chain = insertAfter c h.length G.chain := by simp [Ghost.split, hl]
      rw [hch]
      refine ⟨?_, nodup_insertAfter hI.chain_nodup hnew_chain, ?_, ?_, ?_⟩
      · exact IsChain.insertAfter hc hS.atC hS.atN (by rw [hC1leaf]; exact hl)
          (by rw [hS.C_eq]; simp [hl]) (by rw [hS.N_leaf]; exact hl)
          (by rw [hS.N_next]; simp [hl]) (by rw [gHiC, gLoN]) gHiN hI.chain_ok
          hI.chain_nodup hnew_chain
          (fun q hq hqc nd hnd => ⟨nd, by rw [hchain_frame q hq hqc]; exact hnd, rfl, rfl⟩)
          (fun q hq => gLoO q (hchain_lt q hq))
          (fun q hq hqc => gHiO q (hchain_lt q hq) hqc)
      · intro q nd hq hlf
        rw [mem_insertAfter]
        have hcm : c ∈ G.chain := hI.chain_mem c C hc hl
        rcases hS.cases q nd hq with ⟨rfl, rfl⟩ | ⟨rfl, rfl⟩ | ⟨rfl, rfl⟩ | ⟨_, _, _, hq'⟩
        · rw [hS.P_leaf, hPl] at hlf; cases hlf
        · exact Or.inl hcm
        · exact Or.inr ⟨rfl, hcm⟩
        · exact Or.inl (hI.chain_mem q nd hq' hlf)
      · have := length_insertAfter_le c h.length G.chain
        have := hI.chain_len
        omega
      · apply chainEnts_insertAfter _ hI.chain_nodup
        · intro q hq hqc
          simp only [entsAt, hchain_frame q hq hqc]
        · simp only [entsAt, hS.atC, hS.atN, hc, Node.ents, vC1k, vC1r, vN1k, vN1r hl]
          exact ents_split C.ks C.rs t (by rw [okC.ks_length, okC.rs_length])
    · have hch : (G.split h.length c km C.leaf).chain = G.chain := by simp [Ghost.split, hl]
      rw [hch]
      have hchain_c : ∀ q ∈ G.chain, q ≠ c := by
        intro q hq e
        obtain ⟨nd, hnd, hleaf⟩ := hI.chain_ok.node q hq
        rw [e, hc] at hnd
        cases hnd
        rw [hl] at hleaf
        cases hleaf
      refine ⟨?_, hI.chain_nodup, ?_, ?_, ?_⟩
      · exact IsChain.frame hI.chain_ok
          (fun q hq nd hnd =>
            ⟨nd, by rw [hchain_frame q hq (hchain_c q hq)]; exact hnd, rfl, rfl⟩)
          (fun q hq => ⟨gLoO q (hchain_lt q hq), gHiO q (hchain_lt q hq) (hchain_c q hq)⟩)
      · intro q nd hq hlf
        rcases hS.cases q nd hq with ⟨rfl, rfl⟩ | ⟨rfl, rfl⟩ | ⟨rfl, rfl⟩ | ⟨_, _, _, hq'⟩
        · rw [hS.P_leaf, hPl] at hlf; cases hlf
        · rw [hC1leaf, hl] at hlf; cases hlf
        · rw [hS.N_leaf, hl] at hlf; cases hlf
        · exact hI.chain_mem q nd hq' hlf
      · have := hI.chain_len
        omega
      · exact chainEnts_frame (fun q hq => by
          simp only [entsAt, hchain_frame q hq (hchain_c q hq)])
  have f_keys_ins : ∀ (q : Nat) (nd : Node ρ), h1[q]? = some nd → ∀ k ∈ nd.ks,
      k ∈ ins.map Prod.fst := by
    intro q nd hq k hk
    rcases hS.cases q nd hq with ⟨rfl, rfl⟩ | ⟨rfl, rfl⟩ | ⟨rfl, rfl⟩ | ⟨_, _, _, hq'⟩
    · rw [hS.P_ks, mem_insAt] at hk
      rcases hk with rfl | hk
      · exact hI.keys_ins c C hc _ (List.getElem?_mem hkm)
      · exact hI.keys_ins q P hp k hk
    · exact hI.keys_ins q C hc k (hC1sub k hk)
    · exact hI.keys_ins c C hc k (hN1sub k hk)
    · exact hI.keys_ins q nd hq' k hk
  obtain ⟨f_chain_ok, f_chain_nodup, f_chain_mem, f_chain_len, f_ents⟩ := f_chain
  exact
    { t_ge := ht
      root_lt := by have := hI.root_lt; omega
      node_ok := f_node_ok
      min_keys := f_min_keys
      leaf_lvl := f_leaf_lvl
      child_lvl := f_child_lvl
      lvl_le := f_lvl_le
      lvl_root := by rw [gLvO root hroot_n]; have := hI.lvl_root; omega
      key_range := f_key_range
      nonempty := f_nonempty
      root_lo := by rw [gLoO root hroot_n]; exact hI.root_lo
      root_hi := by rw [gHiO root hroot_n hroot_c]; exact hI.root_hi
      child_range := f_child_range
      uniq := f_uniq
      head_leaf := f_head_leaf
      head_lo := f_head_lo
      chain_ok := f_chain_ok
      chain_nodup := f_chain_nodup
      chain_mem := f_chain_mem
      chain_len := f_chain_len
      keys_ins := f_keys_ins
      content := by rw [f_ents]; exact hI.content }

/-! ## `insertNonFull` and `insert` keep the invariant -/

theorem zip_insAt (ks : List Int) (rs : List (Slot ρ)) (i : Nat) (k : Int) (r : Slot ρ)
    (hl : ks.length = rs.length) :
    ((insAt ks i k).zip (insAt rs i r)).Perm ((k, r) :: ks.zip rs) := by
  unfold insAt
  rw [List.zip_append (by simp [hl]), List.zip_cons_cons]
  refine List.perm_middle.trans ?_
  rw [ents_split ks rs i hl]

theorem chainEnts_perm_update {h h1 : Heap ρ} {p : Nat} {e : Int × Slot ρ}
    (hp : (entsAt h1 p).Perm (e :: entsAt h p)) : ∀ {l : List Nat}, l.Nodup → p ∈ l →
    (∀ q ∈ l, q ≠ p → entsAt h1 q = entsAt h q) →
    (chainEnts h1 l).Perm (e :: chainEnts h l) := by
  intro l
  induction l with
  | nil => intro _ hm _; cases hm
  | cons x xs ih =>
    intro hnd hm hf
    rw [List.nodup_cons] at hnd
    simp only [chainEnts]
    by_cases hx : x = p
    · subst hx
      have hxs : ∀ q ∈ xs, q ≠ x := fun q hq hqx => hnd.1 (hqx ▸ hq)
      rw [chainEnts_frame (fun q hq => hf q (List.mem_cons_of_mem _ hq) (hxs q hq))]
      exact List.Perm.append_right _ hp
    · rcases List.mem_cons.1 hm with rfl | hm
      · exact absurd rfl hx
      · rw [hf x (List.mem_cons_self _ _) hx]
        have := ih hnd.2 hm (fun q hq => hf q (List.mem_cons_of_mem _ hq))
        exact (List.Perm.append_left _ this).trans List.perm_middle

/-- The leaf case of `insertNonFull`, on a node. -/
theorem leafInsert_spec (P : Node ρ) (key : Int) (record : Slot ρ)
    (hk : P.n < P.keys.length) (hr : P.n < P.records.length)
    (hsorted : P.ks.Pairwise (fun a b => a < b)) :
    ∃ pos K R, leafShift key P.n P = some (pos, { P with keys := K, records := R }) ∧
      pos < K.length ∧ pos < R.length ∧ pos ≤ P.n ∧
      K.length = P.keys.length ∧ R.length = P.records.length ∧
      (K.set pos key).take (P.n + 1) = insAt P.ks pos key ∧
      (R.set pos record).take (P.n + 1) = insAt P.rs pos record ∧
      (∀ a ∈ P.ks.take pos, a ≤ key) ∧ (∀ b ∈ P.ks.drop pos, key < b) := by
  obtain ⟨pos, K, R, hs, hpos, hKl, hRl, hK, hR, hgt, hle⟩ := leafShift_spec key P.n P hk hr
  refine ⟨pos, K, R, hs, by omega, by omega, hpos, hKl, hRl,
    take_shift_write P.keys K pos P.n key hpos hk hKl hK,
    take_shift_write P.records R pos P.n record hpos hr hRl hR, ?_, ?_⟩
  · intro a ha
    obtain ⟨j, hj⟩ := List.mem_iff_getElem?.1 ha
    rw [List.getElem?_take] at hj
    by_cases hjp : j < pos
    · rw [if_pos hjp] at hj
      obtain ⟨kb, hkb⟩ := getElem?_exists (l := P.keys) (i := pos - 1) (by omega)
      have hb : P.ks[pos - 1]? = some kb := by
        simp only [Node.ks, List.getElem?_take, if_pos (by omega : pos - 1 < P.n)]
        exact hkb
      have h1 := hle _ (by omega) hkb
      have h2 := sorted_get_le hsorted hj hb (by omega)
      omega
    · rw [if_neg hjp] at hj; cases hj
  · intro b hb
    obtain ⟨j, hj⟩ := List.mem_iff_getElem?.1 hb
    rw [List.getElem?_drop] at hj
    simp only [Node.ks, List.getElem?_take] at hj
    by_cases hjn : pos + j < P.n
    · rw [if_pos hjn] at hj
      exact hgt (pos + j) b (by omega) hjn hj
    · rw [if_neg hjn] at hj; cases hj


theorem Inv.leafInsert {h : Heap ρ} {root t : Nat} {G : Ghost} {ins : List (Int × Slot ρ)}
    (hI : Inv h root t G ins) {p : Nat} {P : Node ρ} (hp : h[p]? = some P)
    (hPl : P.leaf = true) (hPn : P.n < 2 * t - 1) (key : Int) (record : Slot ρ)
    (hkr : inRange (G.lo p) (G.hi p) key) (hfresh : key ∉ ins.map Prod.fst) (fuel : Nat) :
    ∃ h1, insertNonFull (fuel + 1) h p key record = some h1 ∧
      Inv h1 root t G ((key, record) :: ins) ∧ h1.length = h.length := by
  have ht := hI.t_ge
  have okP := hI.node_ok p P hp
  have hpl : p < h.length := (List.getElem?_eq_some_iff.1 hp).1
  obtain ⟨pos, K, R, hs, hposK, hposR, hpos, hKl, hRl, hKt, hRt, hbefore, hafter⟩ :=
    leafInsert_spec P key record (by rw [okP.klen]; omega) (by rw [okP.rlen]; omega) okP.sorted
  obtain ⟨P1, hP1⟩ : ∃ P1 : Node ρ,
      P1 = { P with keys := K.set pos key, records := R.set pos record, n := P.n + 1 } :=
    ⟨_, rfl⟩
  have hrun : insertNonFull (fuel + 1) h p key record = some (h.set p P1) := by
    simp only [insertNonFull, hp, hPl, if_true, hs, writeAt_of_lt _ hposK, writeAt_of_lt _ hposR,
      store, hpl, Option.bind_eq_bind, Option.some_bind, hP1]
  have hP1ks : P1.ks = insAt P.ks pos key := by simp only [Node.ks, hP1]; exact hKt
  have hP1rs : P1.rs = insAt P.rs pos record := by simp only [Node.rs, hP1]; exact hRt
  have hP1leaf : P1.leaf = true := by rw [hP1]; exact hPl
  have hP1next : P1.next = P.next := by rw [hP1]
  have hlt : ∀ a ∈ P.ks.take pos, a < key := by
    intro a ha
    have h1 := hbefore a ha
    have h2 : a ≠ key := by
      intro e
      exact hfresh (e ▸ hI.keys_ins p P hp a (List.mem_of_mem_take ha))
    omega
  have okP1 : NodeOK t P1 :=
    { t_eq := by rw [hP1]; exact okP.t_eq
      klen := by rw [hP1]; simp only [List.length_set, hKl]; exact okP.klen
      rlen := by rw [hP1]; simp only [List.length_set, hRl]; exact okP.rlen
      clen := by rw [hP1]; exact okP.clen
      n_le := by rw [hP1]; simp only; omega
      sorted := by rw [hP1ks]; exact pairwise_insAt okP.sorted pos key hlt hafter }
  have hcases : ∀ (q : Nat) (nd : Node ρ), (h.set p P1)[q]? = some nd →
      (q = p ∧ nd = P1) ∨ (q ≠ p ∧ h[q]? = some nd) := by
    intro q nd hq
    rw [List.getElem?_set] at hq
    by_cases e : p = q
    · rw [if_pos e, if_pos hpl] at hq
      exact Or.inl ⟨e.symm, (Option.some.inj hq).symm⟩
    · rw [if_neg e] at hq
      exact Or.inr ⟨fun e' => e e'.symm, hq⟩
  have hframe : ∀ q : Nat, q ≠ p → (h.set p P1)[q]? = h[q]? := by
    intro q hq
    rw [List.getElem?_set, if_neg (fun e => hq e.symm)]
  have hatp : (h.set p P1)[p]? = some P1 := by
    rw [List.getElem?_set, if_pos rfl, if_pos hpl]
  have hpchain : p ∈ G.chain := hI.chain_mem p P hp hPl
  refine ⟨h.set p P1, hrun, ?_, by simp⟩
  exact
    { t_ge := ht
      root_lt := by simp only [List.length_set]; exact hI.root_lt
      node_ok := by
        intro q nd hq
        rcases hcases q nd hq with ⟨_, rfl⟩ | ⟨_, hq'⟩
        · exact okP1
        · exact hI.node_ok q nd hq'
      min_keys := by
        intro q nd hq hr
        rcases hcases q nd hq with ⟨rfl, rfl⟩ | ⟨_, hq'⟩
        · have := hI.min_keys q P hp hr
          rw [hP1]; simp only; omega
        · exact hI.min_keys q nd hq' hr
      leaf_lvl := by
        intro q nd hq hl
        rcases hcases q nd hq with ⟨rfl, rfl⟩ | ⟨_, hq'⟩
        · exact hI.leaf_lvl q P hp hPl
        · exact hI.leaf_lvl q nd hq' hl
      child_lvl := by
        intro q nd hq hl x hx
        rcases hcases q nd hq with ⟨rfl, rfl⟩ | ⟨_, hq'⟩
        · rw [hP1leaf] at hl; cases hl
        · obtain ⟨c, rfl, h1, h2⟩ := hI.child_lvl q nd hq' hl x hx
          exact ⟨c, rfl, by simp only [List.length_set]; exact h1, h2⟩
      lvl_le := by
        intro q hq
        exact hI.lvl_le q (by simpa using hq)
      lvl_root := by simp only [List.length_set]; exact hI.lvl_root
      key_range := by
        intro q nd hq k hk
        rcases hcases q nd hq with ⟨rfl, rfl⟩ | ⟨_, hq'⟩
        · rw [hP1ks, mem_insAt] at hk
          rcases hk with rfl | hk
          · exact hkr
          · exact hI.key_range q P hp k hk
        · exact hI.key_range q nd hq' k hk
      nonempty := by
        intro q hq
        exact hI.nonempty q (by simpa using hq)
      root_lo := hI.root_lo
      root_hi := hI.root_hi
      child_range := by
        intro q nd hq hl j c hj hx
        rcases hcases q nd hq with ⟨rfl, rfl⟩ | ⟨_, hq'⟩
        · rw [hP1leaf] at hl; cases hl
        · exact hI.child_range q nd hq' hl j c hj hx
      uniq := by
        intro a b x ha hb
        exact hI.uniq a b x (by simpa using ha) (by simpa using hb)
      head_leaf := by
        obtain ⟨nd0, h0, hl0⟩ := hI.head_leaf
        by_cases e : p = 0
        · exact ⟨P1, by rw [← e]; exact hatp, hP1leaf⟩
        · exact ⟨nd0, by rw [hframe 0 (fun e' => e e'.symm)]; exact h0, hl0⟩
      head_lo := hI.head_lo
      chain_ok := by
        refine IsChain.frame hI.chain_ok (fun q _ nd hnd => ?_) (fun q _ => ⟨rfl, rfl⟩)
        by_cases e : q = p
        · subst e
          rw [hp] at hnd
          cases hnd
          exact ⟨P1, hatp, by rw [hP1leaf, hPl], hP1next⟩
        · exact ⟨nd, by rw [hframe q e]; exact hnd, rfl, rfl⟩
      chain_nodup := hI.chain_nodup
      chain_mem := by
        intro q nd hq hl
        rcases hcases q nd hq with ⟨rfl, rfl⟩ | ⟨_, hq'⟩
        · exact hpchain
        · exact hI.chain_mem q nd hq' hl
      chain_len := by simp only [List.length_set]; exact hI.chain_len
      keys_ins := by
        intro q nd hq k hk
        rw [List.map_cons, List.mem_cons]
        rcases hcases q nd hq with ⟨rfl, rfl⟩ | ⟨_, hq'⟩
        · rw [hP1ks, mem_insAt] at hk
          rcases hk with rfl | hk
          · exact Or.inl rfl
          · exact Or.inr (hI.keys_ins q P hp k hk)
        · exact Or.inr (hI.keys_ins q nd hq' k hk)
      content := by
        have hperm : (entsAt (h.set p P1) p).Perm ((key, record) :: entsAt h p) := by
          simp only [entsAt, hatp, hp, Node.ents, hP1ks, hP1rs]
          exact zip_insAt P.ks P.rs pos key record (by rw [okP.ks_length, okP.rs_length])
        exact (chainEnts_perm_update hperm hI.chain_nodup hpchain
          (fun q _ hq => by simp only [entsAt, hframe q hq])).trans
          (List.Perm.cons _ hI.content) }

/-- The child slot the internal loop of `insertNonFull` picks for a key that is
in the node's interval and not yet in the tree contains the key. -/
theorem Inv.findChild_slot {h : Heap ρ} {root t : Nat} {G : Ghost} {ins : List (Int × Slot ρ)}
    (hI : Inv h root t G ins) {p : Nat} {P : Node ρ} (hp : h[p]? = some P)
    {key : Int} (hkr : inRange (G.lo p) (G.hi p) key) (hfresh : key ∉ ins.map Prod.fst) :
    ∃ i, findChild key P P.n = some i ∧ i ≤ P.n ∧
      inRange (slotLo (G.lo p) P.ks i) (slotHi (G.hi p) P.ks i) key := by
  have okP := hI.node_ok p P hp
  have hkl : P.n ≤ P.keys.length := by rw [okP.klen]; exact okP.n_le
  obtain ⟨i, hs, hi, hgt, hle⟩ := findChild_spec key P P.n hkl
  refine ⟨i, hs, hi, ?_, ?_⟩
  · intro a ha
    by_cases h0 : i = 0
    · rw [slotLo, if_pos h0] at ha
      exact hkr.1 a ha
    · rw [slotLo, if_neg h0] at ha
      have hm : a ∈ P.ks := List.getElem?_mem ha
      simp only [Node.ks, List.getElem?_take] at ha
      rw [if_pos (by omega)] at ha
      have h1 := hle a (by omega) ha
      have h2 : a ≠ key := fun e => hfresh (e ▸ hI.keys_ins p P hp a hm)
      omega
  · intro b hb
    by_cases hil : i < P.ks.length
    · rw [slotHi, if_pos hil] at hb
      rw [okP.ks_length] at hil
      simp only [Node.ks, List.getElem?_take] at hb
      rw [if_pos hil] at hb
      exact le_of_lt (hgt i b (le_refl _) hil hb)
    · rw [slotHi, if_neg hil] at hb
      exact hkr.2 b hb

theorem Node.cs_get {nd : Node ρ} {i : Nat} (hi : i ≤ nd.n) : nd.cs[i]? = nd.children[i]? := by
  simp only [Node.cs, List.getElem?_take, if_pos (by omega : i < nd.n + 1)]

theorem Node.ks_get {nd : Node ρ} {i : Nat} (hi : i < nd.n) : nd.ks[i]? = nd.keys[i]? := by
  simp only [Node.ks, List.getElem?_take, if_pos hi]

theorem insertNonFull_inv {root t : Nat} (key : Int) (record : Slot ρ) :
    ∀ (fuel : Nat) (h : Heap ρ) (G : Ghost) (ins : List (Int × Slot ρ)) (p : Nat) (P : Node ρ),
    Inv h root t G ins → h[p]? = some P → P.n < 2 * t - 1 → G.lvl p < fuel →
    inRange (G.lo p) (G.hi p) key → key ∉ ins.map Prod.fst →
    ∃ h1 G1, insertNonFull fuel h p key record = some h1 ∧
      Inv h1 root t G1 ((key, record) :: ins) ∧ h.length ≤ h1.length := by
  intro fuel
  induction fuel with
  | zero => intro h G ins p P _ _ _ hl; omega
  | succ fuel ih =>
    intro h G ins p P hI hp hPn hlv hkr hfresh
    have ht := hI.t_ge
    have okP := hI.node_ok p P hp
    rcases Bool.eq_false_or_eq_true P.leaf with hPl | hPl
    · obtain ⟨h1, hrun, hI1, hlen⟩ := hI.leafInsert hp hPl hPn key record hkr hfresh fuel
      exact ⟨h1, G, hrun, hI1, by omega⟩
    · obtain ⟨i, hfc, hi, hslot⟩ := hI.findChild_slot hp hkr hfresh
      have hPcs : P.cs.length = P.n + 1 := okP.cs_length (by omega)
      obtain ⟨x, hx⟩ : ∃ x, P.cs[i]? = some x :=
getElem?_exists (by omega)
      obtain ⟨c, hxc, hcl, hclv⟩ := hI.child_lvl p P hp hPl x (List.getElem?_mem hx)
      subst hxc
      obtain ⟨C, hc⟩ : ∃ C, h[c]? = some C := ⟨h[c], List.getElem?_eq_getElem _⟩
      have okC := hI.node_ok c C hc
      obtain ⟨hloc, hhic⟩ := hI.child_range p P hp hPl i c hx ⟨key, hslot⟩
      have hkc : inRange (G.lo c) (G.hi c) key := by rw [hloc, hhic]; exact hslot
      have hcp : childPtr P i = some c := by
        simp only [childPtr, ← Node.cs_get hi, hx, Option.bind_eq_bind, Option.some_bind]
      by_cases hfull : C.n = 2 * t - 1
      · have hpc' : p ≠ c := by intro e; subst e; omega
        obtain ⟨h1, P1, C1, N1, km, rm, hsplit, hS⟩ := splitChild_spec h p i c P C hp hc hpc'
          (by rw [okC.t_eq]; omega) (by rw [okC.klen, okC.t_eq]) (by rw [okC.rlen, okC.t_eq])
          (by rw [okC.clen, okC.t_eq]) (by rw [okP.clen]; omega) (by rw [okP.klen]; omega)
          (by rw [okP.rlen]; omega) hi
        have hI1 := hI.split hp hc hPl hx hfull ⟨key, hslot⟩ hPn hS
        have hcn : c ≠ h.length := by omega
        have hP1k : P1.keys[i]? = some km := by
          rw [← Node.ks_get (by rw [hS.P_n]; omega), hS.P_ks,
            getElem?_insAt _ _ _ (by rw [okP.ks_length]; exact hi), if_neg (lt_irrefl _),
            if_pos rfl]
        have hstart : insertNonFull (fuel + 1) h p key record =
            (childPtr P1 (if key > km then i + 1 else i)).bind
              (fun c1 => insertNonFull fuel h1 c1 key record) := by
          simp only [insertNonFull, hp, hPl, hfc, hcp, hc, okP.t_eq, hfull, if_true, hsplit,
            hS.atP, hP1k, Option.bind_eq_bind, Option.some_bind, Bool.false_eq_true, if_false]
        by_cases hgt : key > km
        · have hcp1 : childPtr P1 (i + 1) = some h.length := by
            simp only [childPtr, ← Node.cs_get (by rw [hS.P_n]; omega : i + 1 ≤ P1.n), hS.P_cs]
            rw [getElem?_insAt _ _ _ (by omega), if_neg (lt_irrefl _), if_pos rfl]
            rfl
          obtain ⟨h2, G2, hrun, hI2, hlen⟩ := ih h1 (G.split h.length c km C.leaf) ins
            h.length N1 hI1 hS.atN (by rw [hS.N_n, okC.t_eq]; omega)
            (by rw [Ghost.split_lvl_new]; omega)
            (by
              rw [Ghost.split_lo_new, Ghost.split_hi_new]
              exact ⟨fun a ha => by cases ha; exact hgt, hkc.2⟩)
            hfresh
          refine ⟨h2, G2, ?_, hI2, by have := hS.len; omega⟩
          rw [hstart, if_pos hgt, hcp1]
          exact hrun
        · have hcp1 : childPtr P1 i = some c := by
            simp only [childPtr, ← Node.cs_get (by rw [hS.P_n]; omega : i ≤ P1.n), hS.P_cs]
            rw [getElem?_insAt _ _ _ (by omega), if_pos (by omega), hx]
            rfl
          obtain ⟨h2, G2, hrun, hI2, hlen⟩ := ih h1 (G.split h.length c km C.leaf) ins
            c C1 hI1 hS.atC (by rw [hS.C_eq]; simp only [okC.t_eq]; omega)
            (by rw [Ghost.split_lvl_old G km C.leaf hcn]; omega)
            (by
              rw [Ghost.split_lo_old G km C.leaf hcn, Ghost.split_hi_child G km C.leaf hcn]
              exact ⟨hkc.1, fun b hb => by cases hb; omega⟩)
            hfresh
          refine ⟨h2, G2, ?_, hI2, by have := hS.len; omega⟩
          rw [hstart, if_neg hgt, hcp1]
          exact hrun
      · have hCn : C.n < 2 * t - 1 := by have := okC.n_le; omega
        obtain ⟨h1, G1, hrun, hI1, hlen⟩ := ih h G ins c C hI hc hCn (by omega) hkc hfresh
        refine ⟨h1, G1, ?_, hI1, hlen⟩
        simp only [insertNonFull, hp, hPl, hfc, hcp, hc, okP.t_eq, hfull, if_false,
          Option.bind_eq_bind, Option.some_bind, Bool.false_eq_true]
        exact hrun

theorem Inv.init (t : Nat) (ht : 2 ≤ t) :
    Inv (createBTree t : BTree ρ).heap (createBTree t : BTree ρ).root t Ghost.init [] := by
  have hcases : ∀ (q : Nat) (nd : Node ρ), (createBTree t : BTree ρ).heap[q]? = some nd →
      q = 0 ∧ nd = freshNode t true := by
    intro q nd hq
    simp only [createBTree] at hq
    cases q with
    | zero => simp at hq; exact ⟨rfl, hq.symm⟩
    | succ q => simp at hq
  have hks : (freshNode t true : Node ρ).ks = [] := by simp [Node.ks, freshNode]
  exact
    { t_ge := ht
      root_lt := by simp [createBTree]
      node_ok := by
        intro q nd hq
        obtain ⟨_, rfl⟩ := hcases q nd hq
        exact
          { t_eq := rfl
            klen := by simp [freshNode]
            rlen := by simp [freshNode]
            clen := by simp [freshNode]
            n_le := by simp [freshNode]
            sorted := by rw [hks]; exact List.Pairwise.nil }
      min_keys := by
        intro q nd hq hr
        obtain ⟨rfl, _⟩ := hcases q nd hq
        exact absurd rfl hr
      leaf_lvl := fun _ _ _ _ => rfl
      child_lvl := by
        intro q nd hq hl
        obtain ⟨_, rfl⟩ := hcases q nd hq
        simp [freshNode] at hl
      lvl_le := fun _ _ => le_refl _
      lvl_root := by simp [createBTree, Ghost.init]
      key_range := by
        intro q nd hq k hk
        obtain ⟨_, rfl⟩ := hcases q nd hq
        rw [hks] at hk
        cases hk
      nonempty := fun _ _ => ⟨0, ⟨fun a ha => (by cases ha), fun b hb => (by cases hb)⟩⟩
      root_lo := rfl
      root_hi := rfl
      child_range := by
        intro q nd hq hl
        obtain ⟨_, rfl⟩ := hcases q nd hq
        simp [freshNode] at hl
      uniq := by
        intro a b x ha hb _ _ _
        simp only [createBTree, List.length_singleton] at ha hb
        omega
      head_leaf := ⟨freshNode t true, by simp [createBTree], rfl⟩
      head_lo := rfl
      chain_ok := ⟨rfl, freshNode t true, by simp [createBTree], rfl, rfl,
        fun q hq => by simp [Ghost.init] at hq⟩
      chain_nodup := by simp [Ghost.init]
      chain_mem := by
        intro q nd hq _
        obtain ⟨rfl, _⟩ := hcases q nd hq
        simp [Ghost.init]
      chain_len := by simp [Ghost.init, createBTree]
      keys_ins := by
        intro q nd hq k hk
        obtain ⟨_, rfl⟩ := hcases q nd hq
        rw [hks] at hk
        cases hk
      content := by
        simp [Ghost.init, chainEnts, entsAt, createBTree, Node.ents, hks] }

/-- The fresh root `insert` puts above a full root, before the split. -/
theorem Inv.newRoot {h : Heap ρ} {root t : Nat} {G : Ghost} {ins : List (Int × Slot ρ)}
    (hI : Inv h root t G ins) {R : Node ρ} (hr : h[root]? = some R) (hfull : R.n = 2 * t - 1)
    {S0 : Node ρ} (hS0 : S0 = { (freshNode t false : Node ρ) with
      children := (freshNode t false : Node ρ).children.set 0 (some root) }) :
    Inv (h ++ [S0]) h.length t (G.newRoot h.length root) ins := by
  have ht := hI.t_ge
  have hrl := hI.root_lt
  have hks : S0.ks = [] := by simp [Node.ks, hS0, freshNode]
  have hcs : S0.cs = [some root] := by
    simp only [Node.cs, hS0, freshNode]
    have : 2 * t = (2 * t - 1) + 1 := by omega
    rw [this, List.replicate_succ]
    rfl
  have hleaf : S0.leaf = false := by simp [hS0, freshNode]
  have hcases : ∀ (q : Nat) (nd : Node ρ), (h ++ [S0])[q]? = some nd →
      (q = h.length ∧ nd = S0) ∨ (q < h.length ∧ h[q]? = some nd) := by
    intro q nd hq
    by_cases hql : q < h.length
    · rw [List.getElem?_append_left hql] at hq
      exact Or.inr ⟨hql, hq⟩
    · have hqlen := (List.getElem?_eq_some_iff.1 hq).1
      simp only [List.length_append, List.length_singleton] at hqlen
      have e : q = h.length := by omega
      subst e
      simp at hq
      exact Or.inl ⟨rfl, hq.symm⟩
  have hframe : ∀ q : Nat, q < h.length → (h ++ [S0])[q]? = h[q]? :=
    fun q hq => List.getElem?_append_left hq
  have gl : ∀ q : Nat, q < h.length → (G.newRoot h.length root).lvl q = G.lvl q := by
    intro q hq; simp [Ghost.newRoot, Nat.ne_of_lt hq]
  have glo : ∀ q : Nat, q < h.length → (G.newRoot h.length root).lo q = G.lo q := by
    intro q hq; simp [Ghost.newRoot, Nat.ne_of_lt hq]
  have ghi : ∀ q : Nat, q < h.length → (G.newRoot h.length root).hi q = G.hi q := by
    intro q hq; simp [Ghost.newRoot, Nat.ne_of_lt hq]
  have gls : (G.newRoot h.length root).lvl h.length = G.lvl root + 1 := by simp [Ghost.newRoot]
  have glos : (G.newRoot h.length root).lo h.length = none := by simp [Ghost.newRoot]
  have ghis : (G.newRoot h.length root).hi h.length = none := by simp [Ghost.newRoot]
  have hchain_lt : ∀ q ∈ G.chain, q < h.length := by
    intro q hq
    obtain ⟨nd, hnd, _⟩ := hI.chain_ok.node q hq
    exact (List.getElem?_eq_some_iff.1 hnd).1
  exact
    { t_ge := ht
      root_lt := by simp
      node_ok := by
        intro q nd hq
        rcases hcases q nd hq with ⟨_, rfl⟩ | ⟨_, hq'⟩
        · exact
            { t_eq := by simp [hS0, freshNode]
              klen := by simp [hS0, freshNode]
              rlen := by simp [hS0, freshNode]
              clen := by simp [hS0, freshNode]
              n_le := by simp [hS0, freshNode]
              sorted := by rw [hks]; exact List.Pairwise.nil }
        · exact hI.node_ok q nd hq'
      min_keys := by
        intro q nd hq hne
        rcases hcases q nd hq with ⟨e, _⟩ | ⟨_, hq'⟩
        · exact absurd e hne
        · by_cases e : q = root
          · subst e
            rw [hr] at hq'
            cases hq'
            omega
          · exact hI.min_keys q nd hq' e
      leaf_lvl := by
        intro q nd hq hl
        rcases hcases q nd hq with ⟨_, rfl⟩ | ⟨hql, hq'⟩
        · rw [hleaf] at hl; cases hl
        · rw [gl q hql]; exact hI.leaf_lvl q nd hq' hl
      child_lvl := by
        intro q nd hq hl x hx
        rcases hcases q nd hq with ⟨rfl, rfl⟩ | ⟨hql, hq'⟩
        · rw [hcs, List.mem_singleton] at hx
          subst hx
          exact ⟨root, rfl, by simp; omega, by rw [gl root hrl, gls]⟩
        · obtain ⟨c, rfl, h1, h2⟩ := hI.child_lvl q nd hq' hl x hx
          exact ⟨c, rfl, by simp; omega, by rw [gl c h1, gl q hql]; exact h2⟩
      lvl_le := by
        intro q hq
        rw [gls]
        by_cases e : q = h.length
        · rw [e, gls]
        · simp only [List.length_append, List.length_singleton] at hq
          rw [gl q (by omega)]
          have := hI.lvl_le q (by omega)
          omega
      lvl_root := by
        rw [gls]
        have := hI.lvl_root
        simp only [List.length_append, List.length_singleton]
        omega
      key_range := by
        intro q nd hq k hk
        rcases hcases q nd hq with ⟨rfl, rfl⟩ | ⟨hql, hq'⟩
        · rw [hks] at hk; cases hk
        · rw [glo q hql, ghi q hql]; exact hI.key_range q nd hq' k hk
      nonempty := by
        intro q hq
        by_cases e : q = h.length
        · rw [e, glos, ghis]
          exact ⟨0, ⟨fun a ha => (by cases ha), fun b hb => (by cases hb)⟩⟩
        · simp only [List.length_append, List.length_singleton] at hq
          rw [glo q (by omega), ghi q (by omega)]
          exact hI.nonempty q (by omega)
      root_lo := glos
      root_hi := ghis
      child_range := by
        intro q nd hq hl j c hj hx
        rcases hcases q nd hq with ⟨rfl, rfl⟩ | ⟨hql, hq'⟩
        · rw [hcs] at hj
          cases j with
          | zero =>
            simp only [List.getElem?_cons_zero, Option.some.injEq] at hj
            subst hj
            rw [glo root hrl, ghi root hrl, glos, ghis, hks, hI.root_lo, hI.root_hi]
            simp [slotLo, slotHi]
          | succ j => simp at hj
        · rw [glo q hql, ghi q hql] at hx ⊢
          obtain ⟨c', hc', h1, _⟩ := hI.child_lvl q nd hq' hl _ (List.getElem?_mem hj)
          cases hc'
          rw [glo c h1, ghi c h1]
          exact hI.child_range q nd hq' hl j c hj hx
      uniq := by
        intro a b x ha hb hlv hxa hxb
        simp only [List.length_append, List.length_singleton] at ha hb
        by_cases ea : a = h.length
        · by_cases eb : b = h.length
          · rw [ea, eb]
          · exfalso
            rw [ea, gls, gl b (by omega)] at hlv
            have := hI.lvl_le b (by omega)
            omega
        · by_cases eb : b = h.length
          · exfalso
            rw [eb, gls, gl a (by omega)] at hlv
            have := hI.lvl_le a (by omega)
            omega
          · rw [gl a (by omega), gl b (by omega)] at hlv
            rw [glo a (by omega), ghi a (by omega)] at hxa
            rw [glo b (by omega), ghi b (by omega)] at hxb
            exact hI.uniq a b x (by omega) (by omega) hlv hxa hxb
      head_leaf := by
        obtain ⟨nd0, h0, hl0⟩ := hI.head_leaf
        exact ⟨nd0, by rw [hframe 0 (by omega)]; exact h0, hl0⟩
      head_lo := by rw [glo 0 (by omega)]; exact hI.head_lo
      chain_ok := by
        refine IsChain.frame hI.chain_ok (fun q hq nd hnd => ?_) (fun q hq => ?_)
        · exact ⟨nd, by rw [hframe q (hchain_lt q hq)]; exact hnd, rfl, rfl⟩
        · exact ⟨glo q (hchain_lt q hq), ghi q (hchain_lt q hq)⟩
      chain_nodup := hI.chain_nodup
      chain_mem := by
        intro q nd hq hl
        rcases hcases q nd hq with ⟨_, rfl⟩ | ⟨_, hq'⟩
        · rw [hleaf] at hl; cases hl
        · exact hI.chain_mem q nd hq' hl
      chain_len := by
        have := hI.chain_len
        simp only [List.length_append, List.length_singleton]
        exact Nat.le_succ_of_le this
      keys_ins := by
        intro q nd hq k hk
        rcases hcases q nd hq with ⟨_, rfl⟩ | ⟨_, hq'⟩
        · rw [hks] at hk; cases hk
        · exact hI.keys_ins q nd hq' k hk
      content := by
        have : chainEnts (h ++ [S0]) G.chain = chainEnts h G.chain :=
          chainEnts_frame (fun q hq => by simp only [entsAt, hframe q (hchain_lt q hq)])
        show (chainEnts (h ++ [S0]) G.chain).Perm ins
        rw [this]
        exact hI.content }

theorem insert_inv {T : BTree ρ} {G : Ghost} {ins : List (Int × Slot ρ)}
    (hI : Inv T.heap T.root T.t G ins) (key : Int) (record : Slot ρ)
    (hfresh : key ∉ ins.map Prod.fst) :
    ∃ T1 G1, insert T key record = some T1 ∧
      Inv T1.heap T1.root T1.t G1 ((key, record) :: ins) ∧ T1.t = T.t := by
  have ht := hI.t_ge
  have hrl := hI.root_lt
  obtain ⟨R, hr⟩ : ∃ R, T.heap[T.root]? = some R := ⟨T.heap[T.root], List.getElem?_eq_getElem _⟩
  have okR := hI.node_ok T.root R hr
  have hall : ∀ (lo hi : Option Int), lo = none → hi = none → inRange lo hi key := by
    intro lo hi e1 e2
    subst e1
    subst e2
    exact ⟨fun a ha => (by cases ha), fun b hb => (by cases hb)⟩
  by_cases hfull : R.n = 2 * T.t - 1
  · obtain ⟨S0, hS0⟩ : ∃ S0 : Node ρ, S0 = { (freshNode T.t false : Node ρ) with
        children := (freshNode T.t false : Node ρ).children.set 0 (some T.root) } := ⟨_, rfl⟩
    have hI2 := hI.newRoot hr hfull hS0
    have hs : (T.heap ++ [S0])[T.heap.length]? = some S0 := by simp
    have hr2 : (T.heap ++ [S0])[T.root]? = some R := by
      rw [List.getElem?_append_left hrl]; exact hr
    have okS := hI2.node_ok _ S0 hs
    have hS0n : S0.n = 0 := by simp [hS0, freshNode]
    have hS0l : S0.leaf = false := by simp [hS0, freshNode]
    have hS0cs : S0.cs[0]? = some (some T.root) := by
      rw [Node.cs_get (Nat.zero_le _), hS0]
      simp only [freshNode]
      have : 2 * T.t = (2 * T.t - 1) + 1 := by omega
      rw [this, List.replicate_succ]
      simp
    have hS0ks : S0.ks = [] := by simp [Node.ks, hS0n]
    obtain ⟨h3, P1, C1, N1, km, rm, hsplit, hS⟩ := splitChild_spec (T.heap ++ [S0])
      T.heap.length 0 T.root S0 R hs hr2 (by omega) (by rw [okR.t_eq]; omega)
      (by rw [okR.klen, okR.t_eq]) (by rw [okR.rlen, okR.t_eq]) (by rw [okR.clen, okR.t_eq])
      (by rw [okS.clen, hS0n]; omega) (by rw [okS.klen, hS0n]; omega)
      (by rw [okS.rlen, hS0n]; omega) (Nat.zero_le _)
    have hslot : ∃ x, inRange
        (slotLo ((G.newRoot T.heap.length T.root).lo T.heap.length) S0.ks 0)
        (slotHi ((G.newRoot T.heap.length T.root).hi T.heap.length) S0.ks 0) x := by
      refine ⟨key, hall _ _ ?_ ?_⟩
      · simp [slotLo, Ghost.newRoot]
      · simp [slotHi, hS0ks, Ghost.newRoot]
    have hI3 := hI2.split hs hr2 hS0l hS0cs hfull hslot (by rw [hS0n]; omega) hS
    obtain ⟨h4, G4, hrun, hI4, _⟩ := insertNonFull_inv key record h3.length h3 _ ins
      T.heap.length P1 hI3 hS.atP (by rw [hS.P_n, hS0n]; omega) hI3.lvl_root
      (hall _ _ hI3.root_lo hI3.root_hi) hfresh
    refine ⟨{ T with root := T.heap.length, heap := h4 }, G4, ?_, hI4, rfl⟩
    have hw : writeAt (freshNode T.t false : Node ρ).children 0 (some T.root) =
        some ((freshNode T.t false : Node ρ).children.set 0 (some T.root)) :=
      writeAt_of_lt _ (by simp [freshNode]; omega)
    have hst : store (T.heap ++ [(freshNode T.t false : Node ρ)]) T.heap.length S0 =
        some (T.heap ++ [S0]) := by
      simp [store]
    simp only [insert, hr, hfull, if_true, createNode, Option.bind_eq_bind, Option.some_bind,
      List.getElem?_concat_length, hw, ← hS0, hst, hsplit, hrun]
  · have hRn : R.n < 2 * T.t - 1 := by have := okR.n_le; omega
    obtain ⟨h1, G1, hrun, hI1, _⟩ := insertNonFull_inv key record T.heap.length T.heap G ins
      T.root R hI hr hRn hI.lvl_root (hall _ _ hI.root_lo hI.root_hi) hfresh
    refine ⟨{ T with heap := h1 }, G1, ?_, hI1, rfl⟩
    simp only [insert, hr, hfull, if_false, Option.bind_eq_bind, Option.some_bind, hrun]

theorem insertAll_inv : ∀ (kvs : List (Int × ρ)) (T : BTree ρ) (G : Ghost)
    (ins : List (Int × Slot ρ)), Inv T.heap T.root T.t G ins → (kvs.map Prod.fst).Nodup →
    (∀ k ∈ kvs.map Prod.fst, k ∉ ins.map Prod.fst) →
    ∃ T1 G1 ins1, insertAll T kvs = some T1 ∧ Inv T1.heap T1.root T1.t G1 ins1 ∧ T1.t = T.t ∧
      ins1.Perm (kvs.map (fun kr => (kr.1, Slot.ptr kr.2)) ++ ins) := by
  intro kvs
  induction kvs with
  | nil =>
    intro T G ins hI _ _
    exact ⟨T, G, ins, rfl, hI, rfl, List.Perm.refl _⟩
  | cons kr rest ih =>
    intro T G ins hI hnd hfresh
    obtain ⟨k, r⟩ := kr
    simp only [List.map_cons, List.nodup_cons] at hnd
    obtain ⟨T1, G1, hrun1, hI1, ht1⟩ := insert_inv hI k (Slot.ptr r)
      (hfresh k (by simp))
    obtain ⟨T2, G2, ins2, hrun2, hI2, ht2, hperm⟩ := ih T1 G1 _ hI1 hnd.2 (by
      intro k' hk'
      simp only [List.map_cons, List.mem_cons, not_or]
      refine ⟨?_, hfresh k' (by simp only [List.map_cons, List.mem_cons]; exact Or.inr hk')⟩
      intro e
      subst e
      exact hnd.1 hk')
    refine ⟨T2, G2, ins2, ?_, hI2, by rw [ht2, ht1], ?_⟩
    · simp only [insertAll, hrun1, Option.bind_eq_bind, Option.some_bind]
      exact hrun2
    · refine hperm.trans ?_
      simp only [List.map_cons, List.cons_append]
      exact List.perm_middle

/-! ## `search` and the scan on a tree that satisfies the invariant -/

/-- `search` for a key that was never inserted ends in a leaf with `NULL`. -/
theorem Inv.search_absent {h : Heap ρ} {root t : Nat} {G : Ghost} {ins : List (Int × Slot ρ)}
    (hI : Inv h root t G ins) {key : Int} (hfresh : key ∉ ins.map Prod.fst) :
    ∀ (fuel p : Nat) (P : Node ρ), h[p]? = some P → G.lvl p < fuel →
      search fuel h p key = some Slot.null := by
  intro fuel
  induction fuel with
  | zero => intro p P _ hl; omega
  | succ fuel ih =>
    intro p P hp hlv
    have ht := hI.t_ge
    have okP := hI.node_ok p P hp
    obtain ⟨i, hsp, _, hile, _, _⟩ := searchPos_spec key P P.n 0
      (by rw [okP.klen]; have := okP.n_le; omega)
    have hhit : searchHit key P i = some false := by
      unfold searchHit
      by_cases hin : i < P.n
      · rw [if_pos hin]
        obtain ⟨ki, hk⟩ := getElem?_exists (l := P.keys) (i := i)
          (by rw [okP.klen]; have := okP.n_le; omega)
        rw [hk]
        have hm : ki ∈ P.ks := by
          apply List.getElem?_mem (n := i)
          rw [Node.ks_get hin]
          exact hk
        have hne : ki ≠ key :=
          fun e => hfresh (e ▸ hI.keys_ins p P hp _ hm)
        simp [hne]
      · rw [if_neg hin]
    rcases Bool.eq_false_or_eq_true P.leaf with hPl | hPl
    · simp only [search, hp, hsp, hhit, hPl, Option.bind_eq_bind, Option.some_bind,
        Bool.false_eq_true, if_false, if_true]
    · have hPcs : P.cs.length = P.n + 1 := okP.cs_length (by omega)
      obtain ⟨x, hx⟩ : ∃ x, P.cs[i]? = some x :=
getElem?_exists (by omega)
      obtain ⟨c, hxc, hcl, hclv⟩ := hI.child_lvl p P hp hPl x (List.getElem?_mem hx)
      subst hxc
      obtain ⟨C, hc⟩ : ∃ C, h[c]? = some C := ⟨h[c], List.getElem?_eq_getElem _⟩
      have hcp : childPtr P i = some c := by
        simp only [childPtr, ← Node.cs_get (by omega : i ≤ P.n), hx, Option.bind_eq_bind,
          Option.some_bind]
      simp only [search, hp, hsp, hhit, hPl, hcp, Option.bind_eq_bind, Option.some_bind,
        Bool.false_eq_true, if_false]
      exact ih c C hc (by omega : G.lvl c < fuel)

theorem Inv.searchTree_absent {T : BTree ρ} {G : Ghost} {ins : List (Int × Slot ρ)}
    (hI : Inv T.heap T.root T.t G ins) {key : Int} (hfresh : key ∉ ins.map Prod.fst) :
    searchTree T key = some Slot.null := by
  obtain ⟨R, hr⟩ : ∃ R, T.heap[T.root]? = some R :=
getElem?_exists hI.root_lt
  exact hI.search_absent hfresh T.heap.length T.root R hr hI.lvl_root

/-- The only leaf whose interval is unbounded below is the head of the chain. -/
theorem Inv.leaf_lo_none {h : Heap ρ} {root t : Nat} {G : Ghost} {ins : List (Int × Slot ρ)}
    (hI : Inv h root t G ins) {p : Nat} {P : Node ρ} (hp : h[p]? = some P)
    (hPl : P.leaf = true) (hlo : G.lo p = none) : p = 0 := by
  obtain ⟨nd0, h0, hl0⟩ := hI.head_leaf
  have hpl : p < h.length := (List.getElem?_eq_some_iff.1 hp).1
  have h0l : 0 < h.length := (List.getElem?_eq_some_iff.1 h0).1
  obtain ⟨x, hx⟩ := hI.nonempty p hpl
  obtain ⟨y, hy⟩ := hI.nonempty 0 h0l
  have hxm : inRange (G.lo p) (G.hi p) (min x y) :=
    ⟨fun a ha => (by rw [hlo] at ha; cases ha),
      fun b hb => le_trans (min_le_left _ _) (hx.2 b hb)⟩
  have hym : inRange (G.lo 0) (G.hi 0) (min x y) :=
    ⟨fun a ha => (by rw [hI.head_lo] at ha; cases ha),
      fun b hb => le_trans (min_le_right _ _) (hy.2 b hb)⟩
  exact hI.uniq p 0 _ hpl h0l
    (by rw [hI.leaf_lvl p P hp hPl, hI.leaf_lvl 0 nd0 h0 hl0]) hxm hym

theorem Inv.leftmost_eq {h : Heap ρ} {root t : Nat} {G : Ghost} {ins : List (Int × Slot ρ)}
    (hI : Inv h root t G ins) : ∀ (fuel p : Nat) (P : Node ρ), h[p]? = some P →
      G.lo p = none → G.lvl p < fuel → leftmost fuel h p = some 0 := by
  intro fuel
  induction fuel with
  | zero => intro p P _ _ hl; omega
  | succ fuel ih =>
    intro p P hp hlo hlv
    have ht := hI.t_ge
    have okP := hI.node_ok p P hp
    rcases Bool.eq_false_or_eq_true P.leaf with hPl | hPl
    · have := hI.leaf_lo_none hp hPl hlo
      subst this
      simp only [leftmost, hp, hPl, Option.bind_eq_bind, Option.some_bind, if_true]
    · have hPcs : P.cs.length = P.n + 1 := okP.cs_length (by omega)
      obtain ⟨x, hx⟩ : ∃ x, P.cs[0]? = some x :=
getElem?_exists (by omega)
      obtain ⟨c, hxc, hcl, hclv⟩ := hI.child_lvl p P hp hPl x (List.getElem?_mem hx)
      subst hxc
      obtain ⟨C, hc⟩ : ∃ C, h[c]? = some C := ⟨h[c], List.getElem?_eq_getElem _⟩
      have hcp : childPtr P 0 = some c := by
        simp only [childPtr, ← Node.cs_get (Nat.zero_le _), hx, Option.bind_eq_bind,
          Option.some_bind]
      have hslot : ∃ y, inRange (slotLo (G.lo p) P.ks 0) (slotHi (G.hi p) P.ks 0) y := by
        by_cases hn : 0 < P.ks.length
        · refine ⟨P.ks[0], ⟨fun a ha => ?_, fun b hb => ?_⟩⟩
          · simp only [slotLo, if_true, hlo] at ha
            cases ha
          · simp only [slotHi, if_pos hn, List.getElem?_eq_getElem hn, Option.some.injEq] at hb
            omega
        · obtain ⟨y, hy⟩ := hI.nonempty p (List.getElem?_eq_some_iff.1 hp).1
          refine ⟨y, ⟨fun a ha => ?_, fun b hb => ?_⟩⟩
          · simp only [slotLo, if_true, hlo] at ha
            cases ha
          · simp only [slotHi, if_neg hn] at hb
            exact hy.2 b hb
      obtain ⟨hloc, _⟩ := hI.child_range p P hp hPl 0 c hx hslot
      have hloc' : G.lo c = none := by rw [hloc]; simp only [slotLo, if_true, hlo]
      simp only [leftmost, hp, hPl, hcp, Option.bind_eq_bind, Option.some_bind,
        Bool.false_eq_true, if_false]
      exact ih c C hc hloc' (by omega : G.lvl c < fuel)

theorem Inv.entries_eq {h : Heap ρ} {root t : Nat} {G : Ghost} {ins : List (Int × Slot ρ)}
    (hI : Inv h root t G ins) {p : Nat} {P : Node ρ} (hp : h[p]? = some P) :
    leafEntries P P.n 0 = some (entsAt h p) := by
  have okP := hI.node_ok p P hp
  rw [leafEntries_spec P P.n 0 (by rw [okP.klen]; have := okP.n_le; omega)
    (by rw [okP.rlen]; have := okP.n_le; omega)]
  simp only [entsAt, hp, Node.ents, Node.ks, Node.rs, List.drop_zero]

theorem Inv.walk_eq {h : Heap ρ} {root t : Nat} {G : Ghost} {ins : List (Int × Slot ρ)}
    (hI : Inv h root t G ins) : ∀ (l : List Nat) (fuel : Nat) (s : Option Nat),
      IsChain h G s l → l.length ≤ fuel → walk fuel h s = some (chainEnts h l) := by
  intro l
  induction l with
  | nil =>
    intro fuel s hc _
    have : s = none := hc
    subst this
    cases fuel <;> rfl
  | cons x xs ih =>
    intro fuel s hc hlen
    obtain ⟨hs, nd, hnd, _, hrest, _⟩ := hc
    subst hs
    cases fuel with
    | zero => simp at hlen
    | succ fuel =>
      simp only [List.length_cons, Nat.add_le_add_iff_right] at hlen
      simp only [walk, hnd, hI.entries_eq hnd, ih fuel nd.next hrest hlen, chainEnts,
        Option.bind_eq_bind, Option.some_bind]

theorem Inv.scan_eq {T : BTree ρ} {G : Ghost} {ins : List (Int × Slot ρ)}
    (hI : Inv T.heap T.root T.t G ins) : scan T = some (chainEnts T.heap G.chain) := by
  obtain ⟨R, hr⟩ : ∃ R, T.heap[T.root]? = some R :=
getElem?_exists hI.root_lt
  simp only [scan, hI.leftmost_eq T.heap.length T.root R hr hI.root_lo hI.lvl_root,
    Option.bind_eq_bind, Option.some_bind]
  exact hI.walk_eq G.chain T.heap.length (some 0) hI.chain_ok hI.chain_len

theorem Inv.entsAt_keys {h : Heap ρ} {root t : Nat} {G : Ghost} {ins : List (Int × Slot ρ)}
    (hI : Inv h root t G ins) {p : Nat} {P : Node ρ} (hp : h[p]? = some P) :
    (entsAt h p).map Prod.fst = P.ks := by
  have okP := hI.node_ok p P hp
  simp only [entsAt, hp, Node.ents]
  exact List.map_fst_zip _ _ (by rw [okP.ks_length, okP.rs_length])

theorem Inv.chain_sorted {h : Heap ρ} {root t : Nat} {G : Ghost} {ins : List (Int × Slot ρ)}
    (hI : Inv h root t G ins) : ∀ (l : List Nat) (s : Option Nat), IsChain h G s l →
      (∀ q ∈ l.tail, ∃ a, G.lo q = some a) →
      ((chainEnts h l).map Prod.fst).Pairwise (fun a b => a < b) ∧
      ∀ q, l.head? = some q → ∀ k ∈ (chainEnts h l).map Prod.fst,
        ∀ a, G.lo q = some a → a < k := by
  intro l
  induction l with
  | nil =>
    intro s _ _
    exact ⟨List.Pairwise.nil, fun q hq => by cases hq⟩
  | cons p rest ih =>
    intro s hc htail
    obtain ⟨_, nd, hnd, _, hrest, hlink⟩ := hc
    have okP := hI.node_ok p nd hnd
    have hpl : p < h.length := (List.getElem?_eq_some_iff.1 hnd).1
    obtain ⟨ihs, ihlo⟩ := ih nd.next hrest (fun q hq => htail q (List.mem_of_mem_tail hq))
    have hcross : ∀ b ∈ (chainEnts h rest).map Prod.fst,
        ∃ lq, G.hi p = some lq ∧ lq < b := by
      intro b hb
      cases rest with
      | nil => simp [chainEnts] at hb
      | cons q rest' =>
        obtain ⟨lq, hlq⟩ := htail q (List.mem_cons_self _ _)
        exact ⟨lq, by rw [hlink q rfl]; exact hlq, ihlo q rfl b hb lq hlq⟩
    simp only [chainEnts, List.map_append, hI.entsAt_keys hnd]
    refine ⟨?_, ?_⟩
    · rw [List.pairwise_append]
      refine ⟨okP.sorted, ihs, ?_⟩
      intro a ha b hb
      obtain ⟨lq, hlq, hlt⟩ := hcross b hb
      have := (hI.key_range p nd hnd a ha).2 lq hlq
      omega
    · intro q hq k hk a ha
      simp only [List.head?_cons, Option.some.injEq] at hq
      subst hq
      rcases List.mem_append.1 hk with hk | hk
      · exact (hI.key_range p nd hnd k hk).1 a ha
      · obtain ⟨lq, hlq, hlt⟩ := hcross k hk
        obtain ⟨x, hx⟩ := hI.nonempty p hpl
        have h1 := hx.1 a ha
        have h2 := hx.2 lq hlq
        omega

/-- The leaf chain of a tree that satisfies the invariant is strictly
ascending by key. -/
theorem Inv.scan_sorted {h : Heap ρ} {root t : Nat} {G : Ghost} {ins : List (Int × Slot ρ)}
    (hI : Inv h root t G ins) :
    ((chainEnts h G.chain).map Prod.fst).Pairwise (fun a b => a < b) := by
  have hc := hI.chain_ok
  have hnd := hI.chain_nodup
  cases hch : G.chain with
  | nil => exact List.Pairwise.nil
  | cons p rest =>
    rw [hch] at hc hnd
    have hp0 : p = 0 := by
      obtain ⟨hs, _⟩ := hc
      exact (Option.some.inj hs).symm
    refine (hI.chain_sorted (p :: rest) (some 0) hc ?_).1
    intro q hq
    simp only [List.tail_cons] at hq
    obtain ⟨nd, hq', hl⟩ := hc.node q (List.mem_cons_of_mem _ hq)
    cases hlo : G.lo q with
    | some a => exact ⟨a, rfl⟩
    | none =>
      exfalso
      have := hI.leaf_lo_none hq' hl hlo
      rw [List.nodup_cons] at hnd
      exact hnd.1 (by rw [hp0, ← this]; exact hq)

theorem Inv.reach {h : Heap ρ} {root t : Nat} {G : Ghost} {ins : List (Int × Slot ρ)}
    (hI : Inv h root t G ins) {q : Nat} (hq : Reach h root q) : q < h.length := by
  induction hq with
  | root => exact hI.root_lt
  | child p nd i c _ hp hl hi hc _ =>
    rw [← Node.cs_get hi] at hc
    obtain ⟨c', hc', hlt, _⟩ := hI.child_lvl p nd hp hl _ (List.getElem?_mem hc)
    cases hc'
    exact hlt

/-! ## The transaction processor -/


section Rates
variable {F : Type} [FloatOps F]

theorem RatesKept.refl (s : Seller F) : RatesKept s s := ⟨fun _ => rfl, fun _ => rfl⟩

theorem RatesKept.chain {s s1 s2 : Seller F} (h1 : RatesKept s s1) (h2 : RatesKept s1 s2) :
    RatesKept s s2 := by
  constructor
  · intro hz
    have e := h1.1 hz
    rw [← e] at hz
    rw [h2.1 hz, e]
  · intro hz
    have e := h1.2 hz
    rw [← e] at hz
    rw [h2.2 hz, e]

theorem updateRates_kept (tx : Transaction F) (s : Seller F) : RatesKept s (updateRates tx s) := by
  unfold updateRates
  split
  · rename_i h
    simp only [Bool.and_eq_true] at h
    exact ⟨fun hz => (by rw [h.2] at hz; cases hz), fun _ => rfl⟩
  · split
    · rename_i h
      simp only [Bool.and_eq_true] at h
      exact ⟨fun _ => rfl, fun hz => by rw [h.2] at hz; cases hz⟩
    · exact RatesKept.refl s

theorem SellersKept.of_eq {L L1 : Ledger F} (h : L1.sellers = L.sellers) : SellersKept L L1 :=
  fun p s hs => ⟨s, by rw [h]; exact hs, RatesKept.refl s⟩

theorem SellersKept.compose {L L1 L2 : Ledger F} (h1 : SellersKept L L1) (h2 : SellersKept L1 L2) :
    SellersKept L L2 := by
  intro p s hs
  obtain ⟨s1, hs1, k1⟩ := h1 p s hs
  obtain ⟨s2, hs2, k2⟩ := h2 p s1 hs1
  exact ⟨s2, hs2, k1.chain k2⟩

theorem SellersKept.set {L : Ledger F} {sp : Nat} {s0 s1 : Seller F}
    (h0 : L.sellers[sp]? = some s0) (hk : RatesKept s0 s1) (L1 : Ledger F)
    (h1 : L1.sellers = L.sellers.set sp s1) : SellersKept L L1 := by
  intro p s hs
  rw [h1, List.getElem?_set]
  by_cases e : sp = p
  · subst e
    rw [h0] at hs
    cases hs
    exact ⟨s1, by rw [if_pos rfl, if_pos (List.getElem?_eq_some_iff.1 h0).1], hk⟩
  · exact ⟨s, by rw [if_neg e]; exact hs, RatesKept.refl s⟩

theorem findOrCreateSeller_kept {L L1 : Ledger F} {id : Int} {sp : Nat}
    (h : findOrCreateSeller L id = some (sp, L1)) : SellersKept L L1 := by
  unfold findOrCreateSeller at h
  split at h
  · cases h
  · cases h
    exact SellersKept.of_eq rfl
  · dsimp only at h
    split at h
    · cases h
    · cases h
      intro p s hs
      refine ⟨s, ?_, RatesKept.refl s⟩
      show (L.sellers ++ _)[p]? = some s
      rw [List.getElem?_append_left (List.getElem?_eq_some_iff.1 hs).1]
      exact hs

theorem sellerStep_kept {L L1 : Ledger F} {sp : Nat} {tx : Transaction F}
    (h : sellerStep L sp tx = some L1) : SellersKept L L1 := by
  unfold sellerStep at h
  split at h
  · cases h
  · rename_i s0 h0
    dsimp only at h
    split at h
    · cases h
    · cases h
      refine SellersKept.set h0 ?_ _ rfl
      exact updateRates_kept tx s0

theorem findOrCreateBuyer_kept {L L1 : Ledger F} {id : Int} {bp : Nat}
    (h : findOrCreateBuyer L id = some (bp, L1)) : SellersKept L L1 := by
  unfold findOrCreateBuyer at h
  split at h
  · cases h
  · cases h
    exact SellersKept.of_eq rfl
  · dsimp only at h
    split at h
    · cases h
    · cases h
      exact SellersKept.of_eq rfl

theorem buyerStep_kept {L L1 : Ledger F} {bp : Nat} {tx : Transaction F}
    (h : buyerStep L bp tx = some L1) : SellersKept L L1 := by
  unfold buyerStep at h
  split at h
  · cases h
  · dsimp only at h
    split at h
    · cases h
    · cases h
      exact SellersKept.of_eq rfl

theorem regularStep_kept {L L1 : Ledger F} {sp : Nat} {tx : Transaction F}
    (h : regularStep L sp tx = some L1) : SellersKept L L1 := by
  unfold regularStep at h
  split at h
  · cases h
  · rename_i s0 h0
    dsimp only at h
    cases h
    refine SellersKept.set h0 ?_ _ rfl
    exact RatesKept.refl s0

theorem pairStep_kept {L L1 : Ledger F} {tx : Transaction F}
    (h : pairStep L tx = some L1) : SellersKept L L1 := by
  unfold pairStep at h
  split at h
  · cases h
  · split at h
    · cases h
    · dsimp only at h
      cases h
      exact SellersKept.of_eq rfl
  · dsimp only at h
    split at h
    · cases h
    · cases h
      exact SellersKept.of_eq rfl

theorem processTransaction_kept {L L1 : Ledger F} {tx : Transaction F}
    (h : processTransaction L tx = some L1) : SellersKept L L1 := by
  unfold processTransaction at h
  split at h
  · cases h
  · rename_i sp La h1
    split at h
    · cases h
    · rename_i Lb h2
      split at h
      · cases h
      · rename_i bp Lc h3
        split at h
        · cases h
        · rename_i Ld h4
          split at h
          · cases h
          · rename_i Le h5
            exact (findOrCreateSeller_kept h1).compose ((sellerStep_kept h2).compose
              ((findOrCreateBuyer_kept h3).compose ((buyerStep_kept h4).compose
                ((regularStep_kept h5).compose (pairStep_kept h)))))

end Rates
/-! ## The shape invariant: kept by inserts of arbitrary keys -/

theorem NodeShape.slots_length {t : Nat} {nd : Node ρ} (h : NodeShape t nd) (ht : 1 ≤ t) :
    nd.cs.length = nd.n + 1 := by
  simp only [Node.cs, List.length_take, h.clen]
  have := h.n_le
  omega

theorem NodeShape.held_length {t : Nat} {nd : Node ρ} (h : NodeShape t nd) : nd.ks.length = nd.n := by
  simp only [Node.ks, List.length_take, h.klen]
  have := h.n_le
  omega

theorem NodeOK.shape {t : Nat} {nd : Node ρ} (h : NodeOK t nd) : NodeShape t nd :=
  ⟨h.t_eq, h.klen, h.rlen, h.clen, h.n_le⟩

/-- The halves of a split full node, for nodes of any key content. -/
theorem SplitOut.halves {h : Heap ρ} {p i c : Nat} {P C : Node ρ} {h1 : Heap ρ}
    {P1 C1 N1 : Node ρ} {km : Int} {rm : Slot ρ} {t : Nat}
    (hS : SplitOut h p i c P C h1 P1 C1 N1 km rm) (hC : NodeShape t C) (ht : 1 ≤ t)
    (hn : C.n = 2 * t - 1) :
    C1.n = t ∧ N1.n = t - 1 ∧ C1.ks = C.ks.take t ∧ N1.ks = C.ks.drop t ∧
    C1.cs = C.cs.take (t + 1) ∧ (C.leaf = false → N1.cs = C.cs.drop t) ∧
    C.ks[t - 1]? = some km := by
  have hCt := hC.t_eq
  have e1 : min t (2 * t - 1) = t := by omega
  have e2 : min (t + 1) (2 * t - 1 + 1) = t + 1 := by omega
  refine ⟨?_, ?_, ?_, ?_, ?_, ?_, ?_⟩
  · rw [hS.C_eq]; exact hCt
  · rw [hS.N_n, hCt]
  · simp only [Node.ks, hS.C_eq, hCt, hn, List.take_take, e1]
  · have := hS.N_keys
    rw [hCt] at this
    simp only [Node.ks, hS.N_n, hCt, hn, this]
    have a : List.take (t - 1) (List.drop t C.keys) = List.drop t C.keys :=
      List.take_of_length_le (by simp [hC.klen]; omega)
    have b : List.take (2 * t - 1) C.keys = C.keys := List.take_of_length_le (by rw [hC.klen])
    rw [a, b]
  · simp only [Node.cs, hS.C_eq, hCt, hn, List.take_take, e2]
  · intro hl
    have := hS.N_chld hl
    rw [hCt] at this
    have e3 : t - 1 + 1 = t := by omega
    simp only [Node.cs, hS.N_n, hCt, hn, this, e3]
    have a : List.take t (List.drop t C.children) = List.drop t C.children :=
      List.take_of_length_le (by simp [hC.clen]; omega)
    have b : List.take (2 * t - 1 + 1) C.children = C.children :=
      List.take_of_length_le (by rw [hC.clen]; omega)
    rw [a, b]
  · have := hS.med
    rw [hCt] at this
    simp only [Node.ks, hn]
    rw [List.take_of_length_le (by rw [hC.klen])]
    exact this

/-- `splitChild` on a full child of an internal node that has room keeps the
shape invariant; the new node gets the level of the node it was split from. -/
theorem Shape.splitStep {h : Heap ρ} {root t : Nat} {lvl : Nat → Nat}
    (hI : Shape h root t lvl) {p i c : Nat} {P C : Node ρ}
    (hp : h[p]? = some P) (hc : h[c]? = some C) (hPl : P.leaf = false)
    (hic : P.cs[i]? = some (some c)) (hCn : C.n = 2 * t - 1) (hPn : P.n < 2 * t - 1)
    {h1 : Heap ρ} {P1 C1 N1 : Node ρ} {km : Int} {rm : Slot ρ}
    (hS : SplitOut h p i c P C h1 P1 C1 N1 km rm) :
    Shape h1 root t (lvlSplit lvl h.length c) := by
  have ht := hI.t_ge
  have okP := hI.node_ok p P hp
  have okC := hI.node_ok c C hc
  have hpl : p < h.length := (List.getElem?_eq_some_iff.1 hp).1
  have hcl : c < h.length := (List.getElem?_eq_some_iff.1 hc).1
  have hpn : p ≠ h.length := by omega
  have hcn : c ≠ h.length := by omega
  obtain ⟨hC1n, hN1n, _, _, vC1c, vN1c, _⟩ := hS.halves okC (by omega) hCn
  obtain ⟨c', hc', _, hlvl⟩ := hI.child_lvl p P hp hPl _ (List.getElem?_mem hic)
  cases hc'
  have hlen := hS.len
  have hC1leaf : C1.leaf = C.leaf := by rw [hS.C_eq]
  have gN : lvlSplit lvl h.length c h.length = lvl c := if_pos rfl
  have gO : ∀ q, q ≠ h.length → lvlSplit lvl h.length c q = lvl q := fun q hq => if_neg hq
  refine
    { t_ge := ht
      root_lt := by have := hI.root_lt; omega
      node_ok := ?_
      leaf_lvl := ?_
      child_lvl := ?_
      lvl_root := ?_ }
  · intro q nd hq
    rcases hS.cases q nd hq with ⟨_, rfl⟩ | ⟨_, rfl⟩ | ⟨_, rfl⟩ | ⟨_, _, _, hq'⟩
    · exact
        { t_eq := by rw [hS.P_t]; exact okP.t_eq
          klen := by rw [hS.P_klen]; exact okP.klen
          rlen := by rw [hS.P_rlen]; exact okP.rlen
          clen := by rw [hS.P_clen]; exact okP.clen
          n_le := by rw [hS.P_n]; omega }
    · exact
        { t_eq := by rw [hS.C_eq]; exact okC.t_eq
          klen := by rw [hS.C_eq]; exact okC.klen
          rlen := by rw [hS.C_eq]; exact okC.rlen
          clen := by rw [hS.C_eq]; exact okC.clen
          n_le := by omega }
    · exact
        { t_eq := by rw [hS.N_t]; exact okC.t_eq
          klen := by rw [hS.N_klen, okC.t_eq]
          rlen := by rw [hS.N_rlen, okC.t_eq]
          clen := by rw [hS.N_clen, okC.t_eq]
          n_le := by omega }
    · exact hI.node_ok q nd hq'
  · intro q nd hq hl
    rcases hS.cases q nd hq with ⟨rfl, rfl⟩ | ⟨rfl, rfl⟩ | ⟨rfl, rfl⟩ | ⟨_, _, h3, hq'⟩
    · rw [hS.P_leaf, hPl] at hl; cases hl
    · rw [gO q hcn]
      exact hI.leaf_lvl q C hc (by rw [← hC1leaf]; exact hl)
    · rw [gN]
      exact hI.leaf_lvl c C hc (by rw [← hS.N_leaf]; exact hl)
    · rw [gO q h3]
      exact hI.leaf_lvl q nd hq' hl
  · intro q nd hq hl x hx'
    rcases hS.cases q nd hq with ⟨rfl, rfl⟩ | ⟨rfl, rfl⟩ | ⟨rfl, rfl⟩ | ⟨_, _, h3, hq'⟩
    · rw [hS.P_cs, mem_insAt] at hx'
      rcases hx' with rfl | hx'
      · exact ⟨h.length, rfl, by omega, by rw [gN, gO q hpn]; exact hlvl⟩
      · obtain ⟨c', rfl, h1', h2⟩ := hI.child_lvl q P hp hPl x hx'
        exact ⟨c', rfl, by omega, by rw [gO c' (by omega), gO q hpn]; exact h2⟩
    · rw [vC1c] at hx'
      obtain ⟨c', rfl, h1', h2⟩ := hI.child_lvl q C hc (by rw [← hC1leaf]; exact hl) x
        (List.mem_of_mem_take hx')
      exact ⟨c', rfl, by omega, by rw [gO c' (by omega), gO q hcn]; exact h2⟩
    · have hCl' : C.leaf = false := by rw [← hS.N_leaf]; exact hl
      rw [vN1c hCl'] at hx'
      obtain ⟨c', rfl, h1', h2⟩ := hI.child_lvl c C hc hCl' x (List.mem_of_mem_drop hx')
      exact ⟨c', rfl, by omega, by rw [gO c' (by omega), gN]; exact h2⟩
    · obtain ⟨c', rfl, h1', h2⟩ := hI.child_lvl q nd hq' hl x hx'
      exact ⟨c', rfl, by omega, by rw [gO c' (by omega), gO q h3]; exact h2⟩
  · have h1' := hI.lvl_root
    have h2 := hI.root_lt
    rw [gO root (by omega)]
    omega

/-- The leaf case of `insertNonFull` keeps the shape invariant and touches
only the leaf. -/
theorem Shape.leafStep {h : Heap ρ} {root t : Nat} {lvl : Nat → Nat}
    (hI : Shape h root t lvl) {p : Nat} {P : Node ρ} (hp : h[p]? = some P)
    (hPl : P.leaf = true) (hPn : P.n < 2 * t - 1) (key : Int) (record : Slot ρ) (fuel : Nat) :
    ∃ h1, insertNonFull (fuel + 1) h p key record = some h1 ∧ Shape h1 root t lvl ∧
      h1.length = h.length ∧ ∀ q, q ≠ p → h1[q]? = h[q]? := by
  have okP := hI.node_ok p P hp
  have hpl : p < h.length := (List.getElem?_eq_some_iff.1 hp).1
  obtain ⟨pos, K, R, hs, hpos, hKl, hRl, _, _, _, _⟩ :=
    leafShift_spec key P.n P (by rw [okP.klen]; omega) (by rw [okP.rlen]; omega)
  have hposK : pos < K.length := by rw [hKl, okP.klen]; omega
  have hposR : pos < R.length := by rw [hRl, okP.rlen]; omega
  obtain ⟨P1, hP1⟩ : ∃ P1 : Node ρ,
      P1 = { P with keys := K.set pos key, records := R.set pos record, n := P.n + 1 } :=
    ⟨_, rfl⟩
  have hrun : insertNonFull (fuel + 1) h p key record = some (h.set p P1) := by
    simp only [insertNonFull, hp, hPl, if_true, hs, writeAt_of_lt _ hposK, writeAt_of_lt _ hposR,
      store, hpl, Option.bind_eq_bind, Option.some_bind, hP1]
  have hframe : ∀ q, q ≠ p → (h.set p P1)[q]? = h[q]? := by
    intro q hq
    rw [List.getElem?_set, if_neg (Ne.symm hq)]
  have hat : (h.set p P1)[p]? = some P1 := by
    rw [List.getElem?_set, if_pos rfl, if_pos hpl]
  have hcases : ∀ (q : Nat) (nd : Node ρ), (h.set p P1)[q]? = some nd →
      (q = p ∧ nd = P1) ∨ (q ≠ p ∧ h[q]? = some nd) := by
    intro q nd hq
    by_cases e : q = p
    · subst e; rw [hat] at hq; exact Or.inl ⟨rfl, (Option.some.inj hq).symm⟩
    · rw [hframe q e] at hq; exact Or.inr ⟨e, hq⟩
  have hP1leaf : P1.leaf = true := by rw [hP1]; exact hPl
  refine ⟨h.set p P1, hrun, ?_, List.length_set _ _ _, hframe⟩
  refine
    { t_ge := hI.t_ge
      root_lt := by rw [List.length_set]; exact hI.root_lt
      node_ok := ?_
      leaf_lvl := ?_
      child_lvl := ?_
      lvl_root := by rw [List.length_set]; exact hI.lvl_root }
  · intro q nd hq
    rcases hcases q nd hq with ⟨_, rfl⟩ | ⟨_, hq'⟩
    · exact
        { t_eq := by rw [hP1]; exact okP.t_eq
          klen := by rw [hP1]; simp only [List.length_set]; rw [hKl]; exact okP.klen
          rlen := by rw [hP1]; simp only [List.length_set]; rw [hRl]; exact okP.rlen
          clen := by rw [hP1]; exact okP.clen
          n_le := by rw [hP1]; simp only; omega }
    · exact hI.node_ok q nd hq'
  · intro q nd hq hl
    rcases hcases q nd hq with ⟨rfl, rfl⟩ | ⟨_, hq'⟩
    · exact hI.leaf_lvl q P hp hPl
    · exact hI.leaf_lvl q nd hq' hl
  · intro q nd hq hl x hx
    rcases hcases q nd hq with ⟨rfl, rfl⟩ | ⟨_, hq'⟩
    · rw [hP1leaf] at hl; cases hl
    · obtain ⟨c, rfl, h1, h2⟩ := hI.child_lvl q nd hq' hl x hx
      exact ⟨c, rfl, by rw [List.length_set]; exact h1, h2⟩

/-- `insertNonFull` on a node that has room succeeds for any key, keeps the
shape invariant and the levels of the nodes that were there, and leaves every
node of a higher level than the one it starts from as it was. -/
theorem insertNonFull_shape {root t : Nat} (key : Int) (record : Slot ρ) :
    ∀ (fuel : Nat) (h : Heap ρ) (lvl : Nat → Nat) (p : Nat) (P : Node ρ),
    Shape h root t lvl → h[p]? = some P → P.n < 2 * t - 1 → lvl p < fuel →
    ∃ h1 lvl1, insertNonFull fuel h p key record = some h1 ∧ Shape h1 root t lvl1 ∧
      h.length ≤ h1.length ∧ (∀ q, q < h.length → lvl1 q = lvl q) ∧
      (∀ q, q < h.length → lvl p < lvl q → h1[q]? = h[q]?) := by
  intro fuel
  induction fuel with
  | zero => intro h lvl p P _ _ _ hl; omega
  | succ fuel ih =>
    intro h lvl p P hI hp hPn hlv
    have ht := hI.t_ge
    have okP := hI.node_ok p P hp
    have hpl : p < h.length := (List.getElem?_eq_some_iff.1 hp).1
    rcases Bool.eq_false_or_eq_true P.leaf with hPl | hPl
    · obtain ⟨h1, hrun, hI1, hlen, hfr⟩ := hI.leafStep hp hPl hPn key record fuel
      refine ⟨h1, lvl, hrun, hI1, by omega, fun _ _ => rfl, ?_⟩
      intro q _ hq
      exact hfr q (by intro e; subst e; omega)
    · have hkl : P.n ≤ P.keys.length := by rw [okP.klen]; exact okP.n_le
      obtain ⟨i, hfc, hi, _, _⟩ := findChild_spec key P P.n hkl
      have hPcs : P.cs.length = P.n + 1 := okP.slots_length (by omega)
      obtain ⟨x, hx⟩ : ∃ x, P.cs[i]? = some x :=
        getElem?_exists (by omega)
      obtain ⟨c, hxc, hcl, hclv⟩ := hI.child_lvl p P hp hPl x (List.getElem?_mem hx)
      subst hxc
      obtain ⟨C, hc⟩ : ∃ C, h[c]? = some C := getElem?_exists hcl
      have okC := hI.node_ok c C hc
      have hcp : childPtr P i = some c := by
        simp only [childPtr, ← Node.cs_get hi, hx, Option.bind_eq_bind, Option.some_bind]
      by_cases hfull : C.n = 2 * t - 1
      · have hpc' : p ≠ c := by intro e; subst e; omega
        obtain ⟨h1, P1, C1, N1, km, rm, hsplit, hS⟩ := splitChild_spec h p i c P C hp hc hpc'
          (by rw [okC.t_eq]; omega) (by rw [okC.klen, okC.t_eq]) (by rw [okC.rlen, okC.t_eq])
          (by rw [okC.clen, okC.t_eq]) (by rw [okP.clen]; omega) (by rw [okP.klen]; omega)
          (by rw [okP.rlen]; omega) hi
        have hI1 := hI.splitStep hp hc hPl hx hfull hPn hS
        have hcn : c ≠ h.length := by omega
        have hlen1 := hS.len
        have hP1k : P1.keys[i]? = some km := by
          rw [← Node.ks_get (by rw [hS.P_n]; omega), hS.P_ks,
            getElem?_insAt _ _ _ (by rw [okP.held_length]; exact hi), if_neg (lt_irrefl _),
            if_pos rfl]
        have hstart : insertNonFull (fuel + 1) h p key record =
            (childPtr P1 (if key > km then i + 1 else i)).bind
              (fun c1 => insertNonFull fuel h1 c1 key record) := by
          simp only [insertNonFull, hp, hPl, hfc, hcp, hc, okP.t_eq, hfull, if_true, hsplit,
            hS.atP, hP1k, Option.bind_eq_bind, Option.some_bind, Bool.false_eq_true, if_false]
        have hold : ∀ q, q < h.length → lvlSplit lvl h.length c q = lvl q :=
          fun q hq => if_neg (by omega)
        have hfr1 : ∀ q, q < h.length → lvl p < lvl q → h1[q]? = h[q]? := by
          intro q hq hlq
          exact hS.frame q (by intro e; subst e; omega) (by intro e; subst e; omega) (by omega)
        by_cases hgt : key > km
        · have hcp1 : childPtr P1 (i + 1) = some h.length := by
            simp only [childPtr, ← Node.cs_get (by rw [hS.P_n]; omega : i + 1 ≤ P1.n), hS.P_cs]
            rw [getElem?_insAt _ _ _ (by omega), if_neg (lt_irrefl _), if_pos rfl]
            rfl
          have hlvN : lvlSplit lvl h.length c h.length = lvl c := if_pos rfl
          obtain ⟨h2, lvl2, hrun, hI2, hlen, hl2, hfr2⟩ := ih h1 (lvlSplit lvl h.length c)
            h.length N1 hI1 hS.atN (by rw [hS.N_n, okC.t_eq]; omega) (by rw [hlvN]; omega)
          refine ⟨h2, lvl2, ?_, hI2, by omega, ?_, ?_⟩
          · rw [hstart, if_pos hgt, hcp1]
            exact hrun
          · intro q hq
            rw [hl2 q (by omega), hold q hq]
          · intro q hq hlq
            rw [hfr2 q (by omega) (by rw [hlvN, hold q hq]; omega)]
            exact hfr1 q hq hlq
        · have hcp1 : childPtr P1 i = some c := by
            simp only [childPtr, ← Node.cs_get (by rw [hS.P_n]; omega : i ≤ P1.n), hS.P_cs]
            rw [getElem?_insAt _ _ _ (by omega), if_pos (by omega), hx]
            rfl
          obtain ⟨h2, lvl2, hrun, hI2, hlen, hl2, hfr2⟩ := ih h1 (lvlSplit lvl h.length c)
            c C1 hI1 hS.atC (by rw [hS.C_eq]; simp only [okC.t_eq]; omega)
            (by rw [hold c hcl]; omega)
          refine ⟨h2, lvl2, ?_, hI2, by omega, ?_, ?_⟩
          · rw [hstart, if_neg hgt, hcp1]
            exact hrun
          · intro q hq
            rw [hl2 q (by omega), hold q hq]
          · intro q hq hlq
            rw [hfr2 q (by omega) (by rw [hold c hcl, hold q hq]; omega)]
            exact hfr1 q hq hlq
      · have hCn : C.n < 2 * t - 1 := by have := okC.n_le; omega
        obtain ⟨h1, lvl1, hrun, hI1, hlen, hl1, hfr1⟩ := ih h lvl c C hI hc hCn (by omega)
        refine ⟨h1, lvl1, ?_, hI1, hlen, hl1, fun q hq hlq => hfr1 q hq (by omega)⟩
        simp only [insertNonFull, hp, hPl, hfc, hcp, hc, okP.t_eq, hfull, if_false,
          Option.bind_eq_bind, Option.some_bind, Bool.false_eq_true]
        exact hrun

/-- Under the shape invariant the `children[0]` path from a node has one node
per level. -/
theorem Shape.height_eq {h : Heap ρ} {root t : Nat} {lvl : Nat → Nat} (hI : Shape h root t lvl) :
    ∀ (fuel p : Nat), p < h.length → lvl p < fuel → height fuel h p = some (lvl p + 1) := by
  intro fuel
  induction fuel with
  | zero => intro p _ hl; omega
  | succ fuel ih =>
    intro p hp hl
    obtain ⟨P, hP⟩ : ∃ P, h[p]? = some P := getElem?_exists hp
    rcases Bool.eq_false_or_eq_true P.leaf with hPl | hPl
    · have := hI.leaf_lvl p P hP hPl
      simp [height, hP, hPl, this]
    · have okP := hI.node_ok p P hP
      have hcs : P.cs.length = P.n + 1 := okP.slots_length (by have := hI.t_ge; omega)
      obtain ⟨x, hx⟩ : ∃ x, P.cs[0]? = some x := getElem?_exists (by omega)
      obtain ⟨c, hxc, hcl, hclv⟩ := hI.child_lvl p P hP hPl x (List.getElem?_mem hx)
      subst hxc
      have hcp : childPtr P 0 = some c := by
        simp only [childPtr, ← Node.cs_get (Nat.zero_le _), hx, Option.bind_eq_bind,
          Option.some_bind]
      have := ih c hcl (by omega)
      simp only [height, hP, hPl, hcp, this, Option.bind_eq_bind, Option.some_bind,
        Bool.false_eq_true, if_false, ← hclv]

/-- Through every node reached in `d` steps the levels drop by `d`. -/
theorem Shape.reachAt {h : Heap ρ} {root t : Nat} {lvl : Nat → Nat} (hI : Shape h root t lvl)
    {d q : Nat} (hq : ReachAt h root d q) : q < h.length ∧ lvl q + d = lvl root := by
  induction hq with
  | root => exact ⟨hI.root_lt, rfl⟩
  | child d p nd i c _ hp hl hi hc ih =>
    rw [← Node.cs_get hi] at hc
    obtain ⟨c', hc', hlt, hlv⟩ := hI.child_lvl p nd hp hl _ (List.getElem?_mem hc)
    cases hc'
    exact ⟨hlt, by omega⟩

/-- The tree `createBTree` returns has the shape invariant. -/
theorem Shape.fresh (t : Nat) (ht : 2 ≤ t) :
    Shape (createBTree t : BTree ρ).heap (createBTree t : BTree ρ).root t (fun _ => 0) := by
  have hcases : ∀ (q : Nat) (nd : Node ρ), (createBTree t : BTree ρ).heap[q]? = some nd →
      q = 0 ∧ nd = freshNode t true := by
    intro q nd hq
    simp only [createBTree] at hq
    cases q with
    | zero => simp at hq; exact ⟨rfl, hq.symm⟩
    | succ q => simp at hq
  exact
    { t_ge := ht
      root_lt := by simp [createBTree]
      node_ok := by
        intro q nd hq
        obtain ⟨_, rfl⟩ := hcases q nd hq
        exact
          { t_eq := rfl
            klen := by simp [freshNode]
            rlen := by simp [freshNode]
            clen := by simp [freshNode]
            n_le := by simp [freshNode] }
      leaf_lvl := fun _ _ _ _ => rfl
      child_lvl := by
        intro q nd hq hl
        obtain ⟨_, rfl⟩ := hcases q nd hq
        simp [freshNode] at hl
      lvl_root := by simp [createBTree] }

/-- The arena with a fresh root above the old one has the shape invariant. -/
theorem Shape.raise {h : Heap ρ} {root t : Nat} {lvl : Nat → Nat}
    (hI : Shape h root t lvl) {S0 : Node ρ} (hS0 : S0 = { (freshNode t false : Node ρ) with
      children := (freshNode t false : Node ρ).children.set 0 (some root) }) :
    Shape (h ++ [S0]) h.length t (lvlNewRoot lvl h.length root) := by
  have ht := hI.t_ge
  have hrl := hI.root_lt
  have hcs : S0.cs = [some root] := by
    simp only [Node.cs, hS0, freshNode]
    have : 2 * t = (2 * t - 1) + 1 := by omega
    rw [this, List.replicate_succ]
    rfl
  have hleaf : S0.leaf = false := by simp [hS0, freshNode]
  have hcases : ∀ (q : Nat) (nd : Node ρ), (h ++ [S0])[q]? = some nd →
      (q = h.length ∧ nd = S0) ∨ (q < h.length ∧ h[q]? = some nd) := by
    intro q nd hq
    by_cases hql : q < h.length
    · rw [List.getElem?_append_left hql] at hq
      exact Or.inr ⟨hql, hq⟩
    · have hqlen := (List.getElem?_eq_some_iff.1 hq).1
      simp only [List.length_append, List.length_singleton] at hqlen
      have e : q = h.length := by omega
      subst e
      simp at hq
      exact Or.inl ⟨rfl, hq.symm⟩
  have gN : lvlNewRoot lvl h.length root h.length = lvl root + 1 := if_pos rfl
  have gO : ∀ q, q < h.length → lvlNewRoot lvl h.length root q = lvl q :=
    fun q hq => if_neg (by omega)
  have hlen : (h ++ [S0]).length = h.length + 1 := by simp
  refine
    { t_ge := ht
      root_lt := by rw [hlen]; omega
      node_ok := ?_
      leaf_lvl := ?_
      child_lvl := ?_
      lvl_root := by rw [gN, hlen]; have := hI.lvl_root; omega }
  · intro q nd hq
    rcases hcases q nd hq with ⟨_, rfl⟩ | ⟨_, hq'⟩
    · exact
        { t_eq := by simp [hS0, freshNode]
          klen := by simp [hS0, freshNode]
          rlen := by simp [hS0, freshNode]
          clen := by simp [hS0, freshNode]
          n_le := by simp [hS0, freshNode] }
    · exact hI.node_ok q nd hq'
  · intro q nd hq hl
    rcases hcases q nd hq with ⟨_, rfl⟩ | ⟨hql, hq'⟩
    · rw [hleaf] at hl; cases hl
    · rw [gO q hql]; exact hI.leaf_lvl q nd hq' hl
  · intro q nd hq hl x hx
    rcases hcases q nd hq with ⟨rfl, rfl⟩ | ⟨hql, hq'⟩
    · rw [hcs, List.mem_singleton] at hx
      subst hx
      exact ⟨root, rfl, by rw [hlen]; omega, by rw [gN, gO root hrl]⟩
    · obtain ⟨c, rfl, h1, h2⟩ := hI.child_lvl q nd hq' hl x hx
      exact ⟨c, rfl, by rw [hlen]; omega, by rw [gO c h1, gO q hql]; exact h2⟩

/-- `insertNonFull` on an internal node none of whose children is full leaves
that node as it was. -/
theorem insertNonFull_keeps {root t : Nat} (key : Int) (record : Slot ρ)
    {h : Heap ρ} {lvl : Nat → Nat} {p : Nat} {P : Node ρ} (hI : Shape h root t lvl)
    (hp : h[p]? = some P) (hPl : P.leaf = false)
    (hroom : ∀ (c : Nat) (C : Node ρ), some c ∈ P.cs → h[c]? = some C → C.n < 2 * t - 1)
    (fuel : Nat) (hlv : lvl p < fuel) :
    ∃ h1 lvl1, insertNonFull fuel h p key record = some h1 ∧ Shape h1 root t lvl1 ∧
      (∀ q, q < h.length → lvl1 q = lvl q) ∧ h1[p]? = some P := by
  cases fuel with
  | zero => omega
  | succ fuel =>
    have ht := hI.t_ge
    have okP := hI.node_ok p P hp
    have hpl : p < h.length := (List.getElem?_eq_some_iff.1 hp).1
    have hkl : P.n ≤ P.keys.length := by rw [okP.klen]; exact okP.n_le
    obtain ⟨i, hfc, hi, _, _⟩ := findChild_spec key P P.n hkl
    have hPcs : P.cs.length = P.n + 1 := okP.slots_length (by omega)
    obtain ⟨x, hx⟩ : ∃ x, P.cs[i]? = some x := getElem?_exists (by omega)
    obtain ⟨c, hxc, hcl, hclv⟩ := hI.child_lvl p P hp hPl x (List.getElem?_mem hx)
    subst hxc
    obtain ⟨C, hc⟩ : ∃ C, h[c]? = some C := getElem?_exists hcl
    have hCn := hroom c C (List.getElem?_mem hx) hc
    have hcp : childPtr P i = some c := by
      simp only [childPtr, ← Node.cs_get hi, hx, Option.bind_eq_bind, Option.some_bind]
    obtain ⟨h1, lvl1, hrun, hI1, _, hl1, hfr1⟩ :=
      insertNonFull_shape key record fuel h lvl c C hI hc hCn (by omega)
    refine ⟨h1, lvl1, ?_, hI1, hl1, by rw [hfr1 p hpl (by omega)]; exact hp⟩
    have hne : ¬ C.n = 2 * t - 1 := by omega
    simp only [insertNonFull, hp, hPl, hfc, hcp, hc, okP.t_eq, hne, if_false,
      Option.bind_eq_bind, Option.some_bind, Bool.false_eq_true]
    exact hrun

/-- `insert` succeeds for any key and keeps the shape invariant. The root
changes exactly when the old root was full; the new root is then one level
higher, holds one key and has the old root in child slot `0`. -/
theorem insert_shape {T : BTree ρ} {lvl : Nat → Nat}
    (hI : Shape T.heap T.root T.t lvl) (key : Int) (record : Slot ρ) :
    ∃ T1 lvl1 R, insert T key record = some T1 ∧ Shape T1.heap T1.root T1.t lvl1 ∧
      T1.t = T.t ∧ T.heap[T.root]? = some R ∧
      (R.n = 2 * T.t - 1 → lvl1 T1.root = lvl T.root + 1 ∧
        ∃ R1, T1.heap[T1.root]? = some R1 ∧ R1.n = 1 ∧
          R1.children[0]? = some (some T.root)) ∧
      (R.n ≠ 2 * T.t - 1 → T1.root = T.root ∧ lvl1 T1.root = lvl T.root) := by
  have ht := hI.t_ge
  have hrl := hI.root_lt
  obtain ⟨R, hr⟩ : ∃ R, T.heap[T.root]? = some R := getElem?_exists hrl
  have okR := hI.node_ok T.root R hr
  by_cases hfull : R.n = 2 * T.t - 1
  · obtain ⟨S0, hS0⟩ : ∃ S0 : Node ρ, S0 = { (freshNode T.t false : Node ρ) with
        children := (freshNode T.t false : Node ρ).children.set 0 (some T.root) } := ⟨_, rfl⟩
    have hI2 := hI.raise hS0
    have hs : (T.heap ++ [S0])[T.heap.length]? = some S0 := by simp
    have hr2 : (T.heap ++ [S0])[T.root]? = some R := by
      rw [List.getElem?_append_left hrl]; exact hr
    have okS := hI2.node_ok _ S0 hs
    have hS0n : S0.n = 0 := by simp [hS0, freshNode]
    have hS0l : S0.leaf = false := by simp [hS0, freshNode]
    have hS0cs : S0.cs = [some T.root] := by
      simp only [Node.cs, hS0, freshNode]
      have : 2 * T.t = (2 * T.t - 1) + 1 := by omega
      rw [this, List.replicate_succ]
      rfl
    have hS0c0 : S0.cs[0]? = some (some T.root) := by rw [hS0cs]; rfl
    have hlen2 : (T.heap ++ [S0]).length = T.heap.length + 1 := by simp
    obtain ⟨h3, P1, C1, N1, km, rm, hsplit, hS⟩ := splitChild_spec (T.heap ++ [S0])
      T.heap.length 0 T.root S0 R hs hr2 (by omega) (by rw [okR.t_eq]; omega)
      (by rw [okR.klen, okR.t_eq]) (by rw [okR.rlen, okR.t_eq]) (by rw [okR.clen, okR.t_eq])
      (by rw [okS.clen, hS0n]; omega) (by rw [okS.klen, hS0n]; omega)
      (by rw [okS.rlen, hS0n]; omega) (Nat.zero_le _)
    have hI3 := hI2.splitStep hs hr2 hS0l hS0c0 hfull (by rw [hS0n]; omega) hS
    obtain ⟨hC1n, hN1n, _, _, _, _, _⟩ := hS.halves okR (by omega) hfull
    have hlen3 := hS.len
    have hP1cs : P1.cs = [some T.root, some (T.heap ++ [S0]).length] := by
      rw [hS.P_cs, hS0cs]; rfl
    have hP1l : P1.leaf = false := by rw [hS.P_leaf]; exact hS0l
    have hlvs : lvlSplit (lvlNewRoot lvl T.heap.length T.root) (T.heap ++ [S0]).length T.root
        T.heap.length = lvl T.root + 1 := by
      have e1 : lvlSplit (lvlNewRoot lvl T.heap.length T.root) (T.heap ++ [S0]).length T.root
          T.heap.length = lvlNewRoot lvl T.heap.length T.root T.heap.length :=
        if_neg (by omega)
      rw [e1]
      exact if_pos rfl
    obtain ⟨h4, lvl4, hrun, hI4, hl4, hat4⟩ := insertNonFull_keeps key record hI3 hS.atP hP1l
      (by
        intro c C hc hC
        rw [hP1cs] at hc
        simp only [List.mem_cons, Option.some.injEq, List.mem_singleton, List.not_mem_nil,
          or_false] at hc
        rcases hc with rfl | rfl
        · rw [hS.atC] at hC; cases hC; omega
        · rw [hS.atN] at hC; cases hC; omega)
      h3.length (by rw [hlvs, hlen3, hlen2]; have := hI.lvl_root; omega)
    refine ⟨{ T with root := T.heap.length, heap := h4 }, lvl4, R, ?_, hI4, rfl, hr, ?_, ?_⟩
    · have hw : writeAt (freshNode T.t false : Node ρ).children 0 (some T.root) =
          some ((freshNode T.t false : Node ρ).children.set 0 (some T.root)) :=
        writeAt_of_lt _ (by simp [freshNode]; omega)
      have hst : store (T.heap ++ [(freshNode T.t false : Node ρ)]) T.heap.length S0 =
          some (T.heap ++ [S0]) := by
        simp [store]
      simp only [insert, hr, hfull, if_true, createNode, Option.bind_eq_bind, Option.some_bind,
        List.getElem?_concat_length, hw, ← hS0, hst, hsplit, hrun]
    · intro _
      refine ⟨?_, P1, hat4, by rw [hS.P_n, hS0n], ?_⟩
      · show lvl4 T.heap.length = lvl T.root + 1
        rw [hl4 _ (by rw [hlen3, hlen2]; omega), hlvs]
      · rw [← Node.cs_get (Nat.zero_le _), hP1cs]; rfl
    · intro hne; exact absurd hfull hne
  · have hRn : R.n < 2 * T.t - 1 := by have := okR.n_le; omega
    obtain ⟨h1, lvl1, hrun, hI1, _, hl1, _⟩ := insertNonFull_shape key record T.heap.length
      T.heap lvl T.root R hI hr hRn hI.lvl_root
    refine ⟨{ T with heap := h1 }, lvl1, R, ?_, hI1, rfl, hr, fun e => absurd e hfull,
      fun _ => ⟨rfl, hl1 _ hrl⟩⟩
    simp only [insert, hr, hfull, if_false, Option.bind_eq_bind, Option.some_bind, hrun]

/-- Any sequence of inserts into a tree with the shape invariant succeeds and
keeps it. -/
theorem insertAll_shape : ∀ (kvs : List (Int × ρ)) (T : BTree ρ) (lvl : Nat → Nat),
    Shape T.heap T.root T.t lvl →
    ∃ T1 lvl1, insertAll T kvs = some T1 ∧ Shape T1.heap T1.root T1.t lvl1 ∧ T1.t = T.t := by
  intro kvs
  induction kvs with
  | nil => intro T lvl hI; exact ⟨T, lvl, rfl, hI, rfl⟩
  | cons kr rest ih =>
    intro T lvl hI
    obtain ⟨k, r⟩ := kr
    obtain ⟨T1, lvl1, _, hrun1, hI1, ht1, _⟩ := insert_shape hI k (Slot.ptr r)
    obtain ⟨T2, lvl2, hrun2, hI2, ht2⟩ := ih T1 lvl1 hI1
    refine ⟨T2, lvl2, ?_, hI2, by rw [ht2, ht1]⟩
    simp only [insertAll, hrun1, Option.bind_eq_bind, Option.some_bind]
    exact hrun2
/-! ## The packed pair key -/

theorem toU32_of_range {x : Int} (h0 : 0 ≤ x) (h1 : x ≤ 65535) :
    toU32 x = x.toNat ∧ x.toNat < 65536 := by
  unfold toU32
  have : x % 4294967296 = x := Int.emod_eq_of_lt h0 (by omega)
  rw [this]
  exact ⟨rfl, by omega⟩

theorem pairKey_bits {s b : Nat} (hs : s < 65536) (hb : b < 65536) :
    ((s <<< 16) % 4294967296) ||| (b &&& 0xFFFF) = s * 65536 + b := by
  have e1 : s <<< 16 = s * 65536 := by rw [Nat.shiftLeft_eq]
  have e2 : b &&& 0xFFFF = b := by
    have := Nat.and_pow_two_sub_one_eq_mod b 16
    simp only [Nat.reducePow, Nat.add_one_sub_one] at this
    rw [this]; exact Nat.mod_eq_of_lt hb
  have e3 : s * 65536 % 4294967296 = s * 65536 := Nat.mod_eq_of_lt (by omega)
  rw [e1, e2, e3]
  have := Nat.mul_add_lt_is_or (i := 16) hb s
  simp only [Nat.reducePow] at this
  rw [Nat.mul_comm s 65536]
  exact this.symm

theorem toI32_inj {u v : Nat} (hu : u < 4294967296) (hv : v < 4294967296)
    (h : toI32 u = toI32 v) : u = v := by
  unfold toI32 at h
  split at h <;> split at h <;> omega


theorem createPairKey_of_range {s b : Int} (hs0 : 0 ≤ s) (hs1 : s ≤ 65535) (hb0 : 0 ≤ b)
    (hb1 : b ≤ 65535) : createPairKey s b = toI32 (s.toNat * 65536 + b.toNat) := by
  unfold createPairKey
  rw [(toU32_of_range hs0 hs1).1, (toU32_of_range hb0 hb1).1,
    pairKey_bits (toU32_of_range hs0 hs1).2 (toU32_of_range hb0 hb1).2]

/-! ## The insertion sort of the reports -/

/-- Effect of the inner loop of the insertion sort. -/
theorem sortShift_spec {α : Type} (gt : α → α → Bool) (x : α) : ∀ (j1 : Nat) (buf : List α),
    j1 < buf.length →
    ∃ pos K, sortShift gt x j1 buf = some (pos, K) ∧ pos ≤ j1 ∧ K.length = buf.length ∧
      (∀ k, K[k]? = if pos < k ∧ k ≤ j1 then buf[k - 1]? else buf[k]?) ∧
      (∀ k y, pos ≤ k → k < j1 → buf[k]? = some y → gt y x = true) ∧
      (∀ y, 0 < pos → buf[pos - 1]? = some y → gt y x = false) := by
  intro j1
  induction j1 with
  | zero =>
    intro buf _
    refine ⟨0, buf, rfl, le_refl _, rfl, ?_, ?_, ?_⟩
    · intro k; rw [if_neg (by omega)]
    · intro k y _ h; omega
    · intro y h; omega
  | succ j ih =>
    intro buf hk
    have hk' : j < buf.length := by omega
    obtain ⟨y0, hy0⟩ : ∃ y0, buf[j]? = some y0 := getElem?_exists hk'
    rcases Bool.eq_false_or_eq_true (gt y0 x) with hgt | hgt
    · obtain ⟨pos, K, hs, hpos, hKl, hK, hall, hstop⟩ := ih (buf.set (j + 1) y0)
        (by rw [List.length_set]; omega)
      have hset : ∀ k, k ≤ j → (buf.set (j + 1) y0)[k]? = buf[k]? := by
        intro k hk2
        rw [List.getElem?_set, if_neg (by omega)]
      refine ⟨pos, K, ?_, by omega, by rw [hKl, List.length_set], ?_, ?_, ?_⟩
      · simp only [sortShift, hy0, hgt, if_true, writeAt_of_lt _ hk, Option.bind_eq_bind,
          Option.some_bind]
        exact hs
      · intro k
        rw [hK k]
        by_cases h1 : pos < k ∧ k ≤ j
        · rw [if_pos h1, if_pos (by omega), hset _ (by omega)]
        · rw [if_neg h1]
          by_cases h4 : k = j + 1
          · subst h4
            rw [if_pos (by omega), List.getElem?_set, if_pos rfl, if_pos hk]
            exact hy0.symm
          · rw [if_neg (by omega), List.getElem?_set, if_neg (by omega)]
      · intro k y hk1 hk2 hky
        by_cases h4 : k = j
        · subst h4
          rw [hy0] at hky
          cases hky
          exact hgt
        · exact hall k y hk1 (by omega) (by rw [hset k (by omega)]; exact hky)
      · intro y hp hy
        exact hstop y hp (by rw [hset _ (by omega)]; exact hy)
    · refine ⟨j + 1, buf, ?_, le_refl _, rfl, ?_, ?_, ?_⟩
      · simp only [sortShift, hy0, hgt, Option.bind_eq_bind, Option.some_bind,
          Bool.false_eq_true, if_false]
      · intro k; rw [if_neg (by omega)]
      · intro k y h1 h2; omega
      · intro y _ hy
        simp only [Nat.add_sub_cancel] at hy
        rw [hy0] at hy
        cases hy
        exact hgt

/-- A right shift of `l[i..n-1]` followed by a write at `i` leaves the slots
after `n` as they were. -/
theorem drop_shift_write {α : Type} (l K : List α) (i n : Nat) (v : α) (hi : i ≤ n)
    (hK : ∀ x, K[x]? = if i < x ∧ x ≤ n then l[x - 1]? else l[x]?) :
    (K.set i v).drop (n + 1) = l.drop (n + 1) := by
  apply List.ext_getElem?
  intro x
  rw [List.getElem?_drop, List.getElem?_drop, List.getElem?_set, if_neg (by omega), hK,
    if_neg (by omega)]

/-- One round of the outer loop: the element at `i` is put into the first `i`
slots at the position `pos` the inner loop stops at. -/
theorem sortRound_spec {α : Type} (gt : α → α → Bool) (buf : List α) (i : Nat) (x : α)
    (hx : buf[i]? = some x) :
    ∃ pos K, sortShift gt x i buf = some (pos, K) ∧ pos ≤ i ∧
      writeAt K pos x = some (insAt (buf.take i) pos x ++ buf.drop (i + 1)) ∧
      (∀ y ∈ (buf.take i).drop pos, gt y x = true) ∧
      (∀ y, 0 < pos → (buf.take i)[pos - 1]? = some y → gt y x = false) := by
  have hi : i < buf.length := (List.getElem?_eq_some_iff.1 hx).1
  obtain ⟨pos, K, hs, hpos, hKl, hK, hall, hstop⟩ := sortShift_spec gt x i buf hi
  refine ⟨pos, K, hs, hpos, ?_, ?_, ?_⟩
  · rw [writeAt_of_lt _ (by omega)]
    congr 1
    rw [← take_shift_write buf K pos i x hpos hi hKl hK,
      ← drop_shift_write buf K pos i x hpos hK, List.take_append_drop]
  · intro y hy
    obtain ⟨k, hk⟩ := List.mem_iff_getElem?.1 hy
    rw [List.getElem?_drop, List.getElem?_take] at hk
    by_cases hlt : pos + k < i
    · rw [if_pos hlt] at hk
      exact hall (pos + k) y (by omega) hlt hk
    · rw [if_neg hlt] at hk; cases hk
  · intro y hp hy
    rw [List.getElem?_take, if_pos (by omega)] at hy
    exact hstop y hp hy

theorem perm_insAt {α : Type} (l : List α) (i : Nat) (v : α) : (insAt l i v).Perm (v :: l) := by
  unfold insAt
  refine List.perm_middle.trans ?_
  rw [List.take_append_drop]

/-- Insertion before a run of elements that all differ from `v` in the
property `f` keeps the order of the elements with that property. -/
theorem filter_insAt {α : Type} (f : α → Bool) (l : List α) (i : Nat) (v : α)
    (h : f v = true → ∀ y ∈ l.drop i, f y = false) :
    (insAt l i v).filter f = (l ++ [v]).filter f := by
  unfold insAt
  rw [List.filter_append, List.filter_append, List.filter_cons]
  conv_rhs => rw [← List.take_append_drop i l, List.filter_append]
  rcases Bool.eq_false_or_eq_true (f v) with hv | hv
  · have : (l.drop i).filter f = [] := by
      rw [List.filter_eq_nil_iff]
      intro y hy
      rw [h hv y hy]
      exact Bool.false_ne_true
    simp [hv, this]
  · simp [hv]

/-- The outer loop from round `i` on, for a comparison by an integer key: the
result is ordered, holds the same elements, and keeps the order of the
elements with equal keys. -/
theorem sortFrom_spec {α : Type} (key : α → Int) : ∀ (cnt i : Nat) (buf : List α),
    i + cnt = buf.length → (buf.take i).Pairwise (fun a b => key a ≤ key b) →
    ∃ out, sortFrom (gtBy key) cnt i buf = some out ∧
      out.Pairwise (fun a b => key a ≤ key b) ∧ out.Perm buf ∧
      ∀ k : Int, out.filter (fun a => decide (key a = k)) =
        buf.filter (fun a => decide (key a = k)) := by
  intro cnt
  induction cnt with
  | zero =>
    intro i buf hlen hs
    refine ⟨buf, rfl, ?_, List.Perm.refl _, fun _ => rfl⟩
    rw [List.take_of_length_le (by omega)] at hs
    exact hs
  | succ cnt ih =>
    intro i buf hlen hs
    obtain ⟨x, hx⟩ : ∃ x, buf[i]? = some x := getElem?_exists (by omega)
    obtain ⟨pos, K, hsh, hpos, hw, hall, hstop⟩ := sortRound_spec (gtBy key) buf i x hx
    have hti : (buf.take i).length = i := by rw [List.length_take]; omega
    have hbuf : buf = buf.take i ++ x :: buf.drop (i + 1) := by
      conv_lhs => rw [← List.take_append_drop i buf]
      congr 1
      rw [List.drop_eq_getElem_cons (List.getElem?_eq_some_iff.1 hx).1,
        (List.getElem?_eq_some_iff.1 hx).2]
    obtain ⟨b2, hb2⟩ : ∃ b2, b2 = insAt (buf.take i) pos x ++ buf.drop (i + 1) := ⟨_, rfl⟩
    have hb2t : b2.take (i + 1) = insAt (buf.take i) pos x := by
      rw [hb2, List.take_left' (by rw [length_insAt, hti])]
    have hafter : ∀ y ∈ (buf.take i).drop pos, key x < key y := by
      intro y hy
      have := hall y hy
      simpa [gtBy] using this
    have hbefore : ∀ y ∈ (buf.take i).take pos, key y ≤ key x := by
      intro y hy
      obtain ⟨k, hk⟩ := List.mem_iff_getElem?.1 hy
      rw [List.getElem?_take] at hk
      by_cases hkp : k < pos
      · rw [if_pos hkp] at hk
        obtain ⟨z, hz⟩ : ∃ z, (buf.take i)[pos - 1]? = some z :=
          getElem?_exists (by omega)
        have hzx : key z ≤ key x := by
          have := hstop z (by omega) hz
          simpa [gtBy] using this
        by_cases e : k = pos - 1
        · subst e; rw [hz] at hk; cases hk; exact hzx
        · have hyz : key y ≤ key z :=
            (List.pairwise_iff_getElem.1 hs) k (pos - 1) (List.getElem?_eq_some_iff.1 hk).1
              (List.getElem?_eq_some_iff.1 hz).1 (by omega) |> fun h => by
                rw [(List.getElem?_eq_some_iff.1 hk).2, (List.getElem?_eq_some_iff.1 hz).2] at h
                exact h
          omega
      · rw [if_neg hkp] at hk; cases hk
    have hs2 : (b2.take (i + 1)).Pairwise (fun a b => key a ≤ key b) := by
      rw [hb2t]
      unfold insAt
      rw [List.pairwise_append]
      refine ⟨hs.sublist (List.take_sublist _ _), ?_, ?_⟩
      · rw [List.pairwise_cons]
        exact ⟨fun y hy => le_of_lt (hafter y hy), hs.sublist (List.drop_sublist _ _)⟩
      · intro a ha b hb
        rw [List.mem_cons] at hb
        rcases hb with rfl | hb
        · exact hbefore a ha
        · have := hbefore a ha
          have := hafter b hb
          omega
    obtain ⟨out, hrun, hsorted, hperm, hstab⟩ := ih (i + 1) b2
      (by rw [hb2, List.length_append, length_insAt, hti, List.length_drop]; omega) hs2
    refine ⟨out, ?_, hsorted, ?_, ?_⟩
    · simp only [sortFrom, hx, hsh, hw, ← hb2, Option.bind_eq_bind, Option.some_bind]
      exact hrun
    · refine hperm.trans ?_
      rw [hb2]
      conv_rhs => rw [hbuf]
      exact ((perm_insAt _ _ _).append_right _).trans List.perm_middle.symm
    · intro k
      rw [hstab k, hb2]
      conv_rhs => rw [hbuf]
      rw [List.filter_append, filter_insAt _ _ pos x, List.filter_append, List.filter_append,
        List.append_assoc, ← List.filter_append]
      · rfl
      · intro hfx y hy
        have h1 := hafter y hy
        have h2 : key x = k := of_decide_eq_true hfx
        exact decide_eq_false (by omega)

/-- The insertion sort succeeds on every buffer; for a comparison by an
integer key its result is ordered by the key, holds the same elements, and
keeps the order of the elements with equal keys. -/
theorem insertionSort_spec {α : Type} (key : α → Int) (buf : List α) :
    ∃ out, insertionSort (gtBy key) buf = some out ∧
      out.Pairwise (fun a b => key a ≤ key b) ∧ out.Perm buf ∧
      ∀ k : Int, out.filter (fun a => decide (key a = k)) =
        buf.filter (fun a => decide (key a = k)) := by
  cases buf with
  | nil => exact ⟨[], rfl, List.Pairwise.nil, List.Perm.refl _, fun _ => rfl⟩
  | cons a l =>
    exact sortFrom_spec key l.length 1 (a :: l) (by simp only [List.length_cons]; omega)
      (by simp)

/-! ## What `processTransaction` does to the seller objects -/

section SellerEffect
variable {F : Type} [FloatOps F]

theorem cleanup_counts (l : List RegularBuyerNode) :
    ∀ e ∈ cleanupRegularBuyers l, 5 ≤ e.transaction_count := by
  induction l with
  | nil => intro e he; cases he
  | cons a rest ih =>
    intro e he
    unfold cleanupRegularBuyers at he
    split at he
    · exact ih e he
    · rw [List.mem_cons] at he
      rcases he with rfl | he
      · omega
      · exact ih e he

theorem updateRates_regular (tx : Transaction F) (s : Seller F) :
    (updateRates tx s).regular_buyers = s.regular_buyers := by
  unfold updateRates
  split
  · rfl
  · split <;> rfl

theorem findOrCreateSeller_effect {L La : Ledger F} {id : Int} {sp : Nat}
    (h : findOrCreateSeller L id = some (sp, La)) :
    La.sellers = L.sellers ∨
      (sp = L.sellers.length ∧
        La.sellers = L.sellers ++ [createSeller id FloatOps.zero FloatOps.zero]) := by
  unfold findOrCreateSeller at h
  split at h
  · cases h
  · cases h
    exact Or.inl rfl
  · dsimp only at h
    split at h
    · cases h
    · cases h
      exact Or.inr ⟨rfl, rfl⟩

theorem sellerStep_effect {L L1 : Ledger F} {sp : Nat} {tx : Transaction F}
    (h : sellerStep L sp tx = some L1) :
    ∃ s0 s1, L.sellers[sp]? = some s0 ∧ L1.sellers = L.sellers.set sp s1 ∧
      s1.rate_below_300 = (updateRates tx s0).rate_below_300 ∧
      s1.rate_above_300 = (updateRates tx s0).rate_above_300 ∧
      s1.regular_buyers = s0.regular_buyers := by
  unfold sellerStep at h
  split at h
  · cases h
  · rename_i s0 h0
    dsimp only at h
    split at h
    · cases h
    · cases h
      exact ⟨s0, _, h0, rfl, rfl, rfl, updateRates_regular tx s0⟩

theorem findOrCreateBuyer_sellers {L L1 : Ledger F} {id : Int} {bp : Nat}
    (h : findOrCreateBuyer L id = some (bp, L1)) : L1.sellers = L.sellers := by
  unfold findOrCreateBuyer at h
  split at h
  · cases h
  · cases h; rfl
  · dsimp only at h
    split at h
    · cases h
    · cases h; rfl

theorem buyerStep_sellers {L L1 : Ledger F} {bp : Nat} {tx : Transaction F}
    (h : buyerStep L bp tx = some L1) : L1.sellers = L.sellers := by
  unfold buyerStep at h
  split at h
  · cases h
  · dsimp only at h
    split at h
    · cases h
    · cases h; rfl

theorem regularStep_effect {L L1 : Ledger F} {sp : Nat} {tx : Transaction F}
    (h : regularStep L sp tx = some L1) :
    ∃ s0 s1, L.sellers[sp]? = some s0 ∧ L1.sellers = L.sellers.set sp s1 ∧
      s1.rate_below_300 = s0.rate_below_300 ∧ s1.rate_above_300 = s0.rate_above_300 ∧
      s1.regular_buyers = cleanupRegularBuyers (addRegularBuyer tx.buyer_id s0.regular_buyers) := by
  unfold regularStep at h
  split at h
  · cases h
  · rename_i s0 h0
    dsimp only at h
    cases h
    exact ⟨s0, _, h0, rfl, rfl, rfl, rfl⟩

theorem pairStep_sellers {L L1 : Ledger F} {tx : Transaction F}
    (h : pairStep L tx = some L1) : L1.sellers = L.sellers := by
  unfold pairStep at h
  split at h
  · cases h
  · split at h
    · cases h
    · dsimp only at h
      cases h; rfl
  · dsimp only at h
    split at h
    · cases h
    · cases h; rfl

/-- The seller objects after `processTransaction`: the object the transaction
resolves to (found, or created at the end of the arena) gets the rate update
and the cleaned-up regular-buyer list; every other object is as it was. -/
theorem processTransaction_sellers {L L1 : Ledger F} {tx : Transaction F}
    (h : processTransaction L tx = some L1) :
    ∃ sp La s0 s1, findOrCreateSeller L tx.seller_id = some (sp, La) ∧
      (La.sellers = L.sellers ∨ (sp = L.sellers.length ∧
        La.sellers = L.sellers ++ [createSeller tx.seller_id FloatOps.zero FloatOps.zero])) ∧
      La.sellers[sp]? = some s0 ∧ L1.sellers = La.sellers.set sp s1 ∧
      s1.rate_below_300 = (updateRates tx s0).rate_below_300 ∧
      s1.rate_above_300 = (updateRates tx s0).rate_above_300 ∧
      s1.regular_buyers =
        cleanupRegularBuyers (addRegularBuyer tx.buyer_id s0.regular_buyers) := by
  unfold processTransaction at h
  split at h
  · cases h
  · rename_i sp La h1
    split at h
    · cases h
    · rename_i Lb h2
      split at h
      · cases h
      · rename_i bp Lc h3
        split at h
        · cases h
        · rename_i Ld h4
          split at h
          · cases h
          · rename_i Le h5
            obtain ⟨s0, sA, hs0, hLb, hrb, hra, hreg⟩ := sellerStep_effect h2
            obtain ⟨sA', sB, hsA, hLe, hrb2, hra2, hreg2⟩ := regularStep_effect h5
            have hLd : Ld.sellers = La.sellers.set sp sA := by
              rw [buyerStep_sellers h4, findOrCreateBuyer_sellers h3, hLb]
            have hspl : sp < La.sellers.length := (List.getElem?_eq_some_iff.1 hs0).1
            have hAA : sA' = sA := by
              rw [hLd, List.getElem?_set, if_pos rfl, if_pos hspl] at hsA
              exact (Option.some.inj hsA).symm
            subst hAA
            refine ⟨sp, La, s0, sB, h1, findOrCreateSeller_effect h1, hs0, ?_, ?_, ?_, ?_⟩
            · rw [pairStep_sellers h, hLe, hLd, List.set_set]
            · rw [hrb2, hrb]
            · rw [hra2, hra]
            · rw [hreg2, hreg]

/-- `processTransaction` keeps every regular-buyer count at 5 or more. -/
theorem processTransaction_regular {L L1 : Ledger F} {tx : Transaction F}
    (h : processTransaction L tx = some L1) (hL : RegularOK L) : RegularOK L1 := by
  obtain ⟨sp, La, s0, s1, _, hLa, hs0, hL1, _, _, hreg⟩ := processTransaction_sellers h
  have hLaOK : ∀ s ∈ La.sellers, ∀ e ∈ s.regular_buyers, 5 ≤ e.transaction_count := by
    intro s hs
    rcases hLa with e | ⟨_, e⟩
    · rw [e] at hs; exact hL s hs
    · rw [e, List.mem_append, List.mem_singleton] at hs
      rcases hs with hs | rfl
      · exact hL s hs
      · intro e he; cases he
  intro s hs e he
  rw [hL1] at hs
  rcases List.mem_or_eq_of_mem_set hs with hs | rfl
  · exact hLaOK s hs e he
  · rw [hreg] at he
    exact cleanup_counts _ e he

theorem processAll_regular : ∀ (txs : List (Transaction F)) (L L1 : Ledger F),
    processAll L txs = some L1 → RegularOK L → RegularOK L1 := by
  intro txs
  induction txs with
  | nil => intro L L1 h hL; cases h; exact hL
  | cons tx rest ih =>
    intro L L1 h hL
    unfold processAll at h
    split at h
    · cases h
    · rename_i La h1
      exact ih La L1 h (processTransaction_regular h1 hL)

end SellerEffect

/-! ## The rates of a seller object over a run -/

section RateRun
variable {F : Type} [FloatOps F]

theorem updateRates_below (tx : Transaction F) (s : Seller F) :
    (updateRates tx s).rate_below_300 =
      if FloatOps.below300 tx.energy_kwh && FloatOps.isZero s.rate_below_300
      then tx.price_per_kwh else s.rate_below_300 := by
  unfold updateRates
  split
  · rfl
  · split <;> rfl

theorem updateRates_above (hex : ∀ e : F, FloatOps.below300 e = true → FloatOps.atLeast300 e = false)
    (tx : Transaction F) (s : Seller F) :
    (updateRates tx s).rate_above_300 =
      if FloatOps.atLeast300 tx.energy_kwh && FloatOps.isZero s.rate_above_300
      then tx.price_per_kwh else s.rate_above_300 := by
  unfold updateRates
  split
  · rename_i h
    simp only [Bool.and_eq_true] at h
    rw [hex _ h.1]
    rfl
  · split
    · rfl
    · rfl

theorem setOnce_cons (tier : F → Bool) (r : F) (tx : Transaction F) (txs : List (Transaction F)) :
    setOnce tier r (tx :: txs) =
      setOnce tier (if tier tx.energy_kwh && FloatOps.isZero r then tx.price_per_kwh else r) txs :=
  rfl

theorem setOnce_nonzero (tier : F → Bool) : ∀ (txs : List (Transaction F)) (r : F),
    FloatOps.isZero r = false → setOnce tier r txs = r := by
  intro txs
  induction txs with
  | nil => intro r _; rfl
  | cons tx rest ih =>
    intro r hr
    rw [setOnce_cons, hr, Bool.and_false]
    exact ih r hr

theorem setOnce_fixed (tier : F → Bool) : ∀ (txs : List (Transaction F)) (r : F),
    FloatOps.isZero r = true → FixedBy tier txs (setOnce tier r txs) := by
  intro txs
  induction txs with
  | nil => intro r hr; exact hr
  | cons tx rest ih =>
    intro r hr
    rw [setOnce_cons, hr, Bool.and_true]
    rcases Bool.eq_false_or_eq_true (tier tx.energy_kwh) with ht | ht
    · rcases Bool.eq_false_or_eq_true (FloatOps.isZero tx.price_per_kwh) with hp | hp
      · have := ih tx.price_per_kwh hp
        simp only [FixedBy, firstPrice, List.find?_cons, ht, hp, Bool.not_true, Bool.and_false,
          if_true] at this ⊢
        exact this
      · simp only [FixedBy, firstPrice, List.find?_cons, ht, hp, Bool.not_false, Bool.and_true,
          if_true, Option.map_some']
        exact setOnce_nonzero tier rest _ hp
    · have := ih r hr
      simp only [FixedBy, firstPrice, List.find?_cons, ht, Bool.false_and, if_false,
        Bool.false_eq_true] at this ⊢
      exact this

theorem ratesAt_of_some {L : Ledger F} {p : Nat} {s : Seller F} (h : L.sellers[p]? = some s) :
    ratesAt L p = (s.rate_below_300, s.rate_above_300) := by
  simp only [ratesAt, h]

theorem ratesAt_of_sellers {L L1 : Ledger F} {p : Nat} (h : L1.sellers[p]? = L.sellers[p]?) :
    ratesAt L1 p = ratesAt L p := by
  simp only [ratesAt, h]

/-- Unfolding of `resolves` at a step that succeeds. -/
theorem resolves_cons {id : Int} {p : Nat} {L : Ledger F} {tx : Transaction F}
    {rest : List (Transaction F)} (h : resolves id p L (tx :: rest) = true) :
    ∃ sp La L1, findOrCreateSeller L tx.seller_id = some (sp, La) ∧
      processTransaction L tx = some L1 ∧ (sp = p ↔ tx.seller_id = id) ∧
      resolves id p L1 rest = true := by
  unfold resolves at h
  split at h
  · rename_i sp La L1 h1 h2
    simp only [Bool.and_eq_true, beq_iff_eq, decide_eq_decide] at h
    exact ⟨sp, La, L1, h1, h2, h.1, h.2⟩
  · cases h

/-- One step of a run, seen from the seller object at `p`. -/
theorem step_ratesAt (hex : ∀ e : F, FloatOps.below300 e = true → FloatOps.atLeast300 e = false)
    {id : Int} {p : Nat} {L L1 La : Ledger F} {tx : Transaction F} {sp : Nat}
    (hf : findOrCreateSeller L tx.seller_id = some (sp, La))
    (hp : processTransaction L tx = some L1) (hiff : sp = p ↔ tx.seller_id = id) :
    L.sellers.length ≤ L1.sellers.length ∧
    (tx.seller_id = id → p < L1.sellers.length ∧
      ratesAt L1 p =
        (setOnce FloatOps.below300 (ratesAt L p).1 [tx],
          setOnce FloatOps.atLeast300 (ratesAt L p).2 [tx])) ∧
    (tx.seller_id ≠ id → ratesAt L1 p = ratesAt L p) := by
  obtain ⟨sp', La', s0, s1, hf', hLa, hs0, hL1, hrb, hra, _⟩ := processTransaction_sellers hp
  rw [hf] at hf'
  cases hf'
  have hspl : sp < La.sellers.length := (List.getElem?_eq_some_iff.1 hs0).1
  have hlen : L.sellers.length ≤ La.sellers.length := by
    rcases hLa with e | ⟨_, e⟩
    · rw [e]
    · rw [e, List.length_append]; omega
  have hL1len : L1.sellers.length = La.sellers.length := by rw [hL1, List.length_set]
  refine ⟨by omega, ?_, ?_⟩
  · intro hid
    have hsp : sp = p := hiff.2 hid
    subst hsp
    have hs1 : L1.sellers[sp]? = some s1 := by
      rw [hL1, List.getElem?_set, if_pos rfl, if_pos hspl]
    have h0 : ratesAt L sp = (s0.rate_below_300, s0.rate_above_300) := by
      rcases hLa with e | ⟨e1, e⟩
      · rw [e] at hs0
        exact ratesAt_of_some hs0
      · have hn : L.sellers[sp]? = none := by rw [e1]; exact List.getElem?_eq_none (le_refl _)
        rw [e, e1, List.getElem?_concat_length] at hs0
        cases hs0
        simp only [ratesAt, hn, createSeller]
    refine ⟨by omega, ?_⟩
    rw [ratesAt_of_some hs1, h0, hrb, hra, updateRates_below, updateRates_above hex]
    rfl
  · intro hid
    have hsp : sp ≠ p := fun e => hid (hiff.1 e)
    apply ratesAt_of_sellers
    rw [hL1, List.getElem?_set, if_neg hsp]
    rcases hLa with e | ⟨e1, e⟩
    · rw [e]
    · rw [e]
      by_cases hpl : p < L.sellers.length
      · rw [List.getElem?_append_left hpl]
      · rw [List.getElem?_eq_none (by rw [List.length_append, List.length_singleton]; omega),
          List.getElem?_eq_none (by omega)]

theorem setOnce_append (tier : F → Bool) (r : F) (l1 l2 : List (Transaction F)) :
    setOnce tier r (l1 ++ l2) = setOnce tier (setOnce tier r l1) l2 := by
  simp only [setOnce, List.foldl_append]

/-- Over a run in which the transactions of seller `id`, and no others, work
on the object at `p`, the rates of that object follow the transactions of
`id`. -/
theorem run_ratesAt (hex : ∀ e : F, FloatOps.below300 e = true → FloatOps.atLeast300 e = false)
    (id : Int) (p : Nat) : ∀ (txs : List (Transaction F)) (L L1 : Ledger F),
    processAll L txs = some L1 → resolves id p L txs = true →
    L.sellers.length ≤ L1.sellers.length ∧
    (id ∈ txs.map (fun tx => tx.seller_id) → p < L1.sellers.length) ∧
    ratesAt L1 p =
      (setOnce FloatOps.below300 (ratesAt L p).1 (ofSeller id txs),
        setOnce FloatOps.atLeast300 (ratesAt L p).2 (ofSeller id txs)) := by
  intro txs
  induction txs with
  | nil =>
    intro L L1 h _
    cases h
    exact ⟨le_refl _, fun h => (by cases h), rfl⟩
  | cons tx rest ih =>
    intro L L1 h hres
    obtain ⟨sp, La, L2, hf, hp, hiff, hres2⟩ := resolves_cons hres
    unfold processAll at h
    rw [hp] at h
    dsimp only at h
    obtain ⟨hlen, hyes, hno⟩ := step_ratesAt hex hf hp hiff
    obtain ⟨hlen2, hocc2, hr2⟩ := ih L2 L1 h hres2
    refine ⟨by omega, ?_, ?_⟩
    · intro hocc
      rw [List.map_cons, List.mem_cons] at hocc
      rcases hocc with e | hocc
      · have := (hyes e.symm).1
        omega
      · exact hocc2 hocc
    · rw [hr2]
      by_cases hid : tx.seller_id = id
      · have e : ofSeller id (tx :: rest) = [tx] ++ ofSeller id rest := by
          simp only [ofSeller, List.filter_cons, hid, decide_True, if_true, List.singleton_append]
        rw [e, setOnce_append, setOnce_append, (hyes hid).2]
      · have e : ofSeller id (tx :: rest) = ofSeller id rest := by
          simp only [ofSeller, List.filter_cons, hid, decide_False, Bool.false_eq_true, if_false]
        rw [e, hno hid]

end RateRun

/-! ## The binary32 comparisons with 300 -/

/-- No binary32 value is both `< 300` and `>= 300`. -/
theorem F32.tiers_exclusive (e : F32) (h : FloatOps.below300 e = true) :
    FloatOps.atLeast300 e = false := by
  cases e with
  | nan => cases h
  | inf neg =>
    have h1 : neg = true := h
    subst h1
    rfl
  | fin neg m ex =>
    cases neg with
    | true => rfl
    | false =>
      have h1 : decide ((F32.scaled m 1 (-ex)).1 < 300 * (F32.scaled m 1 (-ex)).2) = true := h
      have h2 := of_decide_eq_true h1
      show decide (300 * (F32.scaled m 1 (-ex)).2 ≤ (F32.scaled m 1 (-ex)).1) = false
      exact decide_eq_false (by omega)

/-! ## The regular-buyer list -/

theorem cleanup_eq_filter (l : List RegularBuyerNode) :
    cleanupRegularBuyers l = l.filter (fun e => decide (5 ≤ e.transaction_count)) := by
  induction l with
  | nil => rfl
  | cons a rest ih =>
    unfold cleanupRegularBuyers
    by_cases h : a.transaction_count < 5
    · rw [if_pos h, ih, List.filter_cons, if_neg (by simp; omega)]
    · rw [if_neg h, ih, List.filter_cons, if_pos (by simp; omega)]

theorem addRegularBuyer_hit (b : Int) (e : RegularBuyerNode) (post : List RegularBuyerNode)
    (he : e.buyer_id = b) : ∀ (pre : List RegularBuyerNode), (∀ x ∈ pre, x.buyer_id ≠ b) →
    addRegularBuyer b (pre ++ e :: post) =
      pre ++ { e with transaction_count := e.transaction_count + 1 } :: post := by
  intro pre
  induction pre with
  | nil =>
    intro _
    simp only [List.nil_append, addRegularBuyer, he, if_true]
  | cons a rest ih =>
    intro hpre
    have ha : a.buyer_id ≠ b := hpre a (List.mem_cons_self _ _)
    have := ih (fun x hx => hpre x (List.mem_cons_of_mem _ hx))
    simp only [List.cons_append, addRegularBuyer, ha, if_false]
    exact congrArg (List.cons a) this

theorem addRegularBuyer_miss (b : Int) : ∀ (l : List RegularBuyerNode),
    (∀ x ∈ l, x.buyer_id ≠ b) → addRegularBuyer b l = l ++ [createRegularBuyerNode b] := by
  intro l
  induction l with
  | nil => intro _; rfl
  | cons a rest ih =>
    intro hl
    have ha : a.buyer_id ≠ b := hl a (List.mem_cons_self _ _)
    have := ih (fun x hx => hl x (List.mem_cons_of_mem _ hx))
    simp only [List.cons_append, addRegularBuyer, ha, if_false]
    exact congrArg (List.cons a) this

section RegularRun
variable {F : Type} [FloatOps F]

theorem processTransaction_empty {L L1 : Ledger F} {tx : Transaction F}
    (h : processTransaction L tx = some L1) (hL : RegularEmpty L) : RegularEmpty L1 := by
  obtain ⟨sp, La, s0, s1, _, hLa, hs0, hL1, _, _, hreg⟩ := processTransaction_sellers h
  have hLaOK : ∀ s ∈ La.sellers, s.regular_buyers = [] := by
    intro s hs
    rcases hLa with e | ⟨_, e⟩
    · rw [e] at hs; exact hL s hs
    · rw [e, List.mem_append, List.mem_singleton] at hs
      rcases hs with hs | rfl
      · exact hL s hs
      · rfl
  intro s hs
  rw [hL1] at hs
  rcases List.mem_or_eq_of_mem_set hs with hs | rfl
  · exact hLaOK s hs
  · rw [hreg, hLaOK s0 (List.getElem?_mem hs0)]
    rfl

theorem processAll_empty : ∀ (txs : List (Transaction F)) (L L1 : Ledger F),
    processAll L txs = some L1 → RegularEmpty L → RegularEmpty L1 := by
  intro txs
  induction txs with
  | nil => intro L L1 h hL; cases h; exact hL
  | cons tx rest ih =>
    intro L L1 h hL
    unfold processAll at h
    split at h
    · cases h
    · rename_i La h1
      exact ih La L1 h (processTransaction_empty h1 hL)

end RegularRun

/-! ## `processTransaction` on a transaction whose seller, buyer and pair are found -/

section Replay
variable {F : Type} [FloatOps F]

theorem updateRates_revenue (tx : Transaction F) (s : Seller F) :
    (updateRates tx s).total_revenue = s.total_revenue := by
  unfold updateRates
  split
  · rfl
  · split <;> rfl

theorem findOrCreateSeller_found {L : Ledger F} {id : Int} {sp : Nat}
    (h : searchTree L.sellerTree id = some (Slot.ptr sp)) :
    findOrCreateSeller L id = some (sp, L) := by
  simp only [findOrCreateSeller, h, Option.some_bind, Slot.deref]

theorem findOrCreateBuyer_found {L : Ledger F} {id : Int} {bp : Nat}
    (h : searchTree L.buyerTree id = some (Slot.ptr bp)) :
    findOrCreateBuyer L id = some (bp, L) := by
  simp only [findOrCreateBuyer, h, Option.some_bind, Slot.deref]

theorem sellerStep_result {L L1 : Ledger F} {sp : Nat} {tx : Transaction F} {s : Seller F}
    (h : sellerStep L sp tx = some L1) (hs : L.sellers[sp]? = some s) :
    ∃ s1, L1 = { L with sellers := L.sellers.set sp s1 } ∧
      s1.total_revenue = FloatOps.add s.total_revenue tx.total_price := by
  unfold sellerStep at h
  rw [hs] at h
  dsimp only at h
  split at h
  · cases h
  · cases h
    exact ⟨_, rfl, by rw [updateRates_revenue]⟩

theorem buyerStep_result {L L1 : Ledger F} {bp : Nat} {tx : Transaction F} {b : Buyer F}
    (h : buyerStep L bp tx = some L1) (hb : L.buyers[bp]? = some b) :
    ∃ b1, L1 = { L with buyers := L.buyers.set bp b1 } ∧
      b1.total_energy_purchased = FloatOps.add b.total_energy_purchased tx.energy_kwh := by
  unfold buyerStep at h
  rw [hb] at h
  dsimp only at h
  split at h
  · cases h
  · cases h
    exact ⟨_, rfl, rfl⟩

theorem regularStep_result {L L1 : Ledger F} {sp : Nat} {tx : Transaction F} {s : Seller F}
    (h : regularStep L sp tx = some L1) (hs : L.sellers[sp]? = some s) :
    ∃ s1, L1 = { L with sellers := L.sellers.set sp s1 } ∧
      s1.total_revenue = s.total_revenue := by
  unfold regularStep at h
  rw [hs] at h
  dsimp only at h
  cases h
  exact ⟨_, rfl, rfl⟩

theorem pairStep_found {L L1 : Ledger F} {tx : Transaction F} {pp : Nat} {pr : SellerBuyerPair}
    (h : pairStep L tx = some L1)
    (hp : searchTree L.pairTree (createPairKey tx.seller_id tx.buyer_id) = some (Slot.ptr pp))
    (hpr : L.pairs[pp]? = some pr) :
    ∃ pr1, L1 = { L with pairs := L.pairs.set pp pr1 } ∧
      pr1.number_of_transactions = pr.number_of_transactions + 1 := by
  unfold pairStep at h
  simp only [hp, Option.some_bind, Slot.deref, hpr] at h
  cases h
  exact ⟨_, rfl, rfl⟩

/-- The state after `processTransaction` when the seller, the buyer and the
pair of the transaction are found: the three indices are as they were, and
each of the three objects has grown by the transaction's contribution. -/
theorem processTransaction_found {L L1 : Ledger F} {tx : Transaction F} {sp bp pp : Nat}
    {s : Seller F} {b : Buyer F} {pr : SellerBuyerPair}
    (h : processTransaction L tx = some L1)
    (hs : searchTree L.sellerTree tx.seller_id = some (Slot.ptr sp))
    (hsp : L.sellers[sp]? = some s)
    (hb : searchTree L.buyerTree tx.buyer_id = some (Slot.ptr bp))
    (hbp : L.buyers[bp]? = some b)
    (hp : searchTree L.pairTree (createPairKey tx.seller_id tx.buyer_id) = some (Slot.ptr pp))
    (hpp : L.pairs[pp]? = some pr) :
    L1.sellerTree = L.sellerTree ∧ L1.buyerTree = L.buyerTree ∧ L1.pairTree = L.pairTree ∧
    (∃ s1, L1.sellers[sp]? = some s1 ∧
      s1.total_revenue = FloatOps.add s.total_revenue tx.total_price) ∧
    (∃ b1, L1.buyers[bp]? = some b1 ∧
      b1.total_energy_purchased = FloatOps.add b.total_energy_purchased tx.energy_kwh) ∧
    (∃ pr1, L1.pairs[pp]? = some pr1 ∧
      pr1.number_of_transactions = pr.number_of_transactions + 1) := by
  have hspl : sp < L.sellers.length := (List.getElem?_eq_some_iff.1 hsp).1
  have hbpl : bp < L.buyers.length := (List.getElem?_eq_some_iff.1 hbp).1
  have hppl : pp < L.pairs.length := (List.getElem?_eq_some_iff.1 hpp).1
  unfold processTransaction at h
  rw [findOrCreateSeller_found hs] at h
  dsimp only at h
  split at h
  · cases h
  · rename_i Lb h2
    obtain ⟨sA, hLb, hrev⟩ := sellerStep_result h2 hsp
    subst hLb
    rw [findOrCreateBuyer_found (by exact hb)] at h
    dsimp only at h
    split at h
    · cases h
    · rename_i Ld h4
      obtain ⟨bA, hLd, hen⟩ := buyerStep_result h4 (by exact hbp)
      subst hLd
      split at h
      · cases h
      · rename_i Le h5
        have hsA : (L.sellers.set sp sA)[sp]? = some sA := by
          rw [List.getElem?_set, if_pos rfl, if_pos hspl]
        obtain ⟨sB, hLe, hrev2⟩ := regularStep_result h5 (by exact hsA)
        subst hLe
        obtain ⟨pA, hL1, hcnt⟩ := pairStep_found h (by exact hp) (by exact hpp)
        subst hL1
        refine ⟨rfl, rfl, rfl, ⟨sB, ?_, by rw [hrev2, hrev]⟩, ⟨bA, ?_, hen⟩, ⟨pA, ?_, hcnt⟩⟩
        · show ((L.sellers.set sp sA).set sp sB)[sp]? = some sB
          rw [List.getElem?_set, if_pos rfl, if_pos (by rw [List.length_set]; exact hspl)]
        · show (L.buyers.set bp bA)[bp]? = some bA
          rw [List.getElem?_set, if_pos rfl, if_pos hbpl]
        · show (L.pairs.set pp pA)[pp]? = some pA
          rw [List.getElem?_set, if_pos rfl, if_pos hppl]

end Replay

/-! ## The time-range report as a filter of the scan -/

section RangeProofs
variable {F : Type} [FloatOps F]

theorem foldl_rangeStep (s e : Int) : ∀ (txs : List (Transaction F)) (acc : RangeAcc F),
    (txs.foldl (rangeStep s e) acc).rows = acc.rows ++ txs.filter (inTimeRange s e) ∧
    (txs.foldl (rangeStep s e) acc).count = acc.count + (txs.filter (inTimeRange s e)).length := by
  intro txs
  induction txs with
  | nil => intro acc; simp
  | cons tx rest ih =>
    intro acc
    rw [List.foldl_cons]
    obtain ⟨h1, h2⟩ := ih (rangeStep s e acc tx)
    rw [h1, h2]
    by_cases hin : tx.timestamp ≥ s ∧ tx.timestamp ≤ e
    · have hb : inTimeRange s e tx = true := by
        simp only [inTimeRange, decide_eq_true_eq]; exact ⟨hin.1, hin.2⟩
      simp only [rangeStep, if_pos hin, List.filter_cons, hb, if_true, List.append_assoc,
        List.singleton_append, List.length_cons, Nat.cast_add, Nat.cast_one]
      exact ⟨trivial, by omega⟩
    · have hb : inTimeRange s e tx = false := by
        simp only [inTimeRange, decide_eq_false_iff_not]; exact fun h => hin ⟨h.1, h.2⟩
      simp only [rangeStep, if_neg hin, List.filter_cons, hb, Bool.false_eq_true, if_false,
        and_self]

theorem rangeLeaf_eq (s e : Int) (nd : Node (Transaction F)) : ∀ (cnt i : Nat)
    (ents : List (Int × Slot (Transaction F))) (acc : RangeAcc F),
    leafEntries nd cnt i = some ents → (∀ x ∈ ents, ∃ tx, x.2 = Slot.ptr tx) →
    rangeLeaf s e nd cnt i acc = some ((scannedTxs ents).foldl (rangeStep s e) acc) := by
  intro cnt
  induction cnt with
  | zero =>
    intro i ents acc h _
    simp only [leafEntries, Option.some.injEq] at h
    subst h
    rfl
  | succ cnt ih =>
    intro i ents acc h hall
    simp only [leafEntries, Option.bind_eq_bind, Option.bind_eq_some, Option.some.injEq] at h
    obtain ⟨k, hk, r, hr, rest, hrest, hE⟩ := h
    subst hE
    obtain ⟨tx, htx⟩ := hall (k, r) (List.mem_cons_self _ _)
    simp only at htx
    subst htx
    simp only [rangeLeaf, hr]
    rw [ih (i + 1) rest _ hrest (fun x hx => hall x (List.mem_cons_of_mem _ hx))]
    rfl

theorem scannedTxs_append (a b : List (Int × Slot (Transaction F))) :
    scannedTxs (a ++ b) = scannedTxs a ++ scannedTxs b := by
  simp only [scannedTxs, List.filterMap_append]

theorem rangeWalk_eq (s e : Int) : ∀ (fuel : Nat) (h : Heap (Transaction F)) (cur : Option Nat)
    (es : List (Int × Slot (Transaction F))) (acc : RangeAcc F),
    walk fuel h cur = some es → (∀ x ∈ es, ∃ tx, x.2 = Slot.ptr tx) →
    rangeWalk s e fuel h cur acc = some ((scannedTxs es).foldl (rangeStep s e) acc) := by
  intro fuel
  induction fuel with
  | zero =>
    intro h cur es acc hw _
    cases cur with
    | none =>
      simp only [walk, Option.some.injEq] at hw
      subst hw
      rfl
    | some c => simp [walk] at hw
  | succ fuel ih =>
    intro h cur es acc hw hall
    cases cur with
    | none =>
      simp only [walk, Option.some.injEq] at hw
      subst hw
      rfl
    | some c =>
      simp only [walk, Option.bind_eq_bind, Option.bind_eq_some, Option.some.injEq] at hw
      obtain ⟨nd, hnd, ents, hents, rest, hrest, hE⟩ := hw
      subst hE
      have h1 := rangeLeaf_eq s e nd nd.n 0 ents acc hents
        (fun x hx => hall x (List.mem_append_left _ hx))
      simp only [rangeWalk, hnd, h1]
      rw [ih h nd.next rest _ hrest (fun x hx => hall x (List.mem_append_right _ hx)),
        scannedTxs_append, List.foldl_append]

/-- On a tree whose scan succeeds with transaction pointers in every slot read,
the report is the fold of its loop body over the scanned transactions. -/
theorem display_eq_fold (s e : Int) (T : BTree (Transaction F))
    (es : List (Int × Slot (Transaction F))) (hscan : scan T = some es)
    (hall : ∀ x ∈ es, ∃ tx, x.2 = Slot.ptr tx) :
    displayTransactionsInTimeRange T s e = some ((scannedTxs es).foldl (rangeStep s e)
      { rows := [], count := 0, total_energy := FloatOps.zero,
        total_revenue := FloatOps.zero }) := by
  simp only [scan, Option.bind_eq_bind, Option.bind_eq_some] at hscan
  obtain ⟨first, hfirst, hw⟩ := hscan
  simp only [displayTransactionsInTimeRange, hfirst]
  exact rangeWalk_eq s e _ _ _ es _ hw hall

theorem scannedTxs_ptr (kvs : List (Int × Transaction F)) :
    scannedTxs (kvs.map (fun kr => (kr.1, Slot.ptr kr.2))) = kvs.map Prod.snd := by
  induction kvs with
  | nil => rfl
  | cons a rest ih =>
    simp only [scannedTxs, List.map_cons, List.filterMap_cons] at ih ⊢
    rw [ih]

end RangeProofs

/-! ## The calls of an insert meet their conditions -/

/-- The arena `insertNonFullCalls` returns is the one `insertNonFull` returns. -/
theorem insertNonFullCalls_heap (key : Int) (record : Slot ρ) :
    ∀ (fuel : Nat) (h : Heap ρ) (p : Nat),
    (insertNonFullCalls fuel h p key record).map Prod.fst = insertNonFull fuel h p key record := by
  intro fuel
  induction fuel with
  | zero => intro h p; rfl
  | succ fuel ih =>
    intro h p
    simp only [insertNonFullCalls, insertNonFull, Option.bind_eq_bind]
    cases h[p]? with
    | none => rfl
    | some nd =>
      simp only [Option.some_bind]
      by_cases hl : nd.leaf = true
      · simp only [hl, if_true]
        cases leafShift key nd.n nd with
        | none => rfl
        | some jr =>
          obtain ⟨j, nd1⟩ := jr
          simp only [Option.some_bind]
          cases writeAt nd1.keys j key with
          | none => rfl
          | some ks =>
            simp only [Option.some_bind]
            cases writeAt nd1.records j record with
            | none => rfl
            | some rs =>
              simp only [Option.some_bind]
              cases store h p { nd1 with keys := ks, records := rs, n := nd1.n + 1 } <;> rfl
      · simp only [hl, if_false, Bool.false_eq_true]
        cases findChild key nd nd.n with
        | none => rfl
        | some i =>
          simp only [Option.some_bind]
          cases childPtr nd i with
          | none => rfl
          | some c =>
            simp only [Option.some_bind]
            cases h[c]? with
            | none => rfl
            | some cn =>
              simp only [Option.some_bind]
              by_cases hf : cn.n = 2 * nd.t - 1
              · simp only [hf, if_true]
                cases splitChild h p i c with
                | none => rfl
                | some h1 =>
                  simp only [Option.some_bind]
                  cases h1[p]? with
                  | none => rfl
                  | some nd1 =>
                    simp only [Option.some_bind]
                    cases nd1.keys[i]? with
                    | none => rfl
                    | some k =>
                      simp only [Option.some_bind]
                      cases childPtr nd1 (if key > k then i + 1 else i) with
                      | none => rfl
                      | some c1 =>
                        simp only [Option.some_bind]
                        rw [← ih h1 c1]
                        cases insertNonFullCalls fuel h1 c1 key record <;> rfl
              · simp only [hf, if_false]
                rw [← ih h c]
                cases insertNonFullCalls fuel h c key record <;> rfl

/-- Every call made by `insertNonFull` on a node that has room, in a tree with
the shape invariant, meets its condition. -/
theorem insertNonFullCalls_ok {root t : Nat} (key : Int) (record : Slot ρ) :
    ∀ (fuel : Nat) (h : Heap ρ) (lvl : Nat → Nat) (p : Nat) (P : Node ρ),
    Shape h root t lvl → h[p]? = some P → P.n < 2 * t - 1 → lvl p < fuel →
    ∀ res, insertNonFullCalls fuel h p key record = some res → ∀ c ∈ res.2, c.ok t := by
  intro fuel
  induction fuel with
  | zero => intro h lvl p P _ _ _ hl; omega
  | succ fuel ih =>
    intro h lvl p P hI hp hPn hlv res hres
    have ht := hI.t_ge
    have okP := hI.node_ok p P hp
    have hpl : p < h.length := (List.getElem?_eq_some_iff.1 hp).1
    rcases Bool.eq_false_or_eq_true P.leaf with hPl | hPl
    · simp only [insertNonFullCalls, hp, hPl, if_true, Option.bind_eq_bind, Option.some_bind,
        Option.bind_eq_some] at hres
      obtain ⟨_, _, _, _, _, _, _, _, hr⟩ := hres
      cases hr
      intro c hc
      rw [List.mem_singleton] at hc
      subst hc
      exact ⟨okP.t_eq, hPn⟩
    · have hkl : P.n ≤ P.keys.length := by rw [okP.klen]; exact okP.n_le
      obtain ⟨i, hfc, hi, _, _⟩ := findChild_spec key P P.n hkl
      have hPcs : P.cs.length = P.n + 1 := okP.slots_length (by omega)
      obtain ⟨x, hx⟩ : ∃ x, P.cs[i]? = some x := getElem?_exists (by omega)
      obtain ⟨c, hxc, hcl, hclv⟩ := hI.child_lvl p P hp hPl x (List.getElem?_mem hx)
      subst hxc
      obtain ⟨C, hc⟩ : ∃ C, h[c]? = some C := getElem?_exists hcl
      have okC := hI.node_ok c C hc
      have hcp : childPtr P i = some c := by
        simp only [childPtr, ← Node.cs_get hi, hx, Option.bind_eq_bind, Option.some_bind]
      by_cases hfull : C.n = 2 * t - 1
      · have hpc' : p ≠ c := by intro e; subst e; omega
        obtain ⟨h1, P1, C1, N1, km, rm, hsplit, hS⟩ := splitChild_spec h p i c P C hp hc hpc'
          (by rw [okC.t_eq]; omega) (by rw [okC.klen, okC.t_eq]) (by rw [okC.rlen, okC.t_eq])
          (by rw [okC.clen, okC.t_eq]) (by rw [okP.clen]; omega) (by rw [okP.klen]; omega)
          (by rw [okP.rlen]; omega) hi
        have hI1 := hI.splitStep hp hc hPl hx hfull hPn hS
        have hcn : c ≠ h.length := by omega
        have hP1k : P1.keys[i]? = some km := by
          rw [← Node.ks_get (by rw [hS.P_n]; omega), hS.P_ks,
            getElem?_insAt _ _ _ (by rw [okP.held_length]; exact hi), if_neg (lt_irrefl _),
            if_pos rfl]
        simp only [insertNonFullCalls, hp, hPl, hfc, hcp, hc, okP.t_eq, hfull, if_true, hsplit,
          hS.atP, hP1k, Option.bind_eq_bind, Option.some_bind, Bool.false_eq_true, if_false,
          Option.bind_eq_some] at hres
        obtain ⟨c1, hc1, res1, hres1, hr⟩ := hres
        cases hr
        have hold : ∀ q, q < h.length → lvlSplit lvl h.length c q = lvl q :=
          fun q hq => if_neg (by omega)
        have hrest : ∀ x ∈ res1.2, x.ok t := by
          by_cases hgt : key > km
          · have hcp1 : childPtr P1 (i + 1) = some h.length := by
              simp only [childPtr, ← Node.cs_get (by rw [hS.P_n]; omega : i + 1 ≤ P1.n), hS.P_cs]
              rw [getElem?_insAt _ _ _ (by omega), if_neg (lt_irrefl _), if_pos rfl]
              rfl
            rw [if_pos hgt, hcp1] at hc1
            cases hc1
            have hlvN : lvlSplit lvl h.length c h.length = lvl c := if_pos rfl
            exact ih h1 (lvlSplit lvl h.length c) h.length N1 hI1 hS.atN
              (by rw [hS.N_n, okC.t_eq]; omega) (by rw [hlvN]; omega) res1 hres1
          · have hcp1 : childPtr P1 i = some c := by
              simp only [childPtr, ← Node.cs_get (by rw [hS.P_n]; omega : i ≤ P1.n), hS.P_cs]
              rw [getElem?_insAt _ _ _ (by omega), if_pos (by omega), hx]
              rfl
            rw [if_neg hgt, hcp1] at hc1
            cases hc1
            exact ih h1 (lvlSplit lvl h.length c) c C1 hI1 hS.atC
              (by rw [hS.C_eq]; simp only [okC.t_eq]; omega) (by rw [hold c hcl]; omega)
              res1 hres1
        intro x hx'
        simp only [List.mem_cons] at hx'
        rcases hx' with rfl | rfl | hx'
        · exact ⟨rfl, hPn⟩
        · exact ⟨okC.t_eq, rfl, hPn⟩
        · exact hrest x hx'
      · have hCn : C.n < 2 * t - 1 := by have := okC.n_le; omega
        simp only [insertNonFullCalls, hp, hPl, hfc, hcp, hc, okP.t_eq, hfull, if_false,
          Option.bind_eq_bind, Option.some_bind, Bool.false_eq_true, Option.bind_eq_some] at hres
        obtain ⟨res1, hres1, hr⟩ := hres
        cases hr
        intro x hx'
        simp only [List.mem_cons] at hx'
        rcases hx' with rfl | hx'
        · exact ⟨rfl, hPn⟩
        · exact ih h lvl c C hI hc hCn (by omega) res1 hres1 x hx'

/-- `insertCalls` returns the tree `insert` returns. -/
theorem insertCalls_tree (T : BTree ρ) (key : Int) (record : Slot ρ) :
    (insertCalls T key record).map Prod.fst = insert T key record := by
  simp only [insertCalls, insert, Option.bind_eq_bind]
  cases T.heap[T.root]? with
  | none => rfl
  | some rn =>
    simp only [Option.some_bind]
    by_cases hf : rn.n = 2 * T.t - 1
    · simp only [hf, if_true]
      cases (createNode T.heap T.t false).2[(createNode T.heap T.t false).1]? with
      | none => rfl
      | some sn =>
        simp only [Option.some_bind]
        cases writeAt sn.children 0 (some T.root) with
        | none => rfl
        | some cs =>
          simp only [Option.some_bind]
          cases store (createNode T.heap T.t false).2 (createNode T.heap T.t false).1
              { sn with children := cs } with
          | none => rfl
          | some h2 =>
            simp only [Option.some_bind]
            cases splitChild h2 (createNode T.heap T.t false).1 0 T.root with
            | none => rfl
            | some h3 =>
              simp only [Option.some_bind]
              rw [← insertNonFullCalls_heap key record h3.length h3]
              cases insertNonFullCalls h3.length h3 (createNode T.heap T.t false).1 key record <;>
                rfl
    · simp only [hf, if_false]
      rw [← insertNonFullCalls_heap key record T.heap.length T.heap]
      cases insertNonFullCalls T.heap.length T.heap T.root key record <;> rfl

/-- Every call made by `insert` on a tree with the shape invariant meets its
condition. -/
theorem insertCalls_ok {T : BTree ρ} {lvl : Nat → Nat} (hI : Shape T.heap T.root T.t lvl)
    (key : Int) (record : Slot ρ) :
    ∀ res, insertCalls T key record = some res → ∀ c ∈ res.2, c.ok T.t := by
  intro res hres
  have ht := hI.t_ge
  have hrl := hI.root_lt
  obtain ⟨R, hr⟩ : ∃ R, T.heap[T.root]? = some R := getElem?_exists hrl
  have okR := hI.node_ok T.root R hr
  by_cases hfull : R.n = 2 * T.t - 1
  · obtain ⟨S0, hS0⟩ : ∃ S0 : Node ρ, S0 = { (freshNode T.t false : Node ρ) with
        children := (freshNode T.t false : Node ρ).children.set 0 (some T.root) } := ⟨_, rfl⟩
    have hI2 := hI.raise hS0
    have hs : (T.heap ++ [S0])[T.heap.length]? = some S0 := by simp
    have hr2 : (T.heap ++ [S0])[T.root]? = some R := by
      rw [List.getElem?_append_left hrl]; exact hr
    have okS := hI2.node_ok _ S0 hs
    have hS0n : S0.n = 0 := by simp [hS0, freshNode]
    have hS0l : S0.leaf = false := by simp [hS0, freshNode]
    have hS0cs : S0.cs = [some T.root] := by
      simp only [Node.cs, hS0, freshNode]
      have : 2 * T.t = (2 * T.t - 1) + 1 := by omega
      rw [this, List.replicate_succ]
      rfl
    have hS0c0 : S0.cs[0]? = some (some T.root) := by rw [hS0cs]; rfl
    have hlen2 : (T.heap ++ [S0]).length = T.heap.length + 1 := by simp
    obtain ⟨h3, P1, C1, N1, km, rm, hsplit, hS⟩ := splitChild_spec (T.heap ++ [S0])
      T.heap.length 0 T.root S0 R hs hr2 (by omega) (by rw [okR.t_eq]; omega)
      (by rw [okR.klen, okR.t_eq]) (by rw [okR.rlen, okR.t_eq]) (by rw [okR.clen, okR.t_eq])
      (by rw [okS.clen, hS0n]; omega) (by rw [okS.klen, hS0n]; omega)
      (by rw [okS.rlen, hS0n]; omega) (Nat.zero_le _)
    have hI3 := hI2.splitStep hs hr2 hS0l hS0c0 hfull (by rw [hS0n]; omega) hS
    have hlen3 := hS.len
    have hlvs : lvlSplit (lvlNewRoot lvl T.heap.length T.root) (T.heap ++ [S0]).length T.root
        T.heap.length = lvl T.root + 1 := by
      have e1 : lvlSplit (lvlNewRoot lvl T.heap.length T.root) (T.heap ++ [S0]).length T.root
          T.heap.length = lvlNewRoot lvl T.heap.length T.root T.heap.length :=
        if_neg (by omega)
      rw [e1]
      exact if_pos rfl
    have hw : writeAt (freshNode T.t false : Node ρ).children 0 (some T.root) =
        some ((freshNode T.t false : Node ρ).children.set 0 (some T.root)) :=
      writeAt_of_lt _ (by simp [freshNode]; omega)
    have hst : store (T.heap ++ [(freshNode T.t false : Node ρ)]) T.heap.length S0 =
        some (T.heap ++ [S0]) := by
      simp [store]
    simp only [insertCalls, hr, hfull, if_true, createNode, Option.bind_eq_bind,
      Option.some_bind, List.getElem?_concat_length, hw, ← hS0, hst, hsplit,
      Option.bind_eq_some] at hres
    obtain ⟨res1, hres1, hr'⟩ := hres
    cases hr'
    have hrest := insertNonFullCalls_ok key record h3.length h3 _ T.heap.length P1 hI3 hS.atP
      (by rw [hS.P_n, hS0n]; omega)
      (by rw [hlvs, hlen3, hlen2]; have := hI.lvl_root; omega) res1 hres1
    intro x hx
    simp only [List.mem_cons] at hx
    rcases hx with rfl | hx
    · exact ⟨okR.t_eq, rfl, by simp only [freshNode]; omega⟩
    · exact hrest x hx
  · have hRn : R.n < 2 * T.t - 1 := by have := okR.n_le; omega
    simp only [insertCalls, hr, hfull, if_false, Option.bind_eq_bind, Option.some_bind,
      Option.bind_eq_some] at hres
    obtain ⟨res1, hres1, hr'⟩ := hres
    cases hr'
    exact insertNonFullCalls_ok key record T.heap.length T.heap lvl T.root R hI hr hRn
      hI.lvl_root res1 hres1


/-! ## Inserts of keys that may already be present -/

theorem Inv.toShape {h : Heap ρ} {root t : Nat} {G : Ghost} {ins : List (Int × Slot ρ)}
    (hI : Inv h root t G ins) : Shape h root t G.lvl :=
  { t_ge := hI.t_ge
    root_lt := hI.root_lt
    node_ok := fun p nd hp => (hI.node_ok p nd hp).shape
    leaf_lvl := hI.leaf_lvl
    child_lvl := hI.child_lvl
    lvl_root := hI.lvl_root }

theorem Inv.keysBelow {h : Heap ρ} {root t : Nat} {G : Ghost} {ins : List (Int × Slot ρ)}
    (hI : Inv h root t G ins) (L : Nat) : KeysBelow h G L :=
  { sorted := fun p nd hp _ => (hI.node_ok p nd hp).sorted
    key_range := fun p nd hp _ => hI.key_range p nd hp
    nonempty := fun p hp _ => hI.nonempty p hp
    child_range := fun p nd hp hl _ => hI.child_range p nd hp hl }

theorem Inv.chainOK {h : Heap ρ} {root t : Nat} {G : Ghost} {ins : List (Int × Slot ρ)}
    (hI : Inv h root t G ins) : ChainOK h G ins :=
  { chain_ok := hI.chain_ok
    chain_nodup := hI.chain_nodup
    chain_mem := hI.chain_mem
    chain_len := hI.chain_len
    content := hI.content }

theorem Inv.spine {h : Heap ρ} {root t : Nat} {G : Ghost} {ins : List (Int × Slot ρ)}
    (hI : Inv h root t G ins) : Spine h G := by
  refine ⟨?_, fun p nd hp hl hlo => hI.leaf_lo_none hp hl hlo⟩
  intro p P hp hPl hlo
  have ht := hI.t_ge
  have okP := hI.node_ok p P hp
  have hPcs : P.cs.length = P.n + 1 := okP.cs_length (by omega)
  obtain ⟨x, hx⟩ : ∃ x, P.cs[0]? = some x := getElem?_exists (by omega)
  obtain ⟨c, hxc, hcl, hclv⟩ := hI.child_lvl p P hp hPl x (List.getElem?_mem hx)
  subst hxc
  have hslot : ∃ y, inRange (slotLo (G.lo p) P.ks 0) (slotHi (G.hi p) P.ks 0) y := by
    by_cases hn : 0 < P.ks.length
    · refine ⟨P.ks[0], ⟨fun a ha => ?_, fun b hb => ?_⟩⟩
      · simp only [slotLo, if_true, hlo] at ha
        cases ha
      · simp only [slotHi, if_pos hn, List.getElem?_eq_getElem hn, Option.some.injEq] at hb
        omega
    · obtain ⟨y, hy⟩ := hI.nonempty p (List.getElem?_eq_some_iff.1 hp).1
      refine ⟨y, ⟨fun a ha => ?_, fun b hb => ?_⟩⟩
      · simp only [slotLo, if_true, hlo] at ha
        cases ha
      · simp only [slotHi, if_neg hn] at hb
        exact hy.2 b hb
  obtain ⟨hloc, _⟩ := hI.child_range p P hp hPl 0 c hx hslot
  refine ⟨c, by rw [← Node.cs_get (Nat.zero_le _)]; exact hx, ?_⟩
  rw [hloc]
  simp only [slotLo, if_true, hlo]

theorem KeysBelow.mono {h : Heap ρ} {G : Ghost} {L L1 : Nat} (hK : KeysBelow h G L)
    (hL : L1 ≤ L) : KeysBelow h G L1 :=
  { sorted := fun p nd hp hl => hK.sorted p nd hp (by omega)
    key_range := fun p nd hp hl => hK.key_range p nd hp (by omega)
    nonempty := fun p hp hl => hK.nonempty p hp (by omega)
    child_range := fun p nd hp hl hlv => hK.child_range p nd hp hl (by omega) }

/-- The record slots of the halves of a split full node. -/
theorem SplitOut.recs {h : Heap ρ} {p i c : Nat} {P C : Node ρ} {h1 : Heap ρ}
    {P1 C1 N1 : Node ρ} {km : Int} {rm : Slot ρ} {t : Nat}
    (hS : SplitOut h p i c P C h1 P1 C1 N1 km rm) (hC : NodeShape t C) (ht : 1 ≤ t)
    (hn : C.n = 2 * t - 1) :
    C1.rs = C.rs.take t ∧ (C.leaf = true → N1.rs = C.rs.drop t) := by
  have hCt := hC.t_eq
  have e1 : min t (2 * t - 1) = t := by omega
  refine ⟨?_, ?_⟩
  · simp only [Node.rs, hS.C_eq, hCt, hn, List.take_take, e1]
  · intro hl
    have := hS.N_recs hl
    rw [hCt] at this
    simp only [Node.rs, hS.N_n, hCt, hn, this]
    have a : List.take (t - 1) (List.drop t C.records) = List.drop t C.records :=
      List.take_of_length_le (by simp [hC.rlen]; omega)
    have b : List.take (2 * t - 1) C.records = C.records :=
      List.take_of_length_le (by rw [hC.rlen])
    rw [a, b]

/-- `splitChild` on a full child of an internal node that has room keeps the
leaf chain and the `children[0]` path, whatever the keys are. -/
theorem split_linked {h : Heap ρ} {root t : Nat} {G : Ghost} {ins : List (Int × Slot ρ)}
    {p i c : Nat} {P C : Node ρ}
    (hSh : Shape h root t G.lvl) (hCh : ChainOK h G ins) (hSp : Spine h G)
    (hp : h[p]? = some P) (hc : h[c]? = some C) (hPl : P.leaf = false)
    (hic : P.cs[i]? = some (some c)) (hCn : C.n = 2 * t - 1) (hPn : P.n < 2 * t - 1)
    {h1 : Heap ρ} {P1 C1 N1 : Node ρ} (km : Int) {km1 : Int} {rm : Slot ρ}
    (hS : SplitOut h p i c P C h1 P1 C1 N1 km1 rm) :
    Shape h1 root t (G.split h.length c km C.leaf).lvl ∧
    ChainOK h1 (G.split h.length c km C.leaf) ins ∧
    Spine h1 (G.split h.length c km C.leaf) := by
  have ht := hSh.t_ge
  have shP := hSh.node_ok p P hp
  have shC := hSh.node_ok c C hc
  have hpl : p < h.length := (List.getElem?_eq_some_iff.1 hp).1
  have hcl : c < h.length := (List.getElem?_eq_some_iff.1 hc).1
  have hpn : p ≠ h.length := by omega
  have hcn : c ≠ h.length := by omega
  obtain ⟨_, _, vC1k, vN1k, _, _, _⟩ := hS.halves shC (by omega) hCn
  obtain ⟨vC1r, vN1r⟩ := hS.recs shC (by omega) hCn
  have hC1leaf : C1.leaf = C.leaf := by rw [hS.C_eq]
  have hlen := hS.len
  have gLoN := Ghost.split_lo_new G h.length c km C.leaf
  have gLoO : ∀ q, q ≠ h.length → (G.split h.length c km C.leaf).lo q = G.lo q :=
    fun q hq => Ghost.split_lo_old G km C.leaf hq
  have gHiN := Ghost.split_hi_new G h.length c km C.leaf
  have gHiC := Ghost.split_hi_child G km C.leaf hcn
  have gHiO : ∀ q, q ≠ h.length → q ≠ c → (G.split h.length c km C.leaf).hi q = G.hi q :=
    fun q hq hqc => Ghost.split_hi_old G km C.leaf hq hqc
  have hchild_lt : ∀ (q : Nat) (nd : Node ρ), h[q]? = some nd → nd.leaf = false →
      ∀ (j c' : Nat), nd.cs[j]? = some (some c') →
      c' < h.length ∧ G.lvl c' + 1 = G.lvl q := by
    intro q nd hq hl j c' hj
    obtain ⟨c'', hc'', h1', h2⟩ := hSh.child_lvl q nd hq hl _ (List.getElem?_mem hj)
    cases hc''
    exact ⟨h1', h2⟩
  have hShape : Shape h1 root t (G.split h.length c km C.leaf).lvl :=
    hSh.splitStep hp hc hPl hic hCn hPn hS
  have hnew_chain : h.length ∉ G.chain := by
    intro hm
    obtain ⟨nd, hnd, _⟩ := hCh.chain_ok.node _ hm
    have := (List.getElem?_eq_some_iff.1 hnd).1
    omega
  have hchain_lt : ∀ q ∈ G.chain, q ≠ h.length := by
    intro q hq e
    rw [e] at hq
    exact hnew_chain hq
  have hchain_p : ∀ q ∈ G.chain, q ≠ p := by
    intro q hq e
    obtain ⟨nd, hnd, hleaf⟩ := hCh.chain_ok.node q hq
    rw [e, hp] at hnd
    cases hnd
    rw [hPl] at hleaf
    cases hleaf
  have hchain_frame : ∀ q ∈ G.chain, q ≠ c → h1[q]? = h[q]? :=
    fun q hq hqc => hS.frame q (hchain_p q hq) hqc (hchain_lt q hq)
  have f_chain : ChainOK h1 (G.split h.length c km C.leaf) ins := by
    rcases Bool.eq_false_or_eq_true C.leaf with hl | hl
    · have hch : (G.split h.length c km C.leaf).chain = insertAfter c h.length G.chain := by
        simp [Ghost.split, hl]
      have hcm : c ∈ G.chain := hCh.chain_mem c C hc hl
      refine ⟨?_, ?_, ?_, ?_, ?_⟩
      · rw [hch]
        exact IsChain.insertAfter hc hS.atC hS.atN (by rw [hC1leaf]; exact hl)
          (by rw [hS.C_eq]; simp [hl]) (by rw [hS.N_leaf]; exact hl)
          (by rw [hS.N_next]; simp [hl]) (by rw [gHiC, gLoN]) gHiN hCh.chain_ok
          hCh.chain_nodup hnew_chain
          (fun q hq hqc nd hnd => ⟨nd, by rw [hchain_frame q hq hqc]; exact hnd, rfl, rfl⟩)
          (fun q hq => gLoO q (hchain_lt q hq))
          (fun q hq hqc => gHiO q (hchain_lt q hq) hqc)
      · rw [hch]
        exact nodup_insertAfter hCh.chain_nodup hnew_chain
      · intro q nd hq hlf
        rw [hch, mem_insertAfter]
        rcases hS.cases q nd hq with ⟨rfl, rfl⟩ | ⟨rfl, rfl⟩ | ⟨rfl, rfl⟩ | ⟨_, _, _, hq'⟩
        · rw [hS.P_leaf, hPl] at hlf; cases hlf
        · exact Or.inl hcm
        · exact Or.inr ⟨rfl, hcm⟩
        · exact Or.inl (hCh.chain_mem q nd hq' hlf)
      · rw [hch]
        have := length_insertAfter_le c h.length G.chain
        have := hCh.chain_len
        omega
      · rw [hch]
        have e : chainEnts h1 (insertAfter c h.length G.chain) = chainEnts h G.chain := by
          apply chainEnts_insertAfter _ hCh.chain_nodup
          · intro q hq hqc
            simp only [entsAt, hchain_frame q hq hqc]
          · simp only [entsAt, hS.atC, hS.atN, hc, Node.ents, vC1k, vC1r, vN1k, vN1r hl]
            exact ents_split C.ks C.rs t (by
              rw [shC.held_length]
              simp only [Node.rs, List.length_take, shC.rlen]
              omega)
        rw [e]
        exact hCh.content
    · have hch : (G.split h.length c km C.leaf).chain = G.chain := by simp [Ghost.split, hl]
      have hchain_c : ∀ q ∈ G.chain, q ≠ c := by
        intro q hq e
        obtain ⟨nd, hnd, hleaf⟩ := hCh.chain_ok.node q hq
        rw [e, hc] at hnd
        cases hnd
        rw [hl] at hleaf
        cases hleaf
      refine ⟨?_, ?_, ?_, ?_, ?_⟩
      · rw [hch]
        exact IsChain.frame hCh.chain_ok
          (fun q hq nd hnd =>
            ⟨nd, by rw [hchain_frame q hq (hchain_c q hq)]; exact hnd, rfl, rfl⟩)
          (fun q hq => ⟨gLoO q (hchain_lt q hq), gHiO q (hchain_lt q hq) (hchain_c q hq)⟩)
      · rw [hch]; exact hCh.chain_nodup
      · intro q nd hq hlf
        rw [hch]
        rcases hS.cases q nd hq with ⟨rfl, rfl⟩ | ⟨rfl, rfl⟩ | ⟨rfl, rfl⟩ | ⟨_, _, _, hq'⟩
        · rw [hS.P_leaf, hPl] at hlf; cases hlf
        · rw [hC1leaf, hl] at hlf; cases hlf
        · rw [hS.N_leaf, hl] at hlf; cases hlf
        · exact hCh.chain_mem q nd hq' hlf
      · rw [hch]
        have := hCh.chain_len
        omega
      · rw [hch]
        have e : chainEnts h1 G.chain = chainEnts h G.chain :=
          chainEnts_frame (fun q hq => by
            simp only [entsAt, hchain_frame q hq (hchain_c q hq)])
        rw [e]
        exact hCh.content
  have f_spine : Spine h1 (G.split h.length c km C.leaf) := by
    have hold : ∀ (q : Nat) (nd nd1 : Node ρ), h[q]? = some nd → q ≠ h.length →
        nd.leaf = false → nd1.children[0]? = nd.children[0]? →
        (G.split h.length c km C.leaf).lo q = none →
        ∃ c0, nd1.children[0]? = some (some c0) ∧
          (G.split h.length c km C.leaf).lo c0 = none := by
      intro q nd nd1 hq hqn hl hch hlo
      rw [gLoO q hqn] at hlo
      obtain ⟨c0, hc0, hlo0⟩ := hSp.down q nd hq hl hlo
      have hc0cs : nd.cs[0]? = some (some c0) := by
        rw [Node.cs_get (Nat.zero_le _)]; exact hc0
      obtain ⟨hlt, _⟩ := hchild_lt q nd hq hl 0 c0 hc0cs
      exact ⟨c0, by rw [hch]; exact hc0, by rw [gLoO c0 (by omega)]; exact hlo0⟩
    refine ⟨?_, ?_⟩
    · intro q nd hq hl hlo
      rcases hS.cases q nd hq with ⟨rfl, rfl⟩ | ⟨rfl, rfl⟩ | ⟨rfl, rfl⟩ | ⟨_, _, h3, hq'⟩
      · refine hold q P nd hp hpn hPl ?_ hlo
        have e1 : nd.cs[0]? = P.cs[0]? := by
          rw [hS.P_cs, getElem?_insAt _ _ _
            (by rw [shP.slots_length (by omega)]; have := (List.getElem?_eq_some_iff.1 hic).1
                rw [shP.slots_length (by omega)] at this; omega),
            if_pos (by omega)]
        rw [Node.cs_get (Nat.zero_le _), Node.cs_get (Nat.zero_le _)] at e1
        exact e1
      · exact hold q C nd hc hcn (by rw [← hC1leaf]; exact hl) (by rw [hS.C_eq]) hlo
      · rw [gLoN] at hlo; cases hlo
      · exact hold q nd nd hq' h3 hl rfl hlo
    · intro q nd hq hl hlo
      rcases hS.cases q nd hq with ⟨rfl, rfl⟩ | ⟨rfl, rfl⟩ | ⟨rfl, rfl⟩ | ⟨_, _, h3, hq'⟩
      · rw [hS.P_leaf, hPl] at hl; cases hl
      · rw [gLoO q hcn] at hlo
        exact hSp.leaf q C hc (by rw [← hC1leaf]; exact hl) hlo
      · rw [gLoN] at hlo; cases hlo
      · rw [gLoO q h3] at hlo
        exact hSp.leaf q nd hq' hl hlo
  exact ⟨hShape, f_chain, f_spine⟩

/-- `splitChild` on a full node `c` keeps the key facts at the level of `c`
and below, the leaf chain and the `children[0]` path, whatever the keys of
the parent are. -/
theorem split_below {h : Heap ρ} {root t : Nat} {G : Ghost} {ins : List (Int × Slot ρ)}
    {p i c : Nat} {P C : Node ρ}
    (hSh : Shape h root t G.lvl) (hK : KeysBelow h G (G.lvl c)) (hCh : ChainOK h G ins)
    (hSp : Spine h G)
    (hp : h[p]? = some P) (hc : h[c]? = some C) (hPl : P.leaf = false)
    (hic : P.cs[i]? = some (some c)) (hCn : C.n = 2 * t - 1) (hPn : P.n < 2 * t - 1)
    {h1 : Heap ρ} {P1 C1 N1 : Node ρ} {km : Int} {rm : Slot ρ}
    (hS : SplitOut h p i c P C h1 P1 C1 N1 km rm) :
    Shape h1 root t (G.split h.length c km C.leaf).lvl ∧
    KeysBelow h1 (G.split h.length c km C.leaf) (G.lvl c) ∧
    ChainOK h1 (G.split h.length c km C.leaf) ins ∧
    Spine h1 (G.split h.length c km C.leaf) ∧
    inRange (G.lo c) (G.hi c) km ∧ (∀ b, G.hi c = some b → km < b) := by
  have ht := hSh.t_ge
  have shP := hSh.node_ok p P hp
  have shC := hSh.node_ok c C hc
  have okC : NodeOK t C :=
    ⟨shC.t_eq, shC.klen, shC.rlen, shC.clen, shC.n_le, hK.sorted c C hc (le_refl _)⟩
  have hpl : p < h.length := (List.getElem?_eq_some_iff.1 hp).1
  have hcl : c < h.length := (List.getElem?_eq_some_iff.1 hc).1
  have hpn : p ≠ h.length := by omega
  have hcn : c ≠ h.length := by omega
  obtain ⟨vC1k, vC1r, vC1c, vN1k, vN1r, vN1c, hkm⟩ := hS.views okC ht hCn
  obtain ⟨c', hc', _, hlvl⟩ := hSh.child_lvl p P hp hPl _ (List.getElem?_mem hic)
  cases hc'
  have hpc : p ≠ c := by intro e; subst e; omega
  have hkr : inRange (G.lo c) (G.hi c) km :=
    hK.key_range c C hc (le_refl _) km (List.getElem?_mem hkm)
  have hCl : C.ks.length = 2 * t - 1 := by rw [okC.ks_length, hCn]
  obtain ⟨kl, hlast⟩ := getElem?_exists (l := C.ks) (i := 2 * t - 2) (by omega)
  have hklt : ∀ b, G.hi c = some b → km < b := by
    intro b hb
    have h1 := sorted_get okC.sorted hkm hlast (by omega)
    have h2 := (hK.key_range c C hc (le_refl _) _ (List.getElem?_mem hlast)).2 b hb
    omega
  have hC1n : C1.n = t := by rw [hS.C_eq]; exact okC.t_eq
  have hN1n : N1.n = t - 1 := by rw [hS.N_n, okC.t_eq]
  have hC1leaf : C1.leaf = C.leaf := by rw [hS.C_eq]
  have hC1le : ∀ k ∈ C1.ks, k ≤ km := by
    intro k hk
    rw [vC1k] at hk
    obtain ⟨j, hj⟩ := List.mem_iff_getElem?.1 hk
    rw [List.getElem?_take] at hj
    by_cases hjt : j < t
    · rw [if_pos hjt] at hj
      exact sorted_get_le okC.sorted hj hkm (by omega)
    · rw [if_neg hjt] at hj; cases hj
  have hN1gt : ∀ k ∈ N1.ks, km < k := by
    intro k hk
    rw [vN1k] at hk
    obtain ⟨j, hj⟩ := List.mem_iff_getElem?.1 hk
    rw [List.getElem?_drop] at hj
    exact sorted_get okC.sorted hkm hj (by omega)
  have hC1sub : ∀ k ∈ C1.ks, k ∈ C.ks := fun k hk => by
    rw [vC1k] at hk; exact List.mem_of_mem_take hk
  have hN1sub : ∀ k ∈ N1.ks, k ∈ C.ks := fun k hk => by
    rw [vN1k] at hk; exact List.mem_of_mem_drop hk
  have hlen := hS.len
  have gLvN := Ghost.split_lvl_new G h.length c km C.leaf
  have gLvO : ∀ q, q ≠ h.length → (G.split h.length c km C.leaf).lvl q = G.lvl q :=
    fun q hq => Ghost.split_lvl_old G km C.leaf hq
  have gLoN := Ghost.split_lo_new G h.length c km C.leaf
  have gLoO : ∀ q, q ≠ h.length → (G.split h.length c km C.leaf).lo q = G.lo q :=
    fun q hq => Ghost.split_lo_old G km C.leaf hq
  have gHiN := Ghost.split_hi_new G h.length c km C.leaf
  have gHiC := Ghost.split_hi_child G km C.leaf hcn
  have gHiO : ∀ q, q ≠ h.length → q ≠ c → (G.split h.length c km C.leaf).hi q = G.hi q :=
    fun q hq hqc => Ghost.split_hi_old G km C.leaf hq hqc
  have hchild_lt : ∀ (q : Nat) (nd : Node ρ), h[q]? = some nd → nd.leaf = false →
      ∀ (j c' : Nat), nd.cs[j]? = some (some c') →
      c' < h.length ∧ G.lvl c' + 1 = G.lvl q := by
    intro q nd hq hl j c' hj
    obtain ⟨c'', hc'', h1', h2⟩ := hSh.child_lvl q nd hq hl _ (List.getElem?_mem hj)
    cases hc''
    exact ⟨h1', h2⟩
  -- the parent is above the level of the split node
  have hlow_p : ∀ q, (G.split h.length c km C.leaf).lvl q ≤ G.lvl c → q ≠ p := by
    intro q hq e
    subst e
    rw [gLvO q hpn] at hq
    omega
  have hShape : Shape h1 root t (G.split h.length c km C.leaf).lvl :=
    hSh.splitStep hp hc hPl hic hCn hPn hS
  have f_sorted : ∀ (q : Nat) (nd : Node ρ), h1[q]? = some nd →
      (G.split h.length c km C.leaf).lvl q ≤ G.lvl c → nd.ks.Pairwise (fun a b => a < b) := by
    intro q nd hq hlq
    rcases hS.cases q nd hq with ⟨e, _⟩ | ⟨_, rfl⟩ | ⟨_, rfl⟩ | ⟨_, _, h3, hq'⟩
    · exact absurd e (hlow_p q hlq)
    · rw [vC1k]; exact okC.sorted.sublist (List.take_sublist _ _)
    · rw [vN1k]; exact okC.sorted.sublist (List.drop_sublist _ _)
    · rw [gLvO q h3] at hlq
      exact hK.sorted q nd hq' hlq
  have f_key_range : ∀ (q : Nat) (nd : Node ρ), h1[q]? = some nd →
      (G.split h.length c km C.leaf).lvl q ≤ G.lvl c → ∀ k ∈ nd.ks,
      inRange ((G.split h.length c km C.leaf).lo q) ((G.split h.length c km C.leaf).hi q) k := by
    intro q nd hq hlq k hk
    rcases hS.cases q nd hq with ⟨e, _⟩ | ⟨rfl, rfl⟩ | ⟨rfl, rfl⟩ | ⟨_, h2, h3, hq'⟩
    · exact absurd e (hlow_p q hlq)
    · rw [gLoO q hcn, gHiC]
      refine ⟨(hK.key_range q C hc (le_refl _) k (hC1sub k hk)).1, ?_⟩
      intro b hb
      cases hb
      exact hC1le k hk
    · rw [gLoN, gHiN]
      refine ⟨?_, (hK.key_range c C hc (le_refl _) k (hN1sub k hk)).2⟩
      intro a ha
      cases ha
      exact hN1gt k hk
    · rw [gLvO q h3] at hlq
      rw [gLoO q h3, gHiO q h3 h2]
      exact hK.key_range q nd hq' hlq k hk
  have f_nonempty : ∀ q : Nat, q < h1.length →
      (G.split h.length c km C.leaf).lvl q ≤ G.lvl c → ∃ x,
      inRange ((G.split h.length c km C.leaf).lo q) ((G.split h.length c km C.leaf).hi q) x := by
    intro q hq hlq
    by_cases hqn : q = h.length
    · subst hqn
      obtain ⟨kt, hkt⟩ := getElem?_exists (l := C.ks) (i := t) (by omega)
      have hm : kt ∈ N1.ks := by
        rw [vN1k]
        apply List.getElem?_mem (n := 0)
        rw [List.getElem?_drop]
        exact hkt
      exact ⟨_, f_key_range _ N1 hS.atN hlq _ hm⟩
    · by_cases hqc : q = c
      · subst hqc
        refine ⟨km, ?_⟩
        rw [gLoO q hcn, gHiC]
        exact ⟨hkr.1, fun b hb => by cases hb; exact le_refl _⟩
      · rw [gLvO q hqn] at hlq
        rw [gLoO q hqn, gHiO q hqn hqc]
        exact hK.nonempty q (by omega) hlq
  have f_child_range : ∀ (q : Nat) (nd : Node ρ), h1[q]? = some nd → nd.leaf = false →
      (G.split h.length c km C.leaf).lvl q ≤ G.lvl c →
      ∀ (j c' : Nat), nd.cs[j]? = some (some c') →
      (∃ x, inRange (slotLo ((G.split h.length c km C.leaf).lo q) nd.ks j) (slotHi ((G.split h.length c km C.leaf).hi q) nd.ks j) x) →
      (G.split h.length c km C.leaf).lo c' = slotLo ((G.split h.length c km C.leaf).lo q) nd.ks j ∧ (G.split h.length c km C.leaf).hi c' = slotHi ((G.split h.length c km C.leaf).hi q) nd.ks j := by
    intro q nd hq hl hlq j c' hj hx'
    rcases hS.cases q nd hq with ⟨e, _⟩ | ⟨rfl, rfl⟩ | ⟨rfl, rfl⟩ | ⟨h1', h2, h3, hq'⟩
    · exact absurd e (hlow_p q hlq)
    · have hCl' : C.leaf = false := by rw [← hC1leaf]; exact hl
      rw [gLoO q hcn, gHiC] at hx' ⊢
      rw [vC1k] at hx' ⊢
      rw [vC1c, List.getElem?_take] at hj
      by_cases c1 : j < t + 1
      · rw [if_pos c1] at hj
        by_cases c2 : j < t
        · rw [slotLo_take (by omega), slotHi_take_lt (G.hi q) (by omega) c2] at hx' ⊢
          obtain ⟨e1, e2⟩ := hK.child_range q C hc hCl' (le_refl _) j c' hj hx'
          obtain ⟨hc'lt, hc'lv⟩ := hchild_lt q C hc hCl' j c' hj
          rw [gLoO c' (by omega), gHiO c' (by omega) (by intro e; subst e; omega)]
          exact ⟨e1, e2⟩
        · have hjt : j = t := by omega
          exfalso
          obtain ⟨x, hx1, hx2⟩ := hx'
          rw [hjt, slotHi_take_self (by omega)] at hx2
          have h4 := hx2 km rfl
          have h5 := hx1 km (by
            rw [hjt]
            simp only [slotLo, if_neg (by omega : ¬ t = 0), List.getElem?_take,
              if_pos (by omega : t - 1 < t)]
            exact hkm)
          omega
      · rw [if_neg c1] at hj; cases hj
    · have hCl' : C.leaf = false := by rw [← hS.N_leaf]; exact hl
      rw [gLoN, gHiN] at hx' ⊢
      rw [vN1k] at hx' ⊢
      rw [vN1c hCl', List.getElem?_drop] at hj
      rw [slotLo_drop (G.lo c) (by omega) hkm, slotHi_drop] at hx' ⊢
      obtain ⟨e1, e2⟩ := hK.child_range c C hc hCl' (le_refl _) (t + j) c' hj hx'
      obtain ⟨hc'lt, hc'lv⟩ := hchild_lt c C hc hCl' (t + j) c' hj
      rw [gLoO c' (by omega), gHiO c' (by omega) (by intro e; subst e; omega)]
      exact ⟨e1, e2⟩
    · rw [gLvO q h3] at hlq
      rw [gLoO q h3, gHiO q h3 h2] at hx' ⊢
      obtain ⟨e1, e2⟩ := hK.child_range q nd hq' hl hlq j c' hj hx'
      obtain ⟨hc'lt, hc'lv⟩ := hchild_lt q nd hq' hl j c' hj
      rw [gLoO c' (by omega), gHiO c' (by omega) (by intro e; subst e; omega)]
      exact ⟨e1, e2⟩
  obtain ⟨_, f_chain, f_spine⟩ := split_linked hSh hCh hSp hp hc hPl hic hCn hPn km hS
  exact ⟨hShape, ⟨f_sorted, f_key_range, f_nonempty, f_child_range⟩, f_chain, f_spine,
    hkr, hklt⟩

theorem inRange.closed {lo hi : Option Int} {x : Int} (hx : inRange lo hi x) :
    inClosed lo hi x :=
  ⟨fun a ha => le_of_lt (hx.1 a ha), hx.2⟩

theorem pairwise_le_insAt {l : List Int} (hs : l.Pairwise (fun a b => a < b)) (i : Nat) (v : Int)
    (hbefore : ∀ a ∈ l.take i, a ≤ v) (hafter : ∀ b ∈ l.drop i, v < b) :
    (insAt l i v).Pairwise (fun a b => a ≤ b) := by
  have hle : l.Pairwise (fun a b => a ≤ b) := hs.imp (fun hab => le_of_lt hab)
  unfold insAt
  rw [List.pairwise_append]
  refine ⟨hle.sublist (List.take_sublist _ _), ?_, ?_⟩
  · rw [List.pairwise_cons]
    exact ⟨fun b hb => le_of_lt (hafter b hb), hle.sublist (List.drop_sublist _ _)⟩
  · intro a ha b hb
    rcases List.mem_cons.1 hb with rfl | hb
    · exact hbefore a ha
    · exact le_trans (hbefore a ha) (le_of_lt (hafter b hb))

theorem NodeShape.ents_keys {h : Heap ρ} {t p : Nat} {P : Node ρ} (hP : NodeShape t P)
    (hp : h[p]? = some P) : (entsAt h p).map Prod.fst = P.ks := by
  simp only [entsAt, hp, Node.ents]
  refine List.map_fst_zip _ _ ?_
  rw [hP.held_length]
  simp only [Node.rs, List.length_take, hP.rlen]
  have := hP.n_le
  omega

/-- The entries of a chain of leaves whose keys ascend inside closed
intervals that follow one another are in non-decreasing key order. -/
theorem chain_ascending {h : Heap ρ} {G : Ghost} {t : Nat}
    (hsh : ∀ (q : Nat) (nd : Node ρ), h[q]? = some nd → NodeShape t nd) :
    ∀ (l : List Nat) (s : Option Nat), IsChain h G s l →
      (∀ q ∈ l.tail, ∃ a, G.lo q = some a) →
      (∀ q ∈ l, ∀ nd, h[q]? = some nd → nd.ks.Pairwise (fun a b => a ≤ b) ∧
        (∀ k ∈ nd.ks, inClosed (G.lo q) (G.hi q) k) ∧ ∃ x, inClosed (G.lo q) (G.hi q) x) →
      ((chainEnts h l).map Prod.fst).Pairwise (fun a b => a ≤ b) ∧
      ∀ q, l.head? = some q → ∀ k ∈ (chainEnts h l).map Prod.fst,
        ∀ a, G.lo q = some a → a ≤ k := by
  intro l
  induction l with
  | nil =>
    intro s _ _ _
    exact ⟨List.Pairwise.nil, fun q hq => by cases hq⟩
  | cons p rest ih =>
    intro s hc htail hleaf
    obtain ⟨_, nd, hnd, _, hrest, hlink⟩ := hc
    obtain ⟨hsorted, hrange, x, hx⟩ := hleaf p (List.mem_cons_self _ _) nd hnd
    obtain ⟨ihs, ihlo⟩ := ih nd.next hrest (fun q hq => htail q (List.mem_of_mem_tail hq))
      (fun q hq => hleaf q (List.mem_cons_of_mem _ hq))
    have hcross : ∀ b ∈ (chainEnts h rest).map Prod.fst,
        ∃ lq, G.hi p = some lq ∧ lq ≤ b := by
      intro b hb
      cases rest with
      | nil => simp [chainEnts] at hb
      | cons q rest' =>
        obtain ⟨lq, hlq⟩ := htail q (List.mem_cons_self _ _)
        exact ⟨lq, by rw [hlink q rfl]; exact hlq, ihlo q rfl b hb lq hlq⟩
    simp only [chainEnts, List.map_append, (hsh p nd hnd).ents_keys hnd]
    refine ⟨?_, ?_⟩
    · rw [List.pairwise_append]
      refine ⟨hsorted, ihs, ?_⟩
      intro a ha b hb
      obtain ⟨lq, hlq, hlt⟩ := hcross b hb
      have := (hrange a ha).2 lq hlq
      omega
    · intro q hq k hk a ha
      simp only [List.head?_cons, Option.some.injEq] at hq
      subst hq
      rcases List.mem_append.1 hk with hk | hk
      · exact (hrange k hk).1 a ha
      · obtain ⟨lq, hlq, hlt⟩ := hcross k hk
        have h1 := hx.1 a ha
        have h2 := hx.2 lq hlq
        omega

/-- The leaf case of `insertNonFull`, for any key: the entry goes into the
leaf before the first key that is greater, and the chain gains that entry. -/
theorem leaf_linked {h : Heap ρ} {root t : Nat} {G : Ghost} {ins : List (Int × Slot ρ)}
    (hSh : Shape h root t G.lvl) (hCh : ChainOK h G ins) (hSp : Spine h G)
    {p : Nat} {P : Node ρ} (hp : h[p]? = some P)
    (hPl : P.leaf = true) (hPn : P.n < 2 * t - 1) (key : Int) (record : Slot ρ) (fuel : Nat) :
    ∃ pos P1, insertNonFull (fuel + 1) h p key record = some (h.set p P1) ∧
      P1.ks = insAt P.ks pos key ∧ pos ≤ P.n ∧
      (∀ b ∈ P.ks.drop pos, key < b) ∧ (∀ a, 0 < pos → P.ks[pos - 1]? = some a → a ≤ key) ∧
      Shape (h.set p P1) root t G.lvl ∧ ChainOK (h.set p P1) G ((key, record) :: ins) ∧
      Spine (h.set p P1) G := by
  have ht := hSh.t_ge
  have shP := hSh.node_ok p P hp
  have hpl : p < h.length := (List.getElem?_eq_some_iff.1 hp).1
  have hk : P.n < P.keys.length := by rw [shP.klen]; omega
  have hr : P.n < P.records.length := by rw [shP.rlen]; omega
  obtain ⟨pos, K, R, hs, hpos, hKl, hRl, hK, hR, hgt, hle⟩ := leafShift_spec key P.n P hk hr
  have hposK : pos < K.length := by omega
  have hposR : pos < R.length := by omega
  have hKt := take_shift_write P.keys K pos P.n key hpos hk hKl hK
  have hRt := take_shift_write P.records R pos P.n record hpos hr hRl hR
  obtain ⟨P1, hP1⟩ : ∃ P1 : Node ρ,
      P1 = { P with keys := K.set pos key, records := R.set pos record, n := P.n + 1 } :=
    ⟨_, rfl⟩
  have hrun : insertNonFull (fuel + 1) h p key record = some (h.set p P1) := by
    simp only [insertNonFull, hp, hPl, if_true, hs, writeAt_of_lt _ hposK, writeAt_of_lt _ hposR,
      store, hpl, Option.bind_eq_bind, Option.some_bind, hP1]
  obtain ⟨h1', hrun', hSh1, _, _⟩ := hSh.leafStep hp hPl hPn key record fuel
  rw [hrun] at hrun'
  cases hrun'
  have hP1ks : P1.ks = insAt P.ks pos key := by simp only [Node.ks, hP1]; exact hKt
  have hP1rs : P1.rs = insAt P.rs pos record := by simp only [Node.rs, hP1]; exact hRt
  have hP1leaf : P1.leaf = true := by rw [hP1]; exact hPl
  have hP1next : P1.next = P.next := by rw [hP1]
  have hcases : ∀ (q : Nat) (nd : Node ρ), (h.set p P1)[q]? = some nd →
      (q = p ∧ nd = P1) ∨ (q ≠ p ∧ h[q]? = some nd) := by
    intro q nd hq
    rw [List.getElem?_set] at hq
    by_cases e : p = q
    · rw [if_pos e, if_pos hpl] at hq
      exact Or.inl ⟨e.symm, (Option.some.inj hq).symm⟩
    · rw [if_neg e] at hq
      exact Or.inr ⟨fun e' => e e'.symm, hq⟩
  have hframe : ∀ q : Nat, q ≠ p → (h.set p P1)[q]? = h[q]? := by
    intro q hq
    rw [List.getElem?_set, if_neg (fun e => hq e.symm)]
  have hatp : (h.set p P1)[p]? = some P1 := by
    rw [List.getElem?_set, if_pos rfl, if_pos hpl]
  have hpchain : p ∈ G.chain := hCh.chain_mem p P hp hPl
  have hrs_len : P.ks.length = P.rs.length := by
    rw [shP.held_length]
    simp only [Node.rs, List.length_take, shP.rlen]
    omega
  refine ⟨pos, P1, hrun, hP1ks, hpos, ?_, ?_, hSh1, ?_, ?_⟩
  · intro b hb
    obtain ⟨j, hj⟩ := List.mem_iff_getElem?.1 hb
    rw [List.getElem?_drop] at hj
    simp only [Node.ks, List.getElem?_take] at hj
    by_cases hjn : pos + j < P.n
    · rw [if_pos hjn] at hj
      exact hgt (pos + j) b (by omega) hjn hj
    · rw [if_neg hjn] at hj; cases hj
  · intro a h0 ha
    rw [Node.ks_get (by omega)] at ha
    have := hle a h0 ha
    omega
  · refine ⟨?_, hCh.chain_nodup, ?_, ?_, ?_⟩
    · refine IsChain.frame hCh.chain_ok (fun q _ nd hnd => ?_) (fun q _ => ⟨rfl, rfl⟩)
      by_cases e : q = p
      · subst e
        rw [hp] at hnd
        cases hnd
        exact ⟨P1, hatp, by rw [hP1leaf, hPl], hP1next⟩
      · exact ⟨nd, by rw [hframe q e]; exact hnd, rfl, rfl⟩
    · intro q nd hq hl
      rcases hcases q nd hq with ⟨rfl, rfl⟩ | ⟨_, hq'⟩
      · exact hpchain
      · exact hCh.chain_mem q nd hq' hl
    · simp only [List.length_set]; exact hCh.chain_len
    · have hperm : (entsAt (h.set p P1) p).Perm ((key, record) :: entsAt h p) := by
        simp only [entsAt, hatp, hp, Node.ents, hP1ks, hP1rs]
        exact zip_insAt P.ks P.rs pos key record hrs_len
      exact (chainEnts_perm_update hperm hCh.chain_nodup hpchain
        (fun q _ hq => by simp only [entsAt, hframe q hq])).trans
        (List.Perm.cons _ hCh.content)
  · refine ⟨?_, ?_⟩
    · intro q nd hq hl hlo
      rcases hcases q nd hq with ⟨rfl, rfl⟩ | ⟨_, hq'⟩
      · rw [hP1leaf] at hl; cases hl
      · exact hSp.down q nd hq' hl hlo
    · intro q nd hq hl hlo
      rcases hcases q nd hq with ⟨rfl, rfl⟩ | ⟨_, hq'⟩
      · exact hSp.leaf q P hp hPl hlo
      · exact hSp.leaf q nd hq' hl hlo

/-- The leaf case of `insertNonFull` for a key in the closed interval of the
leaf: the chain stays in non-decreasing key order. -/
theorem leaf_lands {h : Heap ρ} {root t : Nat} {G : Ghost} {ins : List (Int × Slot ρ)}
    (hSh : Shape h root t G.lvl) (hK : KeysBelow h G 0) (hCh : ChainOK h G ins)
    (hSp : Spine h G) (hroot : G.lo root = none)
    {p : Nat} {P : Node ρ} (hp : h[p]? = some P)
    (hPl : P.leaf = true) (hPn : P.n < 2 * t - 1) (key : Int) (record : Slot ρ)
    (hkr : inClosed (G.lo p) (G.hi p) key) (fuel : Nat) :
    ∃ h1, insertNonFull (fuel + 1) h p key record = some h1 ∧
      Landed h1 root t G ((key, record) :: ins) := by
  have shP := hSh.node_ok p P hp
  have hpl : p < h.length := (List.getElem?_eq_some_iff.1 hp).1
  have hlv0 : G.lvl p = 0 := hSh.leaf_lvl p P hp hPl
  have hPsorted := hK.sorted p P hp (by omega)
  obtain ⟨pos, P1, hrun, hP1ks, hpos, hafter, hprev, hSh1, hCh1, hSp1⟩ :=
    leaf_linked hSh hCh hSp hp hPl hPn key record fuel
  have hbefore : ∀ a ∈ P.ks.take pos, a ≤ key := by
    intro a ha
    obtain ⟨j, hj⟩ := List.mem_iff_getElem?.1 ha
    rw [List.getElem?_take] at hj
    by_cases hjp : j < pos
    · rw [if_pos hjp] at hj
      obtain ⟨kb, hkb⟩ := getElem?_exists (l := P.ks) (i := pos - 1)
        (by rw [shP.held_length]; omega)
      have h1 := hprev kb (by omega) hkb
      have h2 := sorted_get_le hPsorted hj hkb (by omega)
      omega
    · rw [if_neg hjp] at hj; cases hj
  have hcases : ∀ (q : Nat) (nd : Node ρ), (h.set p P1)[q]? = some nd →
      (q = p ∧ nd = P1) ∨ (q ≠ p ∧ h[q]? = some nd) := by
    intro q nd hq
    rw [List.getElem?_set] at hq
    by_cases e : p = q
    · rw [if_pos e, if_pos hpl] at hq
      exact Or.inl ⟨e.symm, (Option.some.inj hq).symm⟩
    · rw [if_neg e] at hq
      exact Or.inr ⟨fun e' => e e'.symm, hq⟩
  refine ⟨h.set p P1, hrun, ?_⟩
  refine
    { shape := hSh1
      spine := hSp1
      root_lo := hroot
      chain_ok := hCh1.chain_ok
      chain_len := hCh1.chain_len
      content := hCh1.content
      ascending := ?_ }
  have hc := hCh.chain_ok
  have hnd := hCh.chain_nodup
  have hchain1 := hCh1.chain_ok
  have hall : ∀ q ∈ G.chain, ∀ nd, (h.set p P1)[q]? = some nd →
      nd.ks.Pairwise (fun a b => a ≤ b) ∧
      (∀ k ∈ nd.ks, inClosed (G.lo q) (G.hi q) k) ∧ ∃ x, inClosed (G.lo q) (G.hi q) x := by
    intro q hqm nd hq
    obtain ⟨nd0, hq0, hl0⟩ := hc.node q hqm
    have hql : q < h.length := (List.getElem?_eq_some_iff.1 hq0).1
    have hlq : G.lvl q ≤ 0 := by rw [hSh.leaf_lvl q nd0 hq0 hl0]
    obtain ⟨x, hx⟩ := hK.nonempty q hql hlq
    rcases hcases q nd hq with ⟨rfl, rfl⟩ | ⟨_, hq'⟩
    · refine ⟨?_, ?_, x, hx.closed⟩
      · rw [hP1ks]
        exact pairwise_le_insAt hPsorted pos key hbefore hafter
      · intro k hk
        rw [hP1ks, mem_insAt] at hk
        rcases hk with rfl | hk
        · exact hkr
        · exact (hK.key_range q P hp hlq k hk).closed
    · exact ⟨(hK.sorted q nd hq' hlq).imp (fun hab => le_of_lt hab),
        fun k hk => (hK.key_range q nd hq' hlq k hk).closed, x, hx.closed⟩
  cases hch : G.chain with
  | nil => exact List.Pairwise.nil
  | cons p0 rest =>
    rw [hch] at hc hnd hall hchain1
    have hp0 : p0 = 0 := by
      obtain ⟨hs', _⟩ := hc
      exact (Option.some.inj hs').symm
    refine (chain_ascending hSh1.node_ok (p0 :: rest) (some 0) hchain1 ?_ hall).1
    intro q hq
    simp only [List.tail_cons] at hq
    obtain ⟨nd, hq', hl⟩ := hc.node q (List.mem_cons_of_mem _ hq)
    cases hlo : G.lo q with
    | some a => exact ⟨a, rfl⟩
    | none =>
      exfalso
      have := hSp.leaf q nd hq' hl hlo
      rw [List.nodup_cons] at hnd
      exact hnd.1 (by rw [hp0, ← this]; exact hq)

/-- The child the internal loop of `insertNonFull` picks on the descent: the
key lies in `[lo, hi)` of that child. -/
theorem Descends.child {h : Heap ρ} {root t : Nat} {G : Ghost} {p : Nat} {P : Node ρ}
    {key : Int} (hSh : Shape h root t G.lvl) (hK : KeysBelow h G (G.lvl p))
    (hp : h[p]? = some P) (hPl : P.leaf = false) (hD : Descends h G p P key) :
    ∃ i c C, findChild key P P.n = some i ∧ i ≤ P.n ∧ P.cs[i]? = some (some c) ∧
      h[c]? = some C ∧ G.lvl c + 1 = G.lvl p ∧ inLeft (G.lo c) (G.hi c) key := by
  have ht := hSh.t_ge
  have shP := hSh.node_ok p P hp
  have hkl : P.n ≤ P.keys.length := by rw [shP.klen]; exact shP.n_le
  have hPks : P.ks.length = P.n := shP.held_length
  have hPcs : P.cs.length = P.n + 1 := shP.slots_length (by omega)
  obtain ⟨i, hs, hi, hgt, hle⟩ := findChild_spec key P P.n hkl
  obtain ⟨x, hx⟩ : ∃ x, P.cs[i]? = some x := getElem?_exists (by omega)
  obtain ⟨c, hxc, hcl, hclv⟩ := hSh.child_lvl p P hp hPl x (List.getElem?_mem hx)
  subst hxc
  obtain ⟨C, hc⟩ : ∃ C, h[c]? = some C := getElem?_exists hcl
  refine ⟨i, c, C, hs, hi, hx, hc, hclv, ?_⟩
  by_cases hE : G.hi p = some key
  · have hin : i = P.n := by
      by_contra hne
      have hlt : i < P.n := by omega
      obtain ⟨b, hb⟩ := getElem?_exists (l := P.ks) (i := i) (by omega)
      have h1 := hgt i b (le_refl _) hlt (by rw [← Node.ks_get hlt]; exact hb)
      have h2 := (hK.key_range p P hp (le_refl _) b (List.getElem?_mem hb)).2 key hE
      omega
    obtain ⟨x, hxc, _, hxr⟩ := hD.2 hPl hE
    rw [hin, Node.cs_get (le_refl _), hxc] at hx
    cases hx
    exact hxr
  · have hhi : ∀ b, G.hi p = some b → key < b := by
      intro b hb
      have h1 := hD.1.2 b hb
      have h2 : b ≠ key := fun e => hE (by rw [hb, e])
      omega
    have hlo : ∀ a, slotLo (G.lo p) P.ks i = some a → a ≤ key := by
      intro a ha
      by_cases h0 : i = 0
      · rw [slotLo, if_pos h0] at ha
        exact hD.1.1 a ha
      · rw [slotLo, if_neg h0, Node.ks_get (by omega)] at ha
        have := hle a (by omega) ha
        omega
    have hup : ∀ b, slotHi (G.hi p) P.ks i = some b → key < b := by
      intro b hb
      by_cases hil : i < P.ks.length
      · rw [slotHi, if_pos hil, Node.ks_get (by omega)] at hb
        exact hgt i b (le_refl _) (by omega) hb
      · rw [slotHi, if_neg hil] at hb
        exact hhi b hb
    obtain ⟨e1, e2⟩ := hK.child_range p P hp hPl (le_refl _) i c hx
      ⟨key + 1, fun a ha => by have := hlo a ha; omega, fun b hb => by have := hup b hb; omega⟩
    rw [e1, e2]
    exact ⟨hlo, hup⟩

/-- The descent of `insertNonFull` with a key that may already be in the
tree ends in a leaf and leaves the chain in non-decreasing key order, with
the new entry added. -/
theorem insertNonFull_lands {root t : Nat} (key : Int) (record : Slot ρ) :
    ∀ (fuel : Nat) (h : Heap ρ) (G : Ghost) (ins : List (Int × Slot ρ)) (p : Nat) (P : Node ρ),
    Shape h root t G.lvl → KeysBelow h G (G.lvl p) → ChainOK h G ins → Spine h G →
    G.lo root = none → h[p]? = some P → P.n < 2 * t - 1 → G.lvl p < fuel →
    Descends h G p P key →
    ∃ h1 G1, insertNonFull fuel h p key record = some h1 ∧
      Landed h1 root t G1 ((key, record) :: ins) := by
  intro fuel
  induction fuel with
  | zero => intro h G ins p P _ _ _ _ _ _ _ hl; omega
  | succ fuel ih =>
    intro h G ins p P hSh hK hCh hSp hroot hp hPn hlv hD
    have ht := hSh.t_ge
    have shP := hSh.node_ok p P hp
    rcases Bool.eq_false_or_eq_true P.leaf with hPl | hPl
    · have hl0 : G.lvl p = 0 := hSh.leaf_lvl p P hp hPl
      rw [hl0] at hK
      obtain ⟨h1, hrun, hL⟩ := leaf_lands hSh hK hCh hSp hroot hp hPl hPn key record hD.1 fuel
      exact ⟨h1, G, hrun, hL⟩
    · obtain ⟨i, c, C, hfc, hi, hx, hc, hclv, hkc⟩ := hD.child hSh hK hp hPl
      have shC := hSh.node_ok c C hc
      have hcl : c < h.length := (List.getElem?_eq_some_iff.1 hc).1
      have hPcs : P.cs.length = P.n + 1 := shP.slots_length (by omega)
      have hKc : KeysBelow h G (G.lvl c) := hK.mono (by omega)
      have hcp : childPtr P i = some c := by
        simp only [childPtr, ← Node.cs_get hi, hx, Option.bind_eq_bind, Option.some_bind]
      by_cases hfull : C.n = 2 * t - 1
      · have hpc' : p ≠ c := by intro e; subst e; omega
        obtain ⟨h1, P1, C1, N1, km, rm, hsplit, hS⟩ := splitChild_spec h p i c P C hp hc hpc'
          (by rw [shC.t_eq]; omega) (by rw [shC.klen, shC.t_eq]) (by rw [shC.rlen, shC.t_eq])
          (by rw [shC.clen, shC.t_eq]) (by rw [shP.clen]; omega) (by rw [shP.klen]; omega)
          (by rw [shP.rlen]; omega) hi
        obtain ⟨hSh1, hK1, hCh1, hSp1, hkr, hklt⟩ :=
          split_below hSh hKc hCh hSp hp hc hPl hx hfull hPn hS
        obtain ⟨hC1n, hN1n, vC1k, vN1k, vC1c, _, hkm⟩ := hS.halves shC (by omega) hfull
        have hcn : c ≠ h.length := by omega
        have hrootn : root ≠ h.length := by have := hSh.root_lt; omega
        have hroot1 : (G.split h.length c km C.leaf).lo root = none := by
          rw [Ghost.split_lo_old G km C.leaf hrootn]; exact hroot
        have hP1k : P1.keys[i]? = some km := by
          rw [← Node.ks_get (by rw [hS.P_n]; omega), hS.P_ks,
            getElem?_insAt _ _ _ (by rw [shP.held_length]; exact hi), if_neg (lt_irrefl _),
            if_pos rfl]
        have hstart : insertNonFull (fuel + 1) h p key record =
            (childPtr P1 (if key > km then i + 1 else i)).bind
              (fun c1 => insertNonFull fuel h1 c1 key record) := by
          simp only [insertNonFull, hp, hPl, hfc, hcp, hc, shP.t_eq, hfull, if_true, hsplit,
            hS.atP, hP1k, Option.bind_eq_bind, Option.some_bind, Bool.false_eq_true, if_false]
        by_cases hgt : key > km
        · have hcp1 : childPtr P1 (i + 1) = some h.length := by
            simp only [childPtr, ← Node.cs_get (by rw [hS.P_n]; omega : i + 1 ≤ P1.n), hS.P_cs]
            rw [getElem?_insAt _ _ _ (by omega), if_neg (lt_irrefl _), if_pos rfl]
            rfl
          have hlvN := Ghost.split_lvl_new G h.length c km C.leaf
          have hDN : Descends h1 (G.split h.length c km C.leaf) h.length N1 key := by
            refine ⟨⟨?_, ?_⟩, ?_⟩
            · intro a ha
              rw [Ghost.split_lo_new] at ha
              cases ha
              omega
            · intro b hb
              rw [Ghost.split_hi_new] at hb
              exact le_of_lt (hkc.2 b hb)
            · intro _ hE
              rw [Ghost.split_hi_new] at hE
              have := hkc.2 key hE
              omega
          obtain ⟨h2, G2, hrun, hL⟩ := ih h1 (G.split h.length c km C.leaf) ins
            h.length N1 hSh1 (by rw [hlvN]; exact hK1) hCh1 hSp1 hroot1 hS.atN
            (by rw [hN1n]; omega) (by rw [hlvN]; omega) hDN
          refine ⟨h2, G2, ?_, hL⟩
          rw [hstart, if_pos hgt, hcp1]
          exact hrun
        · have hcp1 : childPtr P1 i = some c := by
            simp only [childPtr, ← Node.cs_get (by rw [hS.P_n]; omega : i ≤ P1.n), hS.P_cs]
            rw [getElem?_insAt _ _ _ (by omega), if_pos (by omega), hx]
            rfl
          have hlvC : (G.split h.length c km C.leaf).lvl c = G.lvl c :=
            Ghost.split_lvl_old G km C.leaf hcn
          have hC1leaf : C1.leaf = C.leaf := by rw [hS.C_eq]
          have hDC : Descends h1 (G.split h.length c km C.leaf) c C1 key := by
            refine ⟨⟨?_, ?_⟩, ?_⟩
            · intro a ha
              rw [Ghost.split_lo_old G km C.leaf hcn] at ha
              exact hkc.1 a ha
            · intro b hb
              rw [Ghost.split_hi_child G km C.leaf hcn] at hb
              cases hb
              omega
            · intro hl hE
              rw [Ghost.split_hi_child G km C.leaf hcn] at hE
              have hek : km = key := Option.some.inj hE
              have hCl : C.leaf = false := by rw [← hC1leaf]; exact hl
              have hCks : C.ks.length = 2 * t - 1 := by rw [shC.held_length, hfull]
              have hCcs : C.cs.length = 2 * t - 1 + 1 := by
                rw [shC.slots_length (by omega), hfull]
              obtain ⟨y, hy⟩ : ∃ y, C.cs[t]? = some y := getElem?_exists (by omega)
              obtain ⟨x, hyx, hxl, hxlv⟩ := hSh.child_lvl c C hc hCl y (List.getElem?_mem hy)
              subst hyx
              obtain ⟨b, hb⟩ := getElem?_exists (l := C.ks) (i := t) (by omega)
              have hCsorted := hKc.sorted c C hc (le_refl _)
              have hkb : km < b := sorted_get hCsorted hkm hb (by omega)
              have hslo : slotLo (G.lo c) C.ks t = some km := by
                rw [slotLo, if_neg (by omega)]; exact hkm
              have hshi : slotHi (G.hi c) C.ks t = some b := by
                rw [slotHi, if_pos (by omega)]; exact hb
              obtain ⟨e1, e2⟩ := hKc.child_range c C hc hCl (le_refl _) t x hy
                ⟨b, by
                  rw [hslo, hshi]
                  exact ⟨fun a ha => by cases ha; exact hkb,
                    fun a ha => by cases ha; exact le_refl _⟩⟩
              rw [hslo] at e1
              rw [hshi] at e2
              have hxn : x ≠ h.length := by omega
              have hxc : x ≠ c := by intro e; subst e; omega
              refine ⟨x, ?_, by have := hS.len; omega, ?_, ?_⟩
              · rw [hC1n, hS.C_eq]
                rw [Node.cs_get (by omega)] at hy
                exact hy
              · intro a ha
                rw [Ghost.split_lo_old G km C.leaf hxn, e1] at ha
                cases ha
                omega
              · intro a ha
                rw [Ghost.split_hi_old G km C.leaf hxn hxc, e2] at ha
                cases ha
                omega
          obtain ⟨h2, G2, hrun, hL⟩ := ih h1 (G.split h.length c km C.leaf) ins
            c C1 hSh1 (by rw [hlvC]; exact hK1) hCh1 hSp1 hroot1 hS.atC
            (by rw [hC1n]; omega) (by rw [hlvC]; omega) hDC
          refine ⟨h2, G2, ?_, hL⟩
          rw [hstart, if_neg hgt, hcp1]
          exact hrun
      · have hCn : C.n < 2 * t - 1 := by have := shC.n_le; omega
        have hDc : Descends h G c C key := by
          refine ⟨⟨hkc.1, fun b hb => le_of_lt (hkc.2 b hb)⟩, ?_⟩
          intro _ hE
          have := hkc.2 key hE
          omega
        obtain ⟨h1, G1, hrun, hL⟩ := ih h G ins c C hSh hKc hCh hSp hroot hc hCn (by omega) hDc
        refine ⟨h1, G1, ?_, hL⟩
        simp only [insertNonFull, hp, hPl, hfc, hcp, hc, shP.t_eq, hfull, if_false,
          Option.bind_eq_bind, Option.some_bind, Bool.false_eq_true]
        exact hrun

theorem Inv.linked {h : Heap ρ} {root t : Nat} {G : Ghost} {ins : List (Int × Slot ρ)}
    (hI : Inv h root t G ins) : Linked h root t G ins :=
  ⟨hI.toShape, hI.chainOK, hI.spine, hI.root_lo⟩

/-- The descent of `insertNonFull`, for any key: it ends, and the chain
gains the new entry. -/
theorem insertNonFull_linked {root t : Nat} (key : Int) (record : Slot ρ) :
    ∀ (fuel : Nat) (h : Heap ρ) (G : Ghost) (ins : List (Int × Slot ρ)) (p : Nat) (P : Node ρ),
    Linked h root t G ins → h[p]? = some P → P.n < 2 * t - 1 → G.lvl p < fuel →
    ∃ h1 G1, insertNonFull fuel h p key record = some h1 ∧
      Linked h1 root t G1 ((key, record) :: ins) := by
  intro fuel
  induction fuel with
  | zero => intro h G ins p P _ _ _ hl; omega
  | succ fuel ih =>
    intro h G ins p P hL hp hPn hlv
    have hSh := hL.shape
    have ht := hSh.t_ge
    have shP := hSh.node_ok p P hp
    rcases Bool.eq_false_or_eq_true P.leaf with hPl | hPl
    · obtain ⟨pos, P1, hrun, _, _, _, _, hSh1, hCh1, hSp1⟩ :=
        leaf_linked hSh hL.chain hL.spine hp hPl hPn key record fuel
      exact ⟨h.set p P1, G, hrun, ⟨hSh1, hCh1, hSp1, hL.root_lo⟩⟩
    · have hkl : P.n ≤ P.keys.length := by rw [shP.klen]; exact shP.n_le
      have hPcs : P.cs.length = P.n + 1 := shP.slots_length (by omega)
      obtain ⟨i, hfc, hi, _, _⟩ := findChild_spec key P P.n hkl
      obtain ⟨x, hx⟩ : ∃ x, P.cs[i]? = some x := getElem?_exists (by omega)
      obtain ⟨c, hxc, hcl, hclv⟩ := hSh.child_lvl p P hp hPl x (List.getElem?_mem hx)
      subst hxc
      obtain ⟨C, hc⟩ : ∃ C, h[c]? = some C := getElem?_exists hcl
      have shC := hSh.node_ok c C hc
      have hcp : childPtr P i = some c := by
        simp only [childPtr, ← Node.cs_get hi, hx, Option.bind_eq_bind, Option.some_bind]
      by_cases hfull : C.n = 2 * t - 1
      · have hpc' : p ≠ c := by intro e; subst e; omega
        obtain ⟨h1, P1, C1, N1, km, rm, hsplit, hS⟩ := splitChild_spec h p i c P C hp hc hpc'
          (by rw [shC.t_eq]; omega) (by rw [shC.klen, shC.t_eq]) (by rw [shC.rlen, shC.t_eq])
          (by rw [shC.clen, shC.t_eq]) (by rw [shP.clen]; omega) (by rw [shP.klen]; omega)
          (by rw [shP.rlen]; omega) hi
        obtain ⟨hSh1, hCh1, hSp1⟩ :=
          split_linked hSh hL.chain hL.spine hp hc hPl hx hfull hPn km hS
        obtain ⟨hC1n, hN1n, _, _, _, _, _⟩ := hS.halves shC (by omega) hfull
        have hcn : c ≠ h.length := by omega
        have hrootn : root ≠ h.length := by have := hSh.root_lt; omega
        have hroot1 : (G.split h.length c km C.leaf).lo root = none := by
          rw [Ghost.split_lo_old G km C.leaf hrootn]; exact hL.root_lo
        have hL1 : Linked h1 root t (G.split h.length c km C.leaf) ins :=
          ⟨hSh1, hCh1, hSp1, hroot1⟩
        have hP1k : P1.keys[i]? = some km := by
          rw [← Node.ks_get (by rw [hS.P_n]; omega), hS.P_ks,
            getElem?_insAt _ _ _ (by rw [shP.held_length]; exact hi), if_neg (lt_irrefl _),
            if_pos rfl]
        have hstart : insertNonFull (fuel + 1) h p key record =
            (childPtr P1 (if key > km then i + 1 else i)).bind
              (fun c1 => insertNonFull fuel h1 c1 key record) := by
          simp only [insertNonFull, hp, hPl, hfc, hcp, hc, shP.t_eq, hfull, if_true, hsplit,
            hS.atP, hP1k, Option.bind_eq_bind, Option.some_bind, Bool.false_eq_true, if_false]
        by_cases hgt : key > km
        · have hcp1 : childPtr P1 (i + 1) = some h.length := by
            simp only [childPtr, ← Node.cs_get (by rw [hS.P_n]; omega : i + 1 ≤ P1.n), hS.P_cs]
            rw [getElem?_insAt _ _ _ (by omega), if_neg (lt_irrefl _), if_pos rfl]
            rfl
          have hlvN := Ghost.split_lvl_new G h.length c km C.leaf
          obtain ⟨h2, G2, hrun, hL2⟩ := ih h1 (G.split h.length c km C.leaf) ins
            h.length N1 hL1 hS.atN (by rw [hN1n]; omega) (by rw [hlvN]; omega)
          refine ⟨h2, G2, ?_, hL2⟩
          rw [hstart, if_pos hgt, hcp1]
          exact hrun
        · have hcp1 : childPtr P1 i = some c := by
            simp only [childPtr, ← Node.cs_get (by rw [hS.P_n]; omega : i ≤ P1.n), hS.P_cs]
            rw [getElem?_insAt _ _ _ (by omega), if_pos (by omega), hx]
            rfl
          have hlvC : (G.split h.length c km C.leaf).lvl c = G.lvl c :=
            Ghost.split_lvl_old G km C.leaf hcn
          obtain ⟨h2, G2, hrun, hL2⟩ := ih h1 (G.split h.length c km C.leaf) ins
            c C1 hL1 hS.atC (by rw [hC1n]; omega) (by rw [hlvC]; omega)
          refine ⟨h2, G2, ?_, hL2⟩
          rw [hstart, if_neg hgt, hcp1]
          exact hrun
      · have hCn : C.n < 2 * t - 1 := by have := shC.n_le; omega
        obtain ⟨h1, G1, hrun, hL1⟩ := ih h G ins c C hL hc hCn (by omega)
        refine ⟨h1, G1, ?_, hL1⟩
        simp only [insertNonFull, hp, hPl, hfc, hcp, hc, shP.t_eq, hfull, if_false,
          Option.bind_eq_bind, Option.some_bind, Bool.false_eq_true]
        exact hrun

/-- The fresh root `insert` puts above a full root, before the split. -/
theorem Linked.grow {h : Heap ρ} {root t : Nat} {G : Ghost} {ins : List (Int × Slot ρ)}
    (hL : Linked h root t G ins) {S0 : Node ρ} (hS0 : S0 = { (freshNode t false : Node ρ) with
      children := (freshNode t false : Node ρ).children.set 0 (some root) }) :
    Linked (h ++ [S0]) h.length t (G.newRoot h.length root) ins := by
  have ht := hL.shape.t_ge
  have hrl := hL.shape.root_lt
  have hleaf : S0.leaf = false := by simp [hS0, freshNode]
  have hc0 : S0.children[0]? = some (some root) := by
    rw [hS0]
    simp only [freshNode]
    have : 2 * t = (2 * t - 1) + 1 := by omega
    rw [this, List.replicate_succ]
    simp
  have hcases : ∀ (q : Nat) (nd : Node ρ), (h ++ [S0])[q]? = some nd →
      (q = h.length ∧ nd = S0) ∨ (q < h.length ∧ h[q]? = some nd) := by
    intro q nd hq
    by_cases hql : q < h.length
    · rw [List.getElem?_append_left hql] at hq
      exact Or.inr ⟨hql, hq⟩
    · have hqlen := (List.getElem?_eq_some_iff.1 hq).1
      simp only [List.length_append, List.length_singleton] at hqlen
      have e : q = h.length := by omega
      subst e
      simp at hq
      exact Or.inl ⟨rfl, hq.symm⟩
  have hframe : ∀ q : Nat, q < h.length → (h ++ [S0])[q]? = h[q]? :=
    fun q hq => List.getElem?_append_left hq
  have glo : ∀ q : Nat, q < h.length → (G.newRoot h.length root).lo q = G.lo q := by
    intro q hq; simp [Ghost.newRoot, Nat.ne_of_lt hq]
  have ghi : ∀ q : Nat, q < h.length → (G.newRoot h.length root).hi q = G.hi q := by
    intro q hq; simp [Ghost.newRoot, Nat.ne_of_lt hq]
  have glos : (G.newRoot h.length root).lo h.length = none := by simp [Ghost.newRoot]
  have hchain_lt : ∀ q ∈ G.chain, q < h.length := by
    intro q hq
    obtain ⟨nd, hnd, _⟩ := hL.chain.chain_ok.node q hq
    exact (List.getElem?_eq_some_iff.1 hnd).1
  refine ⟨hL.shape.raise hS0, ?_, ?_, glos⟩
  · refine ⟨?_, hL.chain.chain_nodup, ?_, ?_, ?_⟩
    · refine IsChain.frame hL.chain.chain_ok (fun q hq nd hnd => ?_) (fun q hq => ?_)
      · exact ⟨nd, by rw [hframe q (hchain_lt q hq)]; exact hnd, rfl, rfl⟩
      · exact ⟨glo q (hchain_lt q hq), ghi q (hchain_lt q hq)⟩
    · intro q nd hq hl
      rcases hcases q nd hq with ⟨_, rfl⟩ | ⟨_, hq'⟩
      · rw [hleaf] at hl; cases hl
      · exact hL.chain.chain_mem q nd hq' hl
    · have := hL.chain.chain_len
      simp only [List.length_append, List.length_singleton]
      exact Nat.le_succ_of_le this
    · have : chainEnts (h ++ [S0]) G.chain = chainEnts h G.chain :=
        chainEnts_frame (fun q hq => by simp only [entsAt, hframe q (hchain_lt q hq)])
      show (chainEnts (h ++ [S0]) G.chain).Perm ins
      rw [this]
      exact hL.chain.content
  · refine ⟨?_, ?_⟩
    · intro q nd hq hl hlo
      rcases hcases q nd hq with ⟨_, rfl⟩ | ⟨hql, hq'⟩
      · exact ⟨root, hc0, by rw [glo root hrl]; exact hL.root_lo⟩
      · rw [glo q hql] at hlo
        obtain ⟨c, hc, hloc⟩ := hL.spine.down q nd hq' hl hlo
        have hcs : nd.cs[0]? = some (some c) := by
          rw [Node.cs_get (Nat.zero_le _)]; exact hc
        obtain ⟨c', hc', hcl, _⟩ := hL.shape.child_lvl q nd hq' hl _ (List.getElem?_mem hcs)
        cases hc'
        exact ⟨c, hc, by rw [glo c hcl]; exact hloc⟩
    · intro q nd hq hl hlo
      rcases hcases q nd hq with ⟨_, rfl⟩ | ⟨hql, hq'⟩
      · rw [hleaf] at hl; cases hl
      · rw [glo q hql] at hlo
        exact hL.spine.leaf q nd hq' hl hlo

/-- `insert` of any key into a tree built by inserts succeeds and adds the
entry to the leaf chain. -/
theorem insert_linked {T : BTree ρ} {G : Ghost} {ins : List (Int × Slot ρ)}
    (hL : Linked T.heap T.root T.t G ins) (key : Int) (record : Slot ρ) :
    ∃ T1 G1, insert T key record = some T1 ∧
      Linked T1.heap T1.root T1.t G1 ((key, record) :: ins) ∧ T1.t = T.t := by
  have ht := hL.shape.t_ge
  have hrl := hL.shape.root_lt
  obtain ⟨R, hr⟩ : ∃ R, T.heap[T.root]? = some R := ⟨T.heap[T.root], List.getElem?_eq_getElem _⟩
  have okR := hL.shape.node_ok T.root R hr
  by_cases hfull : R.n = 2 * T.t - 1
  · obtain ⟨S0, hS0⟩ : ∃ S0 : Node ρ, S0 = { (freshNode T.t false : Node ρ) with
        children := (freshNode T.t false : Node ρ).children.set 0 (some T.root) } := ⟨_, rfl⟩
    have hL2 := hL.grow hS0
    have hs : (T.heap ++ [S0])[T.heap.length]? = some S0 := by simp
    have hr2 : (T.heap ++ [S0])[T.root]? = some R := by
      rw [List.getElem?_append_left hrl]; exact hr
    have okS := hL2.shape.node_ok _ S0 hs
    have hS0n : S0.n = 0 := by simp [hS0, freshNode]
    have hS0l : S0.leaf = false := by simp [hS0, freshNode]
    have hS0cs : S0.cs[0]? = some (some T.root) := by
      rw [Node.cs_get (Nat.zero_le _), hS0]
      simp only [freshNode]
      have : 2 * T.t = (2 * T.t - 1) + 1 := by omega
      rw [this, List.replicate_succ]
      simp
    obtain ⟨h3, P1, C1, N1, km, rm, hsplit, hS⟩ := splitChild_spec (T.heap ++ [S0])
      T.heap.length 0 T.root S0 R hs hr2 (by omega) (by rw [okR.t_eq]; omega)
      (by rw [okR.klen, okR.t_eq]) (by rw [okR.rlen, okR.t_eq]) (by rw [okR.clen, okR.t_eq])
      (by rw [okS.clen, hS0n]; omega) (by rw [okS.klen, hS0n]; omega)
      (by rw [okS.rlen, hS0n]; omega) (Nat.zero_le _)
    obtain ⟨hSh3, hCh3, hSp3⟩ := split_linked hL2.shape hL2.chain hL2.spine hs hr2 hS0l hS0cs
      hfull (by rw [hS0n]; omega) km hS
    have hlen2 : (T.heap ++ [S0]).length = T.heap.length + 1 := by simp
    have hroot3 : (Ghost.split (G.newRoot T.heap.length T.root) (T.heap ++ [S0]).length
        T.root km R.leaf).lo T.heap.length = none := by
      rw [Ghost.split_lo_old _ km R.leaf (by rw [hlen2]; omega)]
      exact hL2.root_lo
    obtain ⟨h4, G4, hrun, hL4⟩ := insertNonFull_linked key record h3.length h3 _ ins
      T.heap.length P1 ⟨hSh3, hCh3, hSp3, hroot3⟩ hS.atP (by rw [hS.P_n, hS0n]; omega)
      hSh3.lvl_root
    refine ⟨{ T with root := T.heap.length, heap := h4 }, G4, ?_, hL4, rfl⟩
    have hw : writeAt (freshNode T.t false : Node ρ).children 0 (some T.root) =
        some ((freshNode T.t false : Node ρ).children.set 0 (some T.root)) :=
      writeAt_of_lt _ (by simp [freshNode]; omega)
    have hst : store (T.heap ++ [(freshNode T.t false : Node ρ)]) T.heap.length S0 =
        some (T.heap ++ [S0]) := by
      simp [store]
    simp only [insert, hr, hfull, if_true, createNode, Option.bind_eq_bind, Option.some_bind,
      List.getElem?_concat_length, hw, ← hS0, hst, hsplit, hrun]
  · have hRn : R.n < 2 * T.t - 1 := by have := okR.n_le; omega
    obtain ⟨h1, G1, hrun, hL1⟩ := insertNonFull_linked key record T.heap.length T.heap G ins
      T.root R hL hr hRn hL.shape.lvl_root
    refine ⟨{ T with heap := h1 }, G1, ?_, hL1, rfl⟩
    simp only [insert, hr, hfull, if_false, Option.bind_eq_bind, Option.some_bind, hrun]

theorem insertAll_linked : ∀ (kvs : List (Int × ρ)) (T : BTree ρ) (G : Ghost)
    (ins : List (Int × Slot ρ)), Linked T.heap T.root T.t G ins →
    ∃ T1 G1 ins1, insertAll T kvs = some T1 ∧ Linked T1.heap T1.root T1.t G1 ins1 ∧
      T1.t = T.t ∧ ins1.Perm (kvs.map (fun kr => (kr.1, Slot.ptr kr.2)) ++ ins) := by
  intro kvs
  induction kvs with
  | nil =>
    intro T G ins hL
    exact ⟨T, G, ins, rfl, hL, rfl, List.Perm.refl _⟩
  | cons kr rest ih =>
    intro T G ins hL
    obtain ⟨k, r⟩ := kr
    obtain ⟨T1, G1, hrun1, hL1, ht1⟩ := insert_linked hL k (Slot.ptr r)
    obtain ⟨T2, G2, ins2, hrun2, hL2, ht2, hperm⟩ := ih T1 G1 _ hL1
    refine ⟨T2, G2, ins2, ?_, hL2, by rw [ht2, ht1], ?_⟩
    · simp only [insertAll, hrun1, Option.bind_eq_bind, Option.some_bind]
      exact hrun2
    · refine hperm.trans ?_
      simp only [List.map_cons, List.cons_append]
      exact List.perm_middle

theorem Spine.leftmost_head {h : Heap ρ} {root t : Nat} {G : Ghost} (hSp : Spine h G)
    (hSh : Shape h root t G.lvl) : ∀ (fuel p : Nat) (P : Node ρ), h[p]? = some P →
      G.lo p = none → G.lvl p < fuel → leftmost fuel h p = some 0 := by
  intro fuel
  induction fuel with
  | zero => intro p P _ _ hl; omega
  | succ fuel ih =>
    intro p P hp hlo hlv
    rcases Bool.eq_false_or_eq_true P.leaf with hPl | hPl
    · have := hSp.leaf p P hp hPl hlo
      subst this
      simp only [leftmost, hp, hPl, Option.bind_eq_bind, Option.some_bind, if_true]
    · obtain ⟨c, hc0, hloc⟩ := hSp.down p P hp hPl hlo
      have hcs : P.cs[0]? = some (some c) := by
        rw [Node.cs_get (Nat.zero_le _)]; exact hc0
      obtain ⟨c', hc', hcl, hclv⟩ := hSh.child_lvl p P hp hPl _ (List.getElem?_mem hcs)
      cases hc'
      obtain ⟨C, hc⟩ : ∃ C, h[c]? = some C := getElem?_exists hcl
      have hcp : childPtr P 0 = some c := by
        simp only [childPtr, hc0, Option.bind_eq_bind, Option.some_bind]
      simp only [leftmost, hp, hPl, hcp, Option.bind_eq_bind, Option.some_bind,
        Bool.false_eq_true, if_false]
      exact ih c C hc hloc (by omega : G.lvl c < fuel)

theorem NodeShape.leaf_entries {h : Heap ρ} {t p : Nat} {P : Node ρ} (hP : NodeShape t P)
    (hp : h[p]? = some P) : leafEntries P P.n 0 = some (entsAt h p) := by
  rw [leafEntries_spec P P.n 0 (by rw [hP.klen]; have := hP.n_le; omega)
    (by rw [hP.rlen]; have := hP.n_le; omega)]
  simp only [entsAt, hp, Node.ents, Node.ks, Node.rs, List.drop_zero]

theorem IsChain.walk_reads {h : Heap ρ} {G : Ghost} {t : Nat}
    (hsh : ∀ (q : Nat) (nd : Node ρ), h[q]? = some nd → NodeShape t nd) :
    ∀ (l : List Nat) (fuel : Nat) (s : Option Nat),
      IsChain h G s l → l.length ≤ fuel → walk fuel h s = some (chainEnts h l) := by
  intro l
  induction l with
  | nil =>
    intro fuel s hc _
    have : s = none := hc
    subst this
    cases fuel <;> rfl
  | cons x xs ih =>
    intro fuel s hc hlen
    obtain ⟨hs, nd, hnd, _, hrest, _⟩ := hc
    subst hs
    cases fuel with
    | zero => simp at hlen
    | succ fuel =>
      simp only [List.length_cons, Nat.add_le_add_iff_right] at hlen
      simp only [walk, hnd, (hsh x nd hnd).leaf_entries hnd, ih fuel nd.next hrest hlen, chainEnts,
        Option.bind_eq_bind, Option.some_bind]

/-- The scan of a tree built by inserts reads the leaf chain. -/
theorem Linked.scan_reads {T : BTree ρ} {G : Ghost} {ins : List (Int × Slot ρ)}
    (hL : Linked T.heap T.root T.t G ins) : scan T = some (chainEnts T.heap G.chain) := by
  obtain ⟨R, hr⟩ : ∃ R, T.heap[T.root]? = some R := getElem?_exists hL.shape.root_lt
  simp only [scan, hL.spine.leftmost_head hL.shape T.heap.length T.root R hr hL.root_lo
    hL.shape.lvl_root, Option.bind_eq_bind, Option.some_bind]
  exact IsChain.walk_reads hL.shape.node_ok G.chain T.heap.length (some 0) hL.chain.chain_ok
    hL.chain.chain_len

/-- The scan of a tree after the descent reads the leaf chain. -/
theorem Landed.scan_chain {T : BTree ρ} {G : Ghost} {ins : List (Int × Slot ρ)}
    (hL : Landed T.heap T.root T.t G ins) : scan T = some (chainEnts T.heap G.chain) := by
  obtain ⟨R, hr⟩ : ∃ R, T.heap[T.root]? = some R := getElem?_exists hL.shape.root_lt
  simp only [scan, hL.spine.leftmost_head hL.shape T.heap.length T.root R hr hL.root_lo
    hL.shape.lvl_root, Option.bind_eq_bind, Option.some_bind]
  exact IsChain.walk_reads hL.shape.node_ok G.chain T.heap.length (some 0) hL.chain_ok hL.chain_len

/-- `insert` of any key into a tree that satisfies the invariant: the insert
succeeds, and the chain afterwards holds the old entries and the new one in
non-decreasing key order. -/
theorem insert_lands {T : BTree ρ} {G : Ghost} {ins : List (Int × Slot ρ)}
    (hI : Inv T.heap T.root T.t G ins) (key : Int) (record : Slot ρ) :
    ∃ T1 G1, insert T key record = some T1 ∧
      Landed T1.heap T1.root T1.t G1 ((key, record) :: ins) := by
  have ht := hI.t_ge
  have hrl := hI.root_lt
  obtain ⟨R, hr⟩ : ∃ R, T.heap[T.root]? = some R := ⟨T.heap[T.root], List.getElem?_eq_getElem _⟩
  have okR := hI.node_ok T.root R hr
  have hstart : ∀ {h : Heap ρ} {G0 : Ghost} {root : Nat} {P : Node ρ},
      G0.lo root = none → G0.hi root = none → Descends h G0 root P key := by
    intro h G0 root P e1 e2
    refine ⟨⟨fun a ha => ?_, fun b hb => ?_⟩, fun _ hE => ?_⟩
    · rw [e1] at ha; cases ha
    · rw [e2] at hb; cases hb
    · rw [e2] at hE; cases hE
  by_cases hfull : R.n = 2 * T.t - 1
  · obtain ⟨S0, hS0⟩ : ∃ S0 : Node ρ, S0 = { (freshNode T.t false : Node ρ) with
        children := (freshNode T.t false : Node ρ).children.set 0 (some T.root) } := ⟨_, rfl⟩
    have hI2 := hI.newRoot hr hfull hS0
    have hs : (T.heap ++ [S0])[T.heap.length]? = some S0 := by simp
    have hr2 : (T.heap ++ [S0])[T.root]? = some R := by
      rw [List.getElem?_append_left hrl]; exact hr
    have okS := hI2.node_ok _ S0 hs
    have hS0n : S0.n = 0 := by simp [hS0, freshNode]
    have hS0l : S0.leaf = false := by simp [hS0, freshNode]
    have hS0cs : S0.cs[0]? = some (some T.root) := by
      rw [Node.cs_get (Nat.zero_le _), hS0]
      simp only [freshNode]
      have : 2 * T.t = (2 * T.t - 1) + 1 := by omega
      rw [this, List.replicate_succ]
      simp
    have hS0ks : S0.ks = [] := by simp [Node.ks, hS0n]
    obtain ⟨h3, P1, C1, N1, km, rm, hsplit, hS⟩ := splitChild_spec (T.heap ++ [S0])
      T.heap.length 0 T.root S0 R hs hr2 (by omega) (by rw [okR.t_eq]; omega)
      (by rw [okR.klen, okR.t_eq]) (by rw [okR.rlen, okR.t_eq]) (by rw [okR.clen, okR.t_eq])
      (by rw [okS.clen, hS0n]; omega) (by rw [okS.klen, hS0n]; omega)
      (by rw [okS.rlen, hS0n]; omega) (Nat.zero_le _)
    have hslot : ∃ x, inRange
        (slotLo ((G.newRoot T.heap.length T.root).lo T.heap.length) S0.ks 0)
        (slotHi ((G.newRoot T.heap.length T.root).hi T.heap.length) S0.ks 0) x := by
      refine ⟨key, ⟨fun a ha => ?_, fun b hb => ?_⟩⟩
      · simp [slotLo, Ghost.newRoot] at ha
      · simp [slotHi, hS0ks, Ghost.newRoot] at hb
    have hI3 := hI2.split hs hr2 hS0l hS0cs hfull hslot (by rw [hS0n]; omega) hS
    obtain ⟨h4, G4, hrun, hL⟩ := insertNonFull_lands key record h3.length h3 _ ins
      T.heap.length P1 hI3.toShape (hI3.keysBelow _) hI3.chainOK hI3.spine hI3.root_lo hS.atP
      (by rw [hS.P_n, hS0n]; omega) hI3.lvl_root (hstart hI3.root_lo hI3.root_hi)
    refine ⟨{ T with root := T.heap.length, heap := h4 }, G4, ?_, hL⟩
    have hw : writeAt (freshNode T.t false : Node ρ).children 0 (some T.root) =
        some ((freshNode T.t false : Node ρ).children.set 0 (some T.root)) :=
      writeAt_of_lt _ (by simp [freshNode]; omega)
    have hst : store (T.heap ++ [(freshNode T.t false : Node ρ)]) T.heap.length S0 =
        some (T.heap ++ [S0]) := by
      simp [store]
    simp only [insert, hr, hfull, if_true, createNode, Option.bind_eq_bind, Option.some_bind,
      List.getElem?_concat_length, hw, ← hS0, hst, hsplit, hrun]
  · have hRn : R.n < 2 * T.t - 1 := by have := okR.n_le; omega
    obtain ⟨h1, G1, hrun, hL⟩ := insertNonFull_lands key record T.heap.length T.heap G ins
      T.root R hI.toShape (hI.keysBelow _) hI.chainOK hI.spine hI.root_lo hr hRn hI.lvl_root
      (hstart hI.root_lo hI.root_hi)
    refine ⟨{ T with heap := h1 }, G1, ?_, hL⟩
    simp only [insert, hr, hfull, if_false, Option.bind_eq_bind, Option.some_bind, hrun]

/-! ## The keys and records the nodes hold, for inserts of any keys -/

theorem NodeShape.rs_held {t : Nat} {nd : Node ρ} (h : NodeShape t nd) :
    nd.ks.length = nd.rs.length := by
  rw [h.held_length]
  simp only [Node.rs, List.length_take, h.rlen]
  have := h.n_le
  omega

theorem mem_ents_take {ks : List Int} {rs : List (Slot ρ)} {t : Nat} {e : Int × Slot ρ}
    (hl : ks.length = rs.length) (he : e ∈ (ks.take t).zip (rs.take t)) : e ∈ ks.zip rs := by
  rw [← ents_split ks rs t hl]
  exact List.mem_append_left _ he

theorem mem_ents_drop {ks : List Int} {rs : List (Slot ρ)} {t : Nat} {e : Int × Slot ρ}
    (hl : ks.length = rs.length) (he : e ∈ (ks.drop t).zip (rs.drop t)) : e ∈ ks.zip rs := by
  rw [← ents_split ks rs t hl]
  exact List.mem_append_right _ he

/-- `splitChild` keeps the keys and the records of the nodes among the
inserted ones; the new sibling of an internal node holds no record at all. -/
theorem Stored.halve {h : Heap ρ} {t : Nat} {ins : List (Int × Slot ρ)}
    (hSt : Stored h ins) {p i c : Nat} {P C : Node ρ}
    (hp : h[p]? = some P) (hc : h[c]? = some C) (shP : NodeShape t P) (shC : NodeShape t C)
    (ht : 1 ≤ t) (hCn : C.n = 2 * t - 1)
    {h1 : Heap ρ} {P1 C1 N1 : Node ρ} {km : Int} {rm : Slot ρ}
    (hS : SplitOut h p i c P C h1 P1 C1 N1 km rm) : Stored h1 ins := by
  obtain ⟨hC1n, hN1n, vC1k, vN1k, _, _, hkm⟩ := hS.halves shC ht hCn
  obtain ⟨vC1r, vN1r⟩ := hS.recs shC ht hCn
  have hClen := shC.rs_held
  have hPlen := shP.rs_held
  have hkmC : km ∈ C.ks := List.getElem?_mem hkm
  refine ⟨?_, ?_⟩
  · intro q nd hq k hk
    rcases hS.cases q nd hq with ⟨rfl, rfl⟩ | ⟨rfl, rfl⟩ | ⟨rfl, rfl⟩ | ⟨_, _, _, hq'⟩
    · rw [hS.P_ks, mem_insAt] at hk
      rcases hk with rfl | hk
      · exact hSt.keys_ins c C hc _ hkmC
      · exact hSt.keys_ins q P hp k hk
    · rw [vC1k] at hk
      exact hSt.keys_ins q C hc k (List.mem_of_mem_take hk)
    · rw [vN1k] at hk
      exact hSt.keys_ins c C hc k (List.mem_of_mem_drop hk)
    · exact hSt.keys_ins q nd hq' k hk
  · intro q nd hq e he r hr
    rcases hS.cases q nd hq with ⟨rfl, rfl⟩ | ⟨rfl, rfl⟩ | ⟨rfl, rfl⟩ | ⟨_, _, _, hq'⟩
    · simp only [Node.ents, hS.P_ks, hS.P_rs] at he
      have he' := (zip_insAt P.ks P.rs i km rm hPlen).subset he
      rcases List.mem_cons.1 he' with rfl | he'
      · rcases Bool.eq_false_or_eq_true C.leaf with hl | hl
        · have hrm := hS.rec_leaf hl
          rw [shC.t_eq] at hrm
          have hmem : (km, rm) ∈ C.ents := by
            simp only [Node.ents]
            apply List.mem_iff_getElem?.2
            refine ⟨t - 1, ?_⟩
            rw [List.getElem?_zip_eq_some]
            refine ⟨hkm, ?_⟩
            simp only [Node.rs, List.getElem?_take, hCn, if_pos (by omega : t - 1 < 2 * t - 1)]
            exact hrm
          exact hSt.recs_ins c C hc _ hmem r hr
        · have := hS.rec_int hl
          rw [this] at hr
          cases hr
      · exact hSt.recs_ins q P hp e he' r hr
    · simp only [Node.ents, vC1k, vC1r] at he
      exact hSt.recs_ins q C hc e (mem_ents_take hClen he) r hr
    · rcases Bool.eq_false_or_eq_true C.leaf with hl | hl
      · simp only [Node.ents, vN1k, vN1r hl] at he
        exact hSt.recs_ins c C hc e (mem_ents_drop hClen he) r hr
      · exfalso
        have h2 : e.2 ∈ nd.rs := by
          simp only [Node.ents] at he
          exact (List.of_mem_zip he).2
        simp only [Node.rs, hS.N_recs_int hl] at h2
        have h3 := List.mem_of_mem_take h2
        rw [List.mem_replicate] at h3
        rw [h3.2] at hr
        cases hr
    · exact hSt.recs_ins q nd hq' e he r hr

/-- The leaf case of `insertNonFull` adds the key and the record to what
the leaf holds. -/
theorem leaf_stored {h : Heap ρ} {t : Nat} {ins : List (Int × Slot ρ)}
    (hSt : Stored h ins) {p : Nat} {P : Node ρ} (hp : h[p]? = some P) (shP : NodeShape t P)
    (hPl : P.leaf = true) (hPn : P.n < 2 * t - 1) (key : Int) (record : Slot ρ) (fuel : Nat) :
    ∃ h1, insertNonFull (fuel + 1) h p key record = some h1 ∧
      Stored h1 ((key, record) :: ins) := by
  have hpl : p < h.length := (List.getElem?_eq_some_iff.1 hp).1
  have hk : P.n < P.keys.length := by rw [shP.klen]; omega
  have hr : P.n < P.records.length := by rw [shP.rlen]; omega
  obtain ⟨pos, K, R, hs, hpos, hKl, hRl, hK, hR, _, _⟩ := leafShift_spec key P.n P hk hr
  have hposK : pos < K.length := by omega
  have hposR : pos < R.length := by omega
  have hKt := take_shift_write P.keys K pos P.n key hpos hk hKl hK
  have hRt := take_shift_write P.records R pos P.n record hpos hr hRl hR
  obtain ⟨P1, hP1⟩ : ∃ P1 : Node ρ,
      P1 = { P with keys := K.set pos key, records := R.set pos record, n := P.n + 1 } :=
    ⟨_, rfl⟩
  have hrun : insertNonFull (fuel + 1) h p key record = some (h.set p P1) := by
    simp only [insertNonFull, hp, hPl, if_true, hs, writeAt_of_lt _ hposK, writeAt_of_lt _ hposR,
      store, hpl, Option.bind_eq_bind, Option.some_bind, hP1]
  have hP1ks : P1.ks = insAt P.ks pos key := by simp only [Node.ks, hP1]; exact hKt
  have hP1rs : P1.rs = insAt P.rs pos record := by simp only [Node.rs, hP1]; exact hRt
  have hcases : ∀ (q : Nat) (nd : Node ρ), (h.set p P1)[q]? = some nd →
      (q = p ∧ nd = P1) ∨ (q ≠ p ∧ h[q]? = some nd) := by
    intro q nd hq
    rw [List.getElem?_set] at hq
    by_cases e : p = q
    · rw [if_pos e, if_pos hpl] at hq
      exact Or.inl ⟨e.symm, (Option.some.inj hq).symm⟩
    · rw [if_neg e] at hq
      exact Or.inr ⟨fun e' => e e'.symm, hq⟩
  refine ⟨h.set p P1, hrun, ?_, ?_⟩
  · intro q nd hq k hk'
    rw [List.map_cons, List.mem_cons]
    rcases hcases q nd hq with ⟨rfl, rfl⟩ | ⟨_, hq'⟩
    · rw [hP1ks, mem_insAt] at hk'
      rcases hk' with rfl | hk'
      · exact Or.inl rfl
      · exact Or.inr (hSt.keys_ins q P hp k hk')
    · exact Or.inr (hSt.keys_ins q nd hq' k hk')
  · intro q nd hq e he r hr'
    rw [List.mem_cons]
    rcases hcases q nd hq with ⟨rfl, rfl⟩ | ⟨_, hq'⟩
    · simp only [Node.ents, hP1ks, hP1rs] at he
      have he' := (zip_insAt P.ks P.rs pos key record shP.rs_held).subset he
      rcases List.mem_cons.1 he' with rfl | he'
      · exact Or.inl rfl
      · exact Or.inr (hSt.recs_ins q P hp e he' r hr')
    · exact Or.inr (hSt.recs_ins q nd hq' e he r hr')

/-- The descent of `insertNonFull`, for any key: the nodes afterwards hold
inserted keys and records only. -/
theorem insertNonFull_stored {root t : Nat} (key : Int) (record : Slot ρ) :
    ∀ (fuel : Nat) (h : Heap ρ) (G : Ghost) (ins : List (Int × Slot ρ)) (p : Nat) (P : Node ρ),
    Linked h root t G ins → Stored h ins → h[p]? = some P → P.n < 2 * t - 1 →
    G.lvl p < fuel →
    ∃ h1 G1, insertNonFull fuel h p key record = some h1 ∧
      Linked h1 root t G1 ((key, record) :: ins) ∧ Stored h1 ((key, record) :: ins) := by
  intro fuel
  induction fuel with
  | zero => intro h G ins p P _ _ _ _ hl; omega
  | succ fuel ih =>
    intro h G ins p P hL hSt hp hPn hlv
    have hSh := hL.shape
    have ht := hSh.t_ge
    have shP := hSh.node_ok p P hp
    rcases Bool.eq_false_or_eq_true P.leaf with hPl | hPl
    · obtain ⟨pos, P1, hrun, _, _, _, _, hSh1, hCh1, hSp1⟩ :=
        leaf_linked hSh hL.chain hL.spine hp hPl hPn key record fuel
      obtain ⟨h1, hrun', hSt1⟩ := leaf_stored hSt hp shP hPl hPn key record fuel
      rw [hrun] at hrun'
      cases hrun'
      exact ⟨h.set p P1, G, hrun, ⟨hSh1, hCh1, hSp1, hL.root_lo⟩, hSt1⟩
    · have hkl : P.n ≤ P.keys.length := by rw [shP.klen]; exact shP.n_le
      have hPcs : P.cs.length = P.n + 1 := shP.slots_length (by omega)
      obtain ⟨i, hfc, hi, _, _⟩ := findChild_spec key P P.n hkl
      obtain ⟨x, hx⟩ : ∃ x, P.cs[i]? = some x := getElem?_exists (by omega)
      obtain ⟨c, hxc, hcl, hclv⟩ := hSh.child_lvl p P hp hPl x (List.getElem?_mem hx)
      subst hxc
      obtain ⟨C, hc⟩ : ∃ C, h[c]? = some C := getElem?_exists hcl
      have shC := hSh.node_ok c C hc
      have hcp : childPtr P i = some c := by
        simp only [childPtr, ← Node.cs_get hi, hx, Option.bind_eq_bind, Option.some_bind]
      by_cases hfull : C.n = 2 * t - 1
      · have hpc' : p ≠ c := by intro e; subst e; omega
        obtain ⟨h1, P1, C1, N1, km, rm, hsplit, hS⟩ := splitChild_spec h p i c P C hp hc hpc'
          (by rw [shC.t_eq]; omega) (by rw [shC.klen, shC.t_eq]) (by rw [shC.rlen, shC.t_eq])
          (by rw [shC.clen, shC.t_eq]) (by rw [shP.clen]; omega) (by rw [shP.klen]; omega)
          (by rw [shP.rlen]; omega) hi
        obtain ⟨hSh1, hCh1, hSp1⟩ :=
          split_linked hSh hL.chain hL.spine hp hc hPl hx hfull hPn km hS
        have hSt1 := hSt.halve hp hc shP shC (by omega) hfull hS
        obtain ⟨hC1n, hN1n, _, _, _, _, _⟩ := hS.halves shC (by omega) hfull
        have hcn : c ≠ h.length := by omega
        have hrootn : root ≠ h.length := by have := hSh.root_lt; omega
        have hroot1 : (G.split h.length c km C.leaf).lo root = none := by
          rw [Ghost.split_lo_old G km C.leaf hrootn]; exact hL.root_lo
        have hL1 : Linked h1 root t (G.split h.length c km C.leaf) ins :=
          ⟨hSh1, hCh1, hSp1, hroot1⟩
        have hP1k : P1.keys[i]? = some km := by
          rw [← Node.ks_get (by rw [hS.P_n]; omega), hS.P_ks,
            getElem?_insAt _ _ _ (by rw [shP.held_length]; exact hi), if_neg (lt_irrefl _),
            if_pos rfl]
        have hstart : insertNonFull (fuel + 1) h p key record =
            (childPtr P1 (if key > km then i + 1 else i)).bind
              (fun c1 => insertNonFull fuel h1 c1 key record) := by
          simp only [insertNonFull, hp, hPl, hfc, hcp, hc, shP.t_eq, hfull, if_true, hsplit,
            hS.atP, hP1k, Option.bind_eq_bind, Option.some_bind, Bool.false_eq_true, if_false]
        by_cases hgt : key > km
        · have hcp1 : childPtr P1 (i + 1) = some h.length := by
            simp only [childPtr, ← Node.cs_get (by rw [hS.P_n]; omega : i + 1 ≤ P1.n), hS.P_cs]
            rw [getElem?_insAt _ _ _ (by omega), if_neg (lt_irrefl _), if_pos rfl]
            rfl
          have hlvN := Ghost.split_lvl_new G h.length c km C.leaf
          obtain ⟨h2, G2, hrun, hL2, hSt2⟩ := ih h1 (G.split h.length c km C.leaf) ins
            h.length N1 hL1 hSt1 hS.atN (by rw [hN1n]; omega) (by rw [hlvN]; omega)
          refine ⟨h2, G2, ?_, hL2, hSt2⟩
          rw [hstart, if_pos hgt, hcp1]
          exact hrun
        · have hcp1 : childPtr P1 i = some c := by
            simp only [childPtr, ← Node.cs_get (by rw [hS.P_n]; omega : i ≤ P1.n), hS.P_cs]
            rw [getElem?_insAt _ _ _ (by omega), if_pos (by omega), hx]
            rfl
          have hlvC : (G.split h.length c km C.leaf).lvl c = G.lvl c :=
            Ghost.split_lvl_old G km C.leaf hcn
          obtain ⟨h2, G2, hrun, hL2, hSt2⟩ := ih h1 (G.split h.length c km C.leaf) ins
            c C1 hL1 hSt1 hS.atC (by rw [hC1n]; omega) (by rw [hlvC]; omega)
          refine ⟨h2, G2, ?_, hL2, hSt2⟩
          rw [hstart, if_neg hgt, hcp1]
          exact hrun
      · have hCn : C.n < 2 * t - 1 := by have := shC.n_le; omega
        obtain ⟨h1, G1, hrun, hL1, hSt1⟩ := ih h G ins c C hL hSt hc hCn (by omega)
        refine ⟨h1, G1, ?_, hL1, hSt1⟩
        simp only [insertNonFull, hp, hPl, hfc, hcp, hc, shP.t_eq, hfull, if_false,
          Option.bind_eq_bind, Option.some_bind, Bool.false_eq_true]
        exact hrun

/-- `insert` of any key keeps the nodes holding inserted keys and records
only. -/
theorem insert_stored {T : BTree ρ} {G : Ghost} {ins : List (Int × Slot ρ)}
    (hL : Linked T.heap T.root T.t G ins) (hSt : Stored T.heap ins) (key : Int)
    (record : Slot ρ) :
    ∃ T1 G1, insert T key record = some T1 ∧
      Linked T1.heap T1.root T1.t G1 ((key, record) :: ins) ∧
      Stored T1.heap ((key, record) :: ins) ∧ T1.t = T.t := by
  have ht := hL.shape.t_ge
  have hrl := hL.shape.root_lt
  obtain ⟨R, hr⟩ : ∃ R, T.heap[T.root]? = some R := ⟨T.heap[T.root], List.getElem?_eq_getElem _⟩
  have okR := hL.shape.node_ok T.root R hr
  by_cases hfull : R.n = 2 * T.t - 1
  · obtain ⟨S0, hS0⟩ : ∃ S0 : Node ρ, S0 = { (freshNode T.t false : Node ρ) with
        children := (freshNode T.t false : Node ρ).children.set 0 (some T.root) } := ⟨_, rfl⟩
    have hL2 := hL.grow hS0
    have hs : (T.heap ++ [S0])[T.heap.length]? = some S0 := by simp
    have hr2 : (T.heap ++ [S0])[T.root]? = some R := by
      rw [List.getElem?_append_left hrl]; exact hr
    have okS := hL2.shape.node_ok _ S0 hs
    have hS0n : S0.n = 0 := by simp [hS0, freshNode]
    have hS0l : S0.leaf = false := by simp [hS0, freshNode]
    have hS0cs : S0.cs[0]? = some (some T.root) := by
      rw [Node.cs_get (Nat.zero_le _), hS0]
      simp only [freshNode]
      have : 2 * T.t = (2 * T.t - 1) + 1 := by omega
      rw [this, List.replicate_succ]
      simp
    have hS0ks : S0.ks = [] := by simp [Node.ks, hS0n]
    have hSt2 : Stored (T.heap ++ [S0]) ins := by
      have hcases : ∀ (q : Nat) (nd : Node ρ), (T.heap ++ [S0])[q]? = some nd →
          nd = S0 ∨ T.heap[q]? = some nd := by
        intro q nd hq
        by_cases hql : q < T.heap.length
        · rw [List.getElem?_append_left hql] at hq
          exact Or.inr hq
        · have hqlen := (List.getElem?_eq_some_iff.1 hq).1
          simp only [List.length_append, List.length_singleton] at hqlen
          have e : q = T.heap.length := by omega
          subst e
          simp at hq
          exact Or.inl hq.symm
      refine ⟨?_, ?_⟩
      · intro q nd hq k hk
        rcases hcases q nd hq with rfl | hq'
        · rw [hS0ks] at hk; cases hk
        · exact hSt.keys_ins q nd hq' k hk
      · intro q nd hq e he r hr'
        rcases hcases q nd hq with rfl | hq'
        · simp only [Node.ents, hS0ks, List.zip_nil_left] at he
          cases he
        · exact hSt.recs_ins q nd hq' e he r hr'
    obtain ⟨h3, P1, C1, N1, km, rm, hsplit, hS⟩ := splitChild_spec (T.heap ++ [S0])
      T.heap.length 0 T.root S0 R hs hr2 (by omega) (by rw [okR.t_eq]; omega)
      (by rw [okR.klen, okR.t_eq]) (by rw [okR.rlen, okR.t_eq]) (by rw [okR.clen, okR.t_eq])
      (by rw [okS.clen, hS0n]; omega) (by rw [okS.klen, hS0n]; omega)
      (by rw [okS.rlen, hS0n]; omega) (Nat.zero_le _)
    obtain ⟨hSh3, hCh3, hSp3⟩ := split_linked hL2.shape hL2.chain hL2.spine hs hr2 hS0l hS0cs
      hfull (by rw [hS0n]; omega) km hS
    have hSt3 := hSt2.halve hs hr2 okS okR (by omega) hfull hS
    have hlen2 : (T.heap ++ [S0]).length = T.heap.length + 1 := by simp
    have hroot3 : (Ghost.split (G.newRoot T.heap.length T.root) (T.heap ++ [S0]).length
        T.root km R.leaf).lo T.heap.length = none := by
      rw [Ghost.split_lo_old _ km R.leaf (by rw [hlen2]; omega)]
      exact hL2.root_lo
    obtain ⟨h4, G4, hrun, hL4, hSt4⟩ := insertNonFull_stored key record h3.length h3 _ ins
      T.heap.length P1 ⟨hSh3, hCh3, hSp3, hroot3⟩ hSt3 hS.atP (by rw [hS.P_n, hS0n]; omega)
      hSh3.lvl_root
    refine ⟨{ T with root := T.heap.length, heap := h4 }, G4, ?_, hL4, hSt4, rfl⟩
    have hw : writeAt (freshNode T.t false : Node ρ).children 0 (some T.root) =
        some ((freshNode T.t false : Node ρ).children.set 0 (some T.root)) :=
      writeAt_of_lt _ (by simp [freshNode]; omega)
    have hst : store (T.heap ++ [(freshNode T.t false : Node ρ)]) T.heap.length S0 =
        some (T.heap ++ [S0]) := by
      simp [store]
    simp only [insert, hr, hfull, if_true, createNode, Option.bind_eq_bind, Option.some_bind,
      List.getElem?_concat_length, hw, ← hS0, hst, hsplit, hrun]
  · have hRn : R.n < 2 * T.t - 1 := by have := okR.n_le; omega
    obtain ⟨h1, G1, hrun, hL1, hSt1⟩ := insertNonFull_stored key record T.heap.length T.heap
      G ins T.root R hL hSt hr hRn hL.shape.lvl_root
    refine ⟨{ T with heap := h1 }, G1, ?_, hL1, hSt1, rfl⟩
    simp only [insert, hr, hfull, if_false, Option.bind_eq_bind, Option.some_bind, hrun]

theorem insertAll_stored : ∀ (kvs : List (Int × ρ)) (T : BTree ρ) (G : Ghost)
    (ins : List (Int × Slot ρ)), Linked T.heap T.root T.t G ins → Stored T.heap ins →
    ∃ T1 G1 ins1, insertAll T kvs = some T1 ∧ Linked T1.heap T1.root T1.t G1 ins1 ∧
      Stored T1.heap ins1 ∧ T1.t = T.t ∧
      ins1.Perm (kvs.map (fun kr => (kr.1, Slot.ptr kr.2)) ++ ins) := by
  intro kvs
  induction kvs with
  | nil =>
    intro T G ins hL hSt
    exact ⟨T, G, ins, rfl, hL, hSt, rfl, List.Perm.refl _⟩
  | cons kr rest ih =>
    intro T G ins hL hSt
    obtain ⟨k, r⟩ := kr
    obtain ⟨T1, G1, hrun1, hL1, hSt1, ht1⟩ := insert_stored hL hSt k (Slot.ptr r)
    obtain ⟨T2, G2, ins2, hrun2, hL2, hSt2, ht2, hperm⟩ := ih T1 G1 _ hL1 hSt1
    refine ⟨T2, G2, ins2, ?_, hL2, hSt2, by rw [ht2, ht1], ?_⟩
    · simp only [insertAll, hrun1, Option.bind_eq_bind, Option.some_bind]
      exact hrun2
    · refine hperm.trans ?_
      simp only [List.map_cons, List.cons_append]
      exact List.perm_middle

/-- The tree `createBTree` returns holds nothing. -/
theorem Stored.empty (t : Nat) : Stored (createBTree t : BTree ρ).heap [] := by
  have hcases : ∀ (q : Nat) (nd : Node ρ), (createBTree t : BTree ρ).heap[q]? = some nd →
      nd = freshNode t true := by
    intro q nd hq
    simp only [createBTree] at hq
    cases q with
    | zero => simp at hq; exact hq.symm
    | succ q => simp at hq
  have hks : (freshNode t true : Node ρ).ks = [] := by simp [Node.ks, freshNode]
  refine ⟨?_, ?_⟩
  · intro q nd hq k hk
    rw [hcases q nd hq, hks] at hk
    cases hk
  · intro q nd hq e he
    rw [hcases q nd hq] at he
    simp only [Node.ents, hks, List.zip_nil_left] at he
    cases he

/-- `search` ends, with `NULL` or with the record slot that a node holds next
to the key. -/
theorem search_reads {h : Heap ρ} {root t : Nat} {lvl : Nat → Nat} (hSh : Shape h root t lvl)
    (key : Int) : ∀ (fuel p : Nat) (P : Node ρ), h[p]? = some P → lvl p < fuel →
      ∃ res, search fuel h p key = some res ∧
        (res = Slot.null ∨
          ∃ (q : Nat) (nd : Node ρ), h[q]? = some nd ∧ (key, res) ∈ nd.ents) := by
  intro fuel
  induction fuel with
  | zero => intro p P _ hl; omega
  | succ fuel ih =>
    intro p P hp hlv
    have ht := hSh.t_ge
    have shP := hSh.node_ok p P hp
    obtain ⟨i, hsp, _, hile, _, _⟩ := searchPos_spec key P P.n 0
      (by rw [shP.klen]; have := shP.n_le; omega)
    by_cases hin : i < P.n
    · obtain ⟨ki, hk⟩ := getElem?_exists (l := P.keys) (i := i)
        (by rw [shP.klen]; have := shP.n_le; omega)
      obtain ⟨ri, hri⟩ := getElem?_exists (l := P.records) (i := i)
        (by rw [shP.rlen]; have := shP.n_le; omega)
      by_cases hkk : ki = key
      · have hhit : searchHit key P i = some true := by
          simp [searchHit, hin, hk, hkk]
        refine ⟨ri, ?_, Or.inr ⟨p, P, hp, ?_⟩⟩
        · simp only [search, hp, hsp, hhit, hri, Option.bind_eq_bind, Option.some_bind, if_true]
        · simp only [Node.ents]
          apply List.mem_iff_getElem?.2
          refine ⟨i, ?_⟩
          rw [List.getElem?_zip_eq_some]
          refine ⟨?_, ?_⟩
          · rw [Node.ks_get hin, hk, hkk]
          · simp only [Node.rs, List.getElem?_take, if_pos hin]
            exact hri
      · have hhit : searchHit key P i = some false := by
          simp [searchHit, hin, hk, hkk]
        rcases Bool.eq_false_or_eq_true P.leaf with hPl | hPl
        · refine ⟨Slot.null, ?_, Or.inl rfl⟩
          simp only [search, hp, hsp, hhit, hPl, Option.bind_eq_bind, Option.some_bind,
            Bool.false_eq_true, if_false, if_true]
        · have hPcs : P.cs.length = P.n + 1 := shP.slots_length (by omega)
          obtain ⟨x, hx⟩ : ∃ x, P.cs[i]? = some x := getElem?_exists (by omega)
          obtain ⟨c, hxc, hcl, hclv⟩ := hSh.child_lvl p P hp hPl x (List.getElem?_mem hx)
          subst hxc
          obtain ⟨C, hc⟩ : ∃ C, h[c]? = some C := getElem?_exists hcl
          have hcp : childPtr P i = some c := by
            simp only [childPtr, ← Node.cs_get (by omega : i ≤ P.n), hx, Option.bind_eq_bind,
              Option.some_bind]
          obtain ⟨res, hrun, hres⟩ := ih c C hc (by omega)
          refine ⟨res, ?_, hres⟩
          simp only [search, hp, hsp, hhit, hPl, hcp, Option.bind_eq_bind, Option.some_bind,
            Bool.false_eq_true, if_false]
          exact hrun
    · have hhit : searchHit key P i = some false := by
        simp [searchHit, hin]
      rcases Bool.eq_false_or_eq_true P.leaf with hPl | hPl
      · refine ⟨Slot.null, ?_, Or.inl rfl⟩
        simp only [search, hp, hsp, hhit, hPl, Option.bind_eq_bind, Option.some_bind,
          Bool.false_eq_true, if_false, if_true]
      · have hPcs : P.cs.length = P.n + 1 := shP.slots_length (by omega)
        obtain ⟨x, hx⟩ : ∃ x, P.cs[i]? = some x := getElem?_exists (by omega)
        obtain ⟨c, hxc, hcl, hclv⟩ := hSh.child_lvl p P hp hPl x (List.getElem?_mem hx)
        subst hxc
        obtain ⟨C, hc⟩ : ∃ C, h[c]? = some C := getElem?_exists hcl
        have hcp : childPtr P i = some c := by
          simp only [childPtr, ← Node.cs_get (by omega : i ≤ P.n), hx, Option.bind_eq_bind,
            Option.some_bind]
        obtain ⟨res, hrun, hres⟩ := ih c C hc (by omega)
        refine ⟨res, ?_, hres⟩
        simp only [search, hp, hsp, hhit, hPl, hcp, Option.bind_eq_bind, Option.some_bind,
          Bool.false_eq_true, if_false]
        exact hrun

/-- On a tree built by inserts of any keys, `search` ends, and when it
returns a record (a slot that was written with a record pointer), that record
was inserted with the key searched for. -/
theorem searchTree_written (t : Nat) (ht : 2 ≤ t) (kvs : List (Int × ρ)) (k : Int) :
    ∃ T res, insertAll (createBTree t) kvs = some T ∧ searchTree T k = some res ∧
      ∀ r, res = Slot.ptr r → (k, r) ∈ kvs := by
  obtain ⟨T, G, ins, hrun, hL, hSt, _, hperm⟩ :=
    insertAll_stored kvs (createBTree t) Ghost.init [] (Inv.init t ht).linked (Stored.empty t)
  obtain ⟨R, hr⟩ : ∃ R, T.heap[T.root]? = some R := getElem?_exists hL.shape.root_lt
  obtain ⟨res, hs, hres⟩ := search_reads hL.shape k T.heap.length T.root R hr hL.shape.lvl_root
  refine ⟨T, res, hrun, hs, ?_⟩
  intro r hr'
  rcases hres with h0 | ⟨q, nd, hq, hmem⟩
  · rw [h0] at hr'
    cases hr'
  · have h1 := hSt.recs_ins q nd hq _ hmem r hr'
    have h2 := hperm.subset h1
    rw [List.append_nil, hr'] at h2
    obtain ⟨kr, hkr, he⟩ := List.mem_map.1 h2
    have e1 : kr.1 = k := congrArg Prod.fst he
    have e2 : Slot.ptr kr.2 = Slot.ptr r := congrArg Prod.snd he
    have e3 : kr.2 = r := by injection e2
    have : kr = (k, r) := Prod.ext e1 e3
    rw [← this]
    exact hkr

/-! ## A second processing of a transaction -/

section ReplayAgain
variable {F : Type} [FloatOps F]

theorem updateRates_subtree (tx : Transaction F) (s : Seller F) :
    (updateRates tx s).transaction_subtree = s.transaction_subtree := by
  unfold updateRates
  split
  · rfl
  · split <;> rfl

/-- The two ways `findOrCreateSeller` returns. -/
theorem findOrCreateSeller_cases {L La : Ledger F} {id : Int} {q : Nat}
    (h : findOrCreateSeller L id = some (q, La)) :
    (searchTree L.sellerTree id = some (Slot.ptr q) ∧ La = L) ∨
    (searchTree L.sellerTree id = some Slot.null ∧ q = L.sellers.length ∧
      ∃ st, La = { L with sellers := L.sellers ++ [createSeller id FloatOps.zero FloatOps.zero],
                          sellerTree := st }) := by
  unfold findOrCreateSeller at h
  cases hsr : searchTree L.sellerTree id with
  | none => rw [hsr] at h; simp at h
  | some res =>
    rw [hsr] at h
    cases res with
    | garbage => simp [Slot.deref] at h
    | null =>
      simp only [Option.some_bind, Slot.deref] at h
      split at h
      · cases h
      · cases h
        exact Or.inr ⟨rfl, rfl, _, rfl⟩
    | ptr r =>
      simp only [Option.some_bind, Slot.deref] at h
      cases h
      exact Or.inl ⟨rfl, rfl⟩

/-- The two ways `findOrCreateBuyer` returns. -/
theorem findOrCreateBuyer_cases {L La : Ledger F} {id : Int} {q : Nat}
    (h : findOrCreateBuyer L id = some (q, La)) :
    (searchTree L.buyerTree id = some (Slot.ptr q) ∧ La = L) ∨
    (searchTree L.buyerTree id = some Slot.null ∧ q = L.buyers.length ∧
      ∃ bt, La = { L with buyers := L.buyers ++ [createBuyer id], buyerTree := bt }) := by
  unfold findOrCreateBuyer at h
  cases hsr : searchTree L.buyerTree id with
  | none => rw [hsr] at h; simp at h
  | some res =>
    rw [hsr] at h
    cases res with
    | garbage => simp [Slot.deref] at h
    | null =>
      simp only [Option.some_bind, Slot.deref] at h
      split at h
      · cases h
      · cases h
        exact Or.inr ⟨rfl, rfl, _, rfl⟩
    | ptr r =>
      simp only [Option.some_bind, Slot.deref] at h
      cases h
      exact Or.inl ⟨rfl, rfl⟩

/-- The two ways `pairStep` returns. -/
theorem pairStep_cases {L L1 : Ledger F} {tx : Transaction F}
    (h : pairStep L tx = some L1) :
    (∃ p pr pr1, searchTree L.pairTree (createPairKey tx.seller_id tx.buyer_id) =
        some (Slot.ptr p) ∧ L.pairs[p]? = some pr ∧
      L1 = { L with pairs := L.pairs.set p pr1 } ∧
      pr1.number_of_transactions = pr.number_of_transactions + 1) ∨
    (searchTree L.pairTree (createPairKey tx.seller_id tx.buyer_id) = some Slot.null ∧
      ∃ pt, L1 = { L with pairs := L.pairs ++ [createSellerBuyerPair tx.seller_id tx.buyer_id],
                          pairTree := pt }) := by
  unfold pairStep at h
  cases hsr : searchTree L.pairTree (createPairKey tx.seller_id tx.buyer_id) with
  | none => rw [hsr] at h; simp at h
  | some res =>
    rw [hsr] at h
    cases res with
    | garbage => simp [Slot.deref] at h
    | null =>
      simp only [Option.some_bind, Slot.deref] at h
      split at h
      · cases h
      · cases h
        exact Or.inr ⟨rfl, _, rfl⟩
    | ptr r =>
      simp only [Option.some_bind, Slot.deref] at h
      split at h
      · cases h
      · rename_i pr hpr
        cases h
        exact Or.inl ⟨r, pr, _, rfl, hpr, rfl, rfl⟩

/-- The steps of a `processTransaction` call that returns. -/
theorem processTransaction_steps {L L1 : Ledger F} {tx : Transaction F}
    (h : processTransaction L tx = some L1) :
    ∃ sp La Lb bp Lc Ld Le, findOrCreateSeller L tx.seller_id = some (sp, La) ∧
      sellerStep La sp tx = some Lb ∧ findOrCreateBuyer Lb tx.buyer_id = some (bp, Lc) ∧
      buyerStep Lc bp tx = some Ld ∧ regularStep Ld sp tx = some Le ∧
      pairStep Le tx = some L1 := by
  unfold processTransaction at h
  split at h
  · cases h
  · rename_i sp La h1
    split at h
    · cases h
    · rename_i Lb h2
      split at h
      · cases h
      · rename_i bp Lc h3
        split at h
        · cases h
        · rename_i Ld h4
          split at h
          · cases h
          · rename_i Le h5
            exact ⟨sp, La, Lb, bp, Lc, Ld, Le, h1, h2, h3, h4, h5, h⟩

/-- What `sellerStep` does to the state: the seller object gets the revenue
and the transaction in its subtree, nothing else changes. -/
theorem sellerStep_state {L L1 : Ledger F} {sp : Nat} {tx : Transaction F}
    (h : sellerStep L sp tx = some L1) :
    ∃ s0 s1 st, L.sellers[sp]? = some s0 ∧
      insertTransaction s0.transaction_subtree tx = some st ∧
      L1 = { L with sellers := L.sellers.set sp s1 } ∧ s1.transaction_subtree = st ∧
      s1.total_revenue = FloatOps.add s0.total_revenue tx.total_price := by
  unfold sellerStep at h
  split at h
  · cases h
  · rename_i s0 h0
    dsimp only at h
    split at h
    · cases h
    · rename_i st hst
      cases h
      refine ⟨s0, _, st, h0, ?_, rfl, rfl, by rw [updateRates_revenue]⟩
      rw [← hst, updateRates_subtree]

/-- What `buyerStep` does to the state. -/
theorem buyerStep_state {L L1 : Ledger F} {bp : Nat} {tx : Transaction F}
    (h : buyerStep L bp tx = some L1) :
    ∃ b0 b1 bt, L.buyers[bp]? = some b0 ∧
      insertTransaction b0.transaction_subtree tx = some bt ∧
      L1 = { L with buyers := L.buyers.set bp b1 } ∧ b1.transaction_subtree = bt ∧
      b1.total_energy_purchased = FloatOps.add b0.total_energy_purchased tx.energy_kwh := by
  unfold buyerStep at h
  split at h
  · cases h
  · rename_i b0 h0
    dsimp only at h
    split at h
    · cases h
    · rename_i bt hbt
      cases h
      exact ⟨b0, _, bt, h0, hbt, rfl, rfl, rfl⟩

/-- What `regularStep` does to the state. -/
theorem regularStep_state {L L1 : Ledger F} {sp : Nat} {tx : Transaction F}
    (h : regularStep L sp tx = some L1) :
    ∃ s0 s1, L.sellers[sp]? = some s0 ∧ L1 = { L with sellers := L.sellers.set sp s1 } ∧
      s1.transaction_subtree = s0.transaction_subtree ∧
      s1.total_revenue = s0.total_revenue := by
  unfold regularStep at h
  split at h
  · cases h
  · rename_i s0 h0
    dsimp only at h
    cases h
    exact ⟨s0, _, h0, rfl, rfl, rfl⟩

end ReplayAgain

section ReplayState
variable {F : Type} [FloatOps F]

theorem shape_insertTransaction {T st : BTree (Transaction F)} {tx : Transaction F}
    (hT : ∃ lvl, Shape T.heap T.root T.t lvl) (h : insertTransaction T tx = some st) :
    ∃ lvl, Shape st.heap st.root st.t lvl := by
  obtain ⟨lvl, hSh⟩ := hT
  obtain ⟨T1, lvl1, _, hins, hSh1, _⟩ := insert_shape hSh tx.transaction_id (Slot.ptr tx)
  unfold insertTransaction at h
  rw [hins] at h
  cases h
  exact ⟨lvl1, hSh1⟩

theorem insertTransaction_returns {T : BTree (Transaction F)} (tx : Transaction F)
    (hT : ∃ lvl, Shape T.heap T.root T.t lvl) : ∃ st, insertTransaction T tx = some st := by
  obtain ⟨lvl, hSh⟩ := hT
  obtain ⟨T1, _, _, hins, _⟩ := insert_shape hSh tx.transaction_id (Slot.ptr tx)
  exact ⟨T1, hins⟩

/-- `processTransaction` keeps the transaction subtrees of the sellers and
buyers trees as inserts build them. -/
theorem processTransaction_subtrees {L L1 : Ledger F} {tx : Transaction F}
    (h : processTransaction L tx = some L1) (hL : SubtreesOK L) : SubtreesOK L1 := by
  obtain ⟨sp, La, Lb, bp, Lc, Ld, Le, h1, h2, h3, h4, h5, h6⟩ := processTransaction_steps h
  have hfresh : ∃ lvl, Shape (createBTree 2 : BTree (Transaction F)).heap
      (createBTree 2 : BTree (Transaction F)).root (createBTree 2 : BTree (Transaction F)).t lvl :=
    ⟨fun _ => 0, Shape.fresh 2 (le_refl _)⟩
  -- after the seller is found or created
  have hLa : SubtreesOK La := by
    rcases findOrCreateSeller_cases h1 with ⟨_, e⟩ | ⟨_, _, st, e⟩
    · rw [e]; exact hL
    · subst e
      refine ⟨?_, hL.2⟩
      intro s hs
      rcases List.mem_append.1 hs with hs | hs
      · exact hL.1 s hs
      · rw [List.mem_singleton] at hs
        subst hs
        exact hfresh
  -- after the seller part
  have hLb : SubtreesOK Lb := by
    obtain ⟨s0, s1, st, hs0, hins, e, hst, _⟩ := sellerStep_state h2
    subst e
    refine ⟨?_, hLa.2⟩
    intro s hs
    rcases List.mem_or_eq_of_mem_set hs with hs | rfl
    · exact hLa.1 s hs
    · rw [hst]
      exact shape_insertTransaction (hLa.1 s0 (List.getElem?_mem hs0)) hins
  have hLc : SubtreesOK Lc := by
    rcases findOrCreateBuyer_cases h3 with ⟨_, e⟩ | ⟨_, _, bt, e⟩
    · rw [e]; exact hLb
    · subst e
      refine ⟨hLb.1, ?_⟩
      intro b hb
      rcases List.mem_append.1 hb with hb | hb
      · exact hLb.2 b hb
      · rw [List.mem_singleton] at hb
        subst hb
        exact hfresh
  have hLd : SubtreesOK Ld := by
    obtain ⟨b0, b1, bt, hb0, hins, e, hbt, _⟩ := buyerStep_state h4
    subst e
    refine ⟨hLc.1, ?_⟩
    intro b hb
    rcases List.mem_or_eq_of_mem_set hb with hb | rfl
    · exact hLc.2 b hb
    · rw [hbt]
      exact shape_insertTransaction (hLc.2 b0 (List.getElem?_mem hb0)) hins
  have hLe : SubtreesOK Le := by
    obtain ⟨s0, s1, hs0, e, hst, _⟩ := regularStep_state h5
    subst e
    refine ⟨?_, hLd.2⟩
    intro s hs
    rcases List.mem_or_eq_of_mem_set hs with hs | rfl
    · exact hLd.1 s hs
    · rw [hst]
      exact hLd.1 s0 (List.getElem?_mem hs0)
  rcases pairStep_cases h6 with ⟨p, pr, pr1, _, _, e, _⟩ | ⟨_, pt, e⟩
  · subst e; exact hLe
  · subst e; exact hLe

theorem processAll_subtrees : ∀ (txs : List (Transaction F)) (L L1 : Ledger F),
    processAll L txs = some L1 → SubtreesOK L → SubtreesOK L1 := by
  intro txs
  induction txs with
  | nil => intro L L1 h hL; cases h; exact hL
  | cons tx rest ih =>
    intro L L1 h hL
    unfold processAll at h
    split at h
    · cases h
    · rename_i La h1
      exact ih La L1 h (processTransaction_subtrees h1 hL)

theorem SubtreesOK.start : SubtreesOK (emptyLedger : Ledger F) :=
  ⟨fun _ hs => (by cases hs), fun _ hb => (by cases hb)⟩

/-- `processTransaction` returns when the seller, the buyer and the pair of
the transaction are found and the subtrees of the seller and the buyer are
trees as inserts build them. -/
theorem processTransaction_returns {L : Ledger F} {tx : Transaction F} {sp bp pp : Nat}
    {s : Seller F} {b : Buyer F} {pr : SellerBuyerPair} (hL : SubtreesOK L)
    (hs : searchTree L.sellerTree tx.seller_id = some (Slot.ptr sp))
    (hsp : L.sellers[sp]? = some s)
    (hb : searchTree L.buyerTree tx.buyer_id = some (Slot.ptr bp))
    (hbp : L.buyers[bp]? = some b)
    (hp : searchTree L.pairTree (createPairKey tx.seller_id tx.buyer_id) = some (Slot.ptr pp))
    (hpp : L.pairs[pp]? = some pr) :
    ∃ L1, processTransaction L tx = some L1 := by
  have hspl : sp < L.sellers.length := (List.getElem?_eq_some_iff.1 hsp).1
  obtain ⟨st, hst⟩ := insertTransaction_returns tx (hL.1 s (List.getElem?_mem hsp))
  obtain ⟨bt, hbt⟩ := insertTransaction_returns tx (hL.2 b (List.getElem?_mem hbp))
  have e1 := findOrCreateSeller_found hs
  obtain ⟨Lb, h2⟩ : ∃ Lb, sellerStep L sp tx = some Lb := by
    simp only [sellerStep, hsp, updateRates_subtree, hst]
    exact ⟨_, rfl⟩
  obtain ⟨_, s1, _, _, _, eb, _, _⟩ := sellerStep_state h2
  subst eb
  have e3 : findOrCreateBuyer { L with sellers := L.sellers.set sp s1 } tx.buyer_id =
      some (bp, { L with sellers := L.sellers.set sp s1 }) :=
    findOrCreateBuyer_found (by exact hb)
  obtain ⟨Ld, h4⟩ : ∃ Ld, buyerStep { L with sellers := L.sellers.set sp s1 } bp tx = some Ld := by
    simp only [buyerStep, hbp, hbt]
    exact ⟨_, rfl⟩
  obtain ⟨_, b1, _, _, _, ed, _, _⟩ := buyerStep_state h4
  subst ed
  have hs1 : (L.sellers.set sp s1)[sp]? = some s1 := by
    rw [List.getElem?_set, if_pos rfl, if_pos hspl]
  obtain ⟨Le, h5⟩ : ∃ Le, regularStep
      { L with sellers := L.sellers.set sp s1, buyers := L.buyers.set bp b1 } sp tx = some Le := by
    simp only [regularStep, hs1]
    exact ⟨_, rfl⟩
  obtain ⟨_, s2, _, ee, _, _⟩ := regularStep_state h5
  subst ee
  obtain ⟨L1, h6⟩ : ∃ L1, pairStep
      { L with sellers := (L.sellers.set sp s1).set sp s2, buyers := L.buyers.set bp b1 } tx =
        some L1 := by
    simp only [pairStep, hp, Option.some_bind, Slot.deref, hpp]
    exact ⟨_, rfl⟩
  refine ⟨L1, ?_⟩
  simp only [processTransaction, e1, h2, e3, h4, h5, h6]

end ReplayState

section ReplayFirst
variable {F : Type} [FloatOps F]

/-- The seller a `processTransaction` call works on has, afterwards, the
revenue it started with plus the transaction's price. -/
theorem processTransaction_seller {L L1 : Ledger F} {tx : Transaction F} {sp : Nat} {r : F}
    (h : processTransaction L tx = some L1) (hS : SellerBefore L tx.seller_id sp r) :
    ∃ s1, L1.sellers[sp]? = some s1 ∧
      s1.total_revenue = FloatOps.add r tx.total_price := by
  obtain ⟨q, La, Lb, bp, Lc, Ld, Le, h1, h2, h3, h4, h5, h6⟩ := processTransaction_steps h
  -- the seller the call works on
  have hstart : q = sp ∧ ∃ s0, La.sellers[sp]? = some s0 ∧ s0.total_revenue = r := by
    rcases findOrCreateSeller_cases h1 with ⟨hq, e⟩ | ⟨hq, hlen, st, e⟩
    · rcases hS with ⟨s, hs, hsp, hr⟩ | ⟨hs, _, _⟩
      · rw [hq] at hs
        have e2 : q = sp := by injection hs with e3; injection e3
        exact ⟨e2, s, by rw [e]; exact hsp, hr⟩
      · rw [hq] at hs
        injection hs with e3
        cases e3
    · rcases hS with ⟨s, hs, _, _⟩ | ⟨_, hsp, hr⟩
      · rw [hq] at hs
        injection hs with e3
        cases e3
      · refine ⟨by rw [hlen, hsp], createSeller tx.seller_id FloatOps.zero FloatOps.zero, ?_, ?_⟩
        · rw [e, hsp]
          show (L.sellers ++ [createSeller tx.seller_id FloatOps.zero FloatOps.zero])[
            L.sellers.length]? = _
          simp
        · rw [hr]
          rfl
  obtain ⟨hq, s0, hs0, hr0⟩ := hstart
  subst hq
  obtain ⟨s0', sA, _, hs0', _, eb, _, hrA⟩ := sellerStep_state h2
  rw [hs0] at hs0'
  cases hs0'
  have hql : q < La.sellers.length := (List.getElem?_eq_some_iff.1 hs0).1
  have hLd : Ld.sellers = La.sellers.set q sA := by
    rw [buyerStep_sellers h4, findOrCreateBuyer_sellers h3, eb]
  obtain ⟨sA', sB, hsA', ee, _, hrB⟩ := regularStep_state h5
  rw [hLd, List.getElem?_set, if_pos rfl, if_pos hql] at hsA'
  cases hsA'
  refine ⟨sB, ?_, by rw [hrB, hrA, hr0]⟩
  rw [pairStep_sellers h6, ee]
  show (Ld.sellers.set q sB)[q]? = some sB
  rw [List.getElem?_set, if_pos rfl, if_pos (by rw [hLd, List.length_set]; exact hql)]

/-- The buyer a `processTransaction` call works on has, afterwards, the energy
total it started with plus the transaction's energy. -/
theorem processTransaction_buyer {L L1 : Ledger F} {tx : Transaction F} {bp : Nat} {e : F}
    (h : processTransaction L tx = some L1) (hB : BuyerBefore L tx.buyer_id bp e) :
    ∃ b1, L1.buyers[bp]? = some b1 ∧
      b1.total_energy_purchased = FloatOps.add e tx.energy_kwh := by
  obtain ⟨sp, La, Lb, q, Lc, Ld, Le, h1, h2, h3, h4, h5, h6⟩ := processTransaction_steps h
  -- the buyer index when the buyer is looked up is the one of `L`
  have hLb : Lb.buyers = L.buyers ∧ Lb.buyerTree = L.buyerTree := by
    obtain ⟨_, _, _, _, _, eb, _, _⟩ := sellerStep_state h2
    subst eb
    rcases findOrCreateSeller_cases h1 with ⟨_, ea⟩ | ⟨_, _, st, ea⟩
    · subst ea; exact ⟨rfl, rfl⟩
    · subst ea; exact ⟨rfl, rfl⟩
  have hstart : q = bp ∧ ∃ b0, Lc.buyers[bp]? = some b0 ∧ b0.total_energy_purchased = e := by
    rcases findOrCreateBuyer_cases h3 with ⟨hq, ec⟩ | ⟨hq, hlen, bt, ec⟩
    · rw [hLb.2] at hq
      rcases hB with ⟨b, hb, hbp, he⟩ | ⟨hb, _, _⟩
      · rw [hq] at hb
        have e2 : q = bp := by injection hb with e3; injection e3
        exact ⟨e2, b, by rw [ec, hLb.1]; exact hbp, he⟩
      · rw [hq] at hb
        injection hb with e3
        cases e3
    · rw [hLb.2] at hq
      rw [hLb.1] at hlen
      rcases hB with ⟨b, hb, _, _⟩ | ⟨_, hbp, he⟩
      · rw [hq] at hb
        injection hb with e3
        cases e3
      · refine ⟨by rw [hlen, hbp], createBuyer tx.buyer_id, ?_, ?_⟩
        · rw [ec, hbp]
          show (Lb.buyers ++ [createBuyer tx.buyer_id])[L.buyers.length]? = _
          rw [hLb.1]
          simp
        · rw [he]
          rfl
  obtain ⟨hq, b0, hb0, he0⟩ := hstart
  subst hq
  obtain ⟨b0', bA, _, hb0', _, ed, _, heA⟩ := buyerStep_state h4
  rw [hb0] at hb0'
  cases hb0'
  have hql : q < Lc.buyers.length := (List.getElem?_eq_some_iff.1 hb0).1
  obtain ⟨_, _, _, ee, _, _⟩ := regularStep_state h5
  have hL1 : L1.buyers = Lc.buyers.set q bA := by
    rcases pairStep_cases h6 with ⟨_, _, _, _, _, e1, _⟩ | ⟨_, pt, e1⟩
    · rw [e1, ee, ed]
    · rw [e1, ee, ed]
  refine ⟨bA, ?_, by rw [heA, he0]⟩
  rw [hL1, List.getElem?_set, if_pos rfl, if_pos hql]

/-- The pair a `processTransaction` call works on has, afterwards, the count
it started with plus one (a pair that is created counts from zero). -/
theorem processTransaction_pair {L L1 : Ledger F} {tx : Transaction F} {pp : Nat} {c : Int}
    (h : processTransaction L tx = some L1)
    (hP : PairBefore L (createPairKey tx.seller_id tx.buyer_id) pp c) :
    ∃ pr1, L1.pairs[pp]? = some pr1 ∧ pr1.number_of_transactions = c + 1 := by
  obtain ⟨sp, La, Lb, bp, Lc, Ld, Le, h1, h2, h3, h4, h5, h6⟩ := processTransaction_steps h
  have hLe : Le.pairs = L.pairs ∧ Le.pairTree = L.pairTree := by
    obtain ⟨_, _, _, ee, _, _⟩ := regularStep_state h5
    subst ee
    obtain ⟨_, _, _, _, _, ed, _, _⟩ := buyerStep_state h4
    subst ed
    obtain ⟨_, _, _, _, _, eb, _, _⟩ := sellerStep_state h2
    rcases findOrCreateBuyer_cases h3 with ⟨_, ec⟩ | ⟨_, _, bt, ec⟩ <;>
    rcases findOrCreateSeller_cases h1 with ⟨_, ea⟩ | ⟨_, _, st, ea⟩ <;>
    · subst ec
      subst eb
      subst ea
      exact ⟨rfl, rfl⟩
  rcases pairStep_cases h6 with ⟨p, pr, pr1, hq, hpr, e1, hc⟩ | ⟨hq, pt, e1⟩
  · rw [hLe.2] at hq
    rw [hLe.1] at hpr
    rcases hP with ⟨pr0, hp0, hpp, hc0⟩ | ⟨hp0, _, _⟩
    · rw [hq] at hp0
      have e2 : p = pp := by injection hp0 with e3; injection e3
      subst e2
      rw [hpr] at hpp
      cases hpp
      have hpl : p < L.pairs.length := (List.getElem?_eq_some_iff.1 hpr).1
      refine ⟨pr1, ?_, by rw [hc, hc0]⟩
      rw [e1]
      show (Le.pairs.set p pr1)[p]? = some pr1
      rw [hLe.1, List.getElem?_set, if_pos rfl, if_pos hpl]
    · rw [hq] at hp0
      injection hp0 with e3
      cases e3
  · rw [hLe.2] at hq
    rcases hP with ⟨pr0, hp0, _, _⟩ | ⟨_, hpp, hc0⟩
    · rw [hq] at hp0
      injection hp0 with e3
      cases e3
    · refine ⟨createSellerBuyerPair tx.seller_id tx.buyer_id, ?_, ?_⟩
      · rw [e1, hpp]
        show (Le.pairs ++ [createSellerBuyerPair tx.seller_id tx.buyer_id])[L.pairs.length]? = _
        rw [hLe.1]
        simp
      · rw [hc0]
        rfl

end ReplayFirst

/-! ## The claims -/

/-- C1 (the code breaks it): after inserting the keys 1..9 into a tree of
minimum degree 2, `search` for the inserted key 4 returns `NULL`, and `search`
for the inserted key 6 returns a record slot that was never written. -/
theorem C1_inserted_key_not_found :
    (insertAll (createBTree 2) keys1to9).bind (fun T => searchTree T 4) = some Slot.null ∧
    (insertAll (createBTree 2) keys1to9).bind (fun T => searchTree T 6) = some Slot.garbage := by
  decide

/-- C2: for every minimum degree `t ≥ 2` and every sequence of inserts with
pairwise distinct keys into `createBTree(t)`, all the inserts succeed and
`search` from the root returns `NULL` for every key that is not among the
inserted keys. -/
theorem C2_search_absent_key (t : Nat) (ht : 2 ≤ t) (kvs : List (Int × ρ))
    (hnd : (kvs.map Prod.fst).Nodup) (k : Int) (hk : k ∉ kvs.map Prod.fst) :
    ∃ T, insertAll (createBTree t) kvs = some T ∧ searchTree T k = some Slot.null := by
  obtain ⟨T, G, ins, hrun, hI, _, hperm⟩ :=
    insertAll_inv kvs (createBTree t) Ghost.init [] (Inv.init t ht) hnd
      (fun _ _ h => by cases h)
  refine ⟨T, hrun, hI.searchTree_absent ?_⟩
  intro hm
  have h2 := (hperm.map Prod.fst).mem_iff.1 hm
  simp only [List.append_nil, List.map_map] at h2
  exact hk h2

/-- C2 at `t = 2`, keys 10, 20, 5 and the absent key 7. -/
theorem C2_search_absent_key_witness :
    2 ≤ 2 ∧ (([(10, 1), (20, 2), (5, 3)] : List (Int × Nat)).map Prod.fst).Nodup ∧
    (7 : Int) ∉ ([(10, 1), (20, 2), (5, 3)] : List (Int × Nat)).map Prod.fst ∧
    ∃ T, insertAll (createBTree 2) ([(10, 1), (20, 2), (5, 3)] : List (Int × Nat)) = some T ∧
      searchTree T 7 = some Slot.null :=
  ⟨by decide, by decide, by decide,
    C2_search_absent_key 2 (by decide) [(10, 1), (20, 2), (5, 3)] (by decide) 7 (by decide)⟩

/-- C3: for every `t ≥ 2` and every sequence of inserts with pairwise distinct
keys, the full scan (down `children[0]` to the leftmost leaf, then along the
`next` links, reading `keys[0..n-1]` and `records[0..n-1]` of each leaf)
succeeds and yields a key sequence that is strictly ascending, whose entries
are exactly the inserted (key, record) pairs. -/
theorem C3_scan_sorted_and_complete (t : Nat) (ht : 2 ≤ t) (kvs : List (Int × ρ))
    (hnd : (kvs.map Prod.fst).Nodup) :
    ∃ T es, insertAll (createBTree t) kvs = some T ∧ scan T = some es ∧
      (es.map Prod.fst).Pairwise (fun a b => a < b) ∧
      es.Perm (kvs.map (fun kr => (kr.1, Slot.ptr kr.2))) := by
  obtain ⟨T, G, ins, hrun, hI, _, hperm⟩ :=
    insertAll_inv kvs (createBTree t) Ghost.init [] (Inv.init t ht) hnd
      (fun _ _ h => by cases h)
  refine ⟨T, chainEnts T.heap G.chain, hrun, hI.scan_eq, hI.scan_sorted, ?_⟩
  rw [List.append_nil] at hperm
  exact hI.content.trans hperm

/-- C3 at `t = 3` and the keys 10, 20, 5. -/
theorem C3_scan_sorted_and_complete_witness :
    2 ≤ 3 ∧ (([(10, 1), (20, 2), (5, 3)] : List (Int × Nat)).map Prod.fst).Nodup ∧
    ∃ T es, insertAll (createBTree 3) ([(10, 1), (20, 2), (5, 3)] : List (Int × Nat)) = some T ∧
      scan T = some es ∧ (es.map Prod.fst).Pairwise (fun a b => a < b) ∧
      es.Perm (([(10, 1), (20, 2), (5, 3)] : List (Int × Nat)).map
        (fun kr => (kr.1, Slot.ptr kr.2))) :=
  ⟨by decide, by decide,
    C3_scan_sorted_and_complete 3 (by decide) [(10, 1), (20, 2), (5, 3)] (by decide)⟩

/-- C4: for every `t ≥ 2` and every sequence of inserts with distinct keys,
every node reachable from the root holds at most `2t-1` keys, and every
reachable node other than the root holds at least `t-1` keys. -/
theorem C4_key_count_bounds (t : Nat) (ht : 2 ≤ t) (kvs : List (Int × ρ))
    (hnd : (kvs.map Prod.fst).Nodup) :
    ∃ T, insertAll (createBTree t) kvs = some T ∧
      ∀ q, Reach T.heap T.root q →
        ∃ nd, T.heap[q]? = some nd ∧ nd.n ≤ 2 * t - 1 ∧ (q ≠ T.root → t - 1 ≤ nd.n) := by
  obtain ⟨T, G, ins, hrun, hI, hTt, _⟩ :=
    insertAll_inv kvs (createBTree t) Ghost.init [] (Inv.init t ht) hnd
      (fun _ _ h => by cases h)
  have hTt' : T.t = t := hTt
  rw [hTt'] at hI
  refine ⟨T, hrun, ?_⟩
  intro q hq
  have hql := hI.reach hq
  refine ⟨T.heap[q], List.getElem?_eq_getElem _, ?_, ?_⟩
  · exact (hI.node_ok q _ (List.getElem?_eq_getElem _)).n_le
  · exact hI.min_keys q _ (List.getElem?_eq_getElem _)

/-- C4 at `t = 2` and the keys `1..9` (a tree of height 3). -/
theorem C4_key_count_bounds_witness :
    2 ≤ 2 ∧ ((keys1to9).map Prod.fst).Nodup ∧
    ∃ T, insertAll (createBTree 2) keys1to9 = some T ∧
      ∀ q, Reach T.heap T.root q →
        ∃ nd, T.heap[q]? = some nd ∧ nd.n ≤ 2 * 2 - 1 ∧ (q ≠ T.root → 2 - 1 ≤ nd.n) :=
  ⟨by decide, by decide, C4_key_count_bounds 2 (by decide) keys1to9 (by decide)⟩

/-- C5: inserting 10, 20, 5, 6, 12, 30, 7, 17 in that order into a tree made
by `createBTree(2)`: before the 4th insert the root is a leaf with 3 keys,
after it the root is an internal node, and after all eight inserts the scan
yields exactly 5, 6, 7, 10, 12, 17, 20, 30 (each with its own record). -/
theorem C5_spec_example :
    ((insertAll (createBTree 2) (specKeys.take 3)).bind rootNode).map
      (fun nd => (nd.leaf, nd.n)) = some (true, 3) ∧
    ((insertAll (createBTree 2) (specKeys.take 4)).bind rootNode).map
      (fun nd => (nd.leaf, nd.n)) = some (false, 1) ∧
    (insertAll (createBTree 2) specKeys).bind scan =
      some [(5, Slot.ptr 5), (6, Slot.ptr 6), (7, Slot.ptr 7), (10, Slot.ptr 10),
        (12, Slot.ptr 12), (17, Slot.ptr 17), (20, Slot.ptr 20), (30, Slot.ptr 30)] := by
  decide

/-- C6 (the code breaks it): after five transactions of seller 1 with buyer 7
and four with buyer 8, the seller found by `searchSeller` has an empty
`regular_buyers` list; the claim says the list is `[(buyer 7, count 5)]`. -/
theorem C6_regular_buyers_stay_empty :
    ((processAll emptyLedger regularTxs).bind (fun L => searchSeller L 1)).map
      (Option.map (fun s => s.regular_buyers)) = some (some []) := by
  decide!

/-- C7: for every seller object `s` and every transaction `tx`, whatever its
price and energy: if `processTransaction` returns, the object is still there,
and a `rate_below_300` that was non-zero before has the same value afterwards,
and likewise `rate_above_300`. -/
theorem C7_rates_never_overwritten {F : Type} [FloatOps F] (L L1 : Ledger F)
    (tx : Transaction F) (p : Nat) (s : Seller F)
    (hrun : processTransaction L tx = some L1) (hs : L.sellers[p]? = some s) :
    ∃ s1, L1.sellers[p]? = some s1 ∧
      (FloatOps.isZero s.rate_below_300 = false → s1.rate_below_300 = s.rate_below_300) ∧
      (FloatOps.isZero s.rate_above_300 = false → s1.rate_above_300 = s.rate_above_300) :=
  processTransaction_kept hrun p s hs

/-- C7 at seller 1 with both rates set (0.10 and 0.20) and a later transaction
at 0.50. -/
theorem C7_rates_never_overwritten_witness :
    processTransaction (ledgerAfter rateTxs) laterTx = some ledgerThen ∧
    (ledgerAfter rateTxs).sellers[0]? = some rateSeller ∧
    ∃ s1, ledgerThen.sellers[0]? = some s1 ∧
      (FloatOps.isZero rateSeller.rate_below_300 = false →
        s1.rate_below_300 = rateSeller.rate_below_300) ∧
      (FloatOps.isZero rateSeller.rate_above_300 = false →
        s1.rate_above_300 = rateSeller.rate_above_300) :=
  ⟨eq_some_getD _ (by decide!), eq_some_getD _ (by decide!),
    C7_rates_never_overwritten (ledgerAfter rateTxs) ledgerThen laterTx 0 rateSeller
      (eq_some_getD _ (by decide!)) (eq_some_getD _ (by decide!))⟩

/-- C8: processing `createTransaction(1, buyer 1, seller 1, 100, 0.10)` and
then `createTransaction(2, buyer 1, seller 1, 350, 0.20)` from the empty state
leaves seller 1, as found by `searchSeller`, with `rate_below_300` the float
0.10, `rate_above_300` the float 0.20 and `total_revenue` the float 80. -/
theorem C8_rate_example :
    ((processAll emptyLedger rateTxs).bind (fun L => searchSeller L 1)).map
      (Option.map (fun s => (s.rate_below_300, s.rate_above_300, s.total_revenue))) =
    some (some (F32.ofRatio 10 100, F32.ofRatio 20 100, F32.ofRatio 80 1)) := by
  decide!

/-- C9 (the code breaks it): with all ids in `1..5`, after nineteen
transactions with nineteen different (seller, buyer) pairs
`searchSellerBuyerPair(3, 1)` returns `NULL` although the pair (3, 1) has
occurred once; a further transaction of the pair creates a second pair record
instead of counting, and the lookup still returns `NULL`. -/
theorem C9_pair_lookup_misses :
    (processAll emptyLedger (pairTxs.take 19)).bind
      (fun L => searchSellerBuyerPair L 3 1) = some none ∧
    (processAll emptyLedger pairTxs).bind
      (fun L => searchSellerBuyerPair L 3 1) = some none ∧
    ((processAll emptyLedger pairTxs).bind (fun L => scanObjects L.pairTree L.pairs)).map
      (fun l => (l.filter (fun pr => pr.seller_id = 3 ∧ pr.buyer_id = 1)).map
        (fun pr => pr.number_of_transactions)) = some [1, 1] := by
  decide!

/-- C10 (the code breaks it): after one transaction for each of the sellers
`1..19` and a second one for seller 9, the scan of the seller index holds two
`Seller` records with id 9; likewise for buyers `1..19` and buyer 9. -/
theorem C10_duplicate_entities :
    ((processAll emptyLedger sellerTxs).bind
      (fun L => scanObjects L.sellerTree L.sellers)).map (fun l => l.map (fun s => s.seller_id))
      = some [1, 2, 3, 4, 5, 6, 7, 8, 9, 9, 10, 11, 12, 13, 14, 15, 16, 17, 18, 19] ∧
    ((processAll emptyLedger buyerTxs).bind
      (fun L => scanObjects L.buyerTree L.buyers)).map (fun l => l.map (fun b => b.buyer_id))
      = some [1, 2, 3, 4, 5, 6, 7, 8, 9, 9, 10, 11, 12, 13, 14, 15, 16, 17, 18, 19] := by
  decide!
/-! ## The claims on the packed key and on the shape of the index -/

/-- C11: `createPairKey` is injective on 16-bit ids: for seller and buyer ids
in `0..65535` (32-bit arithmetic, the shift taken modulo `2^32`), equal keys
come from equal seller ids and equal buyer ids. -/
theorem C11_pair_key_injective (s1 b1 s2 b2 : Int)
    (hs1 : 0 ≤ s1 ∧ s1 ≤ 65535) (hb1 : 0 ≤ b1 ∧ b1 ≤ 65535)
    (hs2 : 0 ≤ s2 ∧ s2 ≤ 65535) (hb2 : 0 ≤ b2 ∧ b2 ≤ 65535)
    (h : createPairKey s1 b1 = createPairKey s2 b2) : s1 = s2 ∧ b1 = b2 := by
  rw [createPairKey_of_range hs1.1 hs1.2 hb1.1 hb1.2,
    createPairKey_of_range hs2.1 hs2.2 hb2.1 hb2.2] at h
  have := toI32_inj (by omega) (by omega) h
  omega

/-- C11 at the largest seller id, 65535, and buyer 7. -/
theorem C11_pair_key_injective_witness :
    ((0 : Int) ≤ 65535 ∧ (65535 : Int) ≤ 65535) ∧ ((0 : Int) ≤ 7 ∧ (7 : Int) ≤ 65535) ∧
    createPairKey 65535 7 = createPairKey 65535 7 ∧ ((65535 : Int) = 65535 ∧ (7 : Int) = 7) :=
  ⟨by decide, by decide, rfl,
    C11_pair_key_injective 65535 7 65535 7 (by decide) (by decide) (by decide) (by decide) rfl⟩

/-- C12: for every `t ≥ 2`, every tree built by inserts (of any keys) from
`createBTree(t)` and every further insert: the insert succeeds; if the root
held `2t-1` keys before, the height (the number of nodes on the `children[0]`
path from the root to a leaf) is one greater afterwards, the new root holds
exactly one key and has the old root in child slot `0`; otherwise the height
and the root are unchanged. -/
theorem C12_height_grows_with_root_split (t : Nat) (ht : 2 ≤ t) (kvs : List (Int × ρ))
    (key : Int) (record : Slot ρ) :
    ∃ T T1 R hgt, insertAll (createBTree t) kvs = some T ∧ insert T key record = some T1 ∧
      rootNode T = some R ∧ treeHeight T = some hgt ∧
      (R.n = 2 * t - 1 → treeHeight T1 = some (hgt + 1) ∧
        ∃ R1, rootNode T1 = some R1 ∧ R1.n = 1 ∧ R1.children[0]? = some (some T.root)) ∧
      (R.n ≠ 2 * t - 1 → treeHeight T1 = some hgt ∧ T1.root = T.root) := by
  obtain ⟨T, lvl, hrun, hI, hTt⟩ := insertAll_shape kvs (createBTree t) (fun _ => 0)
    (Shape.fresh t ht)
  have hTt' : T.t = t := hTt
  obtain ⟨T1, lvl1, R, hins, hI1, _, hR, hfull, hroom⟩ := insert_shape hI key record
  rw [hTt'] at hfull hroom
  have hh : treeHeight T = some (lvl T.root + 1) :=
    hI.height_eq T.heap.length T.root hI.root_lt hI.lvl_root
  have hh1 : treeHeight T1 = some (lvl1 T1.root + 1) :=
    hI1.height_eq T1.heap.length T1.root hI1.root_lt hI1.lvl_root
  refine ⟨T, T1, R, lvl T.root + 1, hrun, hins, hR, hh, ?_, ?_⟩
  · intro h
    obtain ⟨hl, hr1⟩ := hfull h
    exact ⟨by rw [hh1, hl], hr1⟩
  · intro h
    obtain ⟨hr, hl⟩ := hroom h
    exact ⟨by rw [hh1, hl], hr⟩

/-- C12 at `t = 2`, a tree holding 1, 2, 3 (a full root) and the further key 4. -/
theorem C12_height_grows_with_root_split_witness :
    2 ≤ 2 ∧
    ∃ T T1 R hgt, insertAll (createBTree 2) ([(1, 1), (2, 2), (3, 3)] : List (Int × Nat)) = some T ∧
      insert T 4 (Slot.ptr 4) = some T1 ∧
      rootNode T = some R ∧ treeHeight T = some hgt ∧
      (R.n = 2 * 2 - 1 → treeHeight T1 = some (hgt + 1) ∧
        ∃ R1, rootNode T1 = some R1 ∧ R1.n = 1 ∧ R1.children[0]? = some (some T.root)) ∧
      (R.n ≠ 2 * 2 - 1 → treeHeight T1 = some hgt ∧ T1.root = T.root) :=
  ⟨by decide, C12_height_grows_with_root_split 2 (by decide) [(1, 1), (2, 2), (3, 3)] 4
    (Slot.ptr 4)⟩

/-- C13: for every `t ≥ 2` and every sequence of inserts (of any keys) into
`createBTree(t)`, the inserts succeed and there is one depth `d` such that
every node reached from the root through child slots `0..n` of internal nodes
is a node of the arena, and every leaf among them is reached in exactly `d`
steps. -/
theorem C13_leaves_at_one_depth (t : Nat) (ht : 2 ≤ t) (kvs : List (Int × ρ)) :
    ∃ T d, insertAll (createBTree t) kvs = some T ∧
      ∀ e q, ReachAt T.heap T.root e q →
        ∃ nd, T.heap[q]? = some nd ∧ (nd.leaf = true → e = d) := by
  obtain ⟨T, lvl, hrun, hI, _⟩ := insertAll_shape kvs (createBTree t) (fun _ => 0)
    (Shape.fresh t ht)
  refine ⟨T, lvl T.root, hrun, ?_⟩
  intro e q hq
  obtain ⟨hql, hlv⟩ := hI.reachAt hq
  obtain ⟨nd, hnd⟩ : ∃ nd, T.heap[q]? = some nd := getElem?_exists hql
  refine ⟨nd, hnd, fun hl => ?_⟩
  have := hI.leaf_lvl q nd hnd hl
  omega

/-- C13 at `t = 2` and the keys `1..9`. -/
theorem C13_leaves_at_one_depth_witness :
    2 ≤ 2 ∧
    ∃ T d, insertAll (createBTree 2) keys1to9 = some T ∧
      ∀ e q, ReachAt T.heap T.root e q →
        ∃ nd, T.heap[q]? = some nd ∧ (nd.leaf = true → e = d) :=
  ⟨by decide, C13_leaves_at_one_depth 2 (by decide) keys1to9⟩

/-- C14: for every `t ≥ 2` and every sequence of inserts with pairwise
distinct keys, the keys `keys[0..n-1]` of every node reachable from the root
are strictly ascending. -/
theorem C14_node_keys_ascending (t : Nat) (ht : 2 ≤ t) (kvs : List (Int × ρ))
    (hnd : (kvs.map Prod.fst).Nodup) :
    ∃ T, insertAll (createBTree t) kvs = some T ∧
      ∀ q, Reach T.heap T.root q →
        ∃ nd, T.heap[q]? = some nd ∧ (nd.keys.take nd.n).Pairwise (fun a b => a < b) := by
  obtain ⟨T, G, ins, hrun, hI, _, _⟩ :=
    insertAll_inv kvs (createBTree t) Ghost.init [] (Inv.init t ht) hnd
      (fun _ _ h => by cases h)
  refine ⟨T, hrun, ?_⟩
  intro q hq
  obtain ⟨nd, hn⟩ : ∃ nd, T.heap[q]? = some nd := getElem?_exists (hI.reach hq)
  exact ⟨nd, hn, (hI.node_ok q nd hn).sorted⟩

/-- C14 at `t = 2` and the keys `1..9`. -/
theorem C14_node_keys_ascending_witness :
    2 ≤ 2 ∧ ((keys1to9).map Prod.fst).Nodup ∧
    ∃ T, insertAll (createBTree 2) keys1to9 = some T ∧
      ∀ q, Reach T.heap T.root q →
        ∃ nd, T.heap[q]? = some nd ∧ (nd.keys.take nd.n).Pairwise (fun a b => a < b) :=
  ⟨by decide, by decide, C14_node_keys_ascending 2 (by decide) keys1to9 (by decide)⟩

/-- C15 (the code breaks it): after inserting the keys 1..9 into a tree of
minimum degree 2 the root holds the one key 4, and the subtree rooted at its
`children[0]` (an internal node with 2 keys and the child slots `0..2`) stores
the keys 5 and 6, which are greater than 4. -/
theorem C15_left_subtree_holds_larger_keys :
    (insertAll (createBTree 2) keys1to9).bind (fun T => (rootNode T).bind (fun R =>
      (childPtr R 0).bind (fun c => (subtreeKeys T.heap.length T.heap c).map
        (fun ks => (R.n, R.keys[0]?, ks))))) = some (1, some 4, [2, 4, 1, 2, 3, 4, 5, 6]) := by
  decide

/-- C20: `splitChild(parent, i, child)` on nodes of minimum degree `t ≥ 1`, a
child holding `2t-1` keys and a parent holding `n < 2t-1` keys, `i ≤ n`: the
call succeeds; afterwards the child holds the `t` keys `k[0..t-1]`, the new
sibling (allocated at the end of the arena) holds the `t-1` keys
`k[t..2t-2]`, the sibling is `parent.children[i+1]`, `parent.keys[i]` is
`k[t-1]`, the parent holds `n+1` keys, and the parent's keys and children are
the former ones with the new key put in at position `i` and the new child at
position `i+1`. -/
theorem C20_splitChild_effect (h : Heap ρ) (parent i child t : Nat) (P C : Node ρ)
    (ht : 1 ≤ t) (hp : h[parent]? = some P) (hc : h[child]? = some C)
    (hP : NodeShape t P) (hC : NodeShape t C)
    (hCn : C.n = 2 * t - 1) (hPn : P.n < 2 * t - 1) (hi : i ≤ P.n) :
    ∃ h1 P1 C1 N1 km, splitChild h parent i child = some h1 ∧
      h1[parent]? = some P1 ∧ h1[child]? = some C1 ∧ h1[h.length]? = some N1 ∧
      (C.keys.take C.n)[t - 1]? = some km ∧
      C1.n = t ∧ C1.keys.take C1.n = (C.keys.take C.n).take t ∧
      N1.n = t - 1 ∧ N1.keys.take N1.n = (C.keys.take C.n).drop t ∧
      P1.children[i + 1]? = some (some h.length) ∧ P1.keys[i]? = some km ∧
      P1.n = P.n + 1 ∧
      P1.keys.take P1.n = insAt (P.keys.take P.n) i km ∧
      P1.children.take (P1.n + 1) = insAt (P.children.take (P.n + 1)) (i + 1) (some h.length) := by
  have hne : parent ≠ child := by
    intro e
    subst e
    rw [hp] at hc
    cases hc
    omega
  obtain ⟨h1, P1, C1, N1, km, rm, hsplit, hS⟩ := splitChild_spec h parent i child P C hp hc hne
    (by rw [hC.t_eq]; exact ht) (by rw [hC.klen, hC.t_eq]) (by rw [hC.rlen, hC.t_eq])
    (by rw [hC.clen, hC.t_eq]) (by rw [hP.clen]; omega) (by rw [hP.klen]; omega)
    (by rw [hP.rlen]; omega) hi
  obtain ⟨hC1n, hN1n, hC1k, hN1k, _, _, hkm⟩ := hS.halves hC ht hCn
  refine ⟨h1, P1, C1, N1, km, hsplit, hS.atP, hS.atC, hS.atN, hkm, hC1n, hC1k, hN1n, hN1k,
    ?_, ?_, hS.P_n, hS.P_ks, hS.P_cs⟩
  · rw [← Node.cs_get (by rw [hS.P_n]; omega : i + 1 ≤ P1.n), hS.P_cs,
      getElem?_insAt _ _ _ (by rw [hP.slots_length ht]; omega), if_neg (lt_irrefl _), if_pos rfl]
  · rw [← Node.ks_get (by rw [hS.P_n]; omega), hS.P_ks,
      getElem?_insAt _ _ _ (by rw [hP.held_length]; exact hi), if_neg (lt_irrefl _), if_pos rfl]

/-- C20 on the arena `splitHeap`: the full leaf 10, 20, 30 under a fresh parent. -/
theorem C20_splitChild_effect_witness :
    1 ≤ 2 ∧ splitHeap[1]? = some emptyParent ∧ splitHeap[0]? = some fullLeaf ∧
    NodeShape 2 emptyParent ∧ NodeShape 2 fullLeaf ∧ fullLeaf.n = 2 * 2 - 1 ∧
    emptyParent.n < 2 * 2 - 1 ∧ 0 ≤ emptyParent.n ∧
    ∃ h1 P1 C1 N1 km, splitChild splitHeap 1 0 0 = some h1 ∧
      h1[1]? = some P1 ∧ h1[0]? = some C1 ∧ h1[splitHeap.length]? = some N1 ∧
      (fullLeaf.keys.take fullLeaf.n)[2 - 1]? = some km ∧
      C1.n = 2 ∧ C1.keys.take C1.n = (fullLeaf.keys.take fullLeaf.n).take 2 ∧
      N1.n = 2 - 1 ∧ N1.keys.take N1.n = (fullLeaf.keys.take fullLeaf.n).drop 2 ∧
      P1.children[0 + 1]? = some (some splitHeap.length) ∧ P1.keys[0]? = some km ∧
      P1.n = emptyParent.n + 1 ∧
      P1.keys.take P1.n = insAt (emptyParent.keys.take emptyParent.n) 0 km ∧
      P1.children.take (P1.n + 1) =
        insAt (emptyParent.children.take (emptyParent.n + 1)) (0 + 1) (some splitHeap.length) :=
  ⟨by decide, rfl, rfl, ⟨rfl, rfl, rfl, rfl, by decide⟩, ⟨rfl, rfl, rfl, rfl, by decide⟩, rfl,
    by decide, by decide,
    C20_splitChild_effect splitHeap 1 0 0 2 emptyParent fullLeaf (by decide) rfl rfl
      ⟨rfl, rfl, rfl, rfl, by decide⟩ ⟨rfl, rfl, rfl, rfl, by decide⟩ rfl (by decide)
      (by decide)⟩

/-! ## The claims on the sorted reports and on the seller aggregates -/

/-- C16: the insertion sort of `displayPairsByTransactionCount` (the same loop
as in `displayBuyersByEnergyBought` and `displayTransactionsByEnergyRange`),
run on any collected buffer, of any length `count ≥ 0`, whose elements carry
an integer sort key such as `number_of_transactions`: it succeeds, and its
result is a permutation of the buffer in non-decreasing order of the key. -/
theorem C16_sort_sorted_permutation {α : Type} (key : α → Int) (buf : List α) :
    ∃ out, insertionSort (gtBy key) buf = some out ∧ out.Perm buf ∧
      out.Pairwise (fun a b => key a ≤ key b) := by
  obtain ⟨out, hrun, hsorted, hperm, _⟩ := insertionSort_spec key buf
  exact ⟨out, hrun, hperm, hsorted⟩

/-- C17: the insertion sort of `displayPairsByTransactionCount` is stable: for
any collected buffer and any value `k` of the sort key, the elements with key
`k` appear in the sorted output in the same order as in the buffer. -/
theorem C17_sort_stable {α : Type} (key : α → Int) (buf : List α) (k : Int) :
    ∃ out, insertionSort (gtBy key) buf = some out ∧
      out.filter (fun a => decide (key a = k)) = buf.filter (fun a => decide (key a = k)) := by
  obtain ⟨out, hrun, _, _, hstable⟩ := insertionSort_spec key buf
  exact ⟨out, hrun, hstable k⟩

/-- C18: if `processTransaction` returns, every entry of the `regular_buyers`
list of the seller object it worked on has `transaction_count ≥ 5`; and in
every state reached by processing transactions from the empty state no seller
object has an entry with a count below 5. -/
theorem C18_regular_counts_at_least_five (F : Type) [FloatOps F] (L L1 : Ledger F)
    (tx : Transaction F) (txs : List (Transaction F)) (L2 : Ledger F)
    (hstep : processTransaction L tx = some L1)
    (hrun : processAll emptyLedger txs = some L2) :
    (∃ sp La s, findOrCreateSeller L tx.seller_id = some (sp, La) ∧ L1.sellers[sp]? = some s ∧
      ∀ e ∈ s.regular_buyers, 5 ≤ e.transaction_count) ∧
    (∀ s ∈ L2.sellers, ∀ e ∈ s.regular_buyers, 5 ≤ e.transaction_count) := by
  constructor
  · obtain ⟨sp, La, s0, s1, hf, _, hs0, hL1, _, _, hreg⟩ := processTransaction_sellers hstep
    refine ⟨sp, La, s1, hf, ?_, ?_⟩
    · rw [hL1, List.getElem?_set, if_pos rfl, if_pos (List.getElem?_eq_some_iff.1 hs0).1]
    · intro e he
      rw [hreg] at he
      exact cleanup_counts _ e he
  · exact processAll_regular txs emptyLedger L2 hrun (fun s hs => by cases hs)

/-- C18 at the first transaction of `regularTxs` from the empty state, and at
the state after all of `regularTxs`. -/
theorem C18_regular_counts_at_least_five_witness :
    processTransaction emptyLedger (plainTx 1 7 1) = some firstStep ∧
    processAll emptyLedger regularTxs = some (ledgerAfter regularTxs) ∧
    (∃ (sp : Nat) (La : Ledger F32) (s : Seller F32),
      findOrCreateSeller emptyLedger (plainTx 1 7 1).seller_id = some (sp, La) ∧
      firstStep.sellers[sp]? = some s ∧ ∀ e ∈ s.regular_buyers, 5 ≤ e.transaction_count) ∧
    (∀ s ∈ (ledgerAfter regularTxs).sellers, ∀ e ∈ s.regular_buyers,
      5 ≤ e.transaction_count) :=
  ⟨eq_some_getD _ (by decide!), eq_some_getD _ (by decide!),
    C18_regular_counts_at_least_five F32 emptyLedger firstStep (plainTx 1 7 1) regularTxs
      (ledgerAfter regularTxs) (eq_some_getD _ (by decide!)) (eq_some_getD _ (by decide!))⟩

/-- C19 as stated fails: seller 1 trades twice below 300 kWh, first at price 0
and then at price 0.50; the first transaction of the seller in that tier has
price 0, yet afterwards `rate_below_300` is 0.50. -/
theorem C19_first_price_zero_counterexample :
    (zeroPriceTxs.find? (fun tx => decide (tx.seller_id = 1) &&
      FloatOps.below300 tx.energy_kwh)).map (fun tx => tx.price_per_kwh) =
        some (F32.ofRatio 0 1) ∧
    ((processAll emptyLedger zeroPriceTxs).bind (fun L => searchSeller L 1)).map
      (Option.map (fun s => s.rate_below_300)) = some (some (F32.ofRatio 50 100)) ∧
    F32.ofRatio 50 100 ≠ F32.ofRatio 0 1 := by
  decide!

/-- C19, amended: for a float model in which `0 == 0` holds and no value is
both `< 300` and `>= 300`, and a run from the empty state in which the
transactions of seller `id`, and no others, work on the seller object at `p`:
the object is there afterwards, its `rate_below_300` is the price of the
first transaction of `id` with `energy_kwh < 300` and a price that does not
compare equal to zero, and compares equal to zero if there is none; likewise
`rate_above_300` for `energy_kwh >= 300`. -/
theorem C19_rates_fixed_by_first_priced (F : Type) [FloatOps F]
    (txs : List (Transaction F)) (L : Ledger F) (id : Int) (p : Nat)
    (hz : FloatOps.isZero (FloatOps.zero : F) = true)
    (hex : ∀ e : F, FloatOps.below300 e = true → FloatOps.atLeast300 e = false)
    (hrun : processAll emptyLedger txs = some L)
    (hres : resolves id p emptyLedger txs = true)
    (hocc : id ∈ txs.map (fun tx => tx.seller_id)) :
    ∃ s, L.sellers[p]? = some s ∧
      FixedBy FloatOps.below300 (ofSeller id txs) s.rate_below_300 ∧
      FixedBy FloatOps.atLeast300 (ofSeller id txs) s.rate_above_300 := by
  obtain ⟨_, hlt, hr⟩ := run_ratesAt hex id p txs emptyLedger L hrun hres
  obtain ⟨s, hs⟩ : ∃ s, L.sellers[p]? = some s := getElem?_exists (hlt hocc)
  have h0 : ratesAt (emptyLedger : Ledger F) p = (FloatOps.zero, FloatOps.zero) := by
    simp [ratesAt, emptyLedger]
  rw [ratesAt_of_some hs, h0] at hr
  refine ⟨s, hs, ?_, ?_⟩
  · rw [(Prod.mk.inj hr).1]
    exact setOnce_fixed _ _ _ hz
  · rw [(Prod.mk.inj hr).2]
    exact setOnce_fixed _ _ _ hz

/-- C19, amended, at the two transactions of `rateTxs`, seller 1, object 0. -/
theorem C19_rates_fixed_by_first_priced_witness :
    FloatOps.isZero (FloatOps.zero : F32) = true ∧
    (∀ e : F32, FloatOps.below300 e = true → FloatOps.atLeast300 e = false) ∧
    processAll emptyLedger rateTxs = some (ledgerAfter rateTxs) ∧
    resolves 1 0 emptyLedger rateTxs = true ∧
    (1 : Int) ∈ rateTxs.map (fun tx => tx.seller_id) ∧
    ∃ s, (ledgerAfter rateTxs).sellers[0]? = some s ∧
      FixedBy FloatOps.below300 (ofSeller 1 rateTxs) s.rate_below_300 ∧
      FixedBy FloatOps.atLeast300 (ofSeller 1 rateTxs) s.rate_above_300 :=
  ⟨rfl, F32.tiers_exclusive, eq_some_getD _ (by decide!), by decide!, by decide!,
    C19_rates_fixed_by_first_priced F32 rateTxs (ledgerAfter rateTxs) 1 0 rfl
      F32.tiers_exclusive (eq_some_getD _ (by decide!)) (by decide!) (by decide!)⟩

/-! ## The claims on the details of `splitChild` -/

/-- C21: `splitChild(parent, i, child)` on nodes of minimum degree `t ≥ 1`, a
child holding `2t-1` keys and a parent holding fewer, `i ≤ n`: the call
succeeds and the record slot `i` of the parent afterwards holds the median's
record `child.records[t-1]` when the child is a leaf, and `NULL` when the
child is an internal node, whatever the internal child's record slots hold. -/
theorem C21_promoted_record (h : Heap ρ) (parent i child t : Nat) (P C : Node ρ)
    (ht : 1 ≤ t) (hp : h[parent]? = some P) (hc : h[child]? = some C)
    (hP : NodeShape t P) (hC : NodeShape t C)
    (hCn : C.n = 2 * t - 1) (hPn : P.n < 2 * t - 1) (hi : i ≤ P.n) :
    ∃ h1 P1 r, splitChild h parent i child = some h1 ∧ h1[parent]? = some P1 ∧
      P1.records[i]? = some r ∧
      (C.leaf = true → C.records[t - 1]? = some r) ∧
      (C.leaf = false → r = Slot.null) := by
  have hne : parent ≠ child := by
    intro e
    subst e
    rw [hp] at hc
    cases hc
    omega
  obtain ⟨h1, P1, C1, N1, km, rm, hsplit, hS⟩ := splitChild_spec h parent i child P C hp hc hne
    (by rw [hC.t_eq]; exact ht) (by rw [hC.klen, hC.t_eq]) (by rw [hC.rlen, hC.t_eq])
    (by rw [hC.clen, hC.t_eq]) (by rw [hP.clen]; omega) (by rw [hP.klen]; omega)
    (by rw [hP.rlen]; omega) hi
  refine ⟨h1, P1, rm, hsplit, hS.atP, ?_, ?_, hS.rec_int⟩
  · have hrs : P1.rs[i]? = some rm := by
      rw [hS.P_rs, getElem?_insAt _ _ _ (by
        simp only [Node.rs, List.length_take, hP.rlen]; omega), if_neg (lt_irrefl _), if_pos rfl]
    simp only [Node.rs, List.getElem?_take, hS.P_n] at hrs
    rw [if_pos (by omega)] at hrs
    exact hrs
  · intro hl
    have := hS.rec_leaf hl
    rw [hC.t_eq] at this
    exact this

/-- C21 on the arena `splitHeap`: the record of the median 20 is promoted. -/
theorem C21_promoted_record_witness :
    1 ≤ 2 ∧ splitHeap[1]? = some emptyParent ∧ splitHeap[0]? = some fullLeaf ∧
    NodeShape 2 emptyParent ∧ NodeShape 2 fullLeaf ∧ fullLeaf.n = 2 * 2 - 1 ∧
    emptyParent.n < 2 * 2 - 1 ∧ 0 ≤ emptyParent.n ∧
    ∃ h1 P1 r, splitChild splitHeap 1 0 0 = some h1 ∧ h1[1]? = some P1 ∧
      P1.records[0]? = some r ∧
      (fullLeaf.leaf = true → fullLeaf.records[2 - 1]? = some r) ∧
      (fullLeaf.leaf = false → r = Slot.null) :=
  ⟨by decide, rfl, rfl, ⟨rfl, rfl, rfl, rfl, by decide⟩, ⟨rfl, rfl, rfl, rfl, by decide⟩, rfl,
    by decide, by decide,
    C21_promoted_record splitHeap 1 0 0 2 emptyParent fullLeaf (by decide) rfl rfl
      ⟨rfl, rfl, rfl, rfl, by decide⟩ ⟨rfl, rfl, rfl, rfl, by decide⟩ rfl (by decide)
      (by decide)⟩

/-- C22: `splitChild(parent, i, child)` under the conditions of C21: when the
child is a leaf, afterwards `child.next` is the new sibling and the sibling's
`next` is what `child.next` was; when the child is internal its `next` is
unchanged and the sibling's `next` is `NULL`; the `next` link of every other
node of the arena, the parent included, is unchanged. -/
theorem C22_next_links (h : Heap ρ) (parent i child t : Nat) (P C : Node ρ)
    (ht : 1 ≤ t) (hp : h[parent]? = some P) (hc : h[child]? = some C)
    (hP : NodeShape t P) (hC : NodeShape t C)
    (hCn : C.n = 2 * t - 1) (hPn : P.n < 2 * t - 1) (hi : i ≤ P.n) :
    ∃ h1 C1 N1, splitChild h parent i child = some h1 ∧ h1.length = h.length + 1 ∧
      h1[child]? = some C1 ∧ h1[h.length]? = some N1 ∧
      C1.next = (if C.leaf then some h.length else C.next) ∧
      N1.next = (if C.leaf then C.next else none) ∧
      ∀ (q : Nat) (nd : Node ρ), q ≠ child → h[q]? = some nd →
        ∃ nd1, h1[q]? = some nd1 ∧ nd1.next = nd.next := by
  have hne : parent ≠ child := by
    intro e
    subst e
    rw [hp] at hc
    cases hc
    omega
  obtain ⟨h1, P1, C1, N1, km, rm, hsplit, hS⟩ := splitChild_spec h parent i child P C hp hc hne
    (by rw [hC.t_eq]; exact ht) (by rw [hC.klen, hC.t_eq]) (by rw [hC.rlen, hC.t_eq])
    (by rw [hC.clen, hC.t_eq]) (by rw [hP.clen]; omega) (by rw [hP.klen]; omega)
    (by rw [hP.rlen]; omega) hi
  refine ⟨h1, C1, N1, hsplit, hS.len, hS.atC, hS.atN, by rw [hS.C_eq], hS.N_next, ?_⟩
  intro q nd hq hnd
  by_cases hqp : q = parent
  · subst hqp
    rw [hp] at hnd
    cases hnd
    exact ⟨P1, hS.atP, hS.P_next⟩
  · have hql : q < h.length := (List.getElem?_eq_some_iff.1 hnd).1
    exact ⟨nd, by rw [hS.frame q hqp hq (by omega)]; exact hnd, rfl⟩

/-- C22 on the arena `splitHeap`: a leaf child. -/
theorem C22_next_links_witness :
    1 ≤ 2 ∧ splitHeap[1]? = some emptyParent ∧ splitHeap[0]? = some fullLeaf ∧
    NodeShape 2 emptyParent ∧ NodeShape 2 fullLeaf ∧ fullLeaf.n = 2 * 2 - 1 ∧
    emptyParent.n < 2 * 2 - 1 ∧ 0 ≤ emptyParent.n ∧
    ∃ h1 C1 N1, splitChild splitHeap 1 0 0 = some h1 ∧ h1.length = splitHeap.length + 1 ∧
      h1[0]? = some C1 ∧ h1[splitHeap.length]? = some N1 ∧
      C1.next = (if fullLeaf.leaf then some splitHeap.length else fullLeaf.next) ∧
      N1.next = (if fullLeaf.leaf then fullLeaf.next else none) ∧
      ∀ (q : Nat) (nd : Node Nat), q ≠ 0 → splitHeap[q]? = some nd →
        ∃ nd1, h1[q]? = some nd1 ∧ nd1.next = nd.next :=
  ⟨by decide, rfl, rfl, ⟨rfl, rfl, rfl, rfl, by decide⟩, ⟨rfl, rfl, rfl, rfl, by decide⟩, rfl,
    by decide, by decide,
    C22_next_links splitHeap 1 0 0 2 emptyParent fullLeaf (by decide) rfl rfl
      ⟨rfl, rfl, rfl, rfl, by decide⟩ ⟨rfl, rfl, rfl, rfl, by decide⟩ rfl (by decide)
      (by decide)⟩

/-! ## The claims on the regular-buyer list and the pair key -/

/-- C25: `cleanupRegularBuyers` is an order-preserving filter: the list
afterwards is the sub-list of the entries with `transaction_count ≥ 5`, in
their original order, each entry unchanged. -/
theorem C25_cleanup_is_filter (l : List RegularBuyerNode) :
    cleanupRegularBuyers l = l.filter (fun e => decide (5 ≤ e.transaction_count)) :=
  cleanup_eq_filter l

/-- C26: `addRegularBuyer(seller, b)`: on a list whose first entry with buyer
id `b` is `e` (after `pre`, before `post`) the count of `e` goes up by one and
nothing else changes; on a list `l` without an entry for `b` the entry
`(b, count 1)` is appended at the end. -/
theorem C26_addRegularBuyer_effect (b : Int) (pre post l : List RegularBuyerNode)
    (e : RegularBuyerNode) (hpre : ∀ x ∈ pre, x.buyer_id ≠ b) (he : e.buyer_id = b)
    (hl : ∀ x ∈ l, x.buyer_id ≠ b) :
    addRegularBuyer b (pre ++ e :: post) =
      pre ++ { buyer_id := e.buyer_id, transaction_count := e.transaction_count + 1 } :: post ∧
    addRegularBuyer b l = l ++ [{ buyer_id := b, transaction_count := 1 }] :=
  ⟨addRegularBuyer_hit b e post he pre hpre, addRegularBuyer_miss b l hl⟩

/-- C26 at buyer 8: second in a list of three, and absent from a list of one. -/
theorem C26_addRegularBuyer_effect_witness :
    (∀ x ∈ [({ buyer_id := 7, transaction_count := 5 } : RegularBuyerNode)], x.buyer_id ≠ 8) ∧
    ({ buyer_id := 8, transaction_count := 2 } : RegularBuyerNode).buyer_id = 8 ∧
    (∀ x ∈ [({ buyer_id := 7, transaction_count := 5 } : RegularBuyerNode)], x.buyer_id ≠ 8) ∧
    addRegularBuyer 8 ([{ buyer_id := 7, transaction_count := 5 }] ++
        { buyer_id := 8, transaction_count := 2 } :: [{ buyer_id := 8, transaction_count := 6 }]) =
      [{ buyer_id := 7, transaction_count := 5 }] ++
        { buyer_id := ({ buyer_id := 8, transaction_count := 2 } : RegularBuyerNode).buyer_id,
          transaction_count :=
            ({ buyer_id := 8, transaction_count := 2 } : RegularBuyerNode).transaction_count + 1 } ::
          [{ buyer_id := 8, transaction_count := 6 }] ∧
    addRegularBuyer 8 [{ buyer_id := 7, transaction_count := 5 }] =
      [{ buyer_id := 7, transaction_count := 5 }] ++ [{ buyer_id := 8, transaction_count := 1 }] :=
  ⟨by decide, rfl, by decide,
    C26_addRegularBuyer_effect 8 [{ buyer_id := 7, transaction_count := 5 }]
      [{ buyer_id := 8, transaction_count := 6 }] [{ buyer_id := 7, transaction_count := 5 }]
      { buyer_id := 8, transaction_count := 2 } (by decide) rfl (by decide)⟩

/-- C27: the pairs (seller 1, buyer 5) and (seller 1, buyer 65541) differ and
have the same `createPairKey` value; after one transaction for each, processed
from the empty state, there is one pair record, that of (1, 5), with
`number_of_transactions = 2`, and `searchSellerBuyerPair(1, 65541)` returns it. -/
theorem C27_pair_key_collision :
    ((1 : Int), (5 : Int)) ≠ (1, 65541) ∧
    createPairKey 1 5 = createPairKey 1 65541 ∧
    (processAll emptyLedger collideTxs).map (fun L => L.pairs) =
      some [{ seller_id := 1, buyer_id := 5, number_of_transactions := 2 }] ∧
    (processAll emptyLedger collideTxs).bind (fun L => searchSellerBuyerPair L 1 65541) =
      some (some { seller_id := 1, buyer_id := 5, number_of_transactions := 2 }) := by
  decide!

/-- C30: in every state reached by processing transactions from the empty
state, every seller object has an empty `regular_buyers` list. -/
theorem C30_regular_buyers_always_empty (F : Type) [FloatOps F] (txs : List (Transaction F))
    (L : Ledger F) (hrun : processAll emptyLedger txs = some L) :
    ∀ s ∈ L.sellers, s.regular_buyers = [] :=
  processAll_empty txs emptyLedger L hrun (fun s hs => by cases hs)

/-- C30 at the nine transactions of `regularTxs`. -/
theorem C30_regular_buyers_always_empty_witness :
    processAll emptyLedger regularTxs = some (ledgerAfter regularTxs) ∧
    ∀ s ∈ (ledgerAfter regularTxs).sellers, s.regular_buyers = [] :=
  ⟨eq_some_getD _ (by decide!),
    C30_regular_buyers_always_empty F32 regularTxs (ledgerAfter regularTxs)
      (eq_some_getD _ (by decide!))⟩

/-- C29: `processTransaction` has no replay guard. In every state `L1` that
processing reaches from the empty indices and in which the seller, the buyer
and the pair of `tx` are found by search, processing `tx` returns, and
afterwards the seller's `total_revenue` is the one before plus
`tx.total_price`, the buyer's `total_energy_purchased` the one before plus
`tx.energy_kwh`, and the pair's `number_of_transactions` the one before plus
one. So for every earlier processing of `tx` that led to `L1` and worked on
these three objects (it found them, or it created them), with the revenue
`r`, the energy `e` and the count `c` they had before it (zero for a created
object), the aggregates after the second processing are
`(r + tx.total_price) + tx.total_price` and
`(e + tx.energy_kwh) + tx.energy_kwh` (float additions in that order) and
`c + 2`. -/
theorem C29_replay_counts_twice (F : Type) [FloatOps F] (txs : List (Transaction F))
    (L1 : Ledger F) (tx : Transaction F) (sp bp pp : Nat) (s1 : Seller F) (b1 : Buyer F)
    (pr1 : SellerBuyerPair)
    (hrun : processAll emptyLedger txs = some L1)
    (hs : searchTree L1.sellerTree tx.seller_id = some (Slot.ptr sp))
    (hsp : L1.sellers[sp]? = some s1)
    (hb : searchTree L1.buyerTree tx.buyer_id = some (Slot.ptr bp))
    (hbp : L1.buyers[bp]? = some b1)
    (hp : searchTree L1.pairTree (createPairKey tx.seller_id tx.buyer_id) = some (Slot.ptr pp))
    (hpp : L1.pairs[pp]? = some pr1) :
    ∃ L2 s2 b2 pr2, processTransaction L1 tx = some L2 ∧
      L2.sellers[sp]? = some s2 ∧ L2.buyers[bp]? = some b2 ∧ L2.pairs[pp]? = some pr2 ∧
      s2.total_revenue = FloatOps.add s1.total_revenue tx.total_price ∧
      b2.total_energy_purchased = FloatOps.add b1.total_energy_purchased tx.energy_kwh ∧
      pr2.number_of_transactions = pr1.number_of_transactions + 1 ∧
      ∀ (L0 : Ledger F) (r e : F) (c : Int), processTransaction L0 tx = some L1 →
        SellerBefore L0 tx.seller_id sp r → BuyerBefore L0 tx.buyer_id bp e →
        PairBefore L0 (createPairKey tx.seller_id tx.buyer_id) pp c →
        s2.total_revenue = FloatOps.add (FloatOps.add r tx.total_price) tx.total_price ∧
        b2.total_energy_purchased =
          FloatOps.add (FloatOps.add e tx.energy_kwh) tx.energy_kwh ∧
        pr2.number_of_transactions = c + 2 := by
  have hOK : SubtreesOK L1 := processAll_subtrees txs emptyLedger L1 hrun SubtreesOK.start
  obtain ⟨L2, h2⟩ := processTransaction_returns hOK hs hsp hb hbp hp hpp
  obtain ⟨_, _, _, ⟨s2, hs2, hr2⟩, ⟨b2, hb2, he2⟩, ⟨pr2, hp2, hc2⟩⟩ :=
    processTransaction_found h2 hs hsp hb hbp hp hpp
  refine ⟨L2, s2, b2, pr2, h2, hs2, hb2, hp2, hr2, he2, hc2, ?_⟩
  intro L0 r e c h1 hS hB hP
  obtain ⟨s1', hs1', hr1⟩ := processTransaction_seller h1 hS
  obtain ⟨b1', hb1', he1⟩ := processTransaction_buyer h1 hB
  obtain ⟨pr1', hp1', hc1⟩ := processTransaction_pair h1 hP
  rw [hsp] at hs1'
  cases hs1'
  rw [hbp] at hb1'
  cases hb1'
  rw [hpp] at hp1'
  cases hp1'
  refine ⟨by rw [hr2, hr1], by rw [he2, he1], by rw [hc2, hc1]; omega⟩

/-- C29 at the transaction (id 1, buyer 7, seller 1): its first processing,
from the empty indices, creates the seller, the buyer and the pair; the
second finds them and counts the transaction again. -/
theorem C29_replay_counts_twice_witness :
    processAll emptyLedger [plainTx 1 7 1] = some firstStep ∧
    searchTree firstStep.sellerTree (plainTx 1 7 1).seller_id = some (Slot.ptr 0) ∧
    firstStep.sellers[0]? = some firstSeller ∧
    searchTree firstStep.buyerTree (plainTx 1 7 1).buyer_id = some (Slot.ptr 0) ∧
    firstStep.buyers[0]? = some firstBuyer ∧
    searchTree firstStep.pairTree
      (createPairKey (plainTx 1 7 1).seller_id (plainTx 1 7 1).buyer_id) = some (Slot.ptr 0) ∧
    firstStep.pairs[0]? = some firstPair ∧
    processTransaction emptyLedger (plainTx 1 7 1) = some firstStep ∧
    SellerBefore (emptyLedger : Ledger F32) (plainTx 1 7 1).seller_id 0 FloatOps.zero ∧
    BuyerBefore (emptyLedger : Ledger F32) (plainTx 1 7 1).buyer_id 0 FloatOps.zero ∧
    PairBefore (emptyLedger : Ledger F32)
      (createPairKey (plainTx 1 7 1).seller_id (plainTx 1 7 1).buyer_id) 0 0 ∧
    ∃ L2 s2 b2 pr2, processTransaction firstStep (plainTx 1 7 1) = some L2 ∧
      L2.sellers[0]? = some s2 ∧ L2.buyers[0]? = some b2 ∧ L2.pairs[0]? = some pr2 ∧
      s2.total_revenue =
        FloatOps.add firstSeller.total_revenue (plainTx 1 7 1).total_price ∧
      b2.total_energy_purchased =
        FloatOps.add firstBuyer.total_energy_purchased (plainTx 1 7 1).energy_kwh ∧
      pr2.number_of_transactions = firstPair.number_of_transactions + 1 ∧
      s2.total_revenue = FloatOps.add
        (FloatOps.add FloatOps.zero (plainTx 1 7 1).total_price) (plainTx 1 7 1).total_price ∧
      b2.total_energy_purchased = FloatOps.add
        (FloatOps.add FloatOps.zero (plainTx 1 7 1).energy_kwh) (plainTx 1 7 1).energy_kwh ∧
      pr2.number_of_transactions = 0 + 2 := by
  have hfirst : processTransaction emptyLedger (plainTx 1 7 1) = some firstStep :=
    eq_some_getD _ (by decide!)
  have hrun : processAll emptyLedger [plainTx 1 7 1] = some firstStep := by
    simp only [processAll, hfirst]
  have hS : SellerBefore (emptyLedger : Ledger F32) (plainTx 1 7 1).seller_id 0 FloatOps.zero :=
    Or.inr ⟨by decide!, rfl, rfl⟩
  have hB : BuyerBefore (emptyLedger : Ledger F32) (plainTx 1 7 1).buyer_id 0 FloatOps.zero :=
    Or.inr ⟨by decide!, rfl, rfl⟩
  have hP : PairBefore (emptyLedger : Ledger F32)
      (createPairKey (plainTx 1 7 1).seller_id (plainTx 1 7 1).buyer_id) 0 0 :=
    Or.inr ⟨by decide!, rfl, rfl⟩
  have h1 : searchTree firstStep.sellerTree (plainTx 1 7 1).seller_id = some (Slot.ptr 0) := by
    decide!
  have h2 : firstStep.sellers[0]? = some firstSeller := eq_some_getD _ (by decide!)
  have h3 : searchTree firstStep.buyerTree (plainTx 1 7 1).buyer_id = some (Slot.ptr 0) := by
    decide!
  have h4 : firstStep.buyers[0]? = some firstBuyer := eq_some_getD _ (by decide!)
  have h5 : searchTree firstStep.pairTree
      (createPairKey (plainTx 1 7 1).seller_id (plainTx 1 7 1).buyer_id) = some (Slot.ptr 0) := by
    decide!
  have h6 : firstStep.pairs[0]? = some firstPair := eq_some_getD _ (by decide!)
  obtain ⟨L2, s2, b2, pr2, k1, k2, k3, k4, k5, k6, k7, k8⟩ :=
    C29_replay_counts_twice F32 [plainTx 1 7 1] firstStep (plainTx 1 7 1) 0 0 0
      firstSeller firstBuyer firstPair hrun h1 h2 h3 h4 h5 h6
  obtain ⟨k9, k10, k11⟩ := k8 emptyLedger FloatOps.zero FloatOps.zero 0 hfirst hS hB hP
  exact ⟨hrun, h1, h2, h3, h4, h5, h6, hfirst, hS, hB, hP, L2, s2, b2, pr2, k1, k2, k3, k4, k5,
    k6, k7, k9, k10, k11⟩

/-- C28: for every `t ≥ 2` and every sequence of transactions with pairwise
distinct ids inserted under their ids into `createBTree(t)`: the scan and
`displayTransactionsInTimeRange` succeed, the scan holds exactly the inserted
transactions, the rows of the report are exactly the scanned transactions
with `start_time <= timestamp <= end_time`, in scan order, which is ascending
transaction id order, its count is the number of rows, and the count is zero
when `start_time > end_time`. -/
theorem C28_time_range_is_filter (F : Type) [FloatOps F] (t : Nat) (ht : 2 ≤ t)
    (txs : List (Transaction F)) (hnd : (txs.map (fun tx => tx.transaction_id)).Nodup)
    (start_time end_time : Int) :
    ∃ T es acc, insertAll (createBTree t) (txEntries txs) = some T ∧ scan T = some es ∧
      displayTransactionsInTimeRange T start_time end_time = some acc ∧
      (scannedTxs es).Perm txs ∧
      acc.rows = (scannedTxs es).filter (inTimeRange start_time end_time) ∧
      (acc.rows.map (fun tx => tx.transaction_id)).Pairwise (fun a b => a < b) ∧
      acc.count = acc.rows.length ∧
      (end_time < start_time → acc.count = 0) := by
  have hkeys : (txEntries txs).map Prod.fst = txs.map (fun tx => tx.transaction_id) := by
    simp only [txEntries, List.map_map]
    rfl
  obtain ⟨T, G, ins, hrun, hI, _, hperm⟩ :=
    insertAll_inv (txEntries txs) (createBTree t) Ghost.init [] (Inv.init t ht)
      (by rw [hkeys]; exact hnd) (fun _ _ h => by cases h)
  rw [List.append_nil] at hperm
  have hp2 := hI.content.trans hperm
  obtain ⟨es, hes⟩ : ∃ es, es = chainEnts T.heap G.chain := ⟨_, rfl⟩
  rw [← hes] at hp2
  have hscan : scan T = some es := by rw [hes]; exact hI.scan_eq
  have hsorted : (es.map Prod.fst).Pairwise (fun a b => a < b) := by
    rw [hes]; exact hI.scan_sorted
  have hall : ∀ x ∈ es, ∃ tx, x.2 = Slot.ptr tx ∧ x.1 = tx.transaction_id := by
    intro x hx
    have := hp2.mem_iff.1 hx
    simp only [txEntries, List.map_map, List.mem_map, Function.comp] at this
    obtain ⟨tx, _, rfl⟩ := this
    exact ⟨tx, rfl, rfl⟩
  have hdisp := display_eq_fold start_time end_time T es hscan
    (fun x hx => by obtain ⟨tx, h1, _⟩ := hall x hx; exact ⟨tx, h1⟩)
  obtain ⟨hrows, hcount⟩ := foldl_rangeStep start_time end_time (scannedTxs es)
    ({ rows := [], count := 0, total_energy := FloatOps.zero,
       total_revenue := FloatOps.zero } : RangeAcc F)
  simp only [List.nil_append, zero_add] at hrows hcount
  have hids : (scannedTxs es).map (fun tx => tx.transaction_id) = es.map Prod.fst := by
    clear hscan hsorted hdisp hrows hcount hp2 hes
    induction es with
    | nil => rfl
    | cons a rest ih =>
      obtain ⟨tx, h1, h2⟩ := hall a (List.mem_cons_self _ _)
      have hrest := ih (fun x hx => hall x (List.mem_cons_of_mem _ hx))
      obtain ⟨k, r⟩ := a
      simp only at h1 h2
      subst h1
      simp only [scannedTxs, List.filterMap_cons, List.map_cons] at hrest ⊢
      rw [hrest, h2]
  refine ⟨T, es, _, hrun, hscan, hdisp, ?_, hrows, ?_, ?_, ?_⟩
  · have h1 := hp2.filterMap (fun e : Int × Slot (Transaction F) => match e.2 with
      | Slot.ptr tx => some tx
      | _ => none)
    have h2 := scannedTxs_ptr (txEntries txs)
    simp only [scannedTxs] at h2 ⊢
    rw [h2] at h1
    have h3 : (txEntries txs).map Prod.snd = txs := by
      simp only [txEntries, List.map_map]
      exact List.map_id _
    rw [h3] at h1
    exact h1
  · rw [hrows]
    have hsub : ((scannedTxs es).filter (inTimeRange start_time end_time)).Sublist
        (scannedTxs es) := List.filter_sublist _
    have := (hsub.map (fun tx : Transaction F => tx.transaction_id))
    rw [hids] at this
    exact hsorted.sublist this
  · rw [hcount, hrows]
  · intro hlt
    rw [hcount]
    have : (scannedTxs es).filter (inTimeRange start_time end_time) = [] := by
      rw [List.filter_eq_nil_iff]
      intro tx _
      simp only [inTimeRange, decide_eq_true_eq, not_and]
      intro h1
      omega
    rw [this]
    rfl

/-- C28 at `t = 3`, the two transactions of `rateTxs` and the range `0..10`. -/
theorem C28_time_range_is_filter_witness :
    2 ≤ 3 ∧ (rateTxs.map (fun tx => tx.transaction_id)).Nodup ∧
    ∃ T es acc, insertAll (createBTree 3) (txEntries rateTxs) = some T ∧ scan T = some es ∧
      displayTransactionsInTimeRange T 0 10 = some acc ∧
      (scannedTxs es).Perm rateTxs ∧
      acc.rows = (scannedTxs es).filter (inTimeRange 0 10) ∧
      (acc.rows.map (fun tx => tx.transaction_id)).Pairwise (fun a b => a < b) ∧
      acc.count = acc.rows.length ∧
      ((10 : Int) < 0 → acc.count = 0) :=
  ⟨by decide, by decide, C28_time_range_is_filter F32 3 (by decide) rateTxs (by decide) 0 10⟩

/-- C23: for every `t ≥ 2`, every tree built by inserts (of any keys) from
`createBTree(t)` and every further insert: the insert succeeds, every read
and write of a node array staying inside the allocated capacity (`2t-1` keys
and records, `2t` children; the arrays have that capacity afterwards too);
every node passed to `insertNonFull` holds fewer than `2t-1` keys, and every
child passed to `splitChild` holds exactly `2t-1` keys, its parent fewer. -/
theorem C23_calls_in_bounds (t : Nat) (ht : 2 ≤ t) (kvs : List (Int × ρ))
    (key : Int) (record : Slot ρ) :
    ∃ T T1 calls, insertAll (createBTree t) kvs = some T ∧
      insertCalls T key record = some (T1, calls) ∧ insert T key record = some T1 ∧
      (∀ c ∈ calls, c.ok t) ∧
      ∀ (p : Nat) (nd : Node ρ), T1.heap[p]? = some nd → NodeShape t nd := by
  obtain ⟨T, lvl, hrun, hI, hTt⟩ := insertAll_shape kvs (createBTree t) (fun _ => 0)
    (Shape.fresh t ht)
  have hTt' : T.t = t := hTt
  obtain ⟨T1, lvl1, R, hins, hI1, hT1t, _, _, _⟩ := insert_shape hI key record
  have hc := insertCalls_tree T key record
  rw [hins] at hc
  obtain ⟨res, hres, hfst⟩ := Option.map_eq_some'.1 hc
  obtain ⟨T1', calls⟩ := res
  simp only at hfst
  subst hfst
  have hok := insertCalls_ok hI key record _ hres
  rw [hTt'] at hok
  rw [hT1t, hTt'] at hI1
  exact ⟨T, T1', calls, hrun, hres, hins, hok, hI1.node_ok⟩

/-- C23 at `t = 2`, a tree holding the keys `1..9` and the further key 10. -/
theorem C23_calls_in_bounds_witness :
    2 ≤ 2 ∧
    ∃ T T1 calls, insertAll (createBTree 2) keys1to9 = some T ∧
      insertCalls T 10 (Slot.ptr 10) = some (T1, calls) ∧ insert T 10 (Slot.ptr 10) = some T1 ∧
      (∀ c ∈ calls, c.ok 2) ∧
      ∀ (p : Nat) (nd : Node Nat), T1.heap[p]? = some nd → NodeShape 2 nd :=
  ⟨by decide, C23_calls_in_bounds 2 (by decide) keys1to9 10 (Slot.ptr 10)⟩


/-! ## Inserting a key that is already present -/

/-- C24, as stated, fails on a tree that was itself built with repeated keys:
after the twenty inserts `repeatKeys` into `createBTree(2)` the key `0` is
present with record 6, and after one more `insert` of the key `0` the leaf
chain reads the key 6 before a key 5, so it is not in non-decreasing order. -/
theorem C24_repeated_keys_counterexample :
    insertAll (createBTree 2) repeatKeys = some repeatTree ∧
    (0, Slot.ptr 6) ∈ (scan repeatTree).getD [] ∧
    insert repeatTree 0 (Slot.ptr 21) = some repeatTreeAgain ∧
    (scan repeatTreeAgain).map (List.map Prod.fst) =
      some [0, 0, 1, 1, 2, 2, 2, 2, 2, 3, 3, 4, 5, 5, 5, 5, 5, 6, 5, 7, 7] ∧
    ¬ ([0, 0, 1, 1, 2, 2, 2, 2, 2, 3, 3, 4, 5, 5, 5, 5, 5, 6, 5, 7, 7] : List Int).Pairwise
      (fun a b => a ≤ b) :=
  ⟨eq_some_getD _ (by decide!), by decide!, eq_some_getD _ (by decide!), by decide!, by decide⟩

/-- C24, amended: `insert` neither rejects nor overwrites a key that is
already present. For every `t ≥ 2`, every tree built by inserts (of any keys)
from `createBTree(t)` and every key `k` inserted before with record `r1`: the
scan holds `(k, r1)`, a further `insert(k, r2)` succeeds, and the scan
afterwards is the scan before with the one entry `(k, r2)` added, so it has
exactly one more entry and holds both `(k, r1)` and `(k, r2)`. When the keys
the tree was built from are pairwise distinct, the scan afterwards is in
non-decreasing key order. -/
theorem C24_duplicate_key_kept (t : Nat) (ht : 2 ≤ t) (kvs : List (Int × ρ))
    (k : Int) (r1 : ρ) (r2 : Slot ρ) (hmem : (k, r1) ∈ kvs) :
    ∃ T T1 es es1, insertAll (createBTree t) kvs = some T ∧ scan T = some es ∧
      (k, Slot.ptr r1) ∈ es ∧ insert T k r2 = some T1 ∧ scan T1 = some es1 ∧
      es1.Perm ((k, r2) :: es) ∧ es1.length = es.length + 1 ∧
      (k, Slot.ptr r1) ∈ es1 ∧ (k, r2) ∈ es1 ∧
      ((kvs.map Prod.fst).Nodup → (es1.map Prod.fst).Pairwise (fun a b => a ≤ b)) := by
  obtain ⟨T, G, ins, hrun, hL, hTt, hperm⟩ :=
    insertAll_linked kvs (createBTree t) Ghost.init [] (Inv.init t ht).linked
  obtain ⟨T1, G1, hins, hL1, _⟩ := insert_linked hL k r2
  have hes : (chainEnts T.heap G.chain).Perm (kvs.map (fun kr => (kr.1, Slot.ptr kr.2))) := by
    refine hL.chain.content.trans ?_
    rw [List.append_nil] at hperm
    exact hperm
  have hpres : (k, Slot.ptr r1) ∈ chainEnts T.heap G.chain := by
    refine hes.symm.subset ?_
    exact List.mem_map.2 ⟨(k, r1), hmem, rfl⟩
  have hes1 : (chainEnts T1.heap G1.chain).Perm ((k, r2) :: chainEnts T.heap G.chain) :=
    hL1.chain.content.trans (List.Perm.cons _ hL.chain.content.symm)
  refine ⟨T, T1, chainEnts T.heap G.chain, chainEnts T1.heap G1.chain, hrun, hL.scan_reads,
    hpres, hins, hL1.scan_reads, hes1, ?_, ?_, ?_, ?_⟩
  · rw [hes1.length_eq, List.length_cons]
  · exact hes1.symm.subset (List.mem_cons_of_mem _ hpres)
  · exact hes1.symm.subset (List.mem_cons_self _ _)
  · intro hnd
    obtain ⟨T', G', ins', hrun', hI, _, _⟩ :=
      insertAll_inv kvs (createBTree t) Ghost.init [] (Inv.init t ht) hnd
        (fun _ _ h => by cases h)
    rw [hrun] at hrun'
    cases hrun'
    obtain ⟨T1', G1', hins', hLd⟩ := insert_lands hI k r2
    rw [hins] at hins'
    cases hins'
    have e := hLd.scan_chain
    rw [hL1.scan_reads] at e
    rw [Option.some.inj e]
    exact hLd.ascending

/-- C24 at `t = 2`, the tree built from the ten distinct keys `medianKeys`
and a second insert of the key 4, which meets a full internal node with the
median 4 on its way down. -/
theorem C24_duplicate_key_kept_witness :
    2 ≤ 2 ∧ ((4 : Int), 4) ∈ medianKeys ∧ ((medianKeys).map Prod.fst).Nodup ∧
    ∃ T T1 es es1, insertAll (createBTree 2) medianKeys = some T ∧ scan T = some es ∧
      ((4 : Int), Slot.ptr 4) ∈ es ∧ insert T 4 (Slot.ptr 40) = some T1 ∧
      scan T1 = some es1 ∧ es1.Perm ((4, Slot.ptr 40) :: es) ∧
      es1.length = es.length + 1 ∧ ((4 : Int), Slot.ptr 4) ∈ es1 ∧
      ((4 : Int), Slot.ptr 40) ∈ es1 ∧ (es1.map Prod.fst).Pairwise (fun a b => a ≤ b) := by
  obtain ⟨T, T1, es, es1, h1, h2, h3, h4, h5, h6, h7, h8, h9, h10⟩ :=
    C24_duplicate_key_kept 2 (by decide) medianKeys 4 4 (Slot.ptr 40) (by decide)
  exact ⟨by decide, by decide, by decide, T, T1, es, es1, h1, h2, h3, h4, h5, h6, h7, h8, h9,
    h10 (by decide)⟩

/-! ## What `search` returns and where the keys are -/

/-- C31 (the code breaks it): after inserting the keys 9, 8, ..., 3 into a
tree of minimum degree 2, each with a non-NULL record, `search` for the key 8
returns a record slot that was never written: a value that is not `NULL` and
is not a record that an insert stored under the key 8. -/
theorem C31_search_returns_unwritten_slot :
    (insertAll (createBTree 2) keys9to3).bind (fun T => searchTree T 8) = some Slot.garbage ∧
    (Slot.garbage : Slot Nat) ≠ Slot.null ∧
    ((8 : Int), (Slot.garbage : Slot Nat)) ∉ keys9to3.map (fun kr => (kr.1, Slot.ptr kr.2)) := by
  decide

/-- C32: for every `t ≥ 2` and every sequence of inserts (of any keys) into
`createBTree(t)`, the inserts and the scan of the leaf chain succeed, every
key in `keys[0..n-1]` of an internal node of the arena is a key of an entry
that the scan reads from a leaf of the chain, and so is every inserted key. -/
theorem C32_internal_keys_in_leaves (t : Nat) (ht : 2 ≤ t) (kvs : List (Int × ρ)) :
    ∃ T es, insertAll (createBTree t) kvs = some T ∧ scan T = some es ∧
      (∀ (p : Nat) (nd : Node ρ), T.heap[p]? = some nd → nd.leaf = false →
        ∀ k ∈ nd.keys.take nd.n, k ∈ es.map Prod.fst) ∧
      ∀ k ∈ kvs.map Prod.fst, k ∈ es.map Prod.fst := by
  obtain ⟨T, G, ins, hrun, hL, hSt, _, hperm⟩ :=
    insertAll_stored kvs (createBTree t) Ghost.init [] (Inv.init t ht).linked (Stored.empty t)
  have hkeys : ∀ k, k ∈ ins.map Prod.fst → k ∈ (chainEnts T.heap G.chain).map Prod.fst :=
    fun k hk => (hL.chain.content.map Prod.fst).symm.subset hk
  refine ⟨T, chainEnts T.heap G.chain, hrun, hL.scan_reads, ?_, ?_⟩
  · intro p nd hp _ k hk
    exact hkeys k (hSt.keys_ins p nd hp k hk)
  · intro k hk
    apply hkeys
    have h2 := (hperm.map Prod.fst).symm.subset
      (a := k) (by
        simp only [List.append_nil, List.map_map]
        exact hk)
    exact h2

/-- C32 at `t = 2` and the twenty inserts `repeatKeys`, in which keys repeat. -/
theorem C32_internal_keys_in_leaves_witness :
    2 ≤ 2 ∧
    ∃ T es, insertAll (createBTree 2) repeatKeys = some T ∧ scan T = some es ∧
      (∀ (p : Nat) (nd : Node Nat), T.heap[p]? = some nd → nd.leaf = false →
        ∀ k ∈ nd.keys.take nd.n, k ∈ es.map Prod.fst) ∧
      ∀ k ∈ repeatKeys.map Prod.fst, k ∈ es.map Prod.fst :=
  ⟨by decide, C32_internal_keys_in_leaves 2 (by decide) repeatKeys⟩

end BPlus
